import Mathlib

/-!
# hextiller: process memory engine

A shallow embedding of `pkg/process` (typed codec, read/write primitives, region walk and
scanner) together with the properties proved about it.

Conventions of the embedding.

* `uintptr`, `uint32`, `uint64` values are natural numbers; wrap-around is written `% 2 ^ w`.
* `int32`, `int64`, `int` values are integers.
* A byte slice is a `List Nat`; a byte is read as its value `% 256`.
* `float32` and `float64` values are carried as their IEEE-754 bit patterns, which is what
  `math.Float32bits` / `math.Float32frombits` expose; arithmetic decodes the pattern.
* The operating system is a parameter: a state type with one transition function per
  primitive the code calls.
* Loops that the source writes as `for` take a fuel argument; `none` means that the fuel
  was used up before the loop ended.
-/

namespace Hextiller

/-! ## Machine integers -/

/-- Number of values of a `uintptr` (a 64-bit target). -/
def uintptrMod : Nat := 2 ^ 64

/-- Go conversion `uint32(v)` of a signed value: reduction modulo `2 ^ 32`. -/
def toUint32 (v : Int) : Nat := (v % 2 ^ 32).toNat

/-- Go conversion `int32(u)`: two's complement reading of the low 32 bits. -/
def toInt32 (u : Nat) : Int :=
  if u % 2 ^ 32 < 2 ^ 31 then ((u % 2 ^ 32 : Nat) : Int) else ((u % 2 ^ 32 : Nat) : Int) - 2 ^ 32

/-- Go conversion `uint64(v)` of a signed value: reduction modulo `2 ^ 64`. -/
def toUint64 (v : Int) : Nat := (v % 2 ^ 64).toNat

/-- Go conversion `int64(u)`: two's complement reading of the low 64 bits. -/
def toInt64 (u : Nat) : Int :=
  if u % 2 ^ 64 < 2 ^ 63 then ((u % 2 ^ 64 : Nat) : Int) else ((u % 2 ^ 64 : Nat) : Int) - 2 ^ 64

/-! ## `encoding/binary.LittleEndian` -/

/-- The byte at index `i` of a slice, as a `uint8`. -/
def byteAt (b : List Nat) (i : Nat) : Nat := b.getD i 0 % 256

/-- Decoder `binary.LittleEndian.Uint32(b)`: the first four bytes, least significant first. -/
def Uint32 (b : List Nat) : Nat :=
  byteAt b 0 + byteAt b 1 * 2 ^ 8 + byteAt b 2 * 2 ^ 16 + byteAt b 3 * 2 ^ 24

/-- Encoder `binary.LittleEndian.PutUint32(buf[:], v)` on a fresh `[4]byte`. -/
def PutUint32 (v : Nat) : List Nat :=
  [v % 256, v / 2 ^ 8 % 256, v / 2 ^ 16 % 256, v / 2 ^ 24 % 256]

/-- Decoder `binary.LittleEndian.Uint64(b)`: the first eight bytes, least significant first. -/
def Uint64 (b : List Nat) : Nat :=
  byteAt b 0 + byteAt b 1 * 2 ^ 8 + byteAt b 2 * 2 ^ 16 + byteAt b 3 * 2 ^ 24
    + byteAt b 4 * 2 ^ 32 + byteAt b 5 * 2 ^ 40 + byteAt b 6 * 2 ^ 48 + byteAt b 7 * 2 ^ 56

/-- Encoder `binary.LittleEndian.PutUint64(buf[:], v)` on a fresh `[8]byte`. -/
def PutUint64 (v : Nat) : List Nat :=
  [v % 256, v / 2 ^ 8 % 256, v / 2 ^ 16 % 256, v / 2 ^ 24 % 256,
   v / 2 ^ 32 % 256, v / 2 ^ 40 % 256, v / 2 ^ 48 % 256, v / 2 ^ 56 % 256]

/-! ## `math.Float32bits` and friends

A float is carried as its bit pattern, so the four conversions are reinterpretations. -/

/-- Conversion `math.Float32bits(f)`: the IEEE-754 binary32 pattern of `f`. -/
def Float32bits (f : Nat) : Nat := f % 2 ^ 32

/-- Conversion `math.Float32frombits(u)`: the float with pattern `u`. -/
def Float32frombits (u : Nat) : Nat := u % 2 ^ 32

/-- Conversion `math.Float64bits(f)`: the IEEE-754 binary64 pattern of `f`. -/
def Float64bits (f : Nat) : Nat := f % 2 ^ 64

/-- Conversion `math.Float64frombits(u)`: the float with pattern `u`. -/
def Float64frombits (u : Nat) : Nat := u % 2 ^ 64

/-! ## Windows constants used by the scanner -/

def MEM_COMMIT : Nat := 0x1000
def PAGE_NOACCESS : Nat := 0x01
def PAGE_READONLY : Nat := 0x02
def PAGE_READWRITE : Nat := 0x04
def PAGE_WRITECOPY : Nat := 0x08
def PAGE_EXECUTE : Nat := 0x10
def PAGE_EXECUTE_READ : Nat := 0x20
def PAGE_EXECUTE_READWRITE : Nat := 0x40
def PAGE_EXECUTE_WRITECOPY : Nat := 0x80
def PAGE_GUARD : Nat := 0x100

/-! ## Protection classification (`scan_windows.go`) -/

/-- Classifier `isReadable(protect)`: a switch on `protect & 0xFF`. -/
def isReadable (protect : Nat) : Bool :=
  let low := protect &&& 0xFF
  if low = PAGE_READONLY ∨ low = PAGE_READWRITE ∨ low = PAGE_WRITECOPY ∨
      low = PAGE_EXECUTE_READ ∨ low = PAGE_EXECUTE_READWRITE ∨ low = PAGE_EXECUTE_WRITECOPY then
    true
  else
    false

/-- Classifier `isWritable(protect)`: a switch on `protect & 0xFF`. -/
def isWritable (protect : Nat) : Bool :=
  let low := protect &&& 0xFF
  if low = PAGE_READWRITE ∨ low = PAGE_WRITECOPY ∨
      low = PAGE_EXECUTE_READWRITE ∨ low = PAGE_EXECUTE_WRITECOPY then
    true
  else
    false

/-! ## IEEE-754 arithmetic on bit patterns

The scanner's float predicates subtract, negate and compare floats.  A pattern is decoded
into a datum, the operation is carried out exactly on integers and rounded to nearest
(ties to even), and the result is encoded again. -/

/-- A decoded IEEE-754 datum.  The magnitude `n` of a finite datum counts units of the
smallest positive subnormal of the format. -/
inductive FloatVal where
  | nan : FloatVal
  | inf (neg : Bool) : FloatVal
  | fin (neg : Bool) (n : Nat) : FloatVal
deriving DecidableEq, Repr

/-- The signed number of units of a finite datum. -/
def signedUnits (neg : Bool) (n : Nat) : Int := if neg then -(n : Int) else (n : Int)

/-- Decode a pattern of a format with `ebits` exponent bits and `mbits` fraction bits. -/
def floatDecode (ebits mbits bits : Nat) : FloatVal :=
  let neg := decide (bits / 2 ^ (ebits + mbits) % 2 = 1)
  let e := bits / 2 ^ mbits % 2 ^ ebits
  let m := bits % 2 ^ mbits
  if e = 2 ^ ebits - 1 then (if m = 0 then FloatVal.inf neg else FloatVal.nan)
  else if e = 0 then FloatVal.fin neg m
  else FloatVal.fin neg ((2 ^ mbits + m) * 2 ^ (e - 1))

/-- Encode a datum; a NaN becomes the quiet NaN with an empty payload. -/
def floatEncode (ebits mbits : Nat) : FloatVal → Nat
  | FloatVal.nan => (2 ^ ebits - 1) * 2 ^ mbits + 2 ^ (mbits - 1)
  | FloatVal.inf neg => (if neg then 2 ^ (ebits + mbits) else 0) + (2 ^ ebits - 1) * 2 ^ mbits
  | FloatVal.fin neg n =>
    (if neg then 2 ^ (ebits + mbits) else 0) +
      (if n < 2 ^ mbits then n
       else (Nat.log2 n - mbits + 1) * 2 ^ mbits + (n / 2 ^ (Nat.log2 n - mbits) - 2 ^ mbits))

/-- Round a non-negative number of units to the format: nearest, ties to even, overflow to
infinity. -/
def floatRound (ebits mbits : Nat) (neg : Bool) (n : Nat) : FloatVal :=
  if n < 2 ^ (mbits + 1) then FloatVal.fin neg n
  else
    let sh := Nat.log2 n - mbits
    let q := n / 2 ^ sh
    let r := n % 2 ^ sh
    let half := 2 ^ (sh - 1)
    let q1 := if half < r ∨ (r = half ∧ q % 2 = 1) then q + 1 else q
    if 2 ^ (mbits + 1) * 2 ^ (2 ^ ebits - 3) ≤ q1 * 2 ^ sh then FloatVal.inf neg
    else FloatVal.fin neg (q1 * 2 ^ sh)

/-- IEEE-754 subtraction of two data. -/
def FloatVal.sub (ebits mbits : Nat) : FloatVal → FloatVal → FloatVal
  | FloatVal.nan, _ => FloatVal.nan
  | _, FloatVal.nan => FloatVal.nan
  | FloatVal.inf s, FloatVal.inf t => if s = t then FloatVal.nan else FloatVal.inf s
  | FloatVal.inf s, FloatVal.fin _ _ => FloatVal.inf s
  | FloatVal.fin _ _, FloatVal.inf t => FloatVal.inf (!t)
  | FloatVal.fin s n, FloatVal.fin t m =>
    let d : Int := signedUnits s n - signedUnits t m
    if d = 0 then FloatVal.fin (decide (n = 0) && s && !t) 0
    else floatRound ebits mbits (decide (d < 0)) d.natAbs

/-- IEEE-754 comparison `a < b`; false as soon as one side is a NaN. -/
def FloatVal.lt : FloatVal → FloatVal → Bool
  | FloatVal.nan, _ => false
  | _, FloatVal.nan => false
  | FloatVal.inf s, FloatVal.inf t => s && !t
  | FloatVal.inf s, FloatVal.fin _ _ => s
  | FloatVal.fin _ _, FloatVal.inf t => !t
  | FloatVal.fin s n, FloatVal.fin t m => decide (signedUnits s n < signedUnits t m)

/-- IEEE-754 comparison `a <= b`; false as soon as one side is a NaN. -/
def FloatVal.le : FloatVal → FloatVal → Bool
  | FloatVal.nan, _ => false
  | _, FloatVal.nan => false
  | FloatVal.inf s, FloatVal.inf t => s || !t
  | FloatVal.inf s, FloatVal.fin _ _ => s
  | FloatVal.fin _ _, FloatVal.inf t => !t
  | FloatVal.fin s n, FloatVal.fin t m => decide (signedUnits s n ≤ signedUnits t m)

/-- Go `a - b` on `float32`. -/
def f32Sub (a b : Nat) : Nat :=
  floatEncode 8 23 (FloatVal.sub 8 23 (floatDecode 8 23 a) (floatDecode 8 23 b))

/-- Go `-a` on `float32`: the sign bit is flipped. -/
def f32Neg (a : Nat) : Nat :=
  if a / 2 ^ 31 % 2 = 1 then a % 2 ^ 32 - 2 ^ 31 else a % 2 ^ 32 + 2 ^ 31

/-- Go `a < b` on `float32`. -/
def f32Lt (a b : Nat) : Bool := FloatVal.lt (floatDecode 8 23 a) (floatDecode 8 23 b)

/-- Go `a <= b` on `float32`. -/
def f32Le (a b : Nat) : Bool := FloatVal.le (floatDecode 8 23 a) (floatDecode 8 23 b)

/-- Go `a - b` on `float64`. -/
def f64Sub (a b : Nat) : Nat :=
  floatEncode 11 52 (FloatVal.sub 11 52 (floatDecode 11 52 a) (floatDecode 11 52 b))

/-- Go `a <= b` on `float64`. -/
def f64Le (a b : Nat) : Bool := FloatVal.le (floatDecode 11 52 a) (floatDecode 11 52 b)

/-- Library `math.Abs(x)`: the sign bit is cleared. -/
def mathAbs (x : Nat) : Nat := x % 2 ^ 63

/-- Helper `float32Abs(v)` of `scan_windows.go`: `if v < 0 { return -v }; return v`. -/
def float32Abs (v : Nat) : Nat :=
  if f32Lt v 0 then f32Neg v else v

/-- The constant `1e-4` as a `float32` (the default epsilon of the float32 scan). -/
def eps32 : Nat := 0x38D1B717

/-- The constant `1e-6` as a `float64` (the default epsilon of the float64 scan). -/
def eps64 : Nat := 0x3EB0C6F7A0B5ED8D

/-! ## The operating system and the process handle -/

/-- The fields of `windows.MemoryBasicInformation` that the scanner reads. -/
structure MemoryBasicInformation where
  BaseAddress : Nat
  RegionSize : Nat
  State : Nat
  Protect : Nat
deriving DecidableEq, Repr

/-- Go `error` values produced or passed on by the package. -/
inductive Err where
  | handleNil : Err
  | os (code : Nat) : Err
  | shortRead (got : Nat) : Err
  | shortWrite (got : Nat) : Err
deriving DecidableEq, Repr

instance instDecidableEqExcept {ε α : Type} [DecidableEq ε] [DecidableEq α] :
    DecidableEq (Except ε α)
  | Except.ok a, Except.ok b =>
    if h : a = b then isTrue (by rw [h]) else isFalse (fun h1 => h (by cases h1; rfl))
  | Except.error a, Except.error b =>
    if h : a = b then isTrue (by rw [h]) else isFalse (fun h1 => h (by cases h1; rfl))
  | Except.ok _, Except.error _ => isFalse (fun h => by cases h)
  | Except.error _, Except.ok _ => isFalse (fun h => by cases h)

/-- The operating system as seen by the package, over a state type `σ`.

* `VirtualQueryEx s h addr` answers `none` when the call returns an error.
* `ReadProcessMemory s h addr n` answers `Except.error code` when the call returns an
  error, else `Except.ok data` where `data` holds the bytes copied into the buffer, so
  that the reported count is `data.length`; the OS never copies more than the `n` bytes
  asked for (`read_le`).
* `WriteProcessMemory s h addr buf` answers the number of bytes written. -/
structure OS (σ : Type) where
  VirtualQueryEx : σ → Nat → Nat → Option MemoryBasicInformation × σ
  ReadProcessMemory : σ → Nat → Nat → Nat → Except Nat (List Nat) × σ
  WriteProcessMemory : σ → Nat → Nat → List Nat → Except Nat Nat × σ
  read_le : ∀ s h addr n data, (ReadProcessMemory s h addr n).1 = Except.ok data → data.length ≤ n

/-- The struct `Process`. -/
structure Process where
  Handle : Nat
  PID : Nat
deriving DecidableEq, Repr

/-! ## The scanner (`scan_windows.go`) -/

/-- The constant `maxChunk = uintptr(1 << 20)`. -/
def maxChunk : Nat := 2 ^ 20

/-- How a loop of `scanNumeric` is left: by falling out of it (`running`) or through
`return matches, nil` (`returned`). -/
inductive LoopExit where
  | running (found : List Nat) : LoopExit
  | returned (found : List Nat) : LoopExit
deriving DecidableEq, Repr

/-- The innermost loop `for i := 0; i+size <= len(b); i += size` over one chunk `b` read at
address `offset`; the first argument after `b` is the fuel. -/
def matchLoop (size : Nat) (pred : List Nat → Bool) (maxResults : Int) (offset : Nat)
    (b : List Nat) : Nat → Nat → List Nat → Option LoopExit
  | 0, _, _ => none
  | fuel + 1, i, acc =>
    if i + size ≤ b.length then
      if pred ((b.drop i).take size) then
        let acc1 := acc ++ [(offset + i) % uintptrMod]
        if 0 < maxResults ∧ maxResults ≤ (acc1.length : Int) then
          some (LoopExit.returned acc1)
        else
          matchLoop size pred maxResults offset b fuel (i + size) acc1
      else
        matchLoop size pred maxResults offset b fuel (i + size) acc
    else
      some (LoopExit.running acc)

/-- The loop `for offset < end` over the chunks of one region.  `inner` is the fuel handed
to each run of the innermost loop; the argument after it is the fuel of this loop. -/
def chunkLoop {σ : Type} (os : OS σ) (h : Nat) (size : Nat) (pred : List Nat → Bool)
    (maxResults : Int) (end_ : Nat) (inner : Nat) :
    Nat → σ → Nat → List Nat → Option (LoopExit × σ)
  | 0, _, _, _ => none
  | fuel + 1, s, offset, acc =>
    if offset < end_ then
      let chunk := if maxChunk < end_ - offset then maxChunk else end_ - offset
      match os.ReadProcessMemory s h offset chunk with
      | (Except.ok b, s1) =>
        if 0 < b.length then
          match matchLoop size pred maxResults offset b inner 0 acc with
          | none => none
          | some (LoopExit.returned acc1) => some (LoopExit.returned acc1, s1)
          | some (LoopExit.running acc1) =>
            chunkLoop os h size pred maxResults end_ inner fuel s1
              ((offset + chunk) % uintptrMod) acc1
        else
          chunkLoop os h size pred maxResults end_ inner fuel s1
            ((offset + chunk) % uintptrMod) acc
      | (Except.error _, s1) =>
        chunkLoop os h size pred maxResults end_ inner fuel s1
          ((offset + chunk) % uintptrMod) acc
    else
      some (LoopExit.running acc, s)

/-- The outer loop `for { ... }` of `scanNumeric`: the region walk.  `inner` is the fuel
handed to the loops inside one region; the argument after it is the fuel of the walk, so
that `regionLoop ... inner 1 s addr acc` is a single iteration of the walk. -/
def regionLoop {σ : Type} (os : OS σ) (h : Nat) (size : Nat) (pred : List Nat → Bool)
    (maxResults : Int) (writableOnly : Bool) (inner : Nat) :
    Nat → σ → Nat → List Nat → Option (List Nat × σ)
  | 0, _, _, _ => none
  | fuel + 1, s, addr, acc =>
    match os.VirtualQueryEx s h addr with
    | (none, s1) => some (acc, s1)
    | (some mbi, s1) =>
      let regionSize := mbi.RegionSize % uintptrMod
      let base := mbi.BaseAddress % uintptrMod
      if regionSize = 0 then some (acc, s1)
      else if mbi.State = MEM_COMMIT ∧ isReadable mbi.Protect = true ∧
          mbi.Protect &&& PAGE_GUARD = 0 then
        if writableOnly = true ∧ isWritable mbi.Protect = false then
          regionLoop os h size pred maxResults writableOnly inner fuel s1
            ((base + regionSize) % uintptrMod) acc
        else
          match chunkLoop os h size pred maxResults ((base + regionSize) % uintptrMod)
              inner inner s1 base acc with
          | none => none
          | some (LoopExit.returned acc1, s2) => some (acc1, s2)
          | some (LoopExit.running acc1, s2) =>
            if (base + regionSize) % uintptrMod = 0 ∨ (base + regionSize) % uintptrMod < base then
              some (acc1, s2)
            else
              regionLoop os h size pred maxResults writableOnly inner fuel s2
                ((base + regionSize) % uintptrMod) acc1
      else
        if (base + regionSize) % uintptrMod = 0 ∨ (base + regionSize) % uintptrMod < base then
          some (acc, s1)
        else
          regionLoop os h size pred maxResults writableOnly inner fuel s1
            ((base + regionSize) % uintptrMod) acc

/-- The method `(*Process).scanNumeric`.  `p = none` is the nil receiver.  The result is
`none` when `fuel` iterations were not enough for one of the loops, else the returned pair
`(matches, err)` as an `Except` together with the state the OS is left in. -/
def scanNumeric {σ : Type} (os : OS σ) (fuel : Nat) (s : σ) (p : Option Process) (size : Nat)
    (pred : List Nat → Bool) (maxResults : Int) (writableOnly : Bool) :
    Option (Except Err (List Nat) × σ) :=
  match p with
  | none => some (Except.error Err.handleNil, s)
  | some pr =>
    if pr.Handle = 0 then some (Except.error Err.handleNil, s)
    else
      match regionLoop os pr.Handle size pred maxResults writableOnly fuel fuel s 0 [] with
      | none => none
      | some (acc, s1) => some (Except.ok acc, s1)

/-- The method `ScanInt32`. -/
def ScanInt32 {σ : Type} (os : OS σ) (fuel : Nat) (s : σ) (p : Option Process) (target : Int)
    (maxResults : Int) (writableOnly : Bool) : Option (Except Err (List Nat) × σ) :=
  scanNumeric os fuel s p 4 (fun b => decide (toInt32 (Uint32 b) = target)) maxResults writableOnly

/-- The method `ScanUint32`. -/
def ScanUint32 {σ : Type} (os : OS σ) (fuel : Nat) (s : σ) (p : Option Process) (target : Nat)
    (maxResults : Int) (writableOnly : Bool) : Option (Except Err (List Nat) × σ) :=
  scanNumeric os fuel s p 4 (fun b => decide (Uint32 b = target)) maxResults writableOnly

/-- The method `ScanInt64`. -/
def ScanInt64 {σ : Type} (os : OS σ) (fuel : Nat) (s : σ) (p : Option Process) (target : Int)
    (maxResults : Int) (writableOnly : Bool) : Option (Except Err (List Nat) × σ) :=
  scanNumeric os fuel s p 8 (fun b => decide (toInt64 (Uint64 b) = target)) maxResults writableOnly

/-- The method `ScanUint64`. -/
def ScanUint64 {σ : Type} (os : OS σ) (fuel : Nat) (s : σ) (p : Option Process) (target : Nat)
    (maxResults : Int) (writableOnly : Bool) : Option (Except Err (List Nat) × σ) :=
  scanNumeric os fuel s p 8 (fun b => decide (Uint64 b = target)) maxResults writableOnly

/-- The method `ScanFloat32`. -/
def ScanFloat32 {σ : Type} (os : OS σ) (fuel : Nat) (s : σ) (p : Option Process) (target : Nat)
    (maxResults : Int) (writableOnly : Bool) : Option (Except Err (List Nat) × σ) :=
  scanNumeric os fuel s p 4 (fun b => decide (Uint32 b = Float32bits target))
    maxResults writableOnly

/-- The method `ScanFloat64`. -/
def ScanFloat64 {σ : Type} (os : OS σ) (fuel : Nat) (s : σ) (p : Option Process) (target : Nat)
    (maxResults : Int) (writableOnly : Bool) : Option (Except Err (List Nat) × σ) :=
  scanNumeric os fuel s p 8 (fun b => decide (Uint64 b = Float64bits target))
    maxResults writableOnly

/-- The method `ScanFloat32Approx`. -/
def ScanFloat32Approx {σ : Type} (os : OS σ) (fuel : Nat) (s : σ) (p : Option Process)
    (target : Nat) (eps : Nat) (maxResults : Int) (writableOnly : Bool) :
    Option (Except Err (List Nat) × σ) :=
  scanNumeric os fuel s p 4
    (fun b => f32Le (float32Abs (f32Sub (Float32frombits (Uint32 b)) target)) eps)
    maxResults writableOnly

/-- The method `ScanFloat64Approx`. -/
def ScanFloat64Approx {σ : Type} (os : OS σ) (fuel : Nat) (s : σ) (p : Option Process)
    (target : Nat) (eps : Nat) (maxResults : Int) (writableOnly : Bool) :
    Option (Except Err (List Nat) × σ) :=
  scanNumeric os fuel s p 8
    (fun b => f64Le (mathAbs (f64Sub (Float64frombits (Uint64 b)) target)) eps)
    maxResults writableOnly

/-! ## Read/write primitives (`readwrite_windows.go`) -/

/-- The method `readExact(addr, buf)` for a buffer of `n` bytes; on success the buffer
holds the bytes that are returned here. -/
def readExact {σ : Type} (os : OS σ) (s : σ) (p : Process) (addr n : Nat) :
    Except Err (List Nat) × σ :=
  match os.ReadProcessMemory s p.Handle addr n with
  | (Except.error code, s1) => (Except.error (Err.os code), s1)
  | (Except.ok data, s1) =>
    if data.length ≠ n then (Except.error (Err.shortRead data.length), s1)
    else (Except.ok data, s1)

/-- The method `writeExact(addr, buf)`. -/
def writeExact {σ : Type} (os : OS σ) (s : σ) (p : Process) (addr : Nat) (buf : List Nat) :
    Except Err Unit × σ :=
  match os.WriteProcessMemory s p.Handle addr buf with
  | (Except.error code, s1) => (Except.error (Err.os code), s1)
  | (Except.ok written, s1) =>
    if written ≠ buf.length then (Except.error (Err.shortWrite written), s1)
    else (Except.ok (), s1)

/-- The method `read32`. -/
def read32 {σ : Type} (os : OS σ) (s : σ) (p : Process) (addr : Nat) :
    Except Err (List Nat) × σ :=
  readExact os s p addr 4

/-- The method `write32`. -/
def write32 {σ : Type} (os : OS σ) (s : σ) (p : Process) (addr : Nat) (buf : List Nat) :
    Except Err Unit × σ :=
  writeExact os s p addr buf

/-- The method `read64`. -/
def read64 {σ : Type} (os : OS σ) (s : σ) (p : Process) (addr : Nat) :
    Except Err (List Nat) × σ :=
  readExact os s p addr 8

/-- The method `write64`. -/
def write64 {σ : Type} (os : OS σ) (s : σ) (p : Process) (addr : Nat) (buf : List Nat) :
    Except Err Unit × σ :=
  writeExact os s p addr buf

/-- The method `ReadInt32`. -/
def ReadInt32 {σ : Type} (os : OS σ) (s : σ) (p : Process) (addr : Nat) : Except Err Int × σ :=
  match read32 os s p addr with
  | (Except.error e, s1) => (Except.error e, s1)
  | (Except.ok buf, s1) => (Except.ok (toInt32 (Uint32 buf)), s1)

/-- The method `ReadUint32`. -/
def ReadUint32 {σ : Type} (os : OS σ) (s : σ) (p : Process) (addr : Nat) : Except Err Nat × σ :=
  match read32 os s p addr with
  | (Except.error e, s1) => (Except.error e, s1)
  | (Except.ok buf, s1) => (Except.ok (Uint32 buf), s1)

/-- The method `WriteInt32`. -/
def WriteInt32 {σ : Type} (os : OS σ) (s : σ) (p : Process) (addr : Nat) (value : Int) :
    Except Err Unit × σ :=
  write32 os s p addr (PutUint32 (toUint32 value))

/-- The method `WriteUint32`. -/
def WriteUint32 {σ : Type} (os : OS σ) (s : σ) (p : Process) (addr : Nat) (value : Nat) :
    Except Err Unit × σ :=
  write32 os s p addr (PutUint32 value)

/-- The method `WriteInt32AndRead`. -/
def WriteInt32AndRead {σ : Type} (os : OS σ) (s : σ) (p : Process) (addr : Nat) (value : Int) :
    Except Err Int × σ :=
  match WriteInt32 os s p addr value with
  | (Except.error e, s1) => (Except.error e, s1)
  | (Except.ok _, s1) => ReadInt32 os s1 p addr

/-- The method `WriteUint32AndRead`. -/
def WriteUint32AndRead {σ : Type} (os : OS σ) (s : σ) (p : Process) (addr : Nat) (value : Nat) :
    Except Err Nat × σ :=
  match WriteUint32 os s p addr value with
  | (Except.error e, s1) => (Except.error e, s1)
  | (Except.ok _, s1) => ReadUint32 os s1 p addr

/-- The method `ReadInt64`. -/
def ReadInt64 {σ : Type} (os : OS σ) (s : σ) (p : Process) (addr : Nat) : Except Err Int × σ :=
  match read64 os s p addr with
  | (Except.error e, s1) => (Except.error e, s1)
  | (Except.ok buf, s1) => (Except.ok (toInt64 (Uint64 buf)), s1)

/-- The method `ReadUint64`. -/
def ReadUint64 {σ : Type} (os : OS σ) (s : σ) (p : Process) (addr : Nat) : Except Err Nat × σ :=
  match read64 os s p addr with
  | (Except.error e, s1) => (Except.error e, s1)
  | (Except.ok buf, s1) => (Except.ok (Uint64 buf), s1)

/-- The method `WriteInt64`. -/
def WriteInt64 {σ : Type} (os : OS σ) (s : σ) (p : Process) (addr : Nat) (value : Int) :
    Except Err Unit × σ :=
  write64 os s p addr (PutUint64 (toUint64 value))

/-- The method `WriteUint64`. -/
def WriteUint64 {σ : Type} (os : OS σ) (s : σ) (p : Process) (addr : Nat) (value : Nat) :
    Except Err Unit × σ :=
  write64 os s p addr (PutUint64 value)

/-- The method `WriteInt64AndRead`. -/
def WriteInt64AndRead {σ : Type} (os : OS σ) (s : σ) (p : Process) (addr : Nat) (value : Int) :
    Except Err Int × σ :=
  match WriteInt64 os s p addr value with
  | (Except.error e, s1) => (Except.error e, s1)
  | (Except.ok _, s1) => ReadInt64 os s1 p addr

/-- The method `WriteUint64AndRead`. -/
def WriteUint64AndRead {σ : Type} (os : OS σ) (s : σ) (p : Process) (addr : Nat) (value : Nat) :
    Except Err Nat × σ :=
  match WriteUint64 os s p addr value with
  | (Except.error e, s1) => (Except.error e, s1)
  | (Except.ok _, s1) => ReadUint64 os s1 p addr

/-- The method `ReadFloat32`. -/
def ReadFloat32 {σ : Type} (os : OS σ) (s : σ) (p : Process) (addr : Nat) : Except Err Nat × σ :=
  match read32 os s p addr with
  | (Except.error e, s1) => (Except.error e, s1)
  | (Except.ok buf, s1) => (Except.ok (Float32frombits (Uint32 buf)), s1)

/-- The method `WriteFloat32`. -/
def WriteFloat32 {σ : Type} (os : OS σ) (s : σ) (p : Process) (addr : Nat) (value : Nat) :
    Except Err Unit × σ :=
  write32 os s p addr (PutUint32 (Float32bits value))

/-- The method `WriteFloat32AndRead`. -/
def WriteFloat32AndRead {σ : Type} (os : OS σ) (s : σ) (p : Process) (addr : Nat) (value : Nat) :
    Except Err Nat × σ :=
  match WriteFloat32 os s p addr value with
  | (Except.error e, s1) => (Except.error e, s1)
  | (Except.ok _, s1) => ReadFloat32 os s1 p addr

/-- The method `ReadFloat64`. -/
def ReadFloat64 {σ : Type} (os : OS σ) (s : σ) (p : Process) (addr : Nat) : Except Err Nat × σ :=
  match read64 os s p addr with
  | (Except.error e, s1) => (Except.error e, s1)
  | (Except.ok buf, s1) => (Except.ok (Float64frombits (Uint64 buf)), s1)

/-- The method `WriteFloat64`. -/
def WriteFloat64 {σ : Type} (os : OS σ) (s : σ) (p : Process) (addr : Nat) (value : Nat) :
    Except Err Unit × σ :=
  write64 os s p addr (PutUint64 (Float64bits value))

/-- The method `WriteFloat64AndRead`. -/
def WriteFloat64AndRead {σ : Type} (os : OS σ) (s : σ) (p : Process) (addr : Nat) (value : Nat) :
    Except Err Nat × σ :=
  match WriteFloat64 os s p addr value with
  | (Except.error e, s1) => (Except.error e, s1)
  | (Except.ok _, s1) => ReadFloat64 os s1 p addr

/-! ## A quiescent target

The claims that speak of a target memory state are stated over this instance of the
operating system: an address space cut into consecutive regions from address 0 upward, a
byte at every address, and reads and writes that succeed exactly on accessible pages.  A
read may in addition be refused by the OS (`fault`). -/

/-- One region of the address space; its base is the end of the region before it. -/
structure Region where
  RegionSize : Nat
  State : Nat
  Protect : Nat
deriving DecidableEq, Repr

/-- A target process: its regions in address order, its memory, and the reads that the OS
refuses although the region information allows them. -/
structure Target where
  regions : List Region
  mem : Nat → Nat
  fault : Nat → Nat → Bool

/-- The answer of a region query at `addr`, among the regions `rs` laid out from `base`
upward: the pages from `addr` to the end of the region that holds `addr` (pages are one
byte wide in this model, so the reported base is `addr` itself). -/
def regionAt : List Region → Nat → Nat → Option MemoryBasicInformation
  | [], _, _ => none
  | r :: rs, base, addr =>
    if addr < base + r.RegionSize then
      some { BaseAddress := addr, RegionSize := base + r.RegionSize - addr, State := r.State,
             Protect := r.Protect }
    else regionAt rs (base + r.RegionSize) addr

/-- The page at `a` can be read: committed, readable and not a guard page. -/
def Target.canRead (t : Target) (a : Nat) : Bool :=
  match regionAt t.regions 0 a with
  | some m => decide (m.State = MEM_COMMIT) && isReadable m.Protect &&
      decide (m.Protect &&& PAGE_GUARD = 0)
  | none => false

/-- The page at `a` can be written: committed, writable and not a guard page. -/
def Target.canWrite (t : Target) (a : Nat) : Bool :=
  match regionAt t.regions 0 a with
  | some m => decide (m.State = MEM_COMMIT) && isWritable m.Protect &&
      decide (m.Protect &&& PAGE_GUARD = 0)
  | none => false

/-- The `n` bytes of the target's memory from `addr` on. -/
def Target.bytes (t : Target) (addr n : Nat) : List Nat :=
  (List.range n).map (fun i => t.mem (addr + i) % 256)

/-- The target's memory after `buf` was stored at `addr`. -/
def Target.store (t : Target) (addr : Nat) (buf : List Nat) : Target :=
  { t with mem := fun a => if addr ≤ a ∧ a < addr + buf.length then buf.getD (a - addr) 0
                           else t.mem a }

/-- The operating system of a quiescent target.  Handle `0` is no handle
(`ERROR_INVALID_HANDLE`, 6); a transfer that touches an inaccessible page fails as a whole
(`ERROR_PARTIAL_COPY`, 299, or `ERROR_NOACCESS`, 998). -/
def Target.os : OS Target where
  VirtualQueryEx := fun t h addr => (if h = 0 then none else regionAt t.regions 0 addr, t)
  ReadProcessMemory := fun t h addr n =>
    (if h = 0 then Except.error 6
     else if t.fault addr n = false ∧ (List.range n).all (fun i => t.canRead (addr + i)) = true
       then Except.ok (t.bytes addr n)
     else Except.error 299, t)
  WriteProcessMemory := fun t h addr buf =>
    if h = 0 then (Except.error 6, t)
    else if (List.range buf.length).all (fun i => t.canWrite (addr + i)) = true
      then (Except.ok buf.length, t.store addr buf)
    else (Except.error 998, t)
  read_le := by
    intro t h addr n data hd
    simp only at hd
    split at hd
    · cases hd
    · split at hd
      · cases hd
        simp [Target.bytes]
      · cases hd

/-! ## Notions used to state the properties -/

/-- The `w` bytes at `addr` can be written and read back: the pages are writable and
readable and the OS does not refuse the read. -/
def Target.rwRange (t : Target) (addr w : Nat) : Prop :=
  t.fault addr w = false ∧
    ∀ i, i < w → t.canWrite (addr + i) = true ∧ t.canRead (addr + i) = true

/-- A small target: a free region of 64 KiB, then 32 committed read-write bytes, then 16
committed read-only bytes.  Every byte of memory is `0x2A` (so every aligned `uint32` is
`0x2A2A2A2A`), and no read is refused. -/
def demoTarget : Target where
  regions := [⟨0x10000, 0x10000, PAGE_NOACCESS⟩, ⟨32, MEM_COMMIT, PAGE_READWRITE⟩,
    ⟨16, MEM_COMMIT, PAGE_READONLY⟩]
  mem := fun _ => 0x2A
  fault := fun _ _ => false

/-- A process handle that is neither nil nor zero. -/
def demoProcess : Process := ⟨1, 4242⟩

/-- The addresses a loop has collected when it is left. -/
def LoopExit.found : LoopExit → List Nat
  | LoopExit.running acc => acc
  | LoopExit.returned acc => acc

/-- The cap `maxResults` is reached by the list `acc`. -/
def capReached (maxResults : Int) (acc : List Nat) : Prop :=
  0 < maxResults ∧ maxResults ≤ (acc.length : Int)

instance instDecidableCapReached (maxResults : Int) (acc : List Nat) :
    Decidable (capReached maxResults acc) := by
  unfold capReached
  infer_instance

/-- What a loop that collects the list `full` when no cap is set does under the cap
`maxResults`: it returns the first `maxResults` addresses as soon as it has them. -/
def capped (maxResults : Int) (full : List Nat) : LoopExit :=
  if capReached maxResults full then LoopExit.returned (full.take maxResults.toNat)
  else LoopExit.running full

/-- The addresses of the slots `k0, k0+1, ..., k0+n-1` (slot `k` is the `size` bytes of the
chunk `b` from index `k * size` on) that satisfy `pred`, in slot order. -/
def sliceHits (size : Nat) (pred : List Nat → Bool) (offset : Nat) (b : List Nat)
    (k0 n : Nat) : List Nat :=
  ((List.range' k0 n).filter (fun k => pred ((b.drop (k * size)).take size))).map
    (fun k => (offset + k * size) % uintptrMod)

/-- The length of the chunk read at `offset` in a region that ends at `end_`:
`chunk := end - offset; if chunk > maxChunk { chunk = maxChunk }`. -/
def chunkLen (end_ offset : Nat) : Nat :=
  if maxChunk < end_ - offset then maxChunk else end_ - offset

/-- The region passes the filter of the scanner: committed, readable, not a guard page. -/
def scannable (mbi : MemoryBasicInformation) : Prop :=
  mbi.State = MEM_COMMIT ∧ isReadable mbi.Protect = true ∧ mbi.Protect &&& PAGE_GUARD = 0

instance instDecidableScannable (mbi : MemoryBasicInformation) : Decidable (scannable mbi) := by
  unfold scannable
  infer_instance

/-- The value of `base + regionSize` as a `uintptr`. -/
def regionEnd (mbi : MemoryBasicInformation) : Nat :=
  (mbi.BaseAddress % uintptrMod + mbi.RegionSize % uintptrMod) % uintptrMod

/-- The stop test at the foot of the walk: `addr == 0 || addr < base`. -/
def walkStops (mbi : MemoryBasicInformation) : Prop :=
  regionEnd mbi = 0 ∨ regionEnd mbi < mbi.BaseAddress % uintptrMod

instance instDecidableWalkStops (mbi : MemoryBasicInformation) : Decidable (walkStops mbi) := by
  unfold walkStops
  infer_instance

/-- No answer of the region query reports a region that starts below the address that was
queried (an address being a `uintptr`). -/
def OS.baseNotBelow {σ : Type} (os : OS σ) : Prop :=
  ∀ s h addr mbi s1, addr < uintptrMod → os.VirtualQueryEx s h addr = (some mbi, s1) →
    addr ≤ mbi.BaseAddress % uintptrMod

/-- No region that passes the filter and is not writable (the regions that a writable-only
scan leaves through `continue`) ends at or beyond the top of the address space. -/
def OS.skipsInRange {σ : Type} (os : OS σ) : Prop :=
  ∀ s h addr mbi s1, os.VirtualQueryEx s h addr = (some mbi, s1) → scannable mbi →
    isWritable mbi.Protect = false →
    mbi.BaseAddress % uintptrMod + mbi.RegionSize % uintptrMod < uintptrMod

/-- An operating system whose region answers overlap: the query at 0 reports `[0, 8)`, the
query at 8 reports `[0, 16)`, every later query fails; every byte read is 7. -/
def overlapOS : OS Unit where
  VirtualQueryEx := fun s _ addr =>
    (if addr = 0 then some ⟨0, 8, MEM_COMMIT, PAGE_READWRITE⟩
     else if addr = 8 then some ⟨0, 16, MEM_COMMIT, PAGE_READWRITE⟩ else none, s)
  ReadProcessMemory := fun s _ _ n => (Except.ok (List.replicate n 7), s)
  WriteProcessMemory := fun s _ _ _ => (Except.error 5, s)
  read_le := by
    intro s h a n d hd
    simp only [Except.ok.injEq] at hd
    subst hd
    simp

/-- Every answer of the region query that reports a size other than zero reports a region
that extends past the address that was queried. -/
def OS.extendsPastQueried {σ : Type} (os : OS σ) : Prop :=
  ∀ s h addr mbi s1, addr < uintptrMod → os.VirtualQueryEx s h addr = (some mbi, s1) →
    mbi.RegionSize % uintptrMod ≠ 0 →
    addr < mbi.BaseAddress % uintptrMod + mbi.RegionSize % uintptrMod

/-- An operating system that answers every region query with the free region `[0, 4096)`,
wherever the query was made. -/
def stuckOS : OS Unit where
  VirtualQueryEx := fun s _ _ => (some ⟨0, 4096, 0x10000, PAGE_NOACCESS⟩, s)
  ReadProcessMemory := fun s _ _ _ => (Except.error 299, s)
  WriteProcessMemory := fun s _ _ _ => (Except.error 5, s)
  read_le := by
    intro s h a n d hd
    cases hd

/-- One call of `ReadProcessMemory`: the address, the number of bytes asked for and the
answer. -/
structure ReadEvent where
  addr : Nat
  n : Nat
  answer : Except Nat (List Nat)

/-- The same operating system, keeping a log of the reads it has answered.  The log is
not visible to the code. -/
def OS.logged {σ : Type} (os : OS σ) : OS (σ × List ReadEvent) where
  VirtualQueryEx := fun sl h a =>
    ((os.VirtualQueryEx sl.1 h a).1, ((os.VirtualQueryEx sl.1 h a).2, sl.2))
  ReadProcessMemory := fun sl h a n =>
    ((os.ReadProcessMemory sl.1 h a n).1,
      ((os.ReadProcessMemory sl.1 h a n).2,
        sl.2 ++ [{ addr := a, n := n, answer := (os.ReadProcessMemory sl.1 h a n).1 }]))
  WriteProcessMemory := fun sl h a buf =>
    ((os.WriteProcessMemory sl.1 h a buf).1, ((os.WriteProcessMemory sl.1 h a buf).2, sl.2))
  read_le := fun sl h a n data hd => os.read_le sl.1 h a n data hd

/-- Forget the log in the result of a run over `OS.logged`. -/
def eraseLog {α σ : Type} (r : Option (α × (σ × List ReadEvent))) : Option (α × σ) :=
  r.map (fun x => (x.1, x.2.1))

/-- The address `a` is backed by a read of the log: some logged read returned bytes in
which the slot number `k` of width `size` sits at address `a` and satisfies `pred`. -/
def backedBy (size : Nat) (pred : List Nat → Bool) (log : List ReadEvent) (a : Nat) : Prop :=
  ∃ e ∈ log, ∃ data k, e.answer = Except.ok data ∧ a = e.addr + k * size ∧
    k * size + size ≤ data.length ∧ pred ((data.drop (k * size)).take size) = true

/-- The `n` bytes of the memory `mem` from `addr` on. -/
def memBytes (mem : Nat → Nat) (addr n : Nat) : List Nat :=
  (List.range n).map (fun i => mem (addr + i))

/-- In every state that satisfies `inv`, every read that lies inside `[base, end_)` succeeds
in full, returns the bytes of `mem` and leaves the OS in a state that satisfies `inv`. -/
def OS.readsInFull {σ : Type} (os : OS σ) (h : Nat) (mem : Nat → Nat) (base end_ : Nat)
    (inv : σ → Prop) : Prop :=
  ∀ s off n, inv s → base ≤ off → off + n ≤ end_ →
    ∃ s1, inv s1 ∧ os.ReadProcessMemory s h off n = (Except.ok (memBytes mem off n), s1)

/-- The slot addresses `base + k * size`, `k * size + size <= regionSize`, of a region whose
`size` bytes satisfy `pred`, in ascending order: what a single pass over the whole region
collects. -/
def regionHits (size : Nat) (pred : List Nat → Bool) (mem : Nat → Nat)
    (base regionSize : Nat) : List Nat :=
  ((List.range (regionSize / size)).filter
    (fun k => pred (memBytes mem (base + k * size) size))).map (fun k => base + k * size)

/-- The total size of a list of regions: laid out from address 0, the address at which the
next region starts. -/
def sizesSum (rs : List Region) : Nat := (rs.map Region.RegionSize).sum

/-- The memory of a target as the bytes that a read returns. -/
def Target.byteMem (t : Target) : Nat → Nat := fun a => t.mem a % 256

/-- No read inside `[base, end_)` is refused by the OS. -/
def Target.noFault (t : Target) (base end_ : Nat) : Prop :=
  ∀ off n, base ≤ off → off + n ≤ end_ → t.fault off n = false

/-- The address `a` lies in a region of the target that passes the filter of a scan:
committed, readable, no guard page and, for a writable-only scan, writable. -/
def Target.passesFilter (t : Target) (wo : Bool) (a : Nat) : Prop :=
  ∃ mbi, regionAt t.regions 0 a = some mbi ∧ mbi.State = MEM_COMMIT ∧
    isReadable mbi.Protect = true ∧ mbi.Protect &&& PAGE_GUARD = 0 ∧
    (wo = true → isWritable mbi.Protect = true)

/-- The `float32` pattern `f` is a finite number (neither an infinity nor a NaN). -/
def finite32 (f : Nat) : Prop := ∃ neg n, floatDecode 8 23 f = FloatVal.fin neg n

/-- The `float64` pattern `f` is a finite number (neither an infinity nor a NaN). -/
def finite64 (f : Nat) : Prop := ∃ neg n, floatDecode 11 52 f = FloatVal.fin neg n

/-- The small target with a read-write region whose reads the OS refuses: every read that
starts at `0x10000` fails. -/
def faultyTarget : Target where
  regions := [⟨0x10000, 0x10000, PAGE_NOACCESS⟩, ⟨32, MEM_COMMIT, PAGE_READWRITE⟩,
    ⟨16, MEM_COMMIT, PAGE_READONLY⟩]
  mem := fun _ => 0x2A
  fault := fun addr _ => decide (addr = 0x10000)

/-- An operating system whose transfers come up short: a read returns at most two bytes
and a write reports one byte written. -/
def shortOS : OS Unit where
  VirtualQueryEx := fun s _ _ => (none, s)
  ReadProcessMemory := fun s _ _ n => (Except.ok (List.replicate (min n 2) 0), s)
  WriteProcessMemory := fun s _ _ _ => (Except.ok 1, s)
  read_le := by
    intro s h a n d hd
    simp only [Except.ok.injEq] at hd
    subst hd
    simp

/-! ## Process handles (`open_windows.go`) -/

/-- The operating system with the two handle primitives: `OpenProcess s pid` answers a
handle or an error code, `CloseHandle s h` answers nil or an error code. -/
structure OSH (σ : Type) extends OS σ where
  OpenProcess : σ → Nat → Except Nat Nat × σ
  CloseHandle : σ → Nat → Except Nat Unit × σ

/-- The function `Open(pid)`: on success a `Process` holding the handle and the pid. -/
def Open {σ : Type} (osh : OSH σ) (s : σ) (pid : Nat) : Except Err Process × σ :=
  match osh.OpenProcess s pid with
  | (Except.error code, s1) => (Except.error (Err.os code), s1)
  | (Except.ok h, s1) => (Except.ok { Handle := h, PID := pid }, s1)

/-- The method `(*Process).Close`; `p = none` is the nil receiver.  The `Process` itself is
not changed by the call. -/
def Close {σ : Type} (osh : OSH σ) (s : σ) (p : Option Process) : Except Err Unit × σ :=
  match p with
  | none => (Except.ok (), s)
  | some pr =>
    if pr.Handle = 0 then (Except.ok (), s)
    else
      match osh.CloseHandle s pr.Handle with
      | (Except.error code, s1) => (Except.error (Err.os code), s1)
      | (Except.ok _, s1) => (Except.ok (), s1)

/-- One call of an OS primitive. -/
inductive OSCall where
  | query (h addr : Nat) : OSCall
  | read (h addr n : Nat) : OSCall
  | write (h addr : Nat) (buf : List Nat) : OSCall
  | openProcess (pid : Nat) : OSCall
  | closeHandle (h : Nat) : OSCall
deriving DecidableEq, Repr

/-- The same operating system, keeping a trace of every call made to it.  The trace is
not visible to the code. -/
def OSH.traced {σ : Type} (osh : OSH σ) : OSH (σ × List OSCall) where
  VirtualQueryEx := fun st h a =>
    ((osh.VirtualQueryEx st.1 h a).1, ((osh.VirtualQueryEx st.1 h a).2,
      st.2 ++ [OSCall.query h a]))
  ReadProcessMemory := fun st h a n =>
    ((osh.ReadProcessMemory st.1 h a n).1, ((osh.ReadProcessMemory st.1 h a n).2,
      st.2 ++ [OSCall.read h a n]))
  WriteProcessMemory := fun st h a buf =>
    ((osh.WriteProcessMemory st.1 h a buf).1, ((osh.WriteProcessMemory st.1 h a buf).2,
      st.2 ++ [OSCall.write h a buf]))
  read_le := fun st h a n data hd => osh.read_le st.1 h a n data hd
  OpenProcess := fun st pid =>
    ((osh.OpenProcess st.1 pid).1, ((osh.OpenProcess st.1 pid).2,
      st.2 ++ [OSCall.openProcess pid]))
  CloseHandle := fun st h =>
    ((osh.CloseHandle st.1 h).1, ((osh.CloseHandle st.1 h).2, st.2 ++ [OSCall.closeHandle h]))

/-- A machine: a target process and the table of handles that are open on it. -/
structure Machine where
  target : Target
  handles : List Nat

/-- The handle value the machine hands out next: the least positive multiple of 4 that is
not open, so that the value of a closed handle is used again. -/
def freshHandle (hs : List Nat) : Nat :=
  4 * (((List.range (hs.length + 1)).map (fun k => k + 1)).find?
    (fun k => decide (4 * k ∉ hs))).getD (hs.length + 1)

/-- The operating system of a machine.  A call under a handle that is not open fails
(`ERROR_INVALID_HANDLE`, 6; the region query answers with an error); under an open handle
it is answered by the target.  `OpenProcess` refuses pid 0 (`ERROR_INVALID_PARAMETER`,
87). -/
def Machine.osh : OSH Machine where
  VirtualQueryEx := fun m h addr =>
    if h ∈ m.handles then ((Target.os.VirtualQueryEx m.target h addr).1, m) else (none, m)
  ReadProcessMemory := fun m h addr n =>
    if h ∈ m.handles then ((Target.os.ReadProcessMemory m.target h addr n).1, m)
    else (Except.error 6, m)
  WriteProcessMemory := fun m h addr buf =>
    if h ∈ m.handles then
      ((Target.os.WriteProcessMemory m.target h addr buf).1,
        { m with target := (Target.os.WriteProcessMemory m.target h addr buf).2 })
    else (Except.error 6, m)
  read_le := by
    intro m h addr n data hd
    by_cases hh : h ∈ m.handles
    · simp only [if_pos hh] at hd
      exact Target.os.read_le m.target h addr n data hd
    · simp only [if_neg hh] at hd
      cases hd
  OpenProcess := fun m pid =>
    if pid = 0 then (Except.error 87, m)
    else (Except.ok (freshHandle m.handles),
      { m with handles := freshHandle m.handles :: m.handles })
  CloseHandle := fun m h =>
    if h ∈ m.handles then (Except.ok (), { m with handles := m.handles.erase h })
    else (Except.error 6, m)

/-- The small target on a machine with no handle open yet. -/
def demoMachine : Machine := { target := demoTarget, handles := [] }

/-- The handle table of a machine holds no handle twice and never the value 0. -/
def Machine.wf (m : Machine) : Prop := m.handles.Nodup ∧ 0 ∉ m.handles

/-- The machine after `Open(4242)` on `demoMachine`; the handle that was handed out is 4. -/
def openedMachine : Machine := (Open Machine.osh demoMachine 4242).2

/-- The `Process` that `Open(4242)` returned on `demoMachine`. -/
def openedProcess : Process := { Handle := 4, PID := 4242 }

/-- The machine after `Close` on `openedProcess`. -/
def closedMachine : Machine := (Close Machine.osh openedMachine (some openedProcess)).2

/-- The machine after a later `Open(777)`: the handle value 4 is handed out again. -/
def reopenedMachine : Machine := (Open Machine.osh closedMachine 777).2

/-! ## Float conversions -/

/-- Round `n / 2 ^ k` units to the format: nearest, ties to even, overflow to infinity. -/
def floatRoundScaled (ebits mbits : Nat) (neg : Bool) (n k : Nat) : FloatVal :=
  let sh := max k (Nat.log2 n - mbits)
  let q := n / 2 ^ sh
  let r := n % 2 ^ sh
  let half := 2 ^ (sh - 1)
  let q1 := if half < r ∨ (r = half ∧ q % 2 = 1) then q + 1 else q
  if 2 ^ (mbits + 1) * 2 ^ (2 ^ ebits - 3) ≤ q1 * 2 ^ (sh - k) then FloatVal.inf neg
  else FloatVal.fin neg (q1 * 2 ^ (sh - k))

/-- Go conversion `float64(x)` of a `float32`: exact; a NaN keeps its sign and payload and is
made quiet.  One unit of `float32` is `2 ^ 925` units of `float64`. -/
def f32to64 (a : Nat) : Nat :=
  match floatDecode 8 23 a with
  | FloatVal.nan => (a / 2 ^ 31 % 2) * 2 ^ 63 + 0x7FF8000000000000 + (a % 2 ^ 22) * 2 ^ 29
  | FloatVal.inf neg => floatEncode 11 52 (FloatVal.inf neg)
  | FloatVal.fin neg n => floatEncode 11 52 (FloatVal.fin neg (n * 2 ^ 925))

/-- Go conversion `float32(x)` of a `float64`: rounded to nearest, ties to even; a NaN keeps
its sign and the upper bits of its payload and is made quiet. -/
def f64to32 (a : Nat) : Nat :=
  match floatDecode 11 52 a with
  | FloatVal.nan => (a / 2 ^ 63 % 2) * 2 ^ 31 + 0x7FC00000 + (a % 2 ^ 51) / 2 ^ 29
  | FloatVal.inf neg => floatEncode 8 23 (FloatVal.inf neg)
  | FloatVal.fin neg n => floatEncode 8 23 (floatRoundScaled 8 23 neg n 925)

/-- The constant `1e-4` as a `float64` (the float32 epsilon of `makeComparator`). -/
def eps32as64 : Nat := 0x3F1A36E2EB1C432D

/-! ## Value parsing (`main.go`, with the library functions it calls)

Texts are Lean strings (lists of code points).  The Go parsers walk the bytes of the text;
for base 10 every byte that is not `0`..`9` is refused, and so is every code point that is
not `0`..`9` here. -/

/-- The type `numericValue`; `f64` holds the bit pattern of the `float64`. -/
structure NumericValue where
  i64 : Int := 0
  u64 : Nat := 0
  f64 : Nat := 0
deriving DecidableEq, Repr

/-- The cause carried by a `*strconv.NumError`: `ErrRange`, `ErrSyntax`, or another one. -/
inductive NumErr where
  | ErrRange : NumErr
  | ErrSyntax : NumErr
  | other (text : String) : NumErr
deriving DecidableEq, Repr

/-- The library functions that are taken as given: `strconv.ParseFloat(s, bitSize)` (the bit
pattern of the `float64` it returns, and the error), the quoting of `%q`, and the text of
an OS error code. -/
structure Lib where
  ParseFloat : String → Nat → Nat × Option NumErr
  Quote : String → String
  ErrnoText : Nat → String

/-- Library `unicode.IsSpace`, which `strings.TrimSpace` trims by. -/
def isSpace (c : Char) : Bool :=
  let n := c.toNat
  (0x09 ≤ n && n ≤ 0x0D) || n = 0x20 || n = 0x85 || n = 0xA0 || n = 0x1680 ||
    (0x2000 ≤ n && n ≤ 0x200A) || n = 0x2028 || n = 0x2029 || n = 0x202F || n = 0x205F ||
    n = 0x3000

/-- Library `strings.TrimSpace`: leading and trailing white space removed. -/
def TrimSpace (s : String) : String :=
  String.mk ((s.data.dropWhile isSpace).reverse.dropWhile isSpace).reverse

/-- The test `'0' <= c && c <= '9'`. -/
def isDigit (c : Char) : Bool := 48 ≤ c.toNat && c.toNat ≤ 57

/-- The digit loop of `strconv.ParseUint` for base 10: `n` is the number read so far,
`maxVal` the largest value of the bit size.  The returned pair is `(value, err)`. -/
def parseUintLoop (maxVal : Nat) : List Char → Nat → Nat × Option NumErr
  | [], n => (n, none)
  | c :: cs, n =>
    if isDigit c then
      if n ≥ (2 ^ 64 - 1) / 10 + 1 then (maxVal, some NumErr.ErrRange)
      else
        let n10 := n * 10 % 2 ^ 64
        let n1 := (n10 + (c.toNat - 48)) % 2 ^ 64
        if n1 < n10 ∨ n1 > maxVal then (maxVal, some NumErr.ErrRange)
        else parseUintLoop maxVal cs n1
    else (0, some NumErr.ErrSyntax)

/-- Library `strconv.ParseUint(s, 10, bitSize)`. -/
def ParseUint (s : String) (bitSize : Nat) : Nat × Option NumErr :=
  if s.data = [] then (0, some NumErr.ErrSyntax)
  else parseUintLoop (2 ^ bitSize - 1) s.data 0

/-- Library `strconv.ParseInt(s, 10, bitSize)`: the sign is picked off, the rest goes through
`ParseUint`, then the range of the signed type is checked. -/
def ParseInt (s : String) (bitSize : Nat) : Int × Option NumErr :=
  if s.data = [] then (0, some NumErr.ErrSyntax)
  else
    let neg := decide (s.data.head? = some '-')
    let rest := if s.data.head? = some '+' ∨ s.data.head? = some '-' then s.data.tail else s.data
    match ParseUint (String.mk rest) bitSize with
    | (un, err) =>
      if err ≠ none ∧ err ≠ some NumErr.ErrRange then (0, err)
      else
        let cutoff := 2 ^ (bitSize - 1)
        if !neg ∧ un ≥ cutoff then ((cutoff : Int) - 1, some NumErr.ErrRange)
        else if neg ∧ un > cutoff then (-(cutoff : Int), some NumErr.ErrRange)
        else (if neg then toInt64 (toUint64 (-(toInt64 un))) else toInt64 un, none)

/-- The function `parseNumericError`: the text of the error it builds. -/
def parseNumericError (lib : Lib) (dtype valStr : String) (err : NumErr) : String :=
  match err with
  | NumErr.ErrRange => "invalid " ++ dtype ++ ": value out of range"
  | NumErr.ErrSyntax =>
    "invalid " ++ dtype ++ ": enter a " ++ dtype ++ " value (got " ++ lib.Quote valStr ++ ")"
  | NumErr.other text => "invalid " ++ dtype ++ ": " ++ text

/-- The method `parseValue`: the value, or the text of the error. -/
def parseValue (lib : Lib) (dtype valStr : String) : Except String NumericValue :=
  let valStr := TrimSpace valStr
  if valStr = "" then Except.error "enter a value to search"
  else if dtype = "int32" then
    match ParseInt valStr 32 with
    | (_, some err) => Except.error (parseNumericError lib "int32" valStr err)
    | (v, none) => Except.ok { i64 := toInt32 (toUint32 v) }
  else if dtype = "int64" then
    match ParseInt valStr 64 with
    | (_, some err) => Except.error (parseNumericError lib "int64" valStr err)
    | (v, none) => Except.ok { i64 := v }
  else if dtype = "uint32" then
    match ParseUint valStr 32 with
    | (_, some err) => Except.error (parseNumericError lib "uint32" valStr err)
    | (v, none) => Except.ok { u64 := v % 2 ^ 32 }
  else if dtype = "uint64" then
    match ParseUint valStr 64 with
    | (_, some err) => Except.error (parseNumericError lib "uint64" valStr err)
    | (v, none) => Except.ok { u64 := v }
  else if dtype = "float32" then
    match lib.ParseFloat valStr 32 with
    | (_, some err) => Except.error (parseNumericError lib "float32" valStr err)
    | (v, none) => Except.ok { f64 := f32to64 (f64to32 v) }
  else if dtype = "float64" then
    match lib.ParseFloat valStr 64 with
    | (_, some err) => Except.error (parseNumericError lib "float64" valStr err)
    | (v, none) => Except.ok { f64 := v }
  else Except.error ("unsupported type: " ++ dtype)

/-- A library instance for evaluating examples: `%q` of a text of printable ASCII without
quote or backslash puts it between double quotes; floats are not parsed by it. -/
def demoLib : Lib where
  ParseFloat := fun _ _ => (0, some NumErr.ErrSyntax)
  Quote := fun s => String.singleton (Char.ofNat 34) ++ s ++ String.singleton (Char.ofNat 34)
  ErrnoText := fun code => "errno " ++ toString code

/-- The number written by a list of decimal digits, after the number `n` read so far. -/
def digitsVal : List Char → Nat → Nat
  | [], n => n
  | c :: cs, n => digitsVal cs (n * 10 + (c.toNat - 48))

/-- A non-empty list of decimal digits. -/
def isDecimal (cs : List Char) : Bool := !cs.isEmpty && cs.all isDigit

/-- The integer written by a text that is an optional sign followed by a non-empty list of
decimal digits; `none` for every other text. -/
def decimalValue (cs : List Char) : Option Int :=
  if cs.head? = some '+' then
    (if isDecimal cs.tail then some (digitsVal cs.tail 0 : Int) else none)
  else if cs.head? = some '-' then
    (if isDecimal cs.tail then some (-(digitsVal cs.tail 0 : Int)) else none)
  else if isDecimal cs then some (digitsVal cs 0 : Int) else none

/-- The message `msg` contains the text `sub`. -/
def containsText (msg sub : String) : Prop := sub.data <:+: msg.data

instance instDecidableContainsText (msg sub : String) : Decidable (containsText msg sub) := by
  unfold containsText
  infer_instance

/-- The bit size a type tag is parsed with. -/
def typeBits (dtype : String) : Nat :=
  if dtype = "int32" ∨ dtype = "uint32" ∨ dtype = "float32" then 32 else 64

/-! ## Candidate sets and the watch list (`main.go`) -/

/-- The type `resultRow`. -/
structure ResultRow where
  addr : Nat
  dtype : String
  current : NumericValue := {}
  desired : NumericValue := {}
  pinned : Bool := false
deriving DecidableEq, Repr

/-- The fields of `searchSet` that hold data: the rows and the active type. -/
structure SearchSet where
  rows : List ResultRow := []
  activeType : String := ""
deriving DecidableEq, Repr

/-- The fields of `ui` that hold data: the selected process, the watch list and the
candidate sets. -/
structure UI where
  selectedPID : Nat := 0
  watchedRows : List ResultRow := []
  sets : List SearchSet := []
deriving DecidableEq, Repr

/-- An error met by the typed helpers of `main.go`: an error of the `process` package, or
`unsupported type`. -/
inductive UIErr where
  | proc (e : Err) : UIErr
  | unsupported (dtype : String) : UIErr
deriving DecidableEq, Repr

/-- The text of an error of the `process` package. -/
def Err.text (lib : Lib) : Err → String
  | Err.handleNil => "process handle is nil"
  | Err.os code => lib.ErrnoText code
  | Err.shortRead got => "short read: " ++ toString got
  | Err.shortWrite got => "short write: " ++ toString got

/-- The text of an error of the typed helpers. -/
def UIErr.text (lib : Lib) : UIErr → String
  | UIErr.proc e => e.text lib
  | UIErr.unsupported dtype => "unsupported type: " ++ dtype

/-- What a candidate set shows after an operation: an error text, a message, or its rows
with a selected index. -/
inductive Shown where
  | error (text : String) : Shown
  | message (text : String) : Shown
  | results (selectIdx : Int) : Shown
deriving DecidableEq, Repr

/-- Carry an error of the `process` package over to the helpers of `main.go`. -/
def liftErr {α β σ : Type} (f : α → β) (r : Except Err α × σ) : Except UIErr β × σ :=
  match r with
  | (Except.error e, s) => (Except.error (UIErr.proc e), s)
  | (Except.ok v, s) => (Except.ok (f v), s)

/-- The method `scanByType`: `maxResults` is 0 and `writableOnly` is false. -/
def scanByType {σ : Type} (os : OS σ) (fuel : Nat) (s : σ) (proc : Process) (dtype : String)
    (val : NumericValue) : Option (Except UIErr (List Nat) × σ) :=
  if dtype = "int32" then
    (ScanInt32 os fuel s (some proc) (toInt32 (toUint32 val.i64)) 0 false).map (liftErr id)
  else if dtype = "int64" then
    (ScanInt64 os fuel s (some proc) val.i64 0 false).map (liftErr id)
  else if dtype = "uint32" then
    (ScanUint32 os fuel s (some proc) (val.u64 % 2 ^ 32) 0 false).map (liftErr id)
  else if dtype = "uint64" then
    (ScanUint64 os fuel s (some proc) val.u64 0 false).map (liftErr id)
  else if dtype = "float32" then
    (ScanFloat32Approx os fuel s (some proc) (f64to32 val.f64) eps32 0 false).map (liftErr id)
  else if dtype = "float64" then
    (ScanFloat64Approx os fuel s (some proc) val.f64 eps64 0 false).map (liftErr id)
  else some (Except.error (UIErr.unsupported dtype), s)

/-- The method `readByType`. -/
def readByType {σ : Type} (os : OS σ) (s : σ) (proc : Process) (dtype : String) (addr : Nat) :
    Except UIErr NumericValue × σ :=
  if dtype = "int32" then liftErr (fun v => { i64 := v }) (ReadInt32 os s proc addr)
  else if dtype = "int64" then liftErr (fun v => { i64 := v }) (ReadInt64 os s proc addr)
  else if dtype = "uint32" then liftErr (fun v => { u64 := v }) (ReadUint32 os s proc addr)
  else if dtype = "uint64" then liftErr (fun v => { u64 := v }) (ReadUint64 os s proc addr)
  else if dtype = "float32" then
    liftErr (fun v => { f64 := f32to64 v }) (ReadFloat32 os s proc addr)
  else if dtype = "float64" then liftErr (fun v => { f64 := v }) (ReadFloat64 os s proc addr)
  else (Except.error (UIErr.unsupported dtype), s)

/-- The method `writeByType`: the typed write-then-read of the value. -/
def writeByType {σ : Type} (os : OS σ) (s : σ) (proc : Process) (dtype : String) (addr : Nat)
    (val : NumericValue) : Except UIErr NumericValue × σ :=
  if dtype = "int32" then
    liftErr (fun v => { i64 := v }) (WriteInt32AndRead os s proc addr (toInt32 (toUint32 val.i64)))
  else if dtype = "int64" then
    liftErr (fun v => { i64 := v }) (WriteInt64AndRead os s proc addr val.i64)
  else if dtype = "uint32" then
    liftErr (fun v => { u64 := v }) (WriteUint32AndRead os s proc addr (val.u64 % 2 ^ 32))
  else if dtype = "uint64" then
    liftErr (fun v => { u64 := v }) (WriteUint64AndRead os s proc addr val.u64)
  else if dtype = "float32" then
    liftErr (fun v => { f64 := f32to64 v }) (WriteFloat32AndRead os s proc addr (f64to32 val.f64))
  else if dtype = "float64" then
    liftErr (fun v => { f64 := v }) (WriteFloat64AndRead os s proc addr val.f64)
  else (Except.error (UIErr.unsupported dtype), s)

/-- The method `makeComparator`: the predicate it returns, applied to `cur`. -/
def makeComparator (dtype : String) (target cur : NumericValue) : Bool :=
  if dtype = "float32" then f64Le (mathAbs (f64Sub cur.f64 target.f64)) eps32as64
  else if dtype = "float64" then f64Le (mathAbs (f64Sub cur.f64 target.f64)) eps64
  else decide (cur.i64 = target.i64 ∧ cur.u64 = target.u64)

/-- The loop of `doRefineWith` over the rows of the set; `filtered` is the slice built so
far. -/
def refineLoop {σ : Type} (os : OS σ) (proc : Process) (dtype : String)
    (cmp : NumericValue → Bool) : σ → List ResultRow → List ResultRow → List ResultRow × σ
  | s, [], filtered => (filtered, s)
  | s, r :: rs, filtered =>
    match readByType os s proc dtype r.addr with
    | (Except.error _, s1) => refineLoop os proc dtype cmp s1 rs filtered
    | (Except.ok cur, s1) =>
      if cmp cur then
        refineLoop os proc dtype cmp s1 rs (filtered ++ [{ r with current := cur, desired := cur }])
      else refineLoop os proc dtype cmp s1 rs filtered

/-- The method `doRefineWith`. -/
def doRefineWith {σ : Type} (os : OS σ) (s : σ) (proc : Process) (dtype : String)
    (val : NumericValue) (set : SearchSet) : (SearchSet × Shown) × σ :=
  if set.rows.length = 0 then ((set, Shown.message "no previous results to refine"), s)
  else
    match refineLoop os proc dtype (makeComparator dtype val) s set.rows [] with
    | (filtered, s1) =>
      if filtered.length = 0 then
        (({ set with rows := [] }, Shown.message "no matches after refine"), s1)
      else (({ rows := filtered, activeType := dtype }, Shown.results 0), s1)

/-- The loop of `searchNumeric` that builds the rows from the scanner's addresses. -/
def buildRows {σ : Type} (os : OS σ) (proc : Process) (dtype : String) :
    σ → List Nat → List ResultRow → List ResultRow × σ
  | s, [], rows => (rows, s)
  | s, addr :: rest, rows =>
    match readByType os s proc dtype addr with
    | (Except.error _, s1) =>
      buildRows os proc dtype s1 rest
        (rows ++ [{ addr := addr, dtype := dtype, current := {}, desired := {} }])
    | (Except.ok cur, s1) =>
      buildRows os proc dtype s1 rest
        (rows ++ [{ addr := addr, dtype := dtype, current := cur, desired := cur }])

/-- The method `searchNumeric` with the process selected in the `ui`; the handle is closed
when the method returns.  The result is `none` when `fuel` was not enough for the scan. -/
def searchNumeric {σ : Type} (osh : OSH σ) (lib : Lib) (fuel : Nat) (s : σ) (selectedPID : Nat)
    (set : SearchSet) (dtype valStr : String) (refine : Bool) :
    Option ((SearchSet × Shown) × σ) :=
  if refine = true ∧ (set.activeType = "" ∨ set.activeType ≠ dtype) then
    some ((set, Shown.error "refine requires the same type as the last search"), s)
  else
    match parseValue lib dtype valStr with
    | Except.error msg => some ((set, Shown.error msg), s)
    | Except.ok val =>
      match Open osh s (selectedPID % 2 ^ 32) with
      | (Except.error e, s1) => some ((set, Shown.error ("open: " ++ e.text lib)), s1)
      | (Except.ok proc, s1) =>
        if refine = true then
          match doRefineWith osh.toOS s1 proc dtype val set with
          | (r, s2) => some (r, (Close osh s2 (some proc)).2)
        else
          match scanByType osh.toOS fuel s1 proc dtype val with
          | none => none
          | some (Except.error e, s2) =>
            some ((set, Shown.error ("scan: " ++ e.text lib)), (Close osh s2 (some proc)).2)
          | some (Except.ok addrs, s2) =>
            match buildRows osh.toOS proc dtype s2 addrs [] with
            | (rows, s3) =>
              some (({ rows := rows, activeType := dtype }, Shown.results 0),
                (Close osh s3 (some proc)).2)

/-- The methods `doSearch` (`refine = false`) and `doRefine` (`refine = true`). -/
def doSearch {σ : Type} (osh : OSH σ) (lib : Lib) (fuel : Nat) (s : σ) (selectedPID : Nat)
    (set : SearchSet) (dtype valStr : String) (refine : Bool) :
    Option ((SearchSet × Shown) × σ) :=
  if selectedPID = 0 then some ((set, Shown.error "Select a process first"), s)
  else searchNumeric osh lib fuel s selectedPID set dtype valStr refine

/-! ## The watch list and the reconciler tick (`main.go`) -/

/-- The function `selectedIndex`: the table row of the selection, less the header row, or
`-1` when that is no index of the list. -/
def selectedIndex (row : Int) (length : Nat) : Int :=
  if row - 1 < 0 ∨ row - 1 ≥ length then -1 else row - 1

/-- The loop of `watchSelected` that looks for a watched row with the address and type of
`r`; `i` is the index of the head of the list. -/
def findWatched (r : ResultRow) : List ResultRow → Nat → Option Nat
  | [], _ => none
  | w :: ws, i => if w.addr = r.addr ∧ w.dtype = r.dtype then some i else findWatched r ws (i + 1)

/-- The method `currentSet`: the set at `activeSetIdx`, the first set when that is no index
of the list, `none` (nil) when there is no set. -/
def currentSet (sets : List SearchSet) (activeSetIdx : Int) : Option SearchSet :=
  if sets.length = 0 then none
  else if activeSetIdx < 0 ∨ activeSetIdx ≥ sets.length then sets.get? 0
  else sets.get? activeSetIdx.toNat

/-- The method `watchSelected`: `setIdx` is the field `activeSetIdx`, `row` the selection of
the results table of that set.  The second component is the index that is selected in the
watch table. -/
def watchSelected (u : UI) (setIdx : Int) (row : Int) : UI × Option Nat :=
  match currentSet u.sets setIdx with
  | none => (u, none)
  | some set =>
    if selectedIndex row set.rows.length < 0 then (u, none)
    else
      match set.rows.get? (selectedIndex row set.rows.length).toNat with
      | none => (u, none)
      | some r =>
        match findWatched r u.watchedRows 0 with
        | some i => (u, some i)
        | none =>
          ({ u with watchedRows := (u.watchedRows ++
              [{ addr := r.addr, dtype := r.dtype, current := r.current, desired := r.desired }]) },
            some u.watchedRows.length)

/-- The method `unwatchSelected`. -/
def unwatchSelected (u : UI) (row : Int) : UI :=
  if selectedIndex row u.watchedRows.length < 0 then u
  else
    { u with watchedRows :=
        (u.watchedRows.take (selectedIndex row u.watchedRows.length).toNat ++
          u.watchedRows.drop ((selectedIndex row u.watchedRows.length).toNat + 1)) }

/-- The method `togglePin`. -/
def togglePin (u : UI) (row : Int) : UI :=
  if selectedIndex row u.watchedRows.length < 0 then u
  else
    { u with watchedRows :=
        (u.watchedRows.modify (fun r => { r with pinned := !r.pinned })
          (selectedIndex row u.watchedRows.length).toNat) }

/-- The method `editDesired` with its `Save` button: `text` is the text of the input field
and `pin` the state of the check box when `Save` is pressed. -/
def editDesired (lib : Lib) (u : UI) (row : Int) (text : String) (pin : Bool) : UI :=
  if selectedIndex row u.watchedRows.length < 0 then u
  else
    match u.watchedRows.get? (selectedIndex row u.watchedRows.length).toNat with
    | none => u
    | some r =>
      match parseValue lib r.dtype text with
      | Except.error _ => u
      | Except.ok val =>
        { u with watchedRows :=
            (u.watchedRows.modify (fun w => { w with desired := val, pinned := pin })
              (selectedIndex row u.watchedRows.length).toNat) }

/-- The method `writeDesired`; the handle is closed when the method returns. -/
def writeDesired {σ : Type} (osh : OSH σ) (s : σ) (u : UI) (row : Int) : UI × σ :=
  if selectedIndex row u.watchedRows.length < 0 then (u, s)
  else
    match u.watchedRows.get? (selectedIndex row u.watchedRows.length).toNat with
    | none => (u, s)
    | some r =>
      if u.selectedPID = 0 then (u, s)
      else
        match Open osh s (u.selectedPID % 2 ^ 32) with
        | (Except.error _, s1) => (u, s1)
        | (Except.ok proc, s1) =>
          match writeByType osh.toOS s1 proc r.dtype r.addr r.desired with
          | (Except.error _, s2) => (u, (Close osh s2 (some proc)).2)
          | (Except.ok cur, s2) =>
            ({ u with watchedRows :=
                (u.watchedRows.modify (fun w => { w with current := cur })
                  (selectedIndex row u.watchedRows.length).toNat) },
              (Close osh s2 (some proc)).2)

/-- How a reconciler tick ended. -/
inductive TickResult where
  | idle : TickResult
  | openError (e : Err) : TickResult
  | writeError (e : UIErr) : TickResult
  | readError (e : UIErr) : TickResult
  | done : TickResult
deriving DecidableEq, Repr

/-- The loop of `applyPinnedWrites` over the watch list.  A row that is pinned gets the
typed write-then-read of its desired value, another row is read; either result becomes the
row's current value.  The first error ends the tick: the rows from there on are left as
they were. -/
def tickWatched {σ : Type} (os : OS σ) (proc : Process) :
    σ → List ResultRow → (List ResultRow × Option TickResult) × σ
  | s, [] => (([], none), s)
  | s, r :: rs =>
    if r.pinned = true then
      match writeByType os s proc r.dtype r.addr r.desired with
      | (Except.error e, s1) => ((r :: rs, some (TickResult.writeError e)), s1)
      | (Except.ok cur, s1) =>
        match tickWatched os proc s1 rs with
        | ((rs1, res), s2) => (({ r with current := cur } :: rs1, res), s2)
    else
      match readByType os s proc r.dtype r.addr with
      | (Except.error e, s1) => ((r :: rs, some (TickResult.readError e)), s1)
      | (Except.ok cur, s1) =>
        match tickWatched os proc s1 rs with
        | ((rs1, res), s2) => (({ r with current := cur } :: rs1, res), s2)

/-- The loop of `applyPinnedWrites` over the rows of one candidate set. -/
def tickRows {σ : Type} (os : OS σ) (proc : Process) :
    σ → List ResultRow → (List ResultRow × Option TickResult) × σ
  | s, [] => (([], none), s)
  | s, r :: rs =>
    match readByType os s proc r.dtype r.addr with
    | (Except.error e, s1) => ((r :: rs, some (TickResult.readError e)), s1)
    | (Except.ok cur, s1) =>
      match tickRows os proc s1 rs with
      | ((rs1, res), s2) => (({ r with current := cur } :: rs1, res), s2)

/-- The loop of `applyPinnedWrites` over the candidate sets. -/
def tickSets {σ : Type} (os : OS σ) (proc : Process) :
    σ → List SearchSet → (List SearchSet × Option TickResult) × σ
  | s, [] => (([], none), s)
  | s, set :: rest =>
    if set.rows.length = 0 then
      match tickSets os proc s rest with
      | ((rest1, res), s1) => ((set :: rest1, res), s1)
    else
      match tickRows os proc s set.rows with
      | ((rows, some e), s1) => (({ set with rows := rows } :: rest, some e), s1)
      | ((rows, none), s1) =>
        match tickSets os proc s1 rest with
        | ((rest1, res), s2) => (({ set with rows := rows } :: rest1, res), s2)

/-- The method `applyPinnedWrites`, one reconciler tick; the handle is closed when the
method returns. -/
def applyPinnedWrites {σ : Type} (osh : OSH σ) (s : σ) (u : UI) : (UI × TickResult) × σ :=
  if u.selectedPID = 0 then ((u, TickResult.idle), s)
  else if ¬ (u.watchedRows.length > 0 ∨ u.sets.any (fun set => decide (set.rows.length > 0)))
  then ((u, TickResult.idle), s)
  else
    match Open osh s (u.selectedPID % 2 ^ 32) with
    | (Except.error e, s1) => ((u, TickResult.openError e), s1)
    | (Except.ok proc, s1) =>
      match tickWatched osh.toOS proc s1 u.watchedRows with
      | ((ws, some e), s2) =>
        (({ u with watchedRows := ws }, e), (Close osh s2 (some proc)).2)
      | ((ws, none), s2) =>
        match tickSets osh.toOS proc s2 u.sets with
        | ((sets, some e), s3) =>
          (({ u with watchedRows := ws, sets := sets }, e), (Close osh s3 (some proc)).2)
        | ((sets, none), s3) =>
          (({ u with watchedRows := ws, sets := sets }, TickResult.done),
            (Close osh s3 (some proc)).2)

/-- One operation of the `ui`: selecting a process, a search or a refine in a candidate
set, the watch-list commands, and the reconciler tick. -/
inductive Op where
  | selectPID (pid : Nat) : Op
  | search (setIdx : Nat) (dtype valStr : String) (refine : Bool) : Op
  | watch (setIdx : Int) (row : Int) : Op
  | unwatch (row : Int) : Op
  | togglePin (row : Int) : Op
  | editDesired (row : Int) (text : String) (pin : Bool) : Op
  | writeDesired (row : Int) : Op
  | tick : Op
deriving DecidableEq, Repr

/-- The `ui` after one operation, started in the OS state `s`; `none` when `fuel` was not
enough for a scan. -/
def UI.step {σ : Type} (osh : OSH σ) (lib : Lib) (fuel : Nat) (s : σ) (u : UI) :
    Op → Option (UI × σ)
  | Op.selectPID pid => some ({ u with selectedPID := pid }, s)
  | Op.search setIdx dtype valStr refine =>
    match u.sets.get? setIdx with
    | none => some (u, s)
    | some set =>
      match doSearch osh lib fuel s u.selectedPID set dtype valStr refine with
      | none => none
      | some ((set1, _), s1) => some ({ u with sets := u.sets.set setIdx set1 }, s1)
  | Op.watch setIdx row => some ((watchSelected u setIdx row).1, s)
  | Op.unwatch row => some (unwatchSelected u row, s)
  | Op.togglePin row => some (togglePin u row, s)
  | Op.editDesired row text pin => some (editDesired lib u row text pin, s)
  | Op.writeDesired row => some (writeDesired osh s u row)
  | Op.tick => some ((applyPinnedWrites osh s u).1.1, (applyPinnedWrites osh s u).2)

/-- The `ui` that `newUI` builds: no process selected, no watched row, three empty
candidate sets. -/
def newUI : UI := { selectedPID := 0, watchedRows := [], sets := [{}, {}, {}] }

/-- The states of the `ui` that are reached from `newUI` by operations, each operation
started in an arbitrary state of the OS. -/
inductive Reachable {σ : Type} (osh : OSH σ) (lib : Lib) : UI → Prop where
  | init : Reachable osh lib newUI
  | step (fuel : Nat) (s s1 : σ) (u u1 : UI) (op : Op) :
      Reachable osh lib u → UI.step osh lib fuel s u op = some (u1, s1) → Reachable osh lib u1

/-- The rows that survive a refine to the value `v`, by the words of the specification: the
rows are gone through in order, each one is read again; a row whose read fails or whose
fresh value differs from `v` is dropped, a row whose fresh value equals `v` is kept with
its current and desired value set to the fresh value. -/
def survivors {σ : Type} (os : OS σ) (proc : Process) (dtype : String) (v : NumericValue) :
    σ → List ResultRow → List ResultRow
  | _, [] => []
  | s, r :: rs =>
    match readByType os s proc dtype r.addr with
    | (Except.ok cur, s1) =>
      if cur = v then { r with current := cur, desired := cur } :: survivors os proc dtype v s1 rs
      else survivors os proc dtype v s1 rs
    | (Except.error _, s1) => survivors os proc dtype v s1 rs

/-- The address, type and pin flag of a row. -/
def ResultRow.identity (r : ResultRow) : Nat × String × Bool := (r.addr, r.dtype, r.pinned)

/-- The four integer type tags. -/
def integerTypes : List String := ["int32", "int64", "uint32", "uint64"]

/-- A candidate set of two `uint32` rows over `demoTarget`: one in the readable region, one
at an address that cannot be read. -/
def demoSet : SearchSet :=
  { rows := [{ addr := 0x10004, dtype := "uint32", pinned := true },
             { addr := 0x20000, dtype := "uint32" }],
    activeType := "uint32" }

/-- A candidate set as a scan for `int32` leaves it: two rows of type `int32`. -/
def int32Set : SearchSet :=
  { rows := [{ addr := 0x10000, dtype := "int32", current := { i64 := 707406378 },
               desired := { i64 := 707406378 } },
             { addr := 0x10004, dtype := "int32", current := { i64 := 707406378 },
               desired := { i64 := 707406378 } }],
    activeType := "int32" }

/-- The operation ended without showing rows: an error or a message is shown. -/
def Shown.failed : Shown → Prop
  | Shown.error _ => True
  | Shown.message _ => True
  | Shown.results _ => False

/-- The rows a scan of type `dtype` builds over the scanner result `addrs`, by the words of
the specification: one row per address, in order, with the type tag, with the value read
back at the address as current value (the zero value when that read fails), the desired
value equal to the current one, and not pinned. -/
def scanRows {σ : Type} (os : OS σ) (proc : Process) (dtype : String) :
    σ → List Nat → List ResultRow
  | _, [] => []
  | s, addr :: rest =>
    { addr := addr, dtype := dtype,
      current := ((readByType os s proc dtype addr).1.toOption).getD {},
      desired := ((readByType os s proc dtype addr).1.toOption).getD {},
      pinned := false } :: scanRows os proc dtype (readByType os s proc dtype addr).2 rest

/-- The address and type of a row, on which the watch list is deduplicated. -/
def ResultRow.key (r : ResultRow) : Nat × String := (r.addr, r.dtype)

/-- Every row of the set has the active type of the set as its type tag. -/
def SearchSet.typed (set : SearchSet) : Prop := ∀ r ∈ set.rows, r.dtype = set.activeType

/-- A `ui` with the set `int32Set` as first candidate set and its second row watched. -/
def watchingUI : UI :=
  { selectedPID := 4242,
    watchedRows := [{ addr := 0x10004, dtype := "int32", current := { i64 := 707406378 },
                      desired := { i64 := 5 }, pinned := true }],
    sets := [int32Set, {}, {}] }

/-! ## Notions for the reconciler tick -/

/-- The six type tags. -/
def typeTags : List String := ["int32", "int64", "uint32", "uint64", "float32", "float64"]

/-- The byte width of a type tag. -/
def width (dtype : String) : Nat := typeBits dtype / 8

/-- The little-endian encoding of a value under a type tag; a `float32` value is held
widened in the `f64` arm and is narrowed first. -/
def encodeValue (dtype : String) (d : NumericValue) : List Nat :=
  if dtype = "int32" then PutUint32 (toUint32 d.i64)
  else if dtype = "int64" then PutUint64 (toUint64 d.i64)
  else if dtype = "uint32" then PutUint32 d.u64
  else if dtype = "uint64" then PutUint64 d.u64
  else if dtype = "float32" then PutUint32 (f64to32 d.f64)
  else PutUint64 d.f64

/-- The value that bytes of the target decode to under a type tag. -/
def decodeValue (dtype : String) (b : List Nat) : NumericValue :=
  if dtype = "int32" then { i64 := toInt32 (Uint32 b) }
  else if dtype = "int64" then { i64 := toInt64 (Uint64 b) }
  else if dtype = "uint32" then { u64 := Uint32 b }
  else if dtype = "uint64" then { u64 := Uint64 b }
  else if dtype = "float32" then { f64 := f32to64 (Float32frombits (Uint32 b)) }
  else { f64 := Float64frombits (Uint64 b) }

/-- The value lies in the domain of the type: only the arm of the type is set, an integer is
in the range of the type, a float is a bit pattern of 64 bits and, for `float32`, the
widening of a `float32`. -/
def NumericValue.inDomain (dtype : String) (d : NumericValue) : Prop :=
  if dtype = "int32" then -2 ^ 31 ≤ d.i64 ∧ d.i64 < 2 ^ 31 ∧ d.u64 = 0 ∧ d.f64 = 0
  else if dtype = "int64" then -2 ^ 63 ≤ d.i64 ∧ d.i64 < 2 ^ 63 ∧ d.u64 = 0 ∧ d.f64 = 0
  else if dtype = "uint32" then d.u64 < 2 ^ 32 ∧ d.i64 = 0 ∧ d.f64 = 0
  else if dtype = "uint64" then d.u64 < 2 ^ 64 ∧ d.i64 = 0 ∧ d.f64 = 0
  else if dtype = "float32" then
    d.f64 < 2 ^ 64 ∧ f32to64 (f64to32 d.f64) = d.f64 ∧ d.i64 = 0 ∧ d.u64 = 0
  else if dtype = "float64" then d.f64 < 2 ^ 64 ∧ d.i64 = 0 ∧ d.u64 = 0
  else False

instance instDecidableInDomain (dtype : String) (d : NumericValue) :
    Decidable (d.inDomain dtype) := by
  unfold NumericValue.inDomain
  infer_instance

/-- The byte at address `a` belongs to the value of the row. -/
def ResultRow.covers (w : ResultRow) (a : Nat) : Prop :=
  w.addr ≤ a ∧ a < w.addr + width w.dtype

/-- No pinned row of `rows` has a byte in common with the row `r`. -/
def noPinnedOverlap (rows : List ResultRow) (r : ResultRow) : Prop :=
  ∀ w ∈ rows, w.pinned = true → ∀ a, r.covers a → ¬ w.covers a

/-- A `ui` whose watch list holds two pinned rows at the same address: an `int32` row with
the desired value 1 and, after it, an `int64` row with the desired value 2. -/
def overlapUI : UI :=
  { selectedPID := 4242,
    watchedRows := [{ addr := 0x10000, dtype := "int32", current := { i64 := 707406378 },
                      desired := { i64 := 1 }, pinned := true },
                    { addr := 0x10000, dtype := "int64",
                      current := { i64 := 3038287259199220266 },
                      desired := { i64 := 2 }, pinned := true }],
    sets := [{}, {}, {}] }

/-- A `ui` whose watch list holds a pinned `int32` row and an unpinned `uint32` row at
different addresses. -/
def pinnedUI : UI :=
  { selectedPID := 4242,
    watchedRows := [{ addr := 0x10000, dtype := "int32", current := { i64 := 707406378 },
                      desired := { i64 := -2 }, pinned := true },
                    { addr := 0x10008, dtype := "uint32", current := { u64 := 0 },
                      desired := { u64 := 7 } }],
    sets := [{}, {}, {}] }

/-- The error, if any, of the library parser that `parseValue` calls for a type tag on the
trimmed text `t`. -/
def parserCause (lib : Lib) (dtype t : String) : Option NumErr :=
  if dtype = "int32" then (ParseInt t 32).2
  else if dtype = "int64" then (ParseInt t 64).2
  else if dtype = "uint32" then (ParseUint t 32).2
  else if dtype = "uint64" then (ParseUint t 64).2
  else if dtype = "float32" then (lib.ParseFloat t 32).2
  else (lib.ParseFloat t 64).2

/-- A target whose last region ends at the top of the address space: everything below
`2 ^ 64 - 4096` is free, the last 4096 bytes are committed and read-only. -/
def topTarget : Target where
  regions := [{ RegionSize := 2 ^ 64 - 4096, State := 0x10000, Protect := PAGE_NOACCESS },
              { RegionSize := 4096, State := MEM_COMMIT, Protect := PAGE_READONLY }]
  mem := fun _ => 0
  fault := fun _ _ => false

/-! ## Notions for the order and the abort of a tick -/

/-- What a tick does for one watch row: the typed write-then-read of the desired value if
the row is pinned, a typed read if not. -/
def rowOp {σ : Type} (os : OS σ) (proc : Process) (s : σ) (r : ResultRow) :
    Except UIErr NumericValue × σ :=
  if r.pinned = true then writeByType os s proc r.dtype r.addr r.desired
  else readByType os s proc r.dtype r.addr

/-- What a tick does for one row of a candidate set: a typed read. -/
def readOp {σ : Type} (os : OS σ) (proc : Process) (s : σ) (r : ResultRow) :
    Except UIErr NumericValue × σ :=
  readByType os s proc r.dtype r.addr

/-- The rows `rows` were processed in list order from the OS state `s` on, each operation
succeeded, and each row now holds the value returned for it as its current value, all
else of the row being as before; `s1` is the OS state after the last row. -/
inductive Refreshed {σ : Type} (op : σ → ResultRow → Except UIErr NumericValue × σ) :
    σ → List ResultRow → List ResultRow → σ → Prop where
  | nil (s : σ) : Refreshed op s [] [] s
  | cons (s s1 s2 : σ) (r : ResultRow) (cur : NumericValue) (rs rs1 : List ResultRow) :
      op s r = (Except.ok cur, s1) → Refreshed op s1 rs rs1 s2 →
      Refreshed op s (r :: rs) ({ r with current := cur } :: rs1) s2

/-- The candidate sets `sets` were processed in list order from the OS state `s` on, the
rows of each set in list order, and every read succeeded. -/
inductive SetsRefreshed {σ : Type} (os : OS σ) (proc : Process) :
    σ → List SearchSet → List SearchSet → σ → Prop where
  | nil (s : σ) : SetsRefreshed os proc s [] [] s
  | cons (s s1 s2 : σ) (set : SearchSet) (rows1 : List ResultRow)
      (rest rest1 : List SearchSet) :
      Refreshed (readOp os proc) s set.rows rows1 s1 → SetsRefreshed os proc s1 rest rest1 s2 →
      SetsRefreshed os proc s (set :: rest) ({ set with rows := rows1 } :: rest1) s2

/-- The result a tick ends with when the operation on a watch row failed with `e`. -/
def rowFailure (r : ResultRow) (e : UIErr) : TickResult :=
  if r.pinned = true then TickResult.writeError e else TickResult.readError e

/-- All of a row but its current value. -/
def ResultRow.fixed (r : ResultRow) : Nat × String × NumericValue × Bool :=
  (r.addr, r.dtype, r.desired, r.pinned)

/-- A `ui` whose second watch row lies at an address of `demoTarget` that cannot be read. -/
def failingUI : UI :=
  { selectedPID := 4242,
    watchedRows := [{ addr := 0x10000, dtype := "uint32", desired := { u64 := 1 } },
                    { addr := 0x20000, dtype := "uint32", current := { u64 := 5 } },
                    { addr := 0x10008, dtype := "uint32", current := { u64 := 6 },
                      desired := { u64 := 9 }, pinned := true }],
    sets := [int32Set, {}, {}] }

/-! ## Notions for the float predicates -/

/-- The absolute value of a datum. -/
def FloatVal.abs : FloatVal → FloatVal
  | FloatVal.nan => FloatVal.nan
  | FloatVal.inf _ => FloatVal.inf false
  | FloatVal.fin _ n => FloatVal.fin false n

/-- The float match predicate in the arithmetic of a format, on bit patterns, by cases on
the decoded data.  A NaN on either side never matches; the difference of two infinities of
one sign is no number; an infinity is infinitely far from everything else; the exact
difference of two finite values is rounded to the format (to nearest, ties to even) and its
absolute value is compared with `eps`. -/
def approxRounded (ebits mbits : Nat) (v t eps : Nat) : Bool :=
  match floatDecode ebits mbits v, floatDecode ebits mbits t with
  | FloatVal.nan, _ => false
  | _, FloatVal.nan => false
  | FloatVal.inf a, FloatVal.inf b =>
    if a = b then false else FloatVal.le (FloatVal.inf false) (floatDecode ebits mbits eps)
  | FloatVal.inf _, FloatVal.fin _ _ =>
    FloatVal.le (FloatVal.inf false) (floatDecode ebits mbits eps)
  | FloatVal.fin _ _, FloatVal.inf _ =>
    FloatVal.le (FloatVal.inf false) (floatDecode ebits mbits eps)
  | FloatVal.fin a n, FloatVal.fin b m =>
    FloatVal.le (floatRound ebits mbits false (signedUnits a n - signedUnits b m).natAbs)
      (floatDecode ebits mbits eps)

/-- The finite datum `n` can be written in the format: it is subnormal, or `q * 2 ^ k` with
a full significand `q` and an exponent in range. -/
def representable (ebits mbits n : Nat) : Prop :=
  n < 2 ^ mbits ∨
    ∃ q k, n = q * 2 ^ k ∧ 2 ^ mbits ≤ q ∧ q < 2 ^ (mbits + 1) ∧ k + 2 < 2 ^ ebits

/-- The datum is one that the format holds. -/
def FloatVal.canonical (ebits mbits : Nat) : FloatVal → Prop
  | FloatVal.nan => True
  | FloatVal.inf _ => True
  | FloatVal.fin _ n => representable ebits mbits n

/-- The datum with the other sign. -/
def FloatVal.neg : FloatVal → FloatVal
  | FloatVal.nan => FloatVal.nan
  | FloatVal.inf s => FloatVal.inf (!s)
  | FloatVal.fin s n => FloatVal.fin (!s) n

/-- A target with a committed read-write region of 1 MiB and 16 bytes at `0x10000`, which is
read in two chunks.  The eight bytes before the chunk boundary `0x110000` and the eight
bytes after it are `0x2A`, every other byte is 0; no read is refused. -/
def wideTarget : Target where
  regions := [⟨0x10000, 0x10000, PAGE_NOACCESS⟩, ⟨2 ^ 20 + 16, MEM_COMMIT, PAGE_READWRITE⟩]
  mem := fun a => if 0x110000 - 8 ≤ a ∧ a < 0x110000 + 8 then 0x2A else 0
  fault := fun _ _ => false

/-- The float match predicate by the words of the specification, `|v - t| <= eps` in exact
arithmetic, on bit patterns of a format: the exact absolute difference of two finite
values, a whole number of units, is compared with `eps` as it is, without rounding.  A NaN
on either side never matches; the difference of two infinities of one sign is no number; an
infinity is infinitely far from everything else. -/
def approxExact (ebits mbits : Nat) (v t eps : Nat) : Bool :=
  match floatDecode ebits mbits v, floatDecode ebits mbits t with
  | FloatVal.nan, _ => false
  | _, FloatVal.nan => false
  | FloatVal.inf a, FloatVal.inf b =>
    if a = b then false else FloatVal.le (FloatVal.inf false) (floatDecode ebits mbits eps)
  | FloatVal.inf _, FloatVal.fin _ _ =>
    FloatVal.le (FloatVal.inf false) (floatDecode ebits mbits eps)
  | FloatVal.fin _ _, FloatVal.inf _ =>
    FloatVal.le (FloatVal.inf false) (floatDecode ebits mbits eps)
  | FloatVal.fin a n, FloatVal.fin b m =>
    FloatVal.le (FloatVal.fin false (signedUnits a n - signedUnits b m).natAbs)
      (floatDecode ebits mbits eps)

/-! # Theorems -/

/-! ## Codec -/

theorem Uint32_PutUint32 (v : Nat) (h : v < 2 ^ 32) : Uint32 (PutUint32 v) = v := by
  simp only [Uint32, PutUint32, byteAt, List.getD_cons_zero, List.getD_cons_succ]
  omega

theorem Uint64_PutUint64 (v : Nat) (h : v < 2 ^ 64) : Uint64 (PutUint64 v) = v := by
  simp only [Uint64, PutUint64, byteAt, List.getD_cons_zero, List.getD_cons_succ]
  omega

theorem toUint32_lt (v : Int) : toUint32 v < 2 ^ 32 := by
  unfold toUint32
  omega

theorem toUint64_lt (v : Int) : toUint64 v < 2 ^ 64 := by
  unfold toUint64
  omega

theorem toInt32_toUint32 (v : Int) (h1 : -2 ^ 31 ≤ v) (h2 : v < 2 ^ 31) :
    toInt32 (toUint32 v) = v := by
  unfold toInt32 toUint32
  split <;> omega

theorem toInt64_toUint64 (v : Int) (h1 : -2 ^ 63 ≤ v) (h2 : v < 2 ^ 63) :
    toInt64 (toUint64 v) = v := by
  unfold toInt64 toUint64
  split <;> omega

theorem PutUint32_bytes (v x : Nat) (hx : x ∈ PutUint32 v) : x < 256 := by
  simp only [PutUint32, List.mem_cons, List.mem_singleton, List.not_mem_nil, or_false] at hx
  omega

theorem PutUint64_bytes (v x : Nat) (hx : x ∈ PutUint64 v) : x < 256 := by
  simp only [PutUint64, List.mem_cons, List.mem_singleton, List.not_mem_nil, or_false] at hx
  omega

/-- C3. Codec round trip: for each of the six types, decoding as the typed read does the
bytes that the typed write encodes gives the value back (for the floats: the same bit
pattern, so NaN payloads, signed zeros and denormals are kept), and the encoding has the
width of the type, 4 or 8 bytes. -/
theorem codec_round_trip :
    (∀ v : Int, -2 ^ 31 ≤ v → v < 2 ^ 31 →
      toInt32 (Uint32 (PutUint32 (toUint32 v))) = v ∧ (PutUint32 (toUint32 v)).length = 4) ∧
    (∀ v : Nat, v < 2 ^ 32 →
      Uint32 (PutUint32 v) = v ∧ (PutUint32 v).length = 4) ∧
    (∀ v : Int, -2 ^ 63 ≤ v → v < 2 ^ 63 →
      toInt64 (Uint64 (PutUint64 (toUint64 v))) = v ∧ (PutUint64 (toUint64 v)).length = 8) ∧
    (∀ v : Nat, v < 2 ^ 64 →
      Uint64 (PutUint64 v) = v ∧ (PutUint64 v).length = 8) ∧
    (∀ f : Nat, f < 2 ^ 32 →
      Float32bits (Float32frombits (Uint32 (PutUint32 (Float32bits f)))) = f ∧
        (PutUint32 (Float32bits f)).length = 4) ∧
    (∀ f : Nat, f < 2 ^ 64 →
      Float64bits (Float64frombits (Uint64 (PutUint64 (Float64bits f)))) = f ∧
        (PutUint64 (Float64bits f)).length = 8) := by
  refine ⟨?_, ?_, ?_, ?_, ?_, ?_⟩
  · intro v h1 h2
    rw [Uint32_PutUint32 _ (toUint32_lt v), toInt32_toUint32 v h1 h2]
    exact ⟨rfl, rfl⟩
  · intro v h
    exact ⟨Uint32_PutUint32 v h, rfl⟩
  · intro v h1 h2
    rw [Uint64_PutUint64 _ (toUint64_lt v), toInt64_toUint64 v h1 h2]
    exact ⟨rfl, rfl⟩
  · intro v h
    exact ⟨Uint64_PutUint64 v h, rfl⟩
  · intro f h
    have h1 : Float32bits f = f := Nat.mod_eq_of_lt h
    rw [h1, Uint32_PutUint32 f h]
    refine ⟨?_, rfl⟩
    simp only [Float32bits, Float32frombits, Nat.mod_mod]
    exact Nat.mod_eq_of_lt h
  · intro f h
    have h1 : Float64bits f = f := Nat.mod_eq_of_lt h
    rw [h1, Uint64_PutUint64 f h]
    refine ⟨?_, rfl⟩
    simp only [Float64bits, Float64frombits, Nat.mod_mod]
    exact Nat.mod_eq_of_lt h

/-- C3, at concrete values: `int32` -1, `uint64` 2^64-1 and the `float32` signalling NaN
pattern `0x7F800001`. -/
theorem codec_round_trip_witness :
    (toInt32 (Uint32 (PutUint32 (toUint32 (-1)))) = -1 ∧ (PutUint32 (toUint32 (-1))).length = 4) ∧
    (Uint64 (PutUint64 (2 ^ 64 - 1)) = 2 ^ 64 - 1 ∧ (PutUint64 (2 ^ 64 - 1)).length = 8) ∧
    (Float32bits (Float32frombits (Uint32 (PutUint32 (Float32bits 0x7F800001)))) = 0x7F800001 ∧
        (PutUint32 (Float32bits 0x7F800001)).length = 4) :=
  ⟨codec_round_trip.1 (-1) (by decide) (by decide),
   codec_round_trip.2.2.2.1 (2 ^ 64 - 1) (by decide),
   codec_round_trip.2.2.2.2.1 0x7F800001 (by decide)⟩

/-! ## Protection classification -/

theorem and_or_shiftLeft_low (p m : Nat) : (p ||| m <<< 8) &&& 0xFF = p &&& 0xFF := by
  apply Nat.eq_of_testBit_eq
  intro i
  have h255 : (0xFF : Nat) = 2 ^ 8 - 1 := by norm_num
  rw [h255]
  simp only [Nat.testBit_and, Nat.testBit_or, Nat.testBit_shiftLeft, Nat.testBit_two_pow_sub_one]
  by_cases hi : i < 8
  · have : ¬ (8 ≤ i) := by omega
    simp [hi, this]
  · simp [hi]

/-- C9. Protection classification: `isReadable p` holds exactly when `p & 0xFF` is one of
the six readable protections, `isWritable p` exactly when it is one of the four writable
ones, and or-ing in any bits above the low byte (such as PAGE_GUARD) changes neither
result; PAGE_READONLY|PAGE_GUARD is readable and not writable. -/
theorem protection_classification (p : Nat) :
    (isReadable p = true ↔
      (p &&& 0xFF = PAGE_READONLY ∨ p &&& 0xFF = PAGE_READWRITE ∨ p &&& 0xFF = PAGE_WRITECOPY ∨
       p &&& 0xFF = PAGE_EXECUTE_READ ∨ p &&& 0xFF = PAGE_EXECUTE_READWRITE ∨
       p &&& 0xFF = PAGE_EXECUTE_WRITECOPY)) ∧
    (isWritable p = true ↔
      (p &&& 0xFF = PAGE_READWRITE ∨ p &&& 0xFF = PAGE_WRITECOPY ∨
       p &&& 0xFF = PAGE_EXECUTE_READWRITE ∨ p &&& 0xFF = PAGE_EXECUTE_WRITECOPY)) ∧
    (∀ m : Nat, isReadable (p ||| m <<< 8) = isReadable p ∧
      isWritable (p ||| m <<< 8) = isWritable p) ∧
    isReadable (PAGE_READONLY ||| PAGE_GUARD) = true ∧
    isWritable (PAGE_READONLY ||| PAGE_GUARD) = false := by
  refine ⟨?_, ?_, ?_, by decide, by decide⟩
  · unfold isReadable
    simp
  · unfold isWritable
    simp
  · intro m
    unfold isReadable isWritable
    simp only [and_or_shiftLeft_low, and_self]

/-! ## Read-back after write -/

theorem store_canRead (t : Target) (addr : Nat) (buf : List Nat) (a : Nat) :
    (t.store addr buf).canRead a = t.canRead a := rfl

theorem store_bytes (t : Target) (addr : Nat) (buf : List Nat) (hb : ∀ x ∈ buf, x < 256) :
    (t.store addr buf).bytes addr buf.length = buf := by
  apply List.ext_getElem
  · simp [Target.bytes]
  · intro i h1 h2
    have hi : i < buf.length := h2
    simp only [Target.bytes, Target.store, List.getElem_map, List.getElem_range]
    have h3 : addr ≤ addr + i ∧ addr + i < addr + buf.length := ⟨by omega, by omega⟩
    rw [if_pos h3]
    have h4 : addr + i - addr = i := by omega
    rw [h4, List.getD_eq_getElem _ _ hi]
    exact Nat.mod_eq_of_lt (hb _ (List.getElem_mem _))

theorem target_write_read (t : Target) (p : Process) (addr : Nat) (buf : List Nat)
    (hp : p.Handle ≠ 0) (hrw : t.rwRange addr buf.length) (hb : ∀ x ∈ buf, x < 256) :
    writeExact Target.os t p addr buf = (Except.ok (), t.store addr buf) ∧
    readExact Target.os (t.store addr buf) p addr buf.length
      = (Except.ok buf, t.store addr buf) := by
  obtain ⟨hf, hall⟩ := hrw
  have hw : (List.range buf.length).all (fun i => t.canWrite (addr + i)) = true := by
    rw [List.all_eq_true]
    intro i hi
    exact (hall i (List.mem_range.mp hi)).1
  have hr : (List.range buf.length).all (fun i => (t.store addr buf).canRead (addr + i)) = true := by
    rw [List.all_eq_true]
    intro i hi
    rw [store_canRead]
    exact (hall i (List.mem_range.mp hi)).2
  have hf2 : (t.store addr buf).fault addr buf.length = false := hf
  constructor
  · simp only [writeExact, Target.os, if_neg hp, hw, if_true]
    simp
  · simp only [readExact, Target.os, if_neg hp, hf2, hr, and_self, if_true,
      store_bytes t addr buf hb]
    simp

theorem target_write32_read32 (t : Target) (p : Process) (addr x : Nat)
    (hp : p.Handle ≠ 0) (hrw : t.rwRange addr 4) :
    write32 Target.os t p addr (PutUint32 x) = (Except.ok (), t.store addr (PutUint32 x)) ∧
    read32 Target.os (t.store addr (PutUint32 x)) p addr
      = (Except.ok (PutUint32 x), t.store addr (PutUint32 x)) :=
  target_write_read t p addr (PutUint32 x) hp hrw (PutUint32_bytes x)

theorem target_write64_read64 (t : Target) (p : Process) (addr x : Nat)
    (hp : p.Handle ≠ 0) (hrw : t.rwRange addr 8) :
    write64 Target.os t p addr (PutUint64 x) = (Except.ok (), t.store addr (PutUint64 x)) ∧
    read64 Target.os (t.store addr (PutUint64 x)) p addr
      = (Except.ok (PutUint64 x), t.store addr (PutUint64 x)) :=
  target_write_read t p addr (PutUint64 x) hp hrw (PutUint64_bytes x)

/-- C4. Read-back after write: over a target in which the bytes `[addr, addr+width)` are
writable and readable, for each of the six types and every value `v` of the type,
`WriteTAndRead(addr, v)` returns `(v, nil)`, and a following `ReadT(addr)` returns
`(v, nil)` too (for the floats `v` is the bit pattern). -/
theorem read_back_after_write (t : Target) (p : Process) (addr : Nat) (hp : p.Handle ≠ 0) :
    (∀ v : Int, -2 ^ 31 ≤ v → v < 2 ^ 31 → t.rwRange addr 4 →
      ∃ t1, WriteInt32AndRead Target.os t p addr v = (Except.ok v, t1) ∧
        ReadInt32 Target.os t1 p addr = (Except.ok v, t1)) ∧
    (∀ v : Nat, v < 2 ^ 32 → t.rwRange addr 4 →
      ∃ t1, WriteUint32AndRead Target.os t p addr v = (Except.ok v, t1) ∧
        ReadUint32 Target.os t1 p addr = (Except.ok v, t1)) ∧
    (∀ v : Int, -2 ^ 63 ≤ v → v < 2 ^ 63 → t.rwRange addr 8 →
      ∃ t1, WriteInt64AndRead Target.os t p addr v = (Except.ok v, t1) ∧
        ReadInt64 Target.os t1 p addr = (Except.ok v, t1)) ∧
    (∀ v : Nat, v < 2 ^ 64 → t.rwRange addr 8 →
      ∃ t1, WriteUint64AndRead Target.os t p addr v = (Except.ok v, t1) ∧
        ReadUint64 Target.os t1 p addr = (Except.ok v, t1)) ∧
    (∀ f : Nat, f < 2 ^ 32 → t.rwRange addr 4 →
      ∃ t1, WriteFloat32AndRead Target.os t p addr f = (Except.ok f, t1) ∧
        ReadFloat32 Target.os t1 p addr = (Except.ok f, t1)) ∧
    (∀ f : Nat, f < 2 ^ 64 → t.rwRange addr 8 →
      ∃ t1, WriteFloat64AndRead Target.os t p addr f = (Except.ok f, t1) ∧
        ReadFloat64 Target.os t1 p addr = (Except.ok f, t1)) := by
  refine ⟨?_, ?_, ?_, ?_, ?_, ?_⟩
  · intro v h1 h2 hrw
    obtain ⟨hw, hr⟩ := target_write32_read32 t p addr (toUint32 v) hp hrw
    refine ⟨t.store addr (PutUint32 (toUint32 v)), ?_, ?_⟩
    · simp only [WriteInt32AndRead, WriteInt32, ReadInt32, hw, hr,
        Uint32_PutUint32 _ (toUint32_lt v), toInt32_toUint32 v h1 h2]
    · simp only [ReadInt32, hr, Uint32_PutUint32 _ (toUint32_lt v), toInt32_toUint32 v h1 h2]
  · intro v h hrw
    obtain ⟨hw, hr⟩ := target_write32_read32 t p addr v hp hrw
    refine ⟨t.store addr (PutUint32 v), ?_, ?_⟩
    · simp only [WriteUint32AndRead, WriteUint32, ReadUint32, hw, hr, Uint32_PutUint32 _ h]
    · simp only [ReadUint32, hr, Uint32_PutUint32 _ h]
  · intro v h1 h2 hrw
    obtain ⟨hw, hr⟩ := target_write64_read64 t p addr (toUint64 v) hp hrw
    refine ⟨t.store addr (PutUint64 (toUint64 v)), ?_, ?_⟩
    · simp only [WriteInt64AndRead, WriteInt64, ReadInt64, hw, hr,
        Uint64_PutUint64 _ (toUint64_lt v), toInt64_toUint64 v h1 h2]
    · simp only [ReadInt64, hr, Uint64_PutUint64 _ (toUint64_lt v), toInt64_toUint64 v h1 h2]
  · intro v h hrw
    obtain ⟨hw, hr⟩ := target_write64_read64 t p addr v hp hrw
    refine ⟨t.store addr (PutUint64 v), ?_, ?_⟩
    · simp only [WriteUint64AndRead, WriteUint64, ReadUint64, hw, hr, Uint64_PutUint64 _ h]
    · simp only [ReadUint64, hr, Uint64_PutUint64 _ h]
  · intro f h hrw
    have hf : Float32bits f = f := Nat.mod_eq_of_lt h
    have hg : Float32frombits f = f := Nat.mod_eq_of_lt h
    obtain ⟨hw, hr⟩ := target_write32_read32 t p addr f hp hrw
    refine ⟨t.store addr (PutUint32 f), ?_, ?_⟩
    · simp only [WriteFloat32AndRead, WriteFloat32, ReadFloat32, hf, hw, hr,
        Uint32_PutUint32 _ h, hg]
    · simp only [ReadFloat32, hr, Uint32_PutUint32 _ h, hg]
  · intro f h hrw
    have hf : Float64bits f = f := Nat.mod_eq_of_lt h
    have hg : Float64frombits f = f := Nat.mod_eq_of_lt h
    obtain ⟨hw, hr⟩ := target_write64_read64 t p addr f hp hrw
    refine ⟨t.store addr (PutUint64 f), ?_, ?_⟩
    · simp only [WriteFloat64AndRead, WriteFloat64, ReadFloat64, hf, hw, hr,
        Uint64_PutUint64 _ h, hg]
    · simp only [ReadFloat64, hr, Uint64_PutUint64 _ h, hg]

theorem demoTarget_rwRange : demoTarget.rwRange 0x10008 8 := by
  refine ⟨rfl, ?_⟩
  intro i hi
  have : i = 0 ∨ i = 1 ∨ i = 2 ∨ i = 3 ∨ i = 4 ∨ i = 5 ∨ i = 6 ∨ i = 7 := by omega
  rcases this with h | h | h | h | h | h | h | h <;> subst h <;> exact ⟨by decide, by decide⟩

/-- C4, at a concrete input: the `int64` value `-2` written at `0x10008` of the small
target is read back twice. -/
theorem read_back_after_write_witness :
    ∃ t1, WriteInt64AndRead Target.os demoTarget demoProcess 0x10008 (-2) = (Except.ok (-2), t1) ∧
      ReadInt64 Target.os t1 demoProcess 0x10008 = (Except.ok (-2), t1) :=
  (read_back_after_write demoTarget demoProcess 0x10008 (by decide)).2.2.1 (-2)
    (by decide) (by decide) demoTarget_rwRange

/-! ## The innermost loop -/

theorem capped_of_not_reached (m : Int) (l : List Nat) (h : ¬ capReached m l) :
    capped m l = LoopExit.running l := by
  unfold capped
  rw [if_neg h]

theorem capped_append_of_reached (m : Int) (l rest : List Nat) (h0 : 0 < m)
    (h : (l.length : Int) = m) : capped m (l ++ rest) = LoopExit.returned l := by
  unfold capped
  have hr : capReached m (l ++ rest) := by
    refine ⟨h0, ?_⟩
    rw [List.length_append]
    push_cast
    omega
  rw [if_pos hr]
  have : m.toNat = l.length := by omega
  rw [this, List.take_left]

theorem sliceHits_zero (size : Nat) (pred : List Nat → Bool) (offset : Nat) (b : List Nat)
    (k0 : Nat) : sliceHits size pred offset b k0 0 = [] := by
  simp [sliceHits]

theorem sliceHits_succ (size : Nat) (pred : List Nat → Bool) (offset : Nat) (b : List Nat)
    (k0 n : Nat) :
    sliceHits size pred offset b k0 (n + 1) =
      (if pred ((b.drop (k0 * size)).take size) = true then [(offset + k0 * size) % uintptrMod]
       else []) ++ sliceHits size pred offset b (k0 + 1) n := by
  unfold sliceHits
  rw [List.range'_succ, List.filter_cons]
  split <;> simp

/-- The innermost loop in closed form: started at slot `k0` it leaves with the matching
slots of the chunk appended, cut at the cap. -/
theorem matchLoop_char (size : Nat) (pred : List Nat → Bool) (m : Int) (offset : Nat)
    (b : List Nat) (hsize : 0 < size) :
    ∀ (fuel k0 : Nat) (acc : List Nat) (r : LoopExit), ¬ capReached m acc →
      matchLoop size pred m offset b fuel (k0 * size) acc = some r →
      r = capped m (acc ++ sliceHits size pred offset b k0 (b.length / size - k0)) := by
  intro fuel
  induction fuel with
  | zero =>
    intro k0 acc r _ h
    simp [matchLoop] at h
  | succ fuel ih =>
    intro k0 acc r hcap h
    rw [matchLoop] at h
    by_cases hle : k0 * size + size ≤ b.length
    · rw [if_pos hle] at h
      have hk : k0 + 1 ≤ b.length / size := by
        rw [Nat.le_div_iff_mul_le hsize, Nat.succ_mul]
        exact hle
      have hn : b.length / size - k0 = (b.length / size - (k0 + 1)) + 1 := by omega
      have hi : k0 * size + size = (k0 + 1) * size := (Nat.succ_mul k0 size).symm
      rw [hn, sliceHits_succ]
      by_cases hp : pred ((b.drop (k0 * size)).take size) = true
      · rw [if_pos hp] at h
        rw [if_pos hp]
        simp only at h
        by_cases hc : 0 < m ∧ m ≤ ((acc ++ [(offset + k0 * size) % uintptrMod]).length : Int)
        · rw [if_pos hc] at h
          cases h
          rw [← List.append_assoc]
          apply (capped_append_of_reached m _ _ hc.1 _).symm
          have h1 := hc.2
          have h2 : ¬ (m ≤ (acc.length : Int)) := fun h3 => hcap ⟨hc.1, h3⟩
          rw [List.length_append] at h1 ⊢
          simp only [List.length_singleton] at h1 ⊢
          push_cast at h1 ⊢
          omega
        · rw [if_neg hc, hi] at h
          have := ih (k0 + 1) _ r hc h
          rw [this, List.append_assoc]
      · rw [if_neg hp, hi] at h
        rw [if_neg hp, List.nil_append]
        exact ih (k0 + 1) acc r hcap h
    · rw [if_neg hle] at h
      cases h
      have hk : ¬ (k0 + 1 ≤ b.length / size) := by
        rw [Nat.le_div_iff_mul_le hsize, Nat.succ_mul]
        exact hle
      have hn : b.length / size - k0 = 0 := by omega
      rw [hn, sliceHits_zero, List.append_nil, capped_of_not_reached m acc hcap]

/-- The innermost loop ends: any fuel above the chunk length is enough. -/
theorem matchLoop_terminates (size : Nat) (pred : List Nat → Bool) (m : Int) (offset : Nat)
    (b : List Nat) (hsize : 0 < size) :
    ∀ (fuel i : Nat) (acc : List Nat), b.length ≤ fuel + i →
      ∃ r, matchLoop size pred m offset b (fuel + 1) i acc = some r := by
  intro fuel
  induction fuel with
  | zero =>
    intro i acc h
    have hle : ¬ (i + size ≤ b.length) := by omega
    rw [matchLoop, if_neg hle]
    exact ⟨_, rfl⟩
  | succ fuel ih =>
    intro i acc h
    rw [matchLoop]
    by_cases hle : i + size ≤ b.length
    · rw [if_pos hle]
      have hf : b.length ≤ fuel + (i + size) := by omega
      by_cases hp : pred ((b.drop i).take size) = true
      · rw [if_pos hp]
        simp only
        split
        · exact ⟨_, rfl⟩
        · exact ih _ _ hf
      · rw [if_neg hp]
        exact ih _ _ hf
    · rw [if_neg hle]
      exact ⟨_, rfl⟩

/-! ## One step of the chunk loop and of the region walk -/

theorem chunkLoop_zero {σ : Type} (os : OS σ) (h size : Nat) (pred : List Nat → Bool)
    (m : Int) (end_ inner : Nat) (s : σ) (off : Nat) (acc : List Nat) :
    chunkLoop os h size pred m end_ inner 0 s off acc = none := rfl

theorem regionLoop_zero {σ : Type} (os : OS σ) (h size : Nat) (pred : List Nat → Bool)
    (m : Int) (wo : Bool) (inner : Nat) (s : σ) (addr : Nat) (acc : List Nat) :
    regionLoop os h size pred m wo inner 0 s addr acc = none := rfl

/-- The chunk loop is over when `offset` has reached the end of the region. -/
theorem chunkLoop_done {σ : Type} (os : OS σ) (h size : Nat) (pred : List Nat → Bool)
    (m : Int) (end_ inner fuel : Nat) (s : σ) (off : Nat) (acc : List Nat)
    (hoff : ¬ off < end_) :
    chunkLoop os h size pred m end_ inner (fuel + 1) s off acc
      = some (LoopExit.running acc, s) := by
  rw [chunkLoop, if_neg hoff]

/-- A chunk whose read fails is skipped. -/
theorem chunkLoop_read_error {σ : Type} (os : OS σ) (h size : Nat) (pred : List Nat → Bool)
    (m : Int) (end_ inner fuel : Nat) (s : σ) (off : Nat) (acc : List Nat)
    (hoff : off < end_) (code : Nat) (s1 : σ)
    (hread : os.ReadProcessMemory s h off (chunkLen end_ off) = (Except.error code, s1)) :
    chunkLoop os h size pred m end_ inner (fuel + 1) s off acc
      = chunkLoop os h size pred m end_ inner fuel s1
          ((off + chunkLen end_ off) % uintptrMod) acc := by
  unfold chunkLen at hread
  rw [chunkLoop, if_pos hoff]
  simp only [hread]
  rfl

/-- A chunk whose read returns bytes is handed to the innermost loop. -/
theorem chunkLoop_read_ok {σ : Type} (os : OS σ) (h size : Nat) (pred : List Nat → Bool)
    (m : Int) (end_ inner fuel : Nat) (s : σ) (off : Nat) (acc : List Nat)
    (hoff : off < end_) (b : List Nat) (s1 : σ)
    (hread : os.ReadProcessMemory s h off (chunkLen end_ off) = (Except.ok b, s1)) :
    chunkLoop os h size pred m end_ inner (fuel + 1) s off acc
      = if 0 < b.length then
          match matchLoop size pred m off b inner 0 acc with
          | none => none
          | some (LoopExit.returned acc1) => some (LoopExit.returned acc1, s1)
          | some (LoopExit.running acc1) =>
            chunkLoop os h size pred m end_ inner fuel s1
              ((off + chunkLen end_ off) % uintptrMod) acc1
        else
          chunkLoop os h size pred m end_ inner fuel s1
            ((off + chunkLen end_ off) % uintptrMod) acc := by
  unfold chunkLen at hread
  rw [chunkLoop, if_pos hoff]
  simp only [hread]
  rfl

/-- The walk stops at a query that fails. -/
theorem regionLoop_query_fail {σ : Type} (os : OS σ) (h size : Nat) (pred : List Nat → Bool)
    (m : Int) (wo : Bool) (inner fuel : Nat) (s : σ) (addr : Nat) (acc : List Nat) (s1 : σ)
    (hq : os.VirtualQueryEx s h addr = (none, s1)) :
    regionLoop os h size pred m wo inner (fuel + 1) s addr acc = some (acc, s1) := by
  rw [regionLoop]
  simp only [hq]

/-- The walk stops at a query that reports a size of zero. -/
theorem regionLoop_size_zero {σ : Type} (os : OS σ) (h size : Nat) (pred : List Nat → Bool)
    (m : Int) (wo : Bool) (inner fuel : Nat) (s : σ) (addr : Nat) (acc : List Nat)
    (mbi : MemoryBasicInformation) (s1 : σ)
    (hq : os.VirtualQueryEx s h addr = (some mbi, s1))
    (hz : mbi.RegionSize % uintptrMod = 0) :
    regionLoop os h size pred m wo inner (fuel + 1) s addr acc = some (acc, s1) := by
  rw [regionLoop]
  simp only [hq, hz, if_true]

/-- A region that fails the filter is passed over, followed by the stop test. -/
theorem regionLoop_pass {σ : Type} (os : OS σ) (h size : Nat) (pred : List Nat → Bool)
    (m : Int) (wo : Bool) (inner fuel : Nat) (s : σ) (addr : Nat) (acc : List Nat)
    (mbi : MemoryBasicInformation) (s1 : σ)
    (hq : os.VirtualQueryEx s h addr = (some mbi, s1))
    (hz : mbi.RegionSize % uintptrMod ≠ 0) (hs : ¬ scannable mbi) :
    regionLoop os h size pred m wo inner (fuel + 1) s addr acc
      = if walkStops mbi then some (acc, s1)
        else regionLoop os h size pred m wo inner fuel s1 (regionEnd mbi) acc := by
  unfold scannable at hs
  rw [regionLoop]
  simp only [hq, hz, if_false, if_neg hs]
  rfl

/-- With `writableOnly`, a region that passes the filter but is not writable is left
through `continue`: no stop test follows. -/
theorem regionLoop_skip {σ : Type} (os : OS σ) (h size : Nat) (pred : List Nat → Bool)
    (m : Int) (wo : Bool) (inner fuel : Nat) (s : σ) (addr : Nat) (acc : List Nat)
    (mbi : MemoryBasicInformation) (s1 : σ)
    (hq : os.VirtualQueryEx s h addr = (some mbi, s1))
    (hz : mbi.RegionSize % uintptrMod ≠ 0) (hs : scannable mbi)
    (hw : wo = true ∧ isWritable mbi.Protect = false) :
    regionLoop os h size pred m wo inner (fuel + 1) s addr acc
      = regionLoop os h size pred m wo inner fuel s1 (regionEnd mbi) acc := by
  unfold scannable at hs
  rw [regionLoop]
  simp only [hq, hz, if_false, if_pos hs, if_pos hw]
  rfl

/-- A region that is scanned: the chunk loop runs, then the stop test. -/
theorem regionLoop_scan {σ : Type} (os : OS σ) (h size : Nat) (pred : List Nat → Bool)
    (m : Int) (wo : Bool) (inner fuel : Nat) (s : σ) (addr : Nat) (acc : List Nat)
    (mbi : MemoryBasicInformation) (s1 : σ)
    (hq : os.VirtualQueryEx s h addr = (some mbi, s1))
    (hz : mbi.RegionSize % uintptrMod ≠ 0) (hs : scannable mbi)
    (hw : ¬ (wo = true ∧ isWritable mbi.Protect = false)) :
    regionLoop os h size pred m wo inner (fuel + 1) s addr acc
      = match chunkLoop os h size pred m (regionEnd mbi) inner inner s1
            (mbi.BaseAddress % uintptrMod) acc with
        | none => none
        | some (LoopExit.returned acc1, s2) => some (acc1, s2)
        | some (LoopExit.running acc1, s2) =>
          if walkStops mbi then some (acc1, s2)
          else regionLoop os h size pred m wo inner fuel s2 (regionEnd mbi) acc1 := by
  unfold scannable at hs
  rw [regionLoop]
  simp only [hq, hz, if_false, if_pos hs, if_neg hw]
  rfl

/-! ## Order and position of the addresses found in one region -/

theorem chunkLen_pos (end_ off : Nat) (h : off < end_) : 0 < chunkLen end_ off := by
  unfold chunkLen maxChunk
  split <;> omega

theorem chunkLen_le (end_ off : Nat) (h : off < end_) : off + chunkLen end_ off ≤ end_ := by
  unfold chunkLen
  split <;> omega

theorem chunkLen_le_maxChunk (end_ off : Nat) : chunkLen end_ off ≤ maxChunk := by
  unfold chunkLen
  split <;> omega

theorem mem_sliceHits (size : Nat) (pred : List Nat → Bool) (offset : Nat) (b : List Nat)
    (k0 n a : Nat) :
    a ∈ sliceHits size pred offset b k0 n ↔
      ∃ k, k0 ≤ k ∧ k < k0 + n ∧ pred ((b.drop (k * size)).take size) = true ∧
        a = (offset + k * size) % uintptrMod := by
  unfold sliceHits
  simp only [List.mem_map, List.mem_filter, List.mem_range'_1]
  constructor
  · rintro ⟨k, ⟨⟨h1, h2⟩, h3⟩, h4⟩
    exact ⟨k, h1, h2, h3, h4.symm⟩
  · rintro ⟨k, h1, h2, h3, h4⟩
    exact ⟨k, ⟨⟨h1, h2⟩, h3⟩, h4.symm⟩

/-- The hits of one chunk lie inside the chunk, at slot addresses. -/
theorem sliceHits_bounds (size : Nat) (pred : List Nat → Bool) (offset : Nat) (b : List Nat)
    (hsize : 0 < size) (hb : offset + b.length ≤ uintptrMod) (a : Nat)
    (ha : a ∈ sliceHits size pred offset b 0 (b.length / size)) :
    ∃ k, a = offset + k * size ∧ k * size + size ≤ b.length ∧
      pred ((b.drop (k * size)).take size) = true := by
  rw [mem_sliceHits] at ha
  obtain ⟨k, _, h2, h3, h4⟩ := ha
  have hk : k + 1 ≤ b.length / size := by omega
  rw [Nat.le_div_iff_mul_le hsize, Nat.succ_mul] at hk
  refine ⟨k, ?_, hk, h3⟩
  rw [h4]
  apply Nat.mod_eq_of_lt
  omega

/-- The hits of one chunk are strictly ascending. -/
theorem sliceHits_pairwise (size : Nat) (pred : List Nat → Bool) (offset : Nat) (b : List Nat)
    (hsize : 0 < size) (hb : offset + b.length ≤ uintptrMod) :
    (sliceHits size pred offset b 0 (b.length / size)).Pairwise (· < ·) := by
  unfold sliceHits
  rw [List.pairwise_map]
  have h1 : ((List.range' 0 (b.length / size)).filter
      (fun k => pred ((b.drop (k * size)).take size))).Pairwise (· < ·) :=
    List.Pairwise.filter _ (List.pairwise_lt_range' 0 (b.length / size))
  refine List.Pairwise.imp_of_mem ?_ h1
  intro x y hx hy hxy
  have hy2 : y < 0 + b.length / size := (List.mem_range'_1.mp (List.mem_filter.mp hy).1).2
  have hyk : y + 1 ≤ b.length / size := by omega
  rw [Nat.le_div_iff_mul_le hsize, Nat.succ_mul] at hyk
  have hxy2 : x * size < y * size := Nat.mul_lt_mul_of_pos_right hxy hsize
  rw [Nat.mod_eq_of_lt (by omega), Nat.mod_eq_of_lt (by omega)]
  omega

theorem capped_eq_running (m : Int) (l a : List Nat) (h : capped m l = LoopExit.running a) :
    a = l ∧ ¬ capReached m l := by
  unfold capped at h
  split at h
  · cases h
  · cases h
    exact ⟨rfl, by assumption⟩

theorem capped_eq_returned (m : Int) (l a : List Nat) (h : capped m l = LoopExit.returned a) :
    a = l.take m.toNat ∧ capReached m l := by
  unfold capped at h
  split at h
  · cases h
    exact ⟨rfl, by assumption⟩
  · cases h

theorem take_append_of_not_reached (m : Int) (acc new : List Nat) (h0 : 0 < m)
    (h : ¬ capReached m acc) :
    (acc ++ new).take m.toNat = acc ++ new.take (m.toNat - acc.length) := by
  have h1 : ¬ (m ≤ (acc.length : Int)) := fun h2 => h ⟨h0, h2⟩
  have h2 : acc.length ≤ m.toNat := by omega
  rw [List.take_append_eq_append_take, List.take_of_length_le h2]

/-- The innermost loop started on a whole chunk, in closed form. -/
theorem matchLoop_chunk (size : Nat) (pred : List Nat → Bool) (m : Int) (offset : Nat)
    (b : List Nat) (hsize : 0 < size) (fuel : Nat) (acc : List Nat) (r : LoopExit)
    (hcap : ¬ capReached m acc)
    (h : matchLoop size pred m offset b fuel 0 acc = some r) :
    r = capped m (acc ++ sliceHits size pred offset b 0 (b.length / size)) := by
  have h1 : matchLoop size pred m offset b fuel (0 * size) acc = some r := by
    rw [Nat.zero_mul]
    exact h
  have := matchLoop_char size pred m offset b hsize fuel 0 acc r hcap h1
  rw [Nat.sub_zero] at this
  exact this

/-- The addresses the chunk loop adds are strictly ascending and lie between the offset it
starts at and the end of the region; when it falls through, the cap is not reached. -/
theorem chunkLoop_found {σ : Type} (os : OS σ) (h size : Nat) (pred : List Nat → Bool)
    (m : Int) (end_ inner : Nat) (hsize : 0 < size) (hend : end_ < uintptrMod) :
    ∀ (fuel : Nat) (s : σ) (off : Nat) (acc : List Nat) (r : LoopExit) (s1 : σ),
      ¬ capReached m acc →
      chunkLoop os h size pred m end_ inner fuel s off acc = some (r, s1) →
      ∃ new, r.found = acc ++ new ∧ new.Pairwise (· < ·) ∧
        (∀ a ∈ new, off ≤ a ∧ a < end_) ∧
        (∀ acc1, r = LoopExit.running acc1 → ¬ capReached m acc1) := by
  intro fuel
  induction fuel with
  | zero =>
    intro s off acc r s1 _ hrun
    rw [chunkLoop_zero] at hrun
    cases hrun
  | succ fuel ih =>
    intro s off acc r s1 hcap hrun
    by_cases hoff : off < end_
    · have hpos := chunkLen_pos end_ off hoff
      have hle := chunkLen_le end_ off hoff
      have hnext : (off + chunkLen end_ off) % uintptrMod = off + chunkLen end_ off :=
        Nat.mod_eq_of_lt (by omega)
      -- what the induction hypothesis gives after a chunk that adds nothing
      have hskip : ∀ s2, chunkLoop os h size pred m end_ inner fuel s2
          ((off + chunkLen end_ off) % uintptrMod) acc = some (r, s1) →
          ∃ new, r.found = acc ++ new ∧ new.Pairwise (· < ·) ∧
            (∀ a ∈ new, off ≤ a ∧ a < end_) ∧
            (∀ acc1, r = LoopExit.running acc1 → ¬ capReached m acc1) := by
        intro s2 h2
        obtain ⟨new, e1, e2, e3, e4⟩ := ih s2 _ acc r s1 hcap h2
        refine ⟨new, e1, e2, ?_, e4⟩
        intro a ha
        have := e3 a ha
        rw [hnext] at this
        exact ⟨by omega, this.2⟩
      rcases hread : os.ReadProcessMemory s h off (chunkLen end_ off) with ⟨code | b, s2⟩
      · rw [chunkLoop_read_error os h size pred m end_ inner fuel s off acc hoff code s2 hread]
          at hrun
        exact hskip s2 hrun
      · rw [chunkLoop_read_ok os h size pred m end_ inner fuel s off acc hoff b s2 hread] at hrun
        by_cases hb : 0 < b.length
        · rw [if_pos hb] at hrun
          have hlen : b.length ≤ chunkLen end_ off :=
            os.read_le s h off _ b (by rw [hread])
          have hin : off + b.length ≤ uintptrMod := by omega
          cases hm : matchLoop size pred m off b inner 0 acc with
          | none =>
            rw [hm] at hrun
            cases hrun
          | some r1 =>
            rw [hm] at hrun
            have hchar := matchLoop_chunk size pred m off b hsize inner acc r1 hcap hm
            have hpw := sliceHits_pairwise size pred off b hsize hin
            have hbd : ∀ a ∈ sliceHits size pred off b 0 (b.length / size),
                off ≤ a ∧ a < off + chunkLen end_ off := by
              intro a ha
              obtain ⟨k, e1, e2, _⟩ := sliceHits_bounds size pred off b hsize hin a ha
              omega
            cases r1 with
            | returned acc1 =>
              simp only at hrun
              cases hrun
              obtain ⟨e1, e2⟩ := capped_eq_returned _ _ _ hchar.symm
              rw [take_append_of_not_reached m acc _ e2.1 hcap] at e1
              refine ⟨_, e1, ?_, ?_, ?_⟩
              · exact List.Pairwise.sublist (List.take_sublist _ _) hpw
              · intro a ha
                have := hbd a (List.mem_of_mem_take ha)
                omega
              · intro acc2 h2
                cases h2
            | running acc1 =>
              simp only at hrun
              obtain ⟨e1, e2⟩ := capped_eq_running _ _ _ hchar.symm
              subst e1
              obtain ⟨new, f1, f2, f3, f4⟩ := ih s2 _ _ r s1 e2 hrun
              refine ⟨sliceHits size pred off b 0 (b.length / size) ++ new, ?_, ?_, ?_, f4⟩
              · rw [f1, List.append_assoc]
              · rw [List.pairwise_append]
                refine ⟨hpw, f2, ?_⟩
                intro x hx y hy
                have h1 := hbd x hx
                have h2 := f3 y hy
                rw [hnext] at h2
                omega
              · intro a ha
                rcases List.mem_append.mp ha with h1 | h1
                · have := hbd a h1
                  omega
                · have := f3 a h1
                  rw [hnext] at this
                  omega
        · rw [if_neg hb] at hrun
          exact hskip s2 hrun
    · rw [chunkLoop_done os h size pred m end_ inner fuel s off acc hoff] at hrun
      cases hrun
      refine ⟨[], by simp [LoopExit.found], List.Pairwise.nil, by simp, ?_⟩
      intro acc1 h1
      cases h1
      exact hcap

/-! ## Order of the addresses found by the walk -/

theorem regionEnd_lt (mbi : MemoryBasicInformation) : regionEnd mbi < uintptrMod :=
  Nat.mod_lt _ (by decide)

theorem regionEnd_of_not_stops (mbi : MemoryBasicInformation) (h : ¬ walkStops mbi) :
    mbi.BaseAddress % uintptrMod ≤ regionEnd mbi := by
  unfold walkStops at h
  omega

/-- The addresses the walk adds are strictly ascending and not below the address the walk
is at. -/
theorem regionLoop_found {σ : Type} (os : OS σ) (h size : Nat) (pred : List Nat → Bool)
    (m : Int) (wo : Bool) (inner : Nat) (hsize : 0 < size) (hos : os.baseNotBelow)
    (hskip : wo = true → os.skipsInRange) :
    ∀ (fuel : Nat) (s : σ) (addr : Nat) (acc R : List Nat) (s1 : σ),
      addr < uintptrMod → ¬ capReached m acc →
      regionLoop os h size pred m wo inner fuel s addr acc = some (R, s1) →
      ∃ new, R = acc ++ new ∧ new.Pairwise (· < ·) ∧ ∀ a ∈ new, addr ≤ a := by
  intro fuel
  induction fuel with
  | zero =>
    intro s addr acc R s1 _ _ hrun
    rw [regionLoop_zero] at hrun
    cases hrun
  | succ fuel ih =>
    intro s addr acc R s1 haddr hcap hrun
    have hnext := fun (mbi : MemoryBasicInformation) => regionEnd_lt mbi
    rcases hq : os.VirtualQueryEx s h addr with ⟨_ | mbi, s2⟩
    · rw [regionLoop_query_fail os h size pred m wo inner fuel s addr acc s2 hq] at hrun
      cases hrun
      exact ⟨[], by simp, List.Pairwise.nil, by simp⟩
    · have hbase := hos s h addr mbi s2 haddr hq
      by_cases hz : mbi.RegionSize % uintptrMod = 0
      · rw [regionLoop_size_zero os h size pred m wo inner fuel s addr acc mbi s2 hq hz] at hrun
        cases hrun
        exact ⟨[], by simp, List.Pairwise.nil, by simp⟩
      · by_cases hs : scannable mbi
        · by_cases hw : wo = true ∧ isWritable mbi.Protect = false
          · rw [regionLoop_skip os h size pred m wo inner fuel s addr acc mbi s2 hq hz hs hw]
              at hrun
            obtain ⟨new, e1, e2, e3⟩ := ih s2 _ acc R s1 (hnext mbi) hcap hrun
            have hin := hskip hw.1 s h addr mbi s2 hq hs hw.2
            have hend : regionEnd mbi
                = mbi.BaseAddress % uintptrMod + mbi.RegionSize % uintptrMod :=
              Nat.mod_eq_of_lt hin
            refine ⟨new, e1, e2, ?_⟩
            intro a ha
            have := e3 a ha
            omega
          · rw [regionLoop_scan os h size pred m wo inner fuel s addr acc mbi s2 hq hz hs hw]
              at hrun
            cases hc : chunkLoop os h size pred m (regionEnd mbi) inner inner s2
                (mbi.BaseAddress % uintptrMod) acc with
            | none =>
              rw [hc] at hrun
              cases hrun
            | some res =>
              obtain ⟨r, s3⟩ := res
              rw [hc] at hrun
              obtain ⟨new1, f1, f2, f3, f4⟩ := chunkLoop_found os h size pred m (regionEnd mbi)
                inner hsize (regionEnd_lt mbi) inner s2 _ acc r s3 hcap hc
              cases r with
              | returned acc1 =>
                simp only at hrun
                cases hrun
                refine ⟨new1, f1, f2, ?_⟩
                intro a ha
                have := f3 a ha
                omega
              | running acc1 =>
                simp only at hrun
                simp only [LoopExit.found] at f1
                by_cases hstop : walkStops mbi
                · rw [if_pos hstop] at hrun
                  cases hrun
                  refine ⟨new1, f1, f2, ?_⟩
                  intro a ha
                  have := f3 a ha
                  omega
                · rw [if_neg hstop] at hrun
                  obtain ⟨new2, g1, g2, g3⟩ := ih s3 _ acc1 R s1 (hnext mbi) (f4 acc1 rfl) hrun
                  have hge := regionEnd_of_not_stops mbi hstop
                  refine ⟨new1 ++ new2, ?_, ?_, ?_⟩
                  · rw [g1, f1, List.append_assoc]
                  · rw [List.pairwise_append]
                    refine ⟨f2, g2, ?_⟩
                    intro x hx y hy
                    have h1 := f3 x hx
                    have h2 := g3 y hy
                    omega
                  · intro a ha
                    rcases List.mem_append.mp ha with h1 | h1
                    · have := f3 a h1
                      omega
                    · have := g3 a h1
                      omega
        · rw [regionLoop_pass os h size pred m wo inner fuel s addr acc mbi s2 hq hz hs] at hrun
          by_cases hstop : walkStops mbi
          · rw [if_pos hstop] at hrun
            cases hrun
            exact ⟨[], by simp, List.Pairwise.nil, by simp⟩
          · rw [if_neg hstop] at hrun
            obtain ⟨new, e1, e2, e3⟩ := ih s2 _ acc R s1 (hnext mbi) hcap hrun
            have hge := regionEnd_of_not_stops mbi hstop
            refine ⟨new, e1, e2, ?_⟩
            intro a ha
            have := e3 a ha
            omega

theorem not_capReached_nil (m : Int) : ¬ capReached m [] := by
  unfold capReached
  simp

/-- Inversion of `scanNumeric`: a successful scan is a run of the region walk from
address 0 with nothing found yet, under a handle that is not zero. -/
theorem scanNumeric_ok {σ : Type} (os : OS σ) (fuel : Nat) (s : σ) (p : Option Process)
    (size : Nat) (pred : List Nat → Bool) (m : Int) (wo : Bool) (R : List Nat) (s1 : σ)
    (hrun : scanNumeric os fuel s p size pred m wo = some (Except.ok R, s1)) :
    ∃ pr, p = some pr ∧ pr.Handle ≠ 0 ∧
      regionLoop os pr.Handle size pred m wo fuel fuel s 0 [] = some (R, s1) := by
  unfold scanNumeric at hrun
  cases p with
  | none => simp at hrun
  | some pr =>
    simp only at hrun
    by_cases hh : pr.Handle = 0
    · rw [if_pos hh] at hrun
      simp at hrun
    · rw [if_neg hh] at hrun
      refine ⟨pr, rfl, hh, ?_⟩
      cases hr : regionLoop os pr.Handle size pred m wo fuel fuel s 0 [] with
      | none =>
        rw [hr] at hrun
        cases hrun
      | some res =>
        obtain ⟨acc, s2⟩ := res
        rw [hr] at hrun
        simp only [Option.some.injEq, Prod.mk.injEq, Except.ok.injEq] at hrun
        rw [hrun.1, hrun.2]

/-- C7 (amended). Result ordering: when no answer of the region query reports a region that
starts below the queried address, and, for a writable-only scan, no skipped region ends at
or beyond the top of the address space, the address list returned by a scan of width
`size > 0` is strictly ascending, hence free of duplicates, whatever the chunk reads
answer and whatever the cap. -/
theorem scan_result_ascending {σ : Type} (os : OS σ) (fuel : Nat) (s : σ) (p : Option Process)
    (size : Nat) (pred : List Nat → Bool) (m : Int) (wo : Bool) (R : List Nat) (s1 : σ)
    (hsize : 0 < size) (hos : os.baseNotBelow) (hskip : wo = true → os.skipsInRange)
    (hrun : scanNumeric os fuel s p size pred m wo = some (Except.ok R, s1)) :
    R.Pairwise (· < ·) ∧ R.Nodup := by
  obtain ⟨pr, _, _, hr⟩ := scanNumeric_ok os fuel s p size pred m wo R s1 hrun
  obtain ⟨new, e1, e2, _⟩ := regionLoop_found os pr.Handle size pred m wo fuel hsize hos hskip
    fuel s 0 [] R s1 (by decide) (not_capReached_nil m) hr
  rw [List.nil_append] at e1
  subst e1
  exact ⟨e2, List.Pairwise.imp (fun h => Nat.ne_of_lt h) e2⟩

/-- C7, as stated, fails: with overlapping region answers the `uint32` scan for
`0x07070707` returns `[0, 4, 0, 4, 8, 12]`, which is not ascending and repeats 0 and 4. -/
theorem scan_result_ascending_counterexample :
    ScanUint32 overlapOS 8 () (some demoProcess) 0x07070707 0 false
        = some (Except.ok [0, 4, 0, 4, 8, 12], ()) ∧
      ¬ ([0, 4, 0, 4, 8, 12] : List Nat).Pairwise (· < ·) ∧
      ¬ ([0, 4, 0, 4, 8, 12] : List Nat).Nodup := by
  decide

theorem regionAt_base (rs : List Region) :
    ∀ (base addr : Nat) (mbi : MemoryBasicInformation), regionAt rs base addr = some mbi →
      mbi.BaseAddress = addr := by
  induction rs with
  | nil =>
    intro base addr mbi h
    simp [regionAt] at h
  | cons r rs ih =>
    intro base addr mbi h
    rw [regionAt] at h
    split at h
    · cases h
      rfl
    · exact ih _ _ _ h

theorem target_query (t : Target) (h addr : Nat) (mbi : MemoryBasicInformation) (t1 : Target)
    (hq : Target.os.VirtualQueryEx t h addr = (some mbi, t1)) :
    h ≠ 0 ∧ regionAt t.regions 0 addr = some mbi ∧ t1 = t := by
  simp only [Target.os, Prod.mk.injEq] at hq
  obtain ⟨h1, h2⟩ := hq
  by_cases hh : h = 0
  · rw [if_pos hh] at h1
    cases h1
  · rw [if_neg hh] at h1
    exact ⟨hh, h1, h2.symm⟩

/-- The quiescent target answers every region query with a region starting at the queried
address. -/
theorem target_baseNotBelow : Target.os.baseNotBelow := by
  intro t h addr mbi t1 haddr hq
  obtain ⟨_, h1, _⟩ := target_query t h addr mbi t1 hq
  rw [regionAt_base _ _ _ _ h1, Nat.mod_eq_of_lt haddr]

/-- C7 (amended), at a concrete input: the `uint32` scan of the small target for
`0x2A2A2A2A` returns the twelve slot addresses of its two committed regions in order. -/
theorem scan_result_ascending_witness :
    ([0x10000, 0x10004, 0x10008, 0x1000C, 0x10010, 0x10014, 0x10018, 0x1001C,
      0x10020, 0x10024, 0x10028, 0x1002C] : List Nat).Pairwise (· < ·) ∧
    ([0x10000, 0x10004, 0x10008, 0x1000C, 0x10010, 0x10014, 0x10018, 0x1001C,
      0x10020, 0x10024, 0x10028, 0x1002C] : List Nat).Nodup :=
  scan_result_ascending Target.os 16 demoTarget (some demoProcess) 4
    (fun b => decide (Uint32 b = 0x2A2A2A2A)) 0 false _ demoTarget (by decide)
    target_baseNotBelow (fun h => by cases h) rfl

/-! ## Termination of the walk -/

/-- The chunk loop ends: fuel above the length of the region is enough, when the innermost
loop gets fuel above the chunk size. -/
theorem chunkLoop_terminates {σ : Type} (os : OS σ) (h size : Nat) (pred : List Nat → Bool)
    (m : Int) (end_ inner : Nat) (hsize : 0 < size) (hend : end_ < uintptrMod)
    (hinner : maxChunk < inner) :
    ∀ (fuel : Nat) (s : σ) (off : Nat) (acc : List Nat), end_ - off < fuel →
      ∃ r s1, chunkLoop os h size pred m end_ inner fuel s off acc = some (r, s1) := by
  intro fuel
  induction fuel with
  | zero =>
    intro s off acc hf
    omega
  | succ fuel ih =>
    intro s off acc hf
    by_cases hoff : off < end_
    · have hpos := chunkLen_pos end_ off hoff
      have hle := chunkLen_le end_ off hoff
      have hnext : (off + chunkLen end_ off) % uintptrMod = off + chunkLen end_ off :=
        Nat.mod_eq_of_lt (by omega)
      have hf2 : end_ - (off + chunkLen end_ off) < fuel := by omega
      rcases hread : os.ReadProcessMemory s h off (chunkLen end_ off) with ⟨code | b, s2⟩
      · rw [chunkLoop_read_error os h size pred m end_ inner fuel s off acc hoff code s2 hread,
          hnext]
        exact ih s2 _ acc hf2
      · rw [chunkLoop_read_ok os h size pred m end_ inner fuel s off acc hoff b s2 hread, hnext]
        by_cases hb : 0 < b.length
        · rw [if_pos hb]
          have hlen : b.length ≤ chunkLen end_ off :=
            os.read_le s h off _ b (by rw [hread])
          have hmax := chunkLen_le_maxChunk end_ off
          obtain ⟨f, hf3⟩ : ∃ f, inner = f + 1 := ⟨inner - 1, by omega⟩
          obtain ⟨r1, hr1⟩ := matchLoop_terminates size pred m off b hsize f 0 acc (by omega)
          rw [hf3, hr1]
          cases r1 with
          | returned acc1 => exact ⟨_, _, rfl⟩
          | running acc1 =>
            simp only
            rw [← hf3]
            exact ih s2 _ acc1 hf2
        · rw [if_neg hb]
          exact ih s2 _ acc hf2
    · rw [chunkLoop_done os h size pred m end_ inner fuel s off acc hoff]
      exact ⟨_, _, rfl⟩

/-- When the walk goes on after the stop test, it goes on above the region base. -/
theorem regionEnd_gt_of_not_stops (mbi : MemoryBasicInformation) (addr : Nat)
    (hp : addr < mbi.BaseAddress % uintptrMod + mbi.RegionSize % uintptrMod)
    (h : ¬ walkStops mbi) : addr < regionEnd mbi := by
  unfold walkStops at h
  have h1 : mbi.BaseAddress % uintptrMod < uintptrMod := Nat.mod_lt _ (by decide)
  have h2 : mbi.RegionSize % uintptrMod < uintptrMod := Nat.mod_lt _ (by decide)
  by_cases hlt : mbi.BaseAddress % uintptrMod + mbi.RegionSize % uintptrMod < uintptrMod
  · have : regionEnd mbi = mbi.BaseAddress % uintptrMod + mbi.RegionSize % uintptrMod :=
      Nat.mod_eq_of_lt hlt
    omega
  · have : regionEnd mbi
        = mbi.BaseAddress % uintptrMod + mbi.RegionSize % uintptrMod - uintptrMod := by
      unfold regionEnd
      rw [Nat.mod_eq_sub_mod (by omega)]
      exact Nat.mod_eq_of_lt (by omega)
    omega

/-- The walk ends when every answer extends past the queried address. -/
theorem regionLoop_terminates {σ : Type} (os : OS σ) (h size : Nat) (pred : List Nat → Bool)
    (m : Int) (wo : Bool) (inner : Nat) (hsize : 0 < size) (hos : os.extendsPastQueried)
    (hskip : wo = true → os.skipsInRange) (hinner : uintptrMod < inner) :
    ∀ (fuel : Nat) (s : σ) (addr : Nat) (acc : List Nat),
      addr < uintptrMod → uintptrMod - addr < fuel →
      ∃ R s1, regionLoop os h size pred m wo inner fuel s addr acc = some (R, s1) := by
  have hmc : maxChunk < inner := by
    have : maxChunk < uintptrMod := by decide
    omega
  intro fuel
  induction fuel with
  | zero =>
    intro s addr acc _ hf
    omega
  | succ fuel ih =>
    intro s addr acc haddr hf
    rcases hq : os.VirtualQueryEx s h addr with ⟨_ | mbi, s2⟩
    · rw [regionLoop_query_fail os h size pred m wo inner fuel s addr acc s2 hq]
      exact ⟨_, _, rfl⟩
    · by_cases hz : mbi.RegionSize % uintptrMod = 0
      · rw [regionLoop_size_zero os h size pred m wo inner fuel s addr acc mbi s2 hq hz]
        exact ⟨_, _, rfl⟩
      · have hp := hos s h addr mbi s2 haddr hq hz
        have hlt := regionEnd_lt mbi
        by_cases hs : scannable mbi
        · by_cases hw : wo = true ∧ isWritable mbi.Protect = false
          · rw [regionLoop_skip os h size pred m wo inner fuel s addr acc mbi s2 hq hz hs hw]
            have hin := hskip hw.1 s h addr mbi s2 hq hs hw.2
            have hend : regionEnd mbi
                = mbi.BaseAddress % uintptrMod + mbi.RegionSize % uintptrMod :=
              Nat.mod_eq_of_lt hin
            exact ih s2 _ acc hlt (by omega)
          · rw [regionLoop_scan os h size pred m wo inner fuel s addr acc mbi s2 hq hz hs hw]
            obtain ⟨r, s3, hc⟩ := chunkLoop_terminates os h size pred m (regionEnd mbi) inner
              hsize hlt hmc inner s2 (mbi.BaseAddress % uintptrMod) acc (by omega)
            rw [hc]
            cases r with
            | returned acc1 => exact ⟨_, _, rfl⟩
            | running acc1 =>
              simp only
              by_cases hstop : walkStops mbi
              · rw [if_pos hstop]
                exact ⟨_, _, rfl⟩
              · rw [if_neg hstop]
                have := regionEnd_gt_of_not_stops mbi addr hp hstop
                exact ih s3 _ acc1 hlt (by omega)
        · rw [regionLoop_pass os h size pred m wo inner fuel s addr acc mbi s2 hq hz hs]
          by_cases hstop : walkStops mbi
          · rw [if_pos hstop]
            exact ⟨_, _, rfl⟩
          · rw [if_neg hstop]
            have := regionEnd_gt_of_not_stops mbi addr hp hstop
            exact ih s2 _ acc hlt (by omega)

/-- A scan ends when every answer extends past the queried address: `2 ^ 64 + 1`
iterations per loop are enough. -/
theorem scanNumeric_terminates {σ : Type} (os : OS σ) (s : σ) (p : Option Process)
    (size : Nat) (pred : List Nat → Bool) (m : Int) (wo : Bool) (hsize : 0 < size)
    (hos : os.extendsPastQueried) (hskip : wo = true → os.skipsInRange) :
    ∃ r, scanNumeric os (uintptrMod + 1) s p size pred m wo = some r := by
  unfold scanNumeric
  cases p with
  | none => exact ⟨_, rfl⟩
  | some pr =>
    simp only
    by_cases hh : pr.Handle = 0
    · rw [if_pos hh]
      exact ⟨_, rfl⟩
    · rw [if_neg hh]
      obtain ⟨R, s1, hr⟩ := regionLoop_terminates os pr.Handle size pred m wo (uintptrMod + 1)
        hsize hos hskip (by omega) (uintptrMod + 1) s 0 [] (by decide) (by omega)
      rw [hr]
      exact ⟨_, rfl⟩

theorem regionAt_size_pos (rs : List Region) :
    ∀ (base addr : Nat) (mbi : MemoryBasicInformation), regionAt rs base addr = some mbi →
      0 < mbi.RegionSize := by
  induction rs with
  | nil =>
    intro base addr mbi h
    simp [regionAt] at h
  | cons r rs ih =>
    intro base addr mbi h
    rw [regionAt] at h
    split at h
    · cases h
      simp only
      omega
    · exact ih _ _ _ h

/-- The quiescent target answers every region query with a region that extends past the
queried address. -/
theorem target_extendsPastQueried : Target.os.extendsPastQueried := by
  intro t h addr mbi t1 haddr hq hz
  obtain ⟨_, h1, _⟩ := target_query t h addr mbi t1 hq
  rw [regionAt_base _ _ _ _ h1, Nat.mod_eq_of_lt haddr]
  omega

theorem stuckOS_regionLoop (pred : List Nat → Bool) (inner : Nat) :
    ∀ (fuel addr : Nat) (acc : List Nat),
      regionLoop stuckOS 1 4 pred 0 false inner fuel () addr acc = none := by
  intro fuel
  induction fuel with
  | zero =>
    intro addr acc
    rfl
  | succ fuel ih =>
    intro addr acc
    have hq : stuckOS.VirtualQueryEx () 1 addr
        = (some ⟨0, 4096, 0x10000, PAGE_NOACCESS⟩, ()) := rfl
    rw [regionLoop_pass stuckOS 1 4 pred 0 false inner fuel () addr acc _ () hq
      (by decide) (by decide), if_neg (by decide)]
    exact ih _ acc

/-- C10 (amended). Walker termination: when every answer of the region query that reports
a size other than zero extends past the address queried, and, for a writable-only scan, no
skipped region ends at or beyond the top of the address space, the scan ends (for a width
`size > 0`).  The walk stops at a query that fails, at a query that reports a size of zero,
and, after a region that is not left through the writable-only `continue`, when `base+size`
wraps to zero or below the base: the remaining fuel is then not used. -/
theorem walk_terminates {σ : Type} (os : OS σ) (size : Nat) (pred : List Nat → Bool) (m : Int)
    (wo : Bool) :
    (0 < size → os.extendsPastQueried → (wo = true → os.skipsInRange) →
      ∀ s p, ∃ fuel r, scanNumeric os fuel s p size pred m wo = some r) ∧
    (∀ h inner fuel s addr acc s1, os.VirtualQueryEx s h addr = (none, s1) →
      regionLoop os h size pred m wo inner (fuel + 1) s addr acc = some (acc, s1)) ∧
    (∀ h inner fuel s addr acc mbi s1, os.VirtualQueryEx s h addr = (some mbi, s1) →
      mbi.RegionSize % uintptrMod = 0 →
      regionLoop os h size pred m wo inner (fuel + 1) s addr acc = some (acc, s1)) ∧
    (∀ h inner fuel s addr acc mbi s1, os.VirtualQueryEx s h addr = (some mbi, s1) →
      mbi.RegionSize % uintptrMod ≠ 0 →
      ¬ (scannable mbi ∧ wo = true ∧ isWritable mbi.Protect = false) → walkStops mbi →
      regionLoop os h size pred m wo inner (fuel + 1) s addr acc
        = regionLoop os h size pred m wo inner 1 s addr acc) := by
  refine ⟨?_, ?_, ?_, ?_⟩
  · intro hsize hos hskip s p
    exact ⟨uintptrMod + 1, scanNumeric_terminates os s p size pred m wo hsize hos hskip⟩
  · intro h inner fuel s addr acc s1 hq
    exact regionLoop_query_fail os h size pred m wo inner fuel s addr acc s1 hq
  · intro h inner fuel s addr acc mbi s1 hq hz
    exact regionLoop_size_zero os h size pred m wo inner fuel s addr acc mbi s1 hq hz
  · intro h inner fuel s addr acc mbi s1 hq hz hns hstop
    by_cases hs : scannable mbi
    · have hw : ¬ (wo = true ∧ isWritable mbi.Protect = false) := fun h1 => hns ⟨hs, h1⟩
      rw [regionLoop_scan os h size pred m wo inner fuel s addr acc mbi s1 hq hz hs hw,
        regionLoop_scan os h size pred m wo inner 0 s addr acc mbi s1 hq hz hs hw]
      simp only [if_pos hstop]
    · rw [regionLoop_pass os h size pred m wo inner fuel s addr acc mbi s1 hq hz hs,
        regionLoop_pass os h size pred m wo inner 0 s addr acc mbi s1 hq hz hs]
      simp only [if_pos hstop]

/-- C10 (amended), at a concrete input: the `uint32` scan of the small target ends. -/
theorem walk_terminates_witness :
    ∃ fuel r, scanNumeric Target.os fuel demoTarget (some demoProcess) 4
      (fun b => decide (Uint32 b = 0x2A2A2A2A)) 0 false = some r :=
  (walk_terminates Target.os 4 (fun b => decide (Uint32 b = 0x2A2A2A2A)) 0 false).1
    (by decide) target_extendsPastQueried (fun h => by cases h) demoTarget (some demoProcess)

/-- C10, as stated, fails: against an operating system that answers every query with the
region `[0, 4096)` the walk never ends, although no query fails, no size is zero and
`base+size` never wraps; the second query, made at 4096, is answered with a region that
does not advance past 4096, and the walk goes on. -/
theorem walk_terminates_counterexample :
    ¬ ∃ fuel r, ScanUint32 stuckOS fuel () (some demoProcess) 0 0 false = some r := by
  rintro ⟨fuel, r, h⟩
  unfold ScanUint32 scanNumeric at h
  simp only [demoProcess] at h
  rw [if_neg (by decide), stuckOS_regionLoop] at h
  cases h

/-! ## The cap -/

/-- The innermost loop only appends. -/
theorem matchLoop_extends (size : Nat) (pred : List Nat → Bool) (m : Int) (offset : Nat)
    (b : List Nat) :
    ∀ (fuel i : Nat) (acc : List Nat) (r : LoopExit),
      matchLoop size pred m offset b fuel i acc = some r → ∃ new, r.found = acc ++ new := by
  intro fuel
  induction fuel with
  | zero =>
    intro i acc r h
    simp [matchLoop] at h
  | succ fuel ih =>
    intro i acc r h
    rw [matchLoop] at h
    split at h
    · split at h
      · simp only at h
        split at h
        · cases h
          exact ⟨_, rfl⟩
        · obtain ⟨new, e⟩ := ih _ _ r h
          exact ⟨_ :: new, by rw [e, List.append_assoc]; rfl⟩
      · exact ih _ _ r h
    · cases h
      exact ⟨[], by simp [LoopExit.found]⟩

/-- Without a cap the innermost loop is never left through `return`. -/
theorem matchLoop_nocap_running (size : Nat) (pred : List Nat → Bool) (offset : Nat)
    (b : List Nat) :
    ∀ (fuel i : Nat) (acc : List Nat) (r : LoopExit),
      matchLoop size pred 0 offset b fuel i acc = some r → ∃ l, r = LoopExit.running l := by
  intro fuel
  induction fuel with
  | zero =>
    intro i acc r h
    simp [matchLoop] at h
  | succ fuel ih =>
    intro i acc r h
    rw [matchLoop] at h
    split at h
    · split at h
      · simp only at h
        rw [if_neg (by omega)] at h
        exact ih _ _ r h
      · exact ih _ _ r h
    · cases h
      exact ⟨_, rfl⟩

/-- The innermost loop under a cap, from its run without a cap. -/
theorem matchLoop_cap (size : Nat) (pred : List Nat → Bool) (m : Int) (offset : Nat)
    (b : List Nat) :
    ∀ (fuel i : Nat) (acc l : List Nat), ¬ capReached m acc →
      matchLoop size pred 0 offset b fuel i acc = some (LoopExit.running l) →
      matchLoop size pred m offset b fuel i acc = some (capped m l) := by
  intro fuel
  induction fuel with
  | zero =>
    intro i acc l _ h
    simp [matchLoop] at h
  | succ fuel ih =>
    intro i acc l hcap h
    rw [matchLoop] at h ⊢
    by_cases hle : i + size ≤ b.length
    · rw [if_pos hle] at h ⊢
      by_cases hp : pred ((b.drop i).take size) = true
      · rw [if_pos hp] at h ⊢
        simp only at h ⊢
        rw [if_neg (by omega)] at h
        by_cases hc : 0 < m ∧ m ≤ ((acc ++ [(offset + i) % uintptrMod]).length : Int)
        · rw [if_pos hc]
          obtain ⟨new, e⟩ := matchLoop_extends size pred 0 offset b _ _ _ _ h
          simp only [LoopExit.found] at e
          rw [e]
          congr 1
          apply (capped_append_of_reached m _ _ hc.1 _).symm
          have h1 := hc.2
          have h2 : ¬ (m ≤ (acc.length : Int)) := fun h3 => hcap ⟨hc.1, h3⟩
          rw [List.length_append] at h1 ⊢
          simp only [List.length_singleton] at h1 ⊢
          push_cast at h1 ⊢
          omega
        · rw [if_neg hc]
          exact ih _ _ l hc h
      · rw [if_neg hp] at h ⊢
        exact ih _ _ l hcap h
    · rw [if_neg hle] at h ⊢
      cases h
      rw [capped_of_not_reached m _ hcap]

/-- The chunk loop only appends. -/
theorem chunkLoop_extends {σ : Type} (os : OS σ) (h size : Nat) (pred : List Nat → Bool)
    (m : Int) (end_ inner : Nat) :
    ∀ (fuel : Nat) (s : σ) (off : Nat) (acc : List Nat) (r : LoopExit) (s1 : σ),
      chunkLoop os h size pred m end_ inner fuel s off acc = some (r, s1) →
      ∃ new, r.found = acc ++ new := by
  intro fuel
  induction fuel with
  | zero =>
    intro s off acc r s1 hrun
    rw [chunkLoop_zero] at hrun
    cases hrun
  | succ fuel ih =>
    intro s off acc r s1 hrun
    by_cases hoff : off < end_
    · rcases hread : os.ReadProcessMemory s h off (chunkLen end_ off) with ⟨code | b, s2⟩
      · rw [chunkLoop_read_error os h size pred m end_ inner fuel s off acc hoff code s2 hread]
          at hrun
        exact ih s2 _ acc r s1 hrun
      · rw [chunkLoop_read_ok os h size pred m end_ inner fuel s off acc hoff b s2 hread] at hrun
        by_cases hb : 0 < b.length
        · rw [if_pos hb] at hrun
          cases hm : matchLoop size pred m off b inner 0 acc with
          | none =>
            rw [hm] at hrun
            cases hrun
          | some r1 =>
            rw [hm] at hrun
            obtain ⟨new1, e1⟩ := matchLoop_extends size pred m off b inner 0 acc r1 hm
            cases r1 with
            | returned acc1 =>
              simp only at hrun
              cases hrun
              exact ⟨new1, e1⟩
            | running acc1 =>
              simp only at hrun
              simp only [LoopExit.found] at e1
              obtain ⟨new2, e2⟩ := ih s2 _ acc1 r s1 hrun
              exact ⟨new1 ++ new2, by rw [e2, e1, List.append_assoc]⟩
        · rw [if_neg hb] at hrun
          exact ih s2 _ acc r s1 hrun
    · rw [chunkLoop_done os h size pred m end_ inner fuel s off acc hoff] at hrun
      cases hrun
      exact ⟨[], by simp [LoopExit.found]⟩

/-- Without a cap the chunk loop is never left through `return`. -/
theorem chunkLoop_nocap_running {σ : Type} (os : OS σ) (h size : Nat) (pred : List Nat → Bool)
    (end_ inner : Nat) :
    ∀ (fuel : Nat) (s : σ) (off : Nat) (acc : List Nat) (r : LoopExit) (s1 : σ),
      chunkLoop os h size pred 0 end_ inner fuel s off acc = some (r, s1) →
      ∃ l, r = LoopExit.running l := by
  intro fuel
  induction fuel with
  | zero =>
    intro s off acc r s1 hrun
    rw [chunkLoop_zero] at hrun
    cases hrun
  | succ fuel ih =>
    intro s off acc r s1 hrun
    by_cases hoff : off < end_
    · rcases hread : os.ReadProcessMemory s h off (chunkLen end_ off) with ⟨code | b, s2⟩
      · rw [chunkLoop_read_error os h size pred 0 end_ inner fuel s off acc hoff code s2 hread]
          at hrun
        exact ih s2 _ acc r s1 hrun
      · rw [chunkLoop_read_ok os h size pred 0 end_ inner fuel s off acc hoff b s2 hread] at hrun
        by_cases hb : 0 < b.length
        · rw [if_pos hb] at hrun
          cases hm : matchLoop size pred 0 off b inner 0 acc with
          | none =>
            rw [hm] at hrun
            cases hrun
          | some r1 =>
            rw [hm] at hrun
            obtain ⟨l1, e1⟩ := matchLoop_nocap_running size pred off b inner 0 acc r1 hm
            subst e1
            simp only at hrun
            exact ih s2 _ l1 r s1 hrun
        · rw [if_neg hb] at hrun
          exact ih s2 _ acc r s1 hrun
    · rw [chunkLoop_done os h size pred 0 end_ inner fuel s off acc hoff] at hrun
      cases hrun
      exact ⟨_, rfl⟩

theorem capped_of_prefix_reached (m : Int) (l rest : List Nat) (h : capReached m l) :
    capped m (l ++ rest) = capped m l := by
  have h1 : capReached m (l ++ rest) := by
    refine ⟨h.1, ?_⟩
    have := h.2
    rw [List.length_append]
    push_cast
    omega
  unfold capped
  rw [if_pos h, if_pos h1]
  congr 1
  have h2 : m.toNat ≤ l.length := by
    have := h.2
    omega
  rw [List.take_append_of_le_length h2]

/-- The chunk loop under a cap, from its run without a cap: it leaves with the same list
cut at the cap, and in the same OS state when the cap is not reached. -/
theorem chunkLoop_cap {σ : Type} (os : OS σ) (h size : Nat) (pred : List Nat → Bool)
    (m : Int) (end_ inner : Nat) :
    ∀ (fuel : Nat) (s : σ) (off : Nat) (acc l : List Nat) (s0 : σ), ¬ capReached m acc →
      chunkLoop os h size pred 0 end_ inner fuel s off acc = some (LoopExit.running l, s0) →
      ∃ s1, chunkLoop os h size pred m end_ inner fuel s off acc = some (capped m l, s1) ∧
        (¬ capReached m l → s1 = s0) := by
  intro fuel
  induction fuel with
  | zero =>
    intro s off acc l s0 _ hrun
    rw [chunkLoop_zero] at hrun
    cases hrun
  | succ fuel ih =>
    intro s off acc l s0 hcap hrun
    by_cases hoff : off < end_
    · rcases hread : os.ReadProcessMemory s h off (chunkLen end_ off) with ⟨code | b, s2⟩
      · rw [chunkLoop_read_error os h size pred 0 end_ inner fuel s off acc hoff code s2 hread]
          at hrun
        rw [chunkLoop_read_error os h size pred m end_ inner fuel s off acc hoff code s2 hread]
        exact ih s2 _ acc l s0 hcap hrun
      · rw [chunkLoop_read_ok os h size pred 0 end_ inner fuel s off acc hoff b s2 hread] at hrun
        rw [chunkLoop_read_ok os h size pred m end_ inner fuel s off acc hoff b s2 hread]
        by_cases hb : 0 < b.length
        · rw [if_pos hb] at hrun
          rw [if_pos hb]
          cases hm : matchLoop size pred 0 off b inner 0 acc with
          | none =>
            rw [hm] at hrun
            cases hrun
          | some r1 =>
            rw [hm] at hrun
            obtain ⟨l1, e1⟩ := matchLoop_nocap_running size pred off b inner 0 acc r1 hm
            subst e1
            simp only at hrun
            rw [matchLoop_cap size pred m off b inner 0 acc l1 hcap hm]
            by_cases hc : capReached m l1
            · obtain ⟨rest, e2⟩ := chunkLoop_extends os h size pred 0 end_ inner fuel s2 _ l1
                _ s0 hrun
              simp only [LoopExit.found] at e2
              have e3 : capped m l = capped m l1 := by
                rw [e2]
                exact capped_of_prefix_reached m l1 rest hc
              have hc2 : capReached m l := by
                refine ⟨hc.1, ?_⟩
                have := hc.2
                rw [e2, List.length_append]
                push_cast
                omega
              rw [e3]
              unfold capped
              rw [if_pos hc]
              exact ⟨s2, rfl, fun h1 => absurd hc2 h1⟩
            · rw [capped_of_not_reached m l1 hc]
              simp only
              exact ih s2 _ l1 l s0 hc hrun
        · rw [if_neg hb] at hrun
          rw [if_neg hb]
          exact ih s2 _ acc l s0 hcap hrun
    · rw [chunkLoop_done os h size pred 0 end_ inner fuel s off acc hoff] at hrun
      rw [chunkLoop_done os h size pred m end_ inner fuel s off acc hoff]
      cases hrun
      rw [capped_of_not_reached m _ hcap]
      exact ⟨_, rfl, fun _ => rfl⟩

/-- The walk only appends. -/
theorem regionLoop_extends {σ : Type} (os : OS σ) (h size : Nat) (pred : List Nat → Bool)
    (m : Int) (wo : Bool) (inner : Nat) :
    ∀ (fuel : Nat) (s : σ) (addr : Nat) (acc R : List Nat) (s1 : σ),
      regionLoop os h size pred m wo inner fuel s addr acc = some (R, s1) →
      ∃ new, R = acc ++ new := by
  intro fuel
  induction fuel with
  | zero =>
    intro s addr acc R s1 hrun
    rw [regionLoop_zero] at hrun
    cases hrun
  | succ fuel ih =>
    intro s addr acc R s1 hrun
    rcases hq : os.VirtualQueryEx s h addr with ⟨_ | mbi, s2⟩
    · rw [regionLoop_query_fail os h size pred m wo inner fuel s addr acc s2 hq] at hrun
      cases hrun
      exact ⟨[], by simp⟩
    · by_cases hz : mbi.RegionSize % uintptrMod = 0
      · rw [regionLoop_size_zero os h size pred m wo inner fuel s addr acc mbi s2 hq hz] at hrun
        cases hrun
        exact ⟨[], by simp⟩
      · by_cases hs : scannable mbi
        · by_cases hw : wo = true ∧ isWritable mbi.Protect = false
          · rw [regionLoop_skip os h size pred m wo inner fuel s addr acc mbi s2 hq hz hs hw]
              at hrun
            exact ih s2 _ acc R s1 hrun
          · rw [regionLoop_scan os h size pred m wo inner fuel s addr acc mbi s2 hq hz hs hw]
              at hrun
            cases hc : chunkLoop os h size pred m (regionEnd mbi) inner inner s2
                (mbi.BaseAddress % uintptrMod) acc with
            | none =>
              rw [hc] at hrun
              cases hrun
            | some res =>
              obtain ⟨r, s3⟩ := res
              rw [hc] at hrun
              obtain ⟨new1, f1⟩ := chunkLoop_extends os h size pred m (regionEnd mbi)
                inner inner s2 _ acc r s3 hc
              cases r with
              | returned acc1 =>
                simp only at hrun
                cases hrun
                exact ⟨new1, f1⟩
              | running acc1 =>
                simp only at hrun
                simp only [LoopExit.found] at f1
                by_cases hstop : walkStops mbi
                · rw [if_pos hstop] at hrun
                  cases hrun
                  exact ⟨new1, f1⟩
                · rw [if_neg hstop] at hrun
                  obtain ⟨new2, g1⟩ := ih s3 _ acc1 R s1 hrun
                  exact ⟨new1 ++ new2, by rw [g1, f1, List.append_assoc]⟩
        · rw [regionLoop_pass os h size pred m wo inner fuel s addr acc mbi s2 hq hz hs] at hrun
          by_cases hstop : walkStops mbi
          · rw [if_pos hstop] at hrun
            cases hrun
            exact ⟨[], by simp⟩
          · rw [if_neg hstop] at hrun
            exact ih s2 _ acc R s1 hrun

/-- The walk under a cap, from its run without a cap. -/
theorem regionLoop_cap {σ : Type} (os : OS σ) (h size : Nat) (pred : List Nat → Bool)
    (m : Int) (wo : Bool) (inner : Nat) :
    ∀ (fuel : Nat) (s : σ) (addr : Nat) (acc l : List Nat) (s0 : σ), ¬ capReached m acc →
      regionLoop os h size pred 0 wo inner fuel s addr acc = some (l, s0) →
      ∃ s1, regionLoop os h size pred m wo inner fuel s addr acc
        = some ((capped m l).found, s1) := by
  intro fuel
  induction fuel with
  | zero =>
    intro s addr acc l s0 _ hrun
    rw [regionLoop_zero] at hrun
    cases hrun
  | succ fuel ih =>
    intro s addr acc l s0 hcap hrun
    have hacc : (capped m acc).found = acc := by
      rw [capped_of_not_reached m acc hcap]
      rfl
    rcases hq : os.VirtualQueryEx s h addr with ⟨_ | mbi, s2⟩
    · rw [regionLoop_query_fail os h size pred 0 wo inner fuel s addr acc s2 hq] at hrun
      rw [regionLoop_query_fail os h size pred m wo inner fuel s addr acc s2 hq]
      cases hrun
      rw [hacc]
      exact ⟨_, rfl⟩
    · by_cases hz : mbi.RegionSize % uintptrMod = 0
      · rw [regionLoop_size_zero os h size pred 0 wo inner fuel s addr acc mbi s2 hq hz] at hrun
        rw [regionLoop_size_zero os h size pred m wo inner fuel s addr acc mbi s2 hq hz]
        cases hrun
        rw [hacc]
        exact ⟨_, rfl⟩
      · by_cases hs : scannable mbi
        · by_cases hw : wo = true ∧ isWritable mbi.Protect = false
          · rw [regionLoop_skip os h size pred 0 wo inner fuel s addr acc mbi s2 hq hz hs hw]
              at hrun
            rw [regionLoop_skip os h size pred m wo inner fuel s addr acc mbi s2 hq hz hs hw]
            exact ih s2 _ acc l s0 hcap hrun
          · rw [regionLoop_scan os h size pred 0 wo inner fuel s addr acc mbi s2 hq hz hs hw]
              at hrun
            rw [regionLoop_scan os h size pred m wo inner fuel s addr acc mbi s2 hq hz hs hw]
            cases hc : chunkLoop os h size pred 0 (regionEnd mbi) inner inner s2
                (mbi.BaseAddress % uintptrMod) acc with
            | none =>
              rw [hc] at hrun
              cases hrun
            | some res =>
              obtain ⟨r, s3⟩ := res
              rw [hc] at hrun
              obtain ⟨l1, e1⟩ := chunkLoop_nocap_running os h size pred (regionEnd mbi)
                inner inner s2 _ acc r s3 hc
              subst e1
              simp only at hrun
              obtain ⟨s4, hm, hst⟩ := chunkLoop_cap os h size pred m (regionEnd mbi) inner
                inner s2 _ acc l1 s3 hcap hc
              rw [hm]
              have hext : ∃ rest, l = l1 ++ rest := by
                by_cases hstop : walkStops mbi
                · rw [if_pos hstop] at hrun
                  cases hrun
                  exact ⟨[], by simp⟩
                · rw [if_neg hstop] at hrun
                  exact regionLoop_extends os h size pred 0 wo inner fuel s3 _ l1 l s0 hrun
              by_cases hreach : capReached m l1
              · obtain ⟨rest, e2⟩ := hext
                rw [e2, capped_of_prefix_reached m l1 rest hreach]
                unfold capped
                rw [if_pos hreach]
                exact ⟨_, rfl⟩
              · rw [capped_of_not_reached m l1 hreach]
                simp only
                have hs4 := hst hreach
                subst hs4
                by_cases hstop : walkStops mbi
                · rw [if_pos hstop] at hrun
                  rw [if_pos hstop]
                  cases hrun
                  rw [capped_of_not_reached m _ hreach]
                  exact ⟨_, rfl⟩
                · rw [if_neg hstop] at hrun
                  rw [if_neg hstop]
                  exact ih s4 _ l1 l s0 hreach hrun
        · rw [regionLoop_pass os h size pred 0 wo inner fuel s addr acc mbi s2 hq hz hs] at hrun
          rw [regionLoop_pass os h size pred m wo inner fuel s addr acc mbi s2 hq hz hs]
          by_cases hstop : walkStops mbi
          · rw [if_pos hstop] at hrun
            rw [if_pos hstop]
            cases hrun
            rw [hacc]
            exact ⟨_, rfl⟩
          · rw [if_neg hstop] at hrun
            rw [if_neg hstop]
            exact ih s2 _ acc l s0 hcap hrun

theorem capped_found (m : Int) (l : List Nat) (h0 : 0 < m) :
    (capped m l).found = l.take m.toNat := by
  unfold capped
  by_cases hc : capReached m l
  · rw [if_pos hc]
    rfl
  · rw [if_neg hc]
    have h1 : ¬ (m ≤ (l.length : Int)) := fun h2 => hc ⟨h0, h2⟩
    have h2 : l.length ≤ m.toNat := by omega
    rw [List.take_of_length_le h2]
    rfl

/-- C6. Scan cap: for every operating system and target state and every `max > 0`, when
the scan without a cap (`max = 0`) returns the list `L`, the scan with cap `max` returns
exactly the first `min(max, |L|)` elements of `L`. -/
theorem scan_cap {σ : Type} (os : OS σ) (fuel : Nat) (s : σ) (p : Option Process) (size : Nat)
    (pred : List Nat → Bool) (m : Int) (wo : Bool) (L : List Nat) (s0 : σ) (hm : 0 < m)
    (hrun : scanNumeric os fuel s p size pred 0 wo = some (Except.ok L, s0)) :
    ∃ s1, scanNumeric os fuel s p size pred m wo = some (Except.ok (L.take m.toNat), s1) ∧
      (L.take m.toNat).length = min m.toNat L.length := by
  obtain ⟨pr, hp, hh, hr⟩ := scanNumeric_ok os fuel s p size pred 0 wo L s0 hrun
  obtain ⟨s1, hc⟩ := regionLoop_cap os pr.Handle size pred m wo fuel fuel s 0 [] L s0
    (not_capReached_nil m) hr
  refine ⟨s1, ?_, List.length_take _ _⟩
  subst hp
  unfold scanNumeric
  simp only
  rw [if_neg hh, hc, capped_found m L hm]

/-- C6, at a concrete input: capped at 3, the `uint32` scan of the small target returns the
three lowest of its twelve matches. -/
theorem scan_cap_witness :
    ∃ s1, scanNumeric Target.os 16 demoTarget (some demoProcess) 4
        (fun b => decide (Uint32 b = 0x2A2A2A2A)) 3 false
        = some (Except.ok (([0x10000, 0x10004, 0x10008, 0x1000C, 0x10010, 0x10014, 0x10018,
            0x1001C, 0x10020, 0x10024, 0x10028, 0x1002C] : List Nat).take (3 : Int).toNat), s1) ∧
      (([0x10000, 0x10004, 0x10008, 0x1000C, 0x10010, 0x10014, 0x10018,
            0x1001C, 0x10020, 0x10024, 0x10028, 0x1002C] : List Nat).take (3 : Int).toNat).length
        = min (3 : Int).toNat ([0x10000, 0x10004, 0x10008, 0x1000C, 0x10010, 0x10014, 0x10018,
            0x1001C, 0x10020, 0x10024, 0x10028, 0x1002C] : List Nat).length :=
  scan_cap Target.os 16 demoTarget (some demoProcess) 4
    (fun b => decide (Uint32 b = 0x2A2A2A2A)) 3 false _ demoTarget (by decide) rfl

/-! ## Soundness of the scan against the log of reads -/

theorem backedBy_mono (size : Nat) (pred : List Nat → Bool) (log1 log2 : List ReadEvent)
    (a : Nat) (hsub : ∀ e ∈ log1, e ∈ log2) (h : backedBy size pred log1 a) :
    backedBy size pred log2 a := by
  obtain ⟨e, he, rest⟩ := h
  exact ⟨e, hsub e he, rest⟩

/-- Every address the innermost loop adds is a slot address of the chunk whose slot
satisfies the predicate. -/
theorem matchLoop_sound (size : Nat) (pred : List Nat → Bool) (m : Int) (offset : Nat)
    (b : List Nat) (P : Nat → Prop)
    (hP : ∀ k, k * size + size ≤ b.length → pred ((b.drop (k * size)).take size) = true →
      P ((offset + k * size) % uintptrMod)) :
    ∀ (fuel k0 : Nat) (acc : List Nat) (r : LoopExit),
      matchLoop size pred m offset b fuel (k0 * size) acc = some r →
      (∀ a ∈ acc, P a) → ∀ a ∈ r.found, P a := by
  intro fuel
  induction fuel with
  | zero =>
    intro k0 acc r h
    simp [matchLoop] at h
  | succ fuel ih =>
    intro k0 acc r h hacc
    rw [matchLoop] at h
    have hi : k0 * size + size = (k0 + 1) * size := (Nat.succ_mul k0 size).symm
    by_cases hle : k0 * size + size ≤ b.length
    · rw [if_pos hle] at h
      by_cases hp : pred ((b.drop (k0 * size)).take size) = true
      · rw [if_pos hp] at h
        simp only at h
        have hacc1 : ∀ a ∈ acc ++ [(offset + k0 * size) % uintptrMod], P a := by
          intro a ha
          rcases List.mem_append.mp ha with h1 | h1
          · exact hacc a h1
          · rw [List.mem_singleton] at h1
            rw [h1]
            exact hP k0 hle hp
        split at h
        · cases h
          exact hacc1
        · rw [hi] at h
          exact ih _ _ r h hacc1
      · rw [if_neg hp, hi] at h
        exact ih _ _ r h hacc
    · rw [if_neg hle] at h
      cases h
      exact hacc

theorem logged_read {σ : Type} (os : OS σ) (sl : σ × List ReadEvent) (h a n : Nat)
    (ans : Except Nat (List Nat)) (sl1 : σ × List ReadEvent)
    (hr : os.logged.ReadProcessMemory sl h a n = (ans, sl1)) :
    sl1.2 = sl.2 ++ [{ addr := a, n := n, answer := ans }] := by
  simp only [OS.logged, Prod.mk.injEq] at hr
  obtain ⟨h1, h2⟩ := hr
  rw [← h2, ← h1]

theorem logged_query {σ : Type} (os : OS σ) (sl : σ × List ReadEvent) (h a : Nat)
    (ans : Option MemoryBasicInformation) (sl1 : σ × List ReadEvent)
    (hq : os.logged.VirtualQueryEx sl h a = (ans, sl1)) : sl1.2 = sl.2 := by
  simp only [OS.logged, Prod.mk.injEq] at hq
  rw [← hq.2]

/-- Every address the chunk loop has collected is backed by a logged read. -/
theorem chunkLoop_logged_sound {σ : Type} (os : OS σ) (h size : Nat) (pred : List Nat → Bool)
    (m : Int) (end_ inner : Nat) (hend : end_ < uintptrMod) :
    ∀ (fuel : Nat) (sl : σ × List ReadEvent) (off : Nat) (acc : List Nat) (r : LoopExit)
      (sl1 : σ × List ReadEvent),
      chunkLoop os.logged h size pred m end_ inner fuel sl off acc = some (r, sl1) →
      (∀ a ∈ acc, backedBy size pred sl.2 a) →
      (∀ a ∈ r.found, backedBy size pred sl1.2 a) ∧ (∀ e ∈ sl.2, e ∈ sl1.2) := by
  intro fuel
  induction fuel with
  | zero =>
    intro sl off acc r sl1 hrun
    rw [chunkLoop_zero] at hrun
    cases hrun
  | succ fuel ih =>
    intro sl off acc r sl1 hrun hacc
    by_cases hoff : off < end_
    · have hle := chunkLen_le end_ off hoff
      rcases hread : os.logged.ReadProcessMemory sl h off (chunkLen end_ off)
        with ⟨ans, sl2⟩
      have hlog := logged_read os sl h off _ ans sl2 hread
      have hsub : ∀ e ∈ sl.2, e ∈ sl2.2 := by
        intro e he
        rw [hlog]
        exact List.mem_append_left _ he
      have hacc2 : ∀ a ∈ acc, backedBy size pred sl2.2 a :=
        fun a ha => backedBy_mono size pred _ _ a hsub (hacc a ha)
      have hgo : ∀ (acc1 : List Nat), (∀ a ∈ acc1, backedBy size pred sl2.2 a) →
          chunkLoop os.logged h size pred m end_ inner fuel sl2
            ((off + chunkLen end_ off) % uintptrMod) acc1 = some (r, sl1) →
          (∀ a ∈ r.found, backedBy size pred sl1.2 a) ∧ (∀ e ∈ sl.2, e ∈ sl1.2) := by
        intro acc1 hacc1 h2
        obtain ⟨g1, g2⟩ := ih sl2 _ acc1 r sl1 h2 hacc1
        exact ⟨g1, fun e he => g2 e (hsub e he)⟩
      cases ans with
      | error code =>
        rw [chunkLoop_read_error os.logged h size pred m end_ inner fuel sl off acc hoff code
          sl2 hread] at hrun
        exact hgo acc hacc2 hrun
      | ok b =>
        rw [chunkLoop_read_ok os.logged h size pred m end_ inner fuel sl off acc hoff b sl2
          hread] at hrun
        by_cases hb : 0 < b.length
        · rw [if_pos hb] at hrun
          have hlen : b.length ≤ chunkLen end_ off :=
            os.logged.read_le sl h off _ b (by rw [hread])
          have hP : ∀ k, k * size + size ≤ b.length →
              pred ((b.drop (k * size)).take size) = true →
              backedBy size pred sl2.2 ((off + k * size) % uintptrMod) := by
            intro k hk hp
            refine ⟨{ addr := off, n := chunkLen end_ off, answer := Except.ok b }, ?_, b, k,
              rfl, ?_, hk, hp⟩
            · rw [hlog]
              exact List.mem_append_right _ (List.mem_singleton.mpr rfl)
            · exact Nat.mod_eq_of_lt (by omega)
          cases hm : matchLoop size pred m off b inner 0 acc with
          | none =>
            rw [hm] at hrun
            cases hrun
          | some r1 =>
            rw [hm] at hrun
            have hm0 : matchLoop size pred m off b inner (0 * size) acc = some r1 := by
              rw [Nat.zero_mul]
              exact hm
            have hr1 := matchLoop_sound size pred m off b _ hP inner 0 acc r1 hm0 hacc2
            cases r1 with
            | returned acc1 =>
              simp only at hrun
              cases hrun
              exact ⟨hr1, hsub⟩
            | running acc1 =>
              simp only at hrun
              exact hgo acc1 hr1 hrun
        · rw [if_neg hb] at hrun
          exact hgo acc hacc2 hrun
    · rw [chunkLoop_done os.logged h size pred m end_ inner fuel sl off acc hoff] at hrun
      cases hrun
      exact ⟨hacc, fun e he => he⟩

/-- Every address the walk has collected is backed by a logged read. -/
theorem regionLoop_logged_sound {σ : Type} (os : OS σ) (h size : Nat)
    (pred : List Nat → Bool) (m : Int) (wo : Bool) (inner : Nat) :
    ∀ (fuel : Nat) (sl : σ × List ReadEvent) (addr : Nat) (acc R : List Nat)
      (sl1 : σ × List ReadEvent),
      regionLoop os.logged h size pred m wo inner fuel sl addr acc = some (R, sl1) →
      (∀ a ∈ acc, backedBy size pred sl.2 a) → ∀ a ∈ R, backedBy size pred sl1.2 a := by
  intro fuel
  induction fuel with
  | zero =>
    intro sl addr acc R sl1 hrun
    rw [regionLoop_zero] at hrun
    cases hrun
  | succ fuel ih =>
    intro sl addr acc R sl1 hrun hacc
    rcases hq : os.logged.VirtualQueryEx sl h addr with ⟨ans, sl2⟩
    have hlog := logged_query os sl h addr ans sl2 hq
    have hacc2 : ∀ a ∈ acc, backedBy size pred sl2.2 a := by
      rw [hlog]
      exact hacc
    cases ans with
    | none =>
      rw [regionLoop_query_fail os.logged h size pred m wo inner fuel sl addr acc sl2 hq] at hrun
      cases hrun
      exact hacc2
    | some mbi =>
      by_cases hz : mbi.RegionSize % uintptrMod = 0
      · rw [regionLoop_size_zero os.logged h size pred m wo inner fuel sl addr acc mbi sl2 hq hz]
          at hrun
        cases hrun
        exact hacc2
      · by_cases hs : scannable mbi
        · by_cases hw : wo = true ∧ isWritable mbi.Protect = false
          · rw [regionLoop_skip os.logged h size pred m wo inner fuel sl addr acc mbi sl2 hq hz
              hs hw] at hrun
            exact ih sl2 _ acc R sl1 hrun hacc2
          · rw [regionLoop_scan os.logged h size pred m wo inner fuel sl addr acc mbi sl2 hq hz
              hs hw] at hrun
            cases hc : chunkLoop os.logged h size pred m (regionEnd mbi) inner inner sl2
                (mbi.BaseAddress % uintptrMod) acc with
            | none =>
              rw [hc] at hrun
              cases hrun
            | some res =>
              obtain ⟨r, sl3⟩ := res
              rw [hc] at hrun
              obtain ⟨f1, _⟩ := chunkLoop_logged_sound os h size pred m (regionEnd mbi) inner
                (regionEnd_lt mbi) inner sl2 _ acc r sl3 hc hacc2
              cases r with
              | returned acc1 =>
                simp only at hrun
                cases hrun
                exact f1
              | running acc1 =>
                simp only at hrun
                by_cases hstop : walkStops mbi
                · rw [if_pos hstop] at hrun
                  cases hrun
                  exact f1
                · rw [if_neg hstop] at hrun
                  exact ih sl3 _ acc1 R sl1 hrun f1
        · rw [regionLoop_pass os.logged h size pred m wo inner fuel sl addr acc mbi sl2 hq hz hs]
            at hrun
          by_cases hstop : walkStops mbi
          · rw [if_pos hstop] at hrun
            cases hrun
            exact hacc2
          · rw [if_neg hstop] at hrun
            exact ih sl2 _ acc R sl1 hrun hacc2

/-- Every address a scan returns is backed by a read made during the scan. -/
theorem scanNumeric_logged_sound {σ : Type} (os : OS σ) (fuel : Nat) (s : σ)
    (p : Option Process) (size : Nat) (pred : List Nat → Bool) (m : Int) (wo : Bool)
    (R : List Nat) (s1 : σ) (log : List ReadEvent)
    (hrun : scanNumeric os.logged fuel (s, []) p size pred m wo = some (Except.ok R, (s1, log))) :
    ∀ a ∈ R, backedBy size pred log a := by
  obtain ⟨pr, _, _, hr⟩ := scanNumeric_ok os.logged fuel (s, []) p size pred m wo R (s1, log) hrun
  exact regionLoop_logged_sound os pr.Handle size pred m wo fuel fuel (s, []) 0 [] R (s1, log) hr
    (by simp)

/-! ## The log does not change what the scan does -/

theorem logged_read_eq {σ : Type} (os : OS σ) (s : σ) (log : List ReadEvent) (h a n : Nat)
    (ans : Except Nat (List Nat)) (s2 : σ) (hr : os.ReadProcessMemory s h a n = (ans, s2)) :
    os.logged.ReadProcessMemory (s, log) h a n
      = (ans, (s2, log ++ [{ addr := a, n := n, answer := ans }])) := by
  simp only [OS.logged, hr]

theorem logged_query_eq {σ : Type} (os : OS σ) (s : σ) (log : List ReadEvent) (h a : Nat)
    (ans : Option MemoryBasicInformation) (s2 : σ) (hq : os.VirtualQueryEx s h a = (ans, s2)) :
    os.logged.VirtualQueryEx (s, log) h a = (ans, (s2, log)) := by
  simp only [OS.logged, hq]

theorem chunkLoop_logged {σ : Type} (os : OS σ) (h size : Nat) (pred : List Nat → Bool)
    (m : Int) (end_ inner : Nat) :
    ∀ (fuel : Nat) (s : σ) (log : List ReadEvent) (off : Nat) (acc : List Nat),
      eraseLog (chunkLoop os.logged h size pred m end_ inner fuel (s, log) off acc)
        = chunkLoop os h size pred m end_ inner fuel s off acc := by
  intro fuel
  induction fuel with
  | zero =>
    intro s log off acc
    rfl
  | succ fuel ih =>
    intro s log off acc
    by_cases hoff : off < end_
    · rcases hread : os.ReadProcessMemory s h off (chunkLen end_ off) with ⟨ans, s2⟩
      have hread2 := logged_read_eq os s log h off _ ans s2 hread
      cases ans with
      | error code =>
        rw [chunkLoop_read_error os.logged h size pred m end_ inner fuel _ off acc hoff code _
          hread2,
          chunkLoop_read_error os h size pred m end_ inner fuel s off acc hoff code s2 hread]
        exact ih _ _ _ _
      | ok b =>
        rw [chunkLoop_read_ok os.logged h size pred m end_ inner fuel _ off acc hoff b _ hread2,
          chunkLoop_read_ok os h size pred m end_ inner fuel s off acc hoff b s2 hread]
        by_cases hb : 0 < b.length
        · rw [if_pos hb, if_pos hb]
          cases hm : matchLoop size pred m off b inner 0 acc with
          | none => rfl
          | some r1 =>
            cases r1 with
            | returned acc1 => rfl
            | running acc1 =>
              simp only
              exact ih _ _ _ _
        · rw [if_neg hb, if_neg hb]
          exact ih _ _ _ _
    · rw [chunkLoop_done os.logged h size pred m end_ inner fuel _ off acc hoff,
        chunkLoop_done os h size pred m end_ inner fuel s off acc hoff]
      rfl

theorem regionLoop_logged {σ : Type} (os : OS σ) (h size : Nat) (pred : List Nat → Bool)
    (m : Int) (wo : Bool) (inner : Nat) :
    ∀ (fuel : Nat) (s : σ) (log : List ReadEvent) (addr : Nat) (acc : List Nat),
      eraseLog (regionLoop os.logged h size pred m wo inner fuel (s, log) addr acc)
        = regionLoop os h size pred m wo inner fuel s addr acc := by
  intro fuel
  induction fuel with
  | zero =>
    intro s log addr acc
    rfl
  | succ fuel ih =>
    intro s log addr acc
    rcases hq : os.VirtualQueryEx s h addr with ⟨ans, s2⟩
    have hq2 := logged_query_eq os s log h addr ans s2 hq
    cases ans with
    | none =>
      rw [regionLoop_query_fail os.logged h size pred m wo inner fuel _ addr acc _ hq2,
        regionLoop_query_fail os h size pred m wo inner fuel s addr acc s2 hq]
      rfl
    | some mbi =>
      by_cases hz : mbi.RegionSize % uintptrMod = 0
      · rw [regionLoop_size_zero os.logged h size pred m wo inner fuel _ addr acc mbi _ hq2 hz,
          regionLoop_size_zero os h size pred m wo inner fuel s addr acc mbi s2 hq hz]
        rfl
      · by_cases hs : scannable mbi
        · by_cases hw : wo = true ∧ isWritable mbi.Protect = false
          · rw [regionLoop_skip os.logged h size pred m wo inner fuel _ addr acc mbi _ hq2 hz
              hs hw,
              regionLoop_skip os h size pred m wo inner fuel s addr acc mbi s2 hq hz hs hw]
            exact ih _ _ _ _
          · rw [regionLoop_scan os.logged h size pred m wo inner fuel _ addr acc mbi _ hq2 hz
              hs hw,
              regionLoop_scan os h size pred m wo inner fuel s addr acc mbi s2 hq hz hs hw]
            rw [← chunkLoop_logged os h size pred m (regionEnd mbi) inner inner s2 log
              (mbi.BaseAddress % uintptrMod) acc]
            cases hc : chunkLoop os.logged h size pred m (regionEnd mbi) inner inner (s2, log)
                (mbi.BaseAddress % uintptrMod) acc with
            | none => rfl
            | some res =>
              obtain ⟨r, sl3⟩ := res
              obtain ⟨s3, log3⟩ := sl3
              cases r with
              | returned acc1 => rfl
              | running acc1 =>
                simp only [eraseLog, Option.map_some']
                by_cases hstop : walkStops mbi
                · rw [if_pos hstop, if_pos hstop]
                  rfl
                · rw [if_neg hstop, if_neg hstop]
                  exact ih _ _ _ _
        · rw [regionLoop_pass os.logged h size pred m wo inner fuel _ addr acc mbi _ hq2 hz hs,
            regionLoop_pass os h size pred m wo inner fuel s addr acc mbi s2 hq hz hs]
          by_cases hstop : walkStops mbi
          · rw [if_pos hstop, if_pos hstop]
            rfl
          · rw [if_neg hstop, if_neg hstop]
            exact ih _ _ _ _

/-- A scan over the logging operating system returns what the scan over the plain one
returns. -/
theorem scanNumeric_logged {σ : Type} (os : OS σ) (fuel : Nat) (s : σ) (log : List ReadEvent)
    (p : Option Process) (size : Nat) (pred : List Nat → Bool) (m : Int) (wo : Bool) :
    eraseLog (scanNumeric os.logged fuel (s, log) p size pred m wo)
      = scanNumeric os fuel s p size pred m wo := by
  unfold scanNumeric
  cases p with
  | none => rfl
  | some pr =>
    simp only
    by_cases hh : pr.Handle = 0
    · rw [if_pos hh, if_pos hh]
      rfl
    · rw [if_neg hh, if_neg hh]
      rw [← regionLoop_logged os pr.Handle size pred m wo fuel fuel s log 0 []]
      cases hr : regionLoop os.logged pr.Handle size pred m wo fuel fuel (s, log) 0 [] with
      | none => rfl
      | some res => rfl

theorem eraseLog_eq_some {α σ : Type} (r : Option (α × (σ × List ReadEvent))) (x : α) (s1 : σ)
    (h : eraseLog r = some (x, s1)) : ∃ log, r = some (x, (s1, log)) := by
  cases r with
  | none => cases h
  | some v =>
    obtain ⟨y, s2, log⟩ := v
    simp only [eraseLog, Option.map_some', Option.some.injEq, Prod.mk.injEq] at h
    exact ⟨log, by rw [h.1, h.2]⟩

/-- Every run of a scan is a run over the logging operating system, and every address it
returns is backed by a read of that log. -/
theorem scanNumeric_sound {σ : Type} (os : OS σ) (fuel : Nat) (s : σ) (p : Option Process)
    (size : Nat) (pred : List Nat → Bool) (m : Int) (wo : Bool) (R : List Nat) (s1 : σ)
    (hrun : scanNumeric os fuel s p size pred m wo = some (Except.ok R, s1)) :
    ∃ log, scanNumeric os.logged fuel (s, []) p size pred m wo = some (Except.ok R, (s1, log)) ∧
      ∀ a ∈ R, backedBy size pred log a := by
  have h1 := scanNumeric_logged os fuel s [] p size pred m wo
  rw [hrun] at h1
  obtain ⟨log, h2⟩ := eraseLog_eq_some _ _ _ h1
  exact ⟨log, h2, scanNumeric_logged_sound os fuel s p size pred m wo R s1 log h2⟩

/-- C1. Scan soundness for the integer types: whatever the operating system answers,
whatever the target value and the cap, every address `a` returned by `ScanInt32`,
`ScanUint32` (width 4), `ScanInt64` or `ScanUint64` (width 8) is the start address of a
chunk read made during the scan plus a multiple of the width, and the bytes which that
read returned for `a .. a+width-1`, decoded little-endian (two's complement for the signed
types), are equal to the target.  The reads made during the scan are those of the log of
the logging operating system, over which the scan runs as over the plain one. -/
theorem scan_sound_integers {σ : Type} (os : OS σ) (fuel : Nat) (s : σ) (p : Option Process)
    (m : Int) (wo : Bool) (R : List Nat) (s1 : σ) :
    (∀ target : Int, ScanInt32 os fuel s p target m wo = some (Except.ok R, s1) →
      ∃ log, ScanInt32 os.logged fuel (s, []) p target m wo = some (Except.ok R, (s1, log)) ∧
        ∀ a ∈ R, ∃ e ∈ log, ∃ data k, e.answer = Except.ok data ∧ a = e.addr + k * 4 ∧
          k * 4 + 4 ≤ data.length ∧ toInt32 (Uint32 ((data.drop (k * 4)).take 4)) = target) ∧
    (∀ target : Nat, ScanUint32 os fuel s p target m wo = some (Except.ok R, s1) →
      ∃ log, ScanUint32 os.logged fuel (s, []) p target m wo = some (Except.ok R, (s1, log)) ∧
        ∀ a ∈ R, ∃ e ∈ log, ∃ data k, e.answer = Except.ok data ∧ a = e.addr + k * 4 ∧
          k * 4 + 4 ≤ data.length ∧ Uint32 ((data.drop (k * 4)).take 4) = target) ∧
    (∀ target : Int, ScanInt64 os fuel s p target m wo = some (Except.ok R, s1) →
      ∃ log, ScanInt64 os.logged fuel (s, []) p target m wo = some (Except.ok R, (s1, log)) ∧
        ∀ a ∈ R, ∃ e ∈ log, ∃ data k, e.answer = Except.ok data ∧ a = e.addr + k * 8 ∧
          k * 8 + 8 ≤ data.length ∧ toInt64 (Uint64 ((data.drop (k * 8)).take 8)) = target) ∧
    (∀ target : Nat, ScanUint64 os fuel s p target m wo = some (Except.ok R, s1) →
      ∃ log, ScanUint64 os.logged fuel (s, []) p target m wo = some (Except.ok R, (s1, log)) ∧
        ∀ a ∈ R, ∃ e ∈ log, ∃ data k, e.answer = Except.ok data ∧ a = e.addr + k * 8 ∧
          k * 8 + 8 ≤ data.length ∧ Uint64 ((data.drop (k * 8)).take 8) = target) := by
  refine ⟨?_, ?_, ?_, ?_⟩
  · intro target hrun
    obtain ⟨log, h1, h2⟩ := scanNumeric_sound os fuel s p 4 _ m wo R s1 hrun
    refine ⟨log, h1, ?_⟩
    intro a ha
    obtain ⟨e, he, data, k, e1, e2, e3, e4⟩ := h2 a ha
    exact ⟨e, he, data, k, e1, e2, e3, of_decide_eq_true e4⟩
  · intro target hrun
    obtain ⟨log, h1, h2⟩ := scanNumeric_sound os fuel s p 4 _ m wo R s1 hrun
    refine ⟨log, h1, ?_⟩
    intro a ha
    obtain ⟨e, he, data, k, e1, e2, e3, e4⟩ := h2 a ha
    exact ⟨e, he, data, k, e1, e2, e3, of_decide_eq_true e4⟩
  · intro target hrun
    obtain ⟨log, h1, h2⟩ := scanNumeric_sound os fuel s p 8 _ m wo R s1 hrun
    refine ⟨log, h1, ?_⟩
    intro a ha
    obtain ⟨e, he, data, k, e1, e2, e3, e4⟩ := h2 a ha
    exact ⟨e, he, data, k, e1, e2, e3, of_decide_eq_true e4⟩
  · intro target hrun
    obtain ⟨log, h1, h2⟩ := scanNumeric_sound os fuel s p 8 _ m wo R s1 hrun
    refine ⟨log, h1, ?_⟩
    intro a ha
    obtain ⟨e, he, data, k, e1, e2, e3, e4⟩ := h2 a ha
    exact ⟨e, he, data, k, e1, e2, e3, of_decide_eq_true e4⟩

/-- C1, at a concrete input: the `int64` scan of the small target for
`0x2A2A2A2A2A2A2A2A`, capped at 2. -/
theorem scan_sound_integers_witness :
    ∃ log, ScanInt64 Target.os.logged 16 (demoTarget, []) (some demoProcess)
        0x2A2A2A2A2A2A2A2A 2 false = some (Except.ok [0x10000, 0x10008], (demoTarget, log)) ∧
      ∀ a ∈ ([0x10000, 0x10008] : List Nat), ∃ e ∈ log, ∃ data k,
        e.answer = Except.ok data ∧ a = e.addr + k * 8 ∧ k * 8 + 8 ≤ data.length ∧
          toInt64 (Uint64 ((data.drop (k * 8)).take 8)) = 0x2A2A2A2A2A2A2A2A :=
  (scan_sound_integers Target.os 16 demoTarget (some demoProcess) 2 false
    [0x10000, 0x10008] demoTarget).2.2.1 0x2A2A2A2A2A2A2A2A rfl

/-! ## Chunk boundaries -/

theorem memBytes_length (mem : Nat → Nat) (addr n : Nat) : (memBytes mem addr n).length = n := by
  simp [memBytes]

theorem memBytes_slot (mem : Nat → Nat) (addr n j size : Nat) (h : j + size ≤ n) :
    ((memBytes mem addr n).drop j).take size = memBytes mem (addr + j) size := by
  apply List.ext_getElem
  · simp only [List.length_take, List.length_drop, memBytes_length]
    omega
  · intro i h1 h2
    simp only [memBytes, List.getElem_take, List.getElem_drop, List.getElem_map,
      List.getElem_range]
    congr 1
    omega

theorem sliceHits_append (size : Nat) (pred : List Nat → Bool) (offset : Nat) (b : List Nat) :
    ∀ (n1 k0 n2 : Nat), sliceHits size pred offset b k0 (n1 + n2)
      = sliceHits size pred offset b k0 n1 ++ sliceHits size pred offset b (k0 + n1) n2 := by
  intro n1
  induction n1 with
  | zero =>
    intro k0 n2
    rw [sliceHits_zero, Nat.zero_add, Nat.add_zero, List.nil_append]
  | succ n1 ih =>
    intro k0 n2
    have h1 : n1 + 1 + n2 = (n1 + n2) + 1 := by omega
    have h2 : k0 + (n1 + 1) = (k0 + 1) + n1 := by omega
    rw [h1, sliceHits_succ, sliceHits_succ, ih (k0 + 1) n2, h2, List.append_assoc]

/-- The hits of two buffers agree on slots that hold the same bytes at the same
addresses. -/
theorem sliceHits_shift (size : Nat) (pred : List Nat → Bool) (off1 off2 : Nat)
    (b1 b2 : List Nat) :
    ∀ (n k1 k2 : Nat),
      (∀ j, j < n → (b1.drop ((k1 + j) * size)).take size = (b2.drop ((k2 + j) * size)).take size ∧
        (off1 + (k1 + j) * size) % uintptrMod = (off2 + (k2 + j) * size) % uintptrMod) →
      sliceHits size pred off1 b1 k1 n = sliceHits size pred off2 b2 k2 n := by
  intro n
  induction n with
  | zero =>
    intro k1 k2 _
    rw [sliceHits_zero, sliceHits_zero]
  | succ n ih =>
    intro k1 k2 h
    rw [sliceHits_succ, sliceHits_succ]
    have h0 := h 0 (by omega)
    simp only [Nat.add_zero] at h0
    rw [h0.1, h0.2]
    congr 1
    apply ih
    intro j hj
    have := h (j + 1) (by omega)
    have e1 : k1 + 1 + j = k1 + (j + 1) := by omega
    have e2 : k2 + 1 + j = k2 + (j + 1) := by omega
    rw [e1, e2]
    exact this

/-- The hits over the whole region buffer are the region hits. -/
theorem sliceHits_region (size : Nat) (pred : List Nat → Bool) (mem : Nat → Nat)
    (base regionSize : Nat) (hsize : 0 < size) (hin : base + regionSize < uintptrMod) :
    sliceHits size pred base (memBytes mem base regionSize) 0 (regionSize / size)
      = regionHits size pred mem base regionSize := by
  unfold sliceHits regionHits
  rw [← List.range_eq_range']
  have hk : ∀ k, k ∈ List.range (regionSize / size) → k * size + size ≤ regionSize := by
    intro k hk
    have h1 : k + 1 ≤ regionSize / size := by
      have := List.mem_range.mp hk
      omega
    rw [Nat.le_div_iff_mul_le hsize, Nat.succ_mul] at h1
    exact h1
  have hf : (List.range (regionSize / size)).filter
      (fun k => pred (((memBytes mem base regionSize).drop (k * size)).take size))
      = (List.range (regionSize / size)).filter
        (fun k => pred (memBytes mem (base + k * size) size)) := by
    apply List.filter_congr
    intro k hk1
    rw [memBytes_slot mem base regionSize (k * size) size (hk k hk1)]
  rw [hf]
  apply List.map_congr_left
  intro k hk1
  have := hk k (List.mem_of_mem_filter hk1)
  exact Nat.mod_eq_of_lt (by omega)

/-- The chunk loop in closed form, when every read inside the region succeeds in full and
the width divides the chunk size: started at an offset that is a whole number of slots
above the base, it collects the hits of all remaining slots of the region. -/
theorem chunkLoop_full_reads {σ : Type} (os : OS σ) (h size : Nat) (pred : List Nat → Bool)
    (mem : Nat → Nat) (base end_ inner : Nat) (hsize : 0 < size) (hdiv : size ∣ maxChunk)
    (hend : end_ < uintptrMod) (inv : σ → Prop) (hreads : os.readsInFull h mem base end_ inv) :
    ∀ (fuel : Nat) (s : σ) (off : Nat) (acc : List Nat) (r : LoopExit) (s1 : σ),
      inv s → base ≤ off → (size ∣ (off - base) ∨ end_ ≤ off) →
      chunkLoop os h size pred 0 end_ inner fuel s off acc = some (r, s1) →
      r = LoopExit.running (acc ++ sliceHits size pred base (memBytes mem base (end_ - base))
          ((off - base) / size) ((end_ - off) / size)) ∧ inv s1 := by
  intro fuel
  induction fuel with
  | zero =>
    intro s off acc r s1 _ _ _ hrun
    rw [chunkLoop_zero] at hrun
    cases hrun
  | succ fuel ih =>
    intro s off acc r s1 hinv hbase halign hrun
    by_cases hoff : off < end_
    · have hal : size ∣ (off - base) := by
        rcases halign with h1 | h1
        · exact h1
        · omega
      obtain ⟨q, hq⟩ := hal
      obtain ⟨qm, hqm⟩ := hdiv
      have hpos := chunkLen_pos end_ off hoff
      have hle := chunkLen_le end_ off hoff
      have hnext : (off + chunkLen end_ off) % uintptrMod = off + chunkLen end_ off :=
        Nat.mod_eq_of_lt (by omega)
      obtain ⟨s2, hinv2, hread⟩ := hreads s off (chunkLen end_ off) hinv hbase hle
      rw [chunkLoop_read_ok os h size pred 0 end_ inner fuel s off acc hoff _ s2 hread,
        memBytes_length, if_pos hpos, hnext] at hrun
      cases hm : matchLoop size pred 0 off (memBytes mem off (chunkLen end_ off)) inner 0 acc with
      | none =>
        rw [hm] at hrun
        cases hrun
      | some r1 =>
        rw [hm] at hrun
        have hchar := matchLoop_chunk size pred 0 off _ hsize inner acc r1
          (by unfold capReached; omega) hm
        rw [capped_of_not_reached 0 _ (by unfold capReached; omega), memBytes_length] at hchar
        subst hchar
        simp only at hrun
        -- the hits of this chunk are the hits of its slots in the region buffer
        have hq2 : (off - base) / size = q := by
          rw [hq, Nat.mul_div_cancel_left q hsize]
        have hH1 : sliceHits size pred off (memBytes mem off (chunkLen end_ off)) 0
            (chunkLen end_ off / size)
            = sliceHits size pred base (memBytes mem base (end_ - base)) q
              (chunkLen end_ off / size) := by
          apply sliceHits_shift
          intro j hj
          have hj1 : j + 1 ≤ chunkLen end_ off / size := hj
          rw [Nat.le_div_iff_mul_le hsize, Nat.succ_mul] at hj1
          have e1 : (q + j) * size = size * q + j * size := by
            rw [Nat.add_mul, Nat.mul_comm q size]
          rw [Nat.zero_add, e1,
            memBytes_slot mem off _ (j * size) size hj1,
            memBytes_slot mem base _ (size * q + j * size) size (by omega)]
          have e2 : base + (size * q + j * size) = off + j * size := by omega
          rw [e2]
          exact ⟨rfl, rfl⟩
        have hrest : size ∣ (off + chunkLen end_ off - base) ∨ end_ ≤ off + chunkLen end_ off := by
          by_cases hc : maxChunk < end_ - off
          · left
            have : chunkLen end_ off = maxChunk := by
              unfold chunkLen
              rw [if_pos hc]
            rw [this, hqm]
            exact ⟨q + qm, by rw [Nat.mul_add, ← hq]; omega⟩
          · right
            have : chunkLen end_ off = end_ - off := by
              unfold chunkLen
              rw [if_neg hc]
            omega
        obtain ⟨hr, hinv1⟩ := ih s2 _ _ r s1 hinv2 (by omega) hrest hrun
        refine ⟨?_, hinv1⟩
        rw [hr, hH1, List.append_assoc, hq2]
        congr 2
        -- split the slots of the region at the end of this chunk
        by_cases hc : maxChunk < end_ - off
        · have hcl : chunkLen end_ off = size * qm := by
            unfold chunkLen
            rw [if_pos hc, hqm]
          have e3 : (off + chunkLen end_ off - base) / size = q + qm := by
            have : off + chunkLen end_ off - base = size * (q + qm) := by
              rw [Nat.mul_add, ← hq, hcl]
              omega
            rw [this, Nat.mul_div_cancel_left _ hsize]
          have e4 : chunkLen end_ off / size = qm := by
            rw [hcl, Nat.mul_div_cancel_left _ hsize]
          have e5 : (end_ - (off + chunkLen end_ off)) / size = (end_ - off) / size - qm := by
            have : end_ - (off + chunkLen end_ off) = end_ - off - size * qm := by
              rw [hcl]
              omega
            rw [this]
            exact Nat.sub_mul_div _ _ _ (by rw [← hcl]; omega)
          have e6 : qm ≤ (end_ - off) / size := by
            rw [Nat.le_div_iff_mul_le hsize, Nat.mul_comm, ← hcl]
            omega
          have e7 : (end_ - off) / size = qm + ((end_ - off) / size - qm) := by omega
          rw [e3, e4, e5]
          conv_rhs => rw [e7]
          rw [sliceHits_append]
        · have hcl : chunkLen end_ off = end_ - off := by
            unfold chunkLen
            rw [if_neg hc]
          have e5 : (end_ - (off + chunkLen end_ off)) / size = 0 := by
            have : end_ - (off + chunkLen end_ off) = 0 := by omega
            rw [this, Nat.zero_div]
          rw [e5, sliceHits_zero, List.append_nil, hcl]
    · rw [chunkLoop_done os h size pred 0 end_ inner fuel s off acc hoff] at hrun
      cases hrun
      have : (end_ - off) / size = 0 := by
        have : end_ - off = 0 := by omega
        rw [this, Nat.zero_div]
      rw [this, sliceHits_zero, List.append_nil]
      exact ⟨rfl, hinv⟩

/-! ## The quiescent target -/

theorem sizesSum_cons (r : Region) (rs : List Region) :
    sizesSum (r :: rs) = r.RegionSize + sizesSum rs := by
  simp [sizesSum]

theorem sizesSum_append (l1 l2 : List Region) :
    sizesSum (l1 ++ l2) = sizesSum l1 + sizesSum l2 := by
  simp [sizesSum]

theorem regionAt_append (rs : List Region) :
    ∀ (pre : List Region) (b0 a : Nat), b0 + sizesSum pre ≤ a →
      regionAt (pre ++ rs) b0 a = regionAt rs (b0 + sizesSum pre) a := by
  intro pre
  induction pre with
  | nil =>
    intro b0 a _
    simp [sizesSum]
  | cons r pre ih =>
    intro b0 a h
    rw [sizesSum_cons] at h
    rw [List.cons_append, regionAt, if_neg (by omega), ih (b0 + r.RegionSize) a (by omega),
      sizesSum_cons, Nat.add_assoc]

/-- The answer of the region query at an address inside a region of the target. -/
theorem target_regionAt_in (t : Target) (pre post : List Region) (r : Region)
    (hreg : t.regions = pre ++ r :: post) (a : Nat) (h1 : sizesSum pre ≤ a)
    (h2 : a < sizesSum pre + r.RegionSize) :
    regionAt t.regions 0 a
      = some { BaseAddress := a, RegionSize := sizesSum pre + r.RegionSize - a,
               State := r.State, Protect := r.Protect } := by
  rw [hreg, regionAt_append _ pre 0 a (by omega), Nat.zero_add, regionAt, if_pos h2]

theorem target_bytes_eq (t : Target) (addr n : Nat) : t.bytes addr n = memBytes t.byteMem addr n :=
  rfl

theorem target_canRead_in (t : Target) (pre post : List Region) (r : Region)
    (hreg : t.regions = pre ++ r :: post) (hs : r.State = MEM_COMMIT)
    (hr : isReadable r.Protect = true) (hg : r.Protect &&& PAGE_GUARD = 0) (a : Nat)
    (h1 : sizesSum pre ≤ a) (h2 : a < sizesSum pre + r.RegionSize) : t.canRead a = true := by
  unfold Target.canRead
  rw [target_regionAt_in t pre post r hreg a h1 h2]
  simp [hs, hr, hg]

/-- Inside a committed, readable, non-guard region in which the OS refuses no read, every
read succeeds in full and leaves the target as it is. -/
theorem target_readsInFull (t : Target) (h : Nat) (pre post : List Region) (r : Region)
    (hh : h ≠ 0) (hreg : t.regions = pre ++ r :: post) (hs : r.State = MEM_COMMIT)
    (hr : isReadable r.Protect = true) (hg : r.Protect &&& PAGE_GUARD = 0)
    (hf : t.noFault (sizesSum pre) (sizesSum pre + r.RegionSize)) :
    Target.os.readsInFull h t.byteMem (sizesSum pre) (sizesSum pre + r.RegionSize)
      (fun s => s = t) := by
  intro s off n hinv h1 h2
  subst hinv
  refine ⟨s, rfl, ?_⟩
  have hall : (List.range n).all (fun i => s.canRead (off + i)) = true := by
    rw [List.all_eq_true]
    intro i hi
    have := List.mem_range.mp hi
    exact target_canRead_in s pre post r hreg hs hr hg (off + i) (by omega) (by omega)
  simp only [Target.os, if_neg hh, hf off n h1 h2, hall, and_self, if_true, target_bytes_eq]

theorem target_read_state (t : Target) (h a n : Nat) (ans : Except Nat (List Nat)) (t1 : Target)
    (hr : Target.os.ReadProcessMemory t h a n = (ans, t1)) : t1 = t := by
  simp only [Target.os, Prod.mk.injEq] at hr
  exact hr.2.symm

/-- The chunk loop leaves the quiescent target as it is. -/
theorem chunkLoop_target_state (h size : Nat) (pred : List Nat → Bool) (m : Int)
    (end_ inner : Nat) :
    ∀ (fuel : Nat) (t : Target) (off : Nat) (acc : List Nat) (r : LoopExit) (t1 : Target),
      chunkLoop Target.os h size pred m end_ inner fuel t off acc = some (r, t1) → t1 = t := by
  intro fuel
  induction fuel with
  | zero =>
    intro t off acc r t1 hrun
    rw [chunkLoop_zero] at hrun
    cases hrun
  | succ fuel ih =>
    intro t off acc r t1 hrun
    by_cases hoff : off < end_
    · rcases hread : Target.os.ReadProcessMemory t h off (chunkLen end_ off) with ⟨ans, t2⟩
      have ht2 := target_read_state t h off _ ans t2 hread
      subst ht2
      cases ans with
      | error code =>
        rw [chunkLoop_read_error Target.os h size pred m end_ inner fuel _ off acc hoff code _
          hread] at hrun
        exact ih _ _ _ _ _ hrun
      | ok b =>
        rw [chunkLoop_read_ok Target.os h size pred m end_ inner fuel _ off acc hoff b _ hread]
          at hrun
        by_cases hb : 0 < b.length
        · rw [if_pos hb] at hrun
          cases hm : matchLoop size pred m off b inner 0 acc with
          | none =>
            rw [hm] at hrun
            cases hrun
          | some r1 =>
            rw [hm] at hrun
            cases r1 with
            | returned acc1 =>
              simp only at hrun
              cases hrun
              rfl
            | running acc1 =>
              simp only at hrun
              exact ih _ _ _ _ _ hrun
        · rw [if_neg hb] at hrun
          exact ih _ _ _ _ _ hrun
    · rw [chunkLoop_done Target.os h size pred m end_ inner fuel t off acc hoff] at hrun
      cases hrun
      rfl

theorem regionHits_nodup (size : Nat) (pred : List Nat → Bool) (mem : Nat → Nat)
    (base regionSize : Nat) (hsize : 0 < size) :
    (regionHits size pred mem base regionSize).Nodup := by
  unfold regionHits
  apply List.Nodup.map
  · intro x y hxy
    simp only at hxy
    have h1 : x * size = y * size := by omega
    exact Nat.eq_of_mul_eq_mul_right hsize h1
  · exact List.Nodup.filter _ (List.nodup_range _)

theorem width_dvd_maxChunk (size : Nat) (hw : size = 4 ∨ size = 8) : 0 < size ∧ size ∣ maxChunk := by
  rcases hw with h | h <;> subst h <;> exact ⟨by decide, by decide⟩

/-- C8 (amended). Chunk boundaries lose nothing: for a region `[base, base+regionSize)` that
ends below the top of the address space and whose reads succeed in full, and a width of 4 or 8, the chunked loop
collects exactly what a single pass over the bytes of the whole region collects: the slot
addresses `base + k*size` with `k*size + size <= regionSize` whose `size` bytes of memory
satisfy the predicate, each once, in ascending order.  With a predicate that is always true
this is the list of all slot addresses, so both loops evaluate the predicate at the same
offsets, on the same bytes. -/
theorem chunk_boundaries_lose_nothing {σ : Type} (os : OS σ) (h size : Nat)
    (pred : List Nat → Bool) (mem : Nat → Nat) (base regionSize fuel : Nat) (s : σ)
    (acc : List Nat) (inv : σ → Prop) (hw : size = 4 ∨ size = 8)
    (hin : base + regionSize < uintptrMod)
    (hreads : os.readsInFull h mem base (base + regionSize) inv) (hinv : inv s)
    (hfuel : regionSize + maxChunk < fuel) :
    (∃ s1, chunkLoop os h size pred 0 (base + regionSize) fuel fuel s base acc
      = some (LoopExit.running (acc ++ regionHits size pred mem base regionSize), s1)) ∧
    matchLoop size pred 0 base (memBytes mem base regionSize) fuel 0 acc
      = some (LoopExit.running (acc ++ regionHits size pred mem base regionSize)) ∧
    (regionHits size pred mem base regionSize).Nodup ∧
    regionHits size (fun _ => true) mem base regionSize
      = (List.range (regionSize / size)).map (fun k => base + k * size) := by
  obtain ⟨hsize, hdiv⟩ := width_dvd_maxChunk size hw
  refine ⟨?_, ?_, regionHits_nodup size pred mem base regionSize hsize, ?_⟩
  · obtain ⟨r, s1, hrun⟩ := chunkLoop_terminates os h size pred 0 (base + regionSize) fuel
      hsize hin (by omega) fuel s base acc (by omega)
    obtain ⟨hr, _⟩ := chunkLoop_full_reads os h size pred mem base (base + regionSize) fuel
      hsize hdiv hin inv hreads fuel s base acc r s1 hinv (Nat.le_refl _)
      (Or.inl (by rw [Nat.sub_self]; exact Nat.dvd_zero _)) hrun
    rw [Nat.sub_self, Nat.zero_div, Nat.add_sub_cancel_left,
      sliceHits_region size pred mem base regionSize hsize hin] at hr
    exact ⟨s1, by rw [hrun, hr]⟩
  · obtain ⟨f, hf⟩ : ∃ f, fuel = f + 1 := ⟨fuel - 1, by omega⟩
    obtain ⟨r, hrun⟩ := matchLoop_terminates size pred 0 base (memBytes mem base regionSize)
      hsize f 0 acc (by rw [memBytes_length]; omega)
    rw [← hf] at hrun
    have hr := matchLoop_chunk size pred 0 base _ hsize fuel acc r
      (by unfold capReached; omega) hrun
    rw [capped_of_not_reached 0 _ (by unfold capReached; omega), memBytes_length,
      sliceHits_region size pred mem base regionSize hsize hin] at hr
    rw [hrun, hr]
  · unfold regionHits
    simp

/-! ## The region filter on the quiescent target -/

theorem regionAt_same_region (rs : List Region) :
    ∀ (b0 addr a : Nat) (mbi : MemoryBasicInformation), regionAt rs b0 addr = some mbi →
      addr ≤ a → a < addr + mbi.RegionSize →
      ∃ mbi1, regionAt rs b0 a = some mbi1 ∧ mbi1.State = mbi.State ∧
        mbi1.Protect = mbi.Protect := by
  induction rs with
  | nil =>
    intro b0 addr a mbi h
    simp [regionAt] at h
  | cons r rs ih =>
    intro b0 addr a mbi h h1 h2
    rw [regionAt] at h
    by_cases hlt : addr < b0 + r.RegionSize
    · rw [if_pos hlt] at h
      cases h
      simp only at h2
      rw [regionAt, if_pos (by omega)]
      exact ⟨_, rfl, rfl, rfl⟩
    · rw [if_neg hlt] at h
      rw [regionAt, if_neg (by omega)]
      exact ih _ _ _ _ h h1 h2

theorem target_query_eq (t : Target) (h addr : Nat) (hh : h ≠ 0) :
    Target.os.VirtualQueryEx t h addr = (regionAt t.regions 0 addr, t) := by
  simp only [Target.os, if_neg hh]

theorem regionEnd_le (mbi : MemoryBasicInformation) :
    regionEnd mbi ≤ mbi.BaseAddress % uintptrMod + mbi.RegionSize := by
  unfold regionEnd
  have h1 := Nat.mod_le (mbi.BaseAddress % uintptrMod + mbi.RegionSize % uintptrMod) uintptrMod
  have h2 := Nat.mod_le mbi.RegionSize uintptrMod
  omega

/-- Every address the walk over the quiescent target collects lies in a region that passes
the filter. -/
theorem regionLoop_target_filter (t : Target) (h size : Nat) (pred : List Nat → Bool)
    (m : Int) (wo : Bool) (inner : Nat) (hsize : 0 < size) :
    ∀ (fuel : Nat) (addr : Nat) (acc R : List Nat) (t1 : Target),
      addr < uintptrMod → ¬ capReached m acc →
      regionLoop Target.os h size pred m wo inner fuel t addr acc = some (R, t1) →
      (∀ a ∈ acc, t.passesFilter wo a) → ∀ a ∈ R, t.passesFilter wo a := by
  intro fuel
  induction fuel with
  | zero =>
    intro addr acc R t1 _ _ hrun
    rw [regionLoop_zero] at hrun
    cases hrun
  | succ fuel ih =>
    intro addr acc R t1 haddr hcap hrun hacc
    rcases hq : Target.os.VirtualQueryEx t h addr with ⟨ans, t2⟩
    cases ans with
    | none =>
      rw [regionLoop_query_fail Target.os h size pred m wo inner fuel t addr acc t2 hq] at hrun
      cases hrun
      exact hacc
    | some mbi =>
      obtain ⟨_, hreg, ht2⟩ := target_query t h addr mbi t2 hq
      subst ht2
      have hbase : mbi.BaseAddress % uintptrMod = addr := by
        rw [regionAt_base _ _ _ _ hreg, Nat.mod_eq_of_lt haddr]
      by_cases hz : mbi.RegionSize % uintptrMod = 0
      · rw [regionLoop_size_zero Target.os h size pred m wo inner fuel _ addr acc mbi _ hq hz]
          at hrun
        cases hrun
        exact hacc
      · by_cases hs : scannable mbi
        · by_cases hw : wo = true ∧ isWritable mbi.Protect = false
          · rw [regionLoop_skip Target.os h size pred m wo inner fuel _ addr acc mbi _ hq hz
              hs hw] at hrun
            exact ih _ acc R t1 (regionEnd_lt mbi) hcap hrun hacc
          · rw [regionLoop_scan Target.os h size pred m wo inner fuel _ addr acc mbi _ hq hz
              hs hw] at hrun
            cases hc : chunkLoop Target.os h size pred m (regionEnd mbi) inner inner t2
                (mbi.BaseAddress % uintptrMod) acc with
            | none =>
              rw [hc] at hrun
              cases hrun
            | some res =>
              obtain ⟨r, t3⟩ := res
              rw [hc] at hrun
              have ht3 := chunkLoop_target_state h size pred m (regionEnd mbi) inner inner t2 _
                acc r t3 hc
              subst ht3
              obtain ⟨new1, f1, _, f3, f4⟩ := chunkLoop_found Target.os h size pred m
                (regionEnd mbi) inner hsize (regionEnd_lt mbi) inner t3 _ acc r t3 hcap hc
              have hfound : ∀ a ∈ r.found, t3.passesFilter wo a := by
                intro a ha
                rw [f1] at ha
                rcases List.mem_append.mp ha with h1 | h1
                · exact hacc a h1
                · have hb := f3 a h1
                  have hle := regionEnd_le mbi
                  rw [hbase] at hb hle
                  obtain ⟨mbi1, e1, e2, e3⟩ := regionAt_same_region t3.regions 0 addr a mbi
                    hreg hb.1 (by omega)
                  refine ⟨mbi1, e1, ?_, ?_, ?_, ?_⟩
                  · rw [e2]
                    exact hs.1
                  · rw [e3]
                    exact hs.2.1
                  · rw [e3]
                    exact hs.2.2
                  · intro hwo
                    rw [e3]
                    cases hiw : isWritable mbi.Protect with
                    | true => rfl
                    | false => exact absurd ⟨hwo, hiw⟩ hw
              cases r with
              | returned acc1 =>
                simp only at hrun
                cases hrun
                exact hfound
              | running acc1 =>
                simp only at hrun
                by_cases hstop : walkStops mbi
                · rw [if_pos hstop] at hrun
                  cases hrun
                  exact hfound
                · rw [if_neg hstop] at hrun
                  exact ih _ acc1 R t1 (regionEnd_lt mbi) (f4 acc1 rfl) hrun hfound
        · rw [regionLoop_pass Target.os h size pred m wo inner fuel _ addr acc mbi _ hq hz hs]
            at hrun
          by_cases hstop : walkStops mbi
          · rw [if_pos hstop] at hrun
            cases hrun
            exact hacc
          · rw [if_neg hstop] at hrun
            exact ih _ acc R t1 (regionEnd_lt mbi) hcap hrun hacc

/-- Every address a scan of the quiescent target returns lies in a region that passes the
filter. -/
theorem scanNumeric_target_filter (t : Target) (fuel : Nat) (p : Option Process) (size : Nat)
    (pred : List Nat → Bool) (m : Int) (wo : Bool) (R : List Nat) (t1 : Target)
    (hsize : 0 < size)
    (hrun : scanNumeric Target.os fuel t p size pred m wo = some (Except.ok R, t1)) :
    ∀ a ∈ R, t.passesFilter wo a := by
  obtain ⟨pr, _, _, hr⟩ := scanNumeric_ok Target.os fuel t p size pred m wo R t1 hrun
  exact regionLoop_target_filter t pr.Handle size pred m wo fuel hsize fuel 0 [] R t1
    (by decide) (not_capReached_nil m) hr (by simp)

/-! ## Completeness of the scan on the quiescent target -/

theorem mem_regionHits (size : Nat) (pred : List Nat → Bool) (mem : Nat → Nat)
    (base regionSize k : Nat) (hsize : 0 < size) (hk : k * size + size ≤ regionSize)
    (hp : pred (memBytes mem (base + k * size) size) = true) :
    base + k * size ∈ regionHits size pred mem base regionSize := by
  unfold regionHits
  rw [List.mem_map]
  refine ⟨k, ?_, rfl⟩
  rw [List.mem_filter, List.mem_range]
  refine ⟨?_, hp⟩
  have : k + 1 ≤ regionSize / size := by
    rw [Nat.le_div_iff_mul_le hsize, Nat.succ_mul]
    exact hk
  omega

/-- The region answer of the quiescent target at the start of one of its regions. -/
theorem target_query_at_start (t : Target) (h : Nat) (done post : List Region) (r : Region)
    (hh : h ≠ 0) (hreg : t.regions = done ++ r :: post) (hpos : 0 < r.RegionSize) :
    Target.os.VirtualQueryEx t h (sizesSum done)
      = (some { BaseAddress := sizesSum done, RegionSize := r.RegionSize, State := r.State,
                Protect := r.Protect }, t) := by
  rw [target_query_eq t h _ hh,
    target_regionAt_in t done post r hreg (sizesSum done) (Nat.le_refl _) (by omega),
    Nat.add_sub_cancel_left]

theorem mbi_in_range (base sz st pr : Nat) (hin : base + sz < uintptrMod) (hpos : 0 < sz) :
    (⟨base, sz, st, pr⟩ : MemoryBasicInformation).BaseAddress % uintptrMod = base ∧
    (⟨base, sz, st, pr⟩ : MemoryBasicInformation).RegionSize % uintptrMod ≠ 0 ∧
    regionEnd ⟨base, sz, st, pr⟩ = base + sz ∧ ¬ walkStops ⟨base, sz, st, pr⟩ := by
  have h1 : base % uintptrMod = base := Nat.mod_eq_of_lt (by omega)
  have h2 : sz % uintptrMod = sz := Nat.mod_eq_of_lt (by omega)
  have h3 : regionEnd ⟨base, sz, st, pr⟩ = base + sz := by
    unfold regionEnd
    simp only
    rw [h1, h2]
    exact Nat.mod_eq_of_lt hin
  refine ⟨h1, ?_, h3, ?_⟩
  · simp only
    rw [h2]
    omega
  · unfold walkStops
    rw [h3]
    simp only
    rw [h1]
    omega

/-- The walk over the quiescent target, without a cap and without the writable-only filter,
started at the start of a region at or below a scannable region, collects every slot of
that region whose bytes satisfy the predicate. -/
theorem regionLoop_target_finds (t : Target) (h size : Nat) (pred : List Nat → Bool)
    (inner : Nat) (hh : h ≠ 0) (hw : size = 4 ∨ size = 8) (r : Region) (post : List Region)
    (hs : r.State = MEM_COMMIT) (hr : isReadable r.Protect = true)
    (hg : r.Protect &&& PAGE_GUARD = 0) (k base : Nat) (hk : k * size + size ≤ r.RegionSize)
    (hin : base + r.RegionSize < uintptrMod) (hf : t.noFault base (base + r.RegionSize))
    (hp : pred (memBytes t.byteMem (base + k * size) size) = true) :
    ∀ (pre done : List Region), t.regions = done ++ pre ++ r :: post →
      base = sizesSum done + sizesSum pre →
      ∀ (fuel : Nat) (acc R : List Nat) (t1 : Target),
        regionLoop Target.os h size pred 0 false inner fuel t (sizesSum done) acc = some (R, t1) →
        base + k * size ∈ R := by
  obtain ⟨hsize, hdiv⟩ := width_dvd_maxChunk size hw
  have hwo : ¬ ((false : Bool) = true ∧ isWritable r.Protect = false) := by simp
  intro pre
  induction pre with
  | nil =>
    intro done hreg hbase fuel acc R t1 hrun
    rw [List.append_nil] at hreg
    have hb : base = sizesSum done := by
      rw [hbase]
      simp [sizesSum]
    subst hb
    cases fuel with
    | zero =>
      rw [regionLoop_zero] at hrun
      cases hrun
    | succ fuel =>
      have hpos : 0 < r.RegionSize := by omega
      have hq := target_query_at_start t h done post r hh hreg hpos
      obtain ⟨m1, m2, m3, m4⟩ := mbi_in_range (sizesSum done) r.RegionSize r.State r.Protect
        hin hpos
      rw [regionLoop_scan Target.os h size pred 0 false inner fuel t _ acc _ t hq m2
        ⟨hs, hr, hg⟩ (by simp), m1, m3] at hrun
      cases hc : chunkLoop Target.os h size pred 0 (sizesSum done + r.RegionSize) inner inner t
          (sizesSum done) acc with
      | none =>
        rw [hc] at hrun
        cases hrun
      | some res =>
        obtain ⟨r1, t2⟩ := res
        rw [hc] at hrun
        have hreads := target_readsInFull t h done post r hh hreg hs hr hg hf
        obtain ⟨e1, _⟩ := chunkLoop_full_reads Target.os h size pred t.byteMem (sizesSum done)
          (sizesSum done + r.RegionSize) inner hsize hdiv hin (fun s => s = t) hreads inner t
          (sizesSum done) acc r1 t2 rfl (Nat.le_refl _)
          (Or.inl (by rw [Nat.sub_self]; exact Nat.dvd_zero _)) hc
        rw [Nat.sub_self, Nat.zero_div, Nat.add_sub_cancel_left,
          sliceHits_region size pred t.byteMem (sizesSum done) r.RegionSize hsize hin] at e1
        subst e1
        simp only at hrun
        have hmem : sizesSum done + k * size
            ∈ acc ++ regionHits size pred t.byteMem (sizesSum done) r.RegionSize :=
          List.mem_append_right _ (mem_regionHits size pred t.byteMem _ _ k hsize hk hp)
        rw [if_neg m4] at hrun
        obtain ⟨new, e2⟩ := regionLoop_extends Target.os h size pred 0 false inner fuel t2 _ _
          R t1 hrun
        rw [e2]
        exact List.mem_append_left _ hmem
  | cons r0 pre ih =>
    intro done hreg hbase fuel acc R t1 hrun
    have hreg2 : t.regions = (done ++ [r0]) ++ pre ++ r :: post := by
      rw [hreg]
      simp
    have hsum : sizesSum (done ++ [r0]) = sizesSum done + r0.RegionSize := by
      rw [sizesSum_append, sizesSum_cons]
      simp [sizesSum]
    have hbase2 : base = sizesSum (done ++ [r0]) + sizesSum pre := by
      rw [hbase, hsum, sizesSum_cons]
      omega
    by_cases hz0 : r0.RegionSize = 0
    · have hs0 : sizesSum (done ++ [r0]) = sizesSum done := by
        rw [hsum, hz0, Nat.add_zero]
      rw [← hs0] at hrun
      exact ih (done ++ [r0]) hreg2 hbase2 fuel acc R t1 hrun
    · cases fuel with
      | zero =>
        rw [regionLoop_zero] at hrun
        cases hrun
      | succ fuel =>
        have hpos : 0 < r0.RegionSize := by omega
        have hreg3 : t.regions = done ++ r0 :: (pre ++ r :: post) := by
          rw [hreg]
          simp
        have hq := target_query_at_start t h done (pre ++ r :: post) r0 hh hreg3 hpos
        have hin0 : sizesSum done + r0.RegionSize < uintptrMod := by
          rw [hbase, sizesSum_cons] at hin
          omega
        obtain ⟨m1, m2, m3, m4⟩ := mbi_in_range (sizesSum done) r0.RegionSize r0.State
          r0.Protect hin0 hpos
        by_cases hsc : scannable
            { BaseAddress := sizesSum done, RegionSize := r0.RegionSize, State := r0.State,
              Protect := r0.Protect : MemoryBasicInformation }
        · rw [regionLoop_scan Target.os h size pred 0 false inner fuel t _ acc _ t hq m2
            hsc (by simp), m1, m3] at hrun
          cases hc : chunkLoop Target.os h size pred 0 (sizesSum done + r0.RegionSize) inner
              inner t (sizesSum done) acc with
          | none =>
            rw [hc] at hrun
            cases hrun
          | some res =>
            obtain ⟨r1, t2⟩ := res
            rw [hc] at hrun
            have ht2 := chunkLoop_target_state h size pred 0 _ inner inner t _ acc r1 t2 hc
            subst ht2
            obtain ⟨l1, e1⟩ := chunkLoop_nocap_running Target.os h size pred _ inner inner t2 _
              acc r1 t2 hc
            subst e1
            simp only at hrun
            rw [if_neg m4, ← hsum] at hrun
            exact ih (done ++ [r0]) hreg2 hbase2 fuel l1 R t1 hrun
        · rw [regionLoop_pass Target.os h size pred 0 false inner fuel t _ acc _ t hq m2 hsc,
            if_neg m4, m3, ← hsum] at hrun
          exact ih (done ++ [r0]) hreg2 hbase2 fuel acc R t1 hrun

/-- A scan of the quiescent target without a cap and without the writable-only filter ends
and returns every slot address of a scannable region whose bytes satisfy the predicate. -/
theorem target_scan_finds (t : Target) (p : Process) (size : Nat) (pred : List Nat → Bool)
    (pre post : List Region) (r : Region) (k : Nat) (hp : p.Handle ≠ 0)
    (hw : size = 4 ∨ size = 8) (hreg : t.regions = pre ++ r :: post)
    (hs : r.State = MEM_COMMIT) (hr : isReadable r.Protect = true)
    (hg : r.Protect &&& PAGE_GUARD = 0) (hin : sizesSum pre + r.RegionSize < uintptrMod)
    (hf : t.noFault (sizesSum pre) (sizesSum pre + r.RegionSize))
    (hk : k * size + size ≤ r.RegionSize)
    (hpred : pred (memBytes t.byteMem (sizesSum pre + k * size) size) = true) :
    ∃ fuel R t1, scanNumeric Target.os fuel t (some p) size pred 0 false
        = some (Except.ok R, t1) ∧ sizesSum pre + k * size ∈ R := by
  obtain ⟨hsize, _⟩ := width_dvd_maxChunk size hw
  obtain ⟨res, hres⟩ := scanNumeric_terminates Target.os t (some p) size pred 0 false hsize
    target_extendsPastQueried (fun h => by cases h)
  unfold scanNumeric at hres
  simp only at hres
  rw [if_neg hp] at hres
  cases hrl : regionLoop Target.os p.Handle size pred 0 false (uintptrMod + 1) (uintptrMod + 1)
      t 0 [] with
  | none =>
    rw [hrl] at hres
    cases hres
  | some v =>
    obtain ⟨R, t1⟩ := v
    refine ⟨uintptrMod + 1, R, t1, ?_, ?_⟩
    · unfold scanNumeric
      simp only
      rw [if_neg hp, hrl]
    · have h0 : sizesSum ([] : List Region) = 0 := rfl
      rw [← h0] at hrl
      exact regionLoop_target_finds t p.Handle size pred _ hp hw r post hs hr hg k
        (sizesSum pre) hk hin hf hpred pre [] (by rw [hreg]; simp)
        (by rw [h0, Nat.zero_add]) _ [] R t1 hrl

/-! ## A finite float matches itself -/

theorem floatVal_sub_self (ebits mbits : Nat) (neg : Bool) (n : Nat) :
    FloatVal.sub ebits mbits (FloatVal.fin neg n) (FloatVal.fin neg n)
      = FloatVal.fin false 0 := by
  simp only [FloatVal.sub, sub_self, if_true]
  cases neg <;> simp

theorem f32Sub_self (f : Nat) (hfin : finite32 f) : f32Sub f f = 0 := by
  obtain ⟨neg, n, h⟩ := hfin
  unfold f32Sub
  rw [h, floatVal_sub_self]
  decide

theorem f64Sub_self (f : Nat) (hfin : finite64 f) : f64Sub f f = 0 := by
  obtain ⟨neg, n, h⟩ := hfin
  unfold f64Sub
  rw [h, floatVal_sub_self]
  decide

theorem f32_self_match (f : Nat) (hf : f < 2 ^ 32) (hfin : finite32 f) :
    f32Le (float32Abs (f32Sub (Float32frombits (Uint32 (PutUint32 (Float32bits f)))) f)) eps32
      = true := by
  have h1 : Float32bits f = f := Nat.mod_eq_of_lt hf
  have h2 : Float32frombits f = f := Nat.mod_eq_of_lt hf
  rw [h1, Uint32_PutUint32 f hf, h2, f32Sub_self f hfin]
  decide

theorem f64_self_match (f : Nat) (hf : f < 2 ^ 64) (hfin : finite64 f) :
    f64Le (mathAbs (f64Sub (Float64frombits (Uint64 (PutUint64 (Float64bits f)))) f)) eps64
      = true := by
  have h1 : Float64bits f = f := Nat.mod_eq_of_lt hf
  have h2 : Float64frombits f = f := Nat.mod_eq_of_lt hf
  rw [h1, Uint64_PutUint64 f hf, h2, f64Sub_self f hfin]
  decide

/-- C2 (amended). Scan finds written values: in a target in which `a` is the base of a committed,
readable, non-guard region plus a multiple of the type width, with `a + width` inside the
region, the region ending below the top of the address space, no read inside the region
refused,
and the bytes at `a` the little-endian encoding of `v`, the typed scan for `v` (exact for
the four integer types, approximate with the default epsilon for a finite `float32` or
`float64`) with `max = 0` and `writableOnly = false` ends and returns a list that
contains `a`. -/
theorem scan_finds_written_values (t : Target) (p : Process) (pre post : List Region)
    (r : Region) (hp : p.Handle ≠ 0) (hreg : t.regions = pre ++ r :: post)
    (hs : r.State = MEM_COMMIT) (hr : isReadable r.Protect = true)
    (hg : r.Protect &&& PAGE_GUARD = 0) (hin : sizesSum pre + r.RegionSize < uintptrMod)
    (hf : t.noFault (sizesSum pre) (sizesSum pre + r.RegionSize)) :
    (∀ (k : Nat) (v : Int), k * 4 + 4 ≤ r.RegionSize → -2 ^ 31 ≤ v → v < 2 ^ 31 →
      t.bytes (sizesSum pre + k * 4) 4 = PutUint32 (toUint32 v) →
      ∃ fuel R t1, ScanInt32 Target.os fuel t (some p) v 0 false = some (Except.ok R, t1) ∧
        sizesSum pre + k * 4 ∈ R) ∧
    (∀ (k : Nat) (v : Nat), k * 4 + 4 ≤ r.RegionSize → v < 2 ^ 32 →
      t.bytes (sizesSum pre + k * 4) 4 = PutUint32 v →
      ∃ fuel R t1, ScanUint32 Target.os fuel t (some p) v 0 false = some (Except.ok R, t1) ∧
        sizesSum pre + k * 4 ∈ R) ∧
    (∀ (k : Nat) (v : Int), k * 8 + 8 ≤ r.RegionSize → -2 ^ 63 ≤ v → v < 2 ^ 63 →
      t.bytes (sizesSum pre + k * 8) 8 = PutUint64 (toUint64 v) →
      ∃ fuel R t1, ScanInt64 Target.os fuel t (some p) v 0 false = some (Except.ok R, t1) ∧
        sizesSum pre + k * 8 ∈ R) ∧
    (∀ (k : Nat) (v : Nat), k * 8 + 8 ≤ r.RegionSize → v < 2 ^ 64 →
      t.bytes (sizesSum pre + k * 8) 8 = PutUint64 v →
      ∃ fuel R t1, ScanUint64 Target.os fuel t (some p) v 0 false = some (Except.ok R, t1) ∧
        sizesSum pre + k * 8 ∈ R) ∧
    (∀ (k : Nat) (f : Nat), k * 4 + 4 ≤ r.RegionSize → f < 2 ^ 32 → finite32 f →
      t.bytes (sizesSum pre + k * 4) 4 = PutUint32 (Float32bits f) →
      ∃ fuel R t1, ScanFloat32Approx Target.os fuel t (some p) f eps32 0 false
          = some (Except.ok R, t1) ∧ sizesSum pre + k * 4 ∈ R) ∧
    (∀ (k : Nat) (f : Nat), k * 8 + 8 ≤ r.RegionSize → f < 2 ^ 64 → finite64 f →
      t.bytes (sizesSum pre + k * 8) 8 = PutUint64 (Float64bits f) →
      ∃ fuel R t1, ScanFloat64Approx Target.os fuel t (some p) f eps64 0 false
          = some (Except.ok R, t1) ∧ sizesSum pre + k * 8 ∈ R) := by
  refine ⟨?_, ?_, ?_, ?_, ?_, ?_⟩
  · intro k v hk h1 h2 hb
    apply target_scan_finds t p 4 _ pre post r k hp (Or.inl rfl) hreg hs hr hg hin hf hk
    rw [← target_bytes_eq, hb, Uint32_PutUint32 _ (toUint32_lt v), toInt32_toUint32 v h1 h2]
    exact decide_eq_true rfl
  · intro k v hk h1 hb
    apply target_scan_finds t p 4 _ pre post r k hp (Or.inl rfl) hreg hs hr hg hin hf hk
    rw [← target_bytes_eq, hb, Uint32_PutUint32 _ h1]
    exact decide_eq_true rfl
  · intro k v hk h1 h2 hb
    apply target_scan_finds t p 8 _ pre post r k hp (Or.inr rfl) hreg hs hr hg hin hf hk
    rw [← target_bytes_eq, hb, Uint64_PutUint64 _ (toUint64_lt v), toInt64_toUint64 v h1 h2]
    exact decide_eq_true rfl
  · intro k v hk h1 hb
    apply target_scan_finds t p 8 _ pre post r k hp (Or.inr rfl) hreg hs hr hg hin hf hk
    rw [← target_bytes_eq, hb, Uint64_PutUint64 _ h1]
    exact decide_eq_true rfl
  · intro k f hk h1 hfin hb
    apply target_scan_finds t p 4 _ pre post r k hp (Or.inl rfl) hreg hs hr hg hin hf hk
    rw [← target_bytes_eq, hb]
    exact f32_self_match f h1 hfin
  · intro k f hk h1 hfin hb
    apply target_scan_finds t p 8 _ pre post r k hp (Or.inr rfl) hreg hs hr hg hin hf hk
    rw [← target_bytes_eq, hb]
    exact f64_self_match f h1 hfin

/-- C2 (amended), at a concrete input: the `float32` pattern `0x2A2A2A2A` sits in slot 3 of the
read-write region of the small target, and the approximate scan for it returns
`0x1000C`. -/
theorem scan_finds_written_values_witness :
    ∃ fuel R t1, ScanFloat32Approx Target.os fuel demoTarget (some demoProcess) 0x2A2A2A2A
        eps32 0 false = some (Except.ok R, t1) ∧
      sizesSum [⟨0x10000, 0x10000, PAGE_NOACCESS⟩] + 3 * 4 ∈ R :=
  (scan_finds_written_values demoTarget demoProcess [⟨0x10000, 0x10000, PAGE_NOACCESS⟩]
    [⟨16, MEM_COMMIT, PAGE_READONLY⟩] ⟨32, MEM_COMMIT, PAGE_READWRITE⟩ (by decide) rfl rfl
    (by decide) (by decide) (by decide) (fun _ _ _ _ => rfl)).2.2.2.2.1 3 0x2A2A2A2A
    (by decide) (by decide) ⟨false, _, rfl⟩ (by decide)

/-- C5 (amended). Region filter: every address returned by a scan (width 4 or 8, any
predicate, any cap) of a target lies in a region whose state is MEM_COMMIT, whose protection
is readable and whose PAGE_GUARD bit is clear, and with `writableOnly` also writable.  In
particular a value sitting in a slot of a committed region whose protection is
PAGE_READONLY and which ends below the top of the address space is returned by the scan
with `writableOnly = false` (no cap) and by no scan with `writableOnly = true`. -/
theorem region_filter (t : Target) (size : Nat) (pred : List Nat → Bool)
    (hw : size = 4 ∨ size = 8) :
    (∀ (fuel : Nat) (p : Option Process) (m : Int) (wo : Bool) (R : List Nat) (t1 : Target),
      scanNumeric Target.os fuel t p size pred m wo = some (Except.ok R, t1) →
      ∀ a ∈ R, ∃ mbi, regionAt t.regions 0 a = some mbi ∧ mbi.State = MEM_COMMIT ∧
        isReadable mbi.Protect = true ∧ mbi.Protect &&& PAGE_GUARD = 0 ∧
        (wo = true → isWritable mbi.Protect = true)) ∧
    (∀ (p : Process) (pre post : List Region) (r : Region) (k : Nat), p.Handle ≠ 0 →
      t.regions = pre ++ r :: post → r.State = MEM_COMMIT → r.Protect = PAGE_READONLY →
      sizesSum pre + r.RegionSize < uintptrMod →
      t.noFault (sizesSum pre) (sizesSum pre + r.RegionSize) →
      k * size + size ≤ r.RegionSize →
      pred (t.bytes (sizesSum pre + k * size) size) = true →
      (∃ fuel R t1, scanNumeric Target.os fuel t (some p) size pred 0 false
          = some (Except.ok R, t1) ∧ sizesSum pre + k * size ∈ R) ∧
      (∀ (fuel : Nat) (m : Int) (R : List Nat) (t1 : Target),
        scanNumeric Target.os fuel t (some p) size pred m true = some (Except.ok R, t1) →
        sizesSum pre + k * size ∉ R)) := by
  obtain ⟨hsize, _⟩ := width_dvd_maxChunk size hw
  refine ⟨?_, ?_⟩
  · intro fuel p m wo R t1 hrun a ha
    exact scanNumeric_target_filter t fuel p size pred m wo R t1 hsize hrun a ha
  · intro p pre post r k hp hreg hs hpr hin hf hk hpred
    refine ⟨?_, ?_⟩
    · exact target_scan_finds t p size pred pre post r k hp hw hreg hs
        (by rw [hpr]; decide) (by rw [hpr]; decide) hin hf hk hpred
    · intro fuel m R t1 hrun hmem
      obtain ⟨mbi, e1, _, _, _, e5⟩ :=
        scanNumeric_target_filter t fuel (some p) size pred m true R t1 hsize hrun _ hmem
      rw [target_regionAt_in t pre post r hreg (sizesSum pre + k * size) (by omega)
        (by omega)] at e1
      cases e1
      have := e5 rfl
      simp only at this
      rw [hpr] at this
      exact absurd this (by decide)

/-- C5 (amended), at a concrete input: slot 1 of the read-only region `[0x10020, 0x10030)` of the
small target holds `0x2A2A2A2A`; the `uint32` scan returns its address without
`writableOnly` and never with it. -/
theorem region_filter_witness :
    (∃ fuel R t1, scanNumeric Target.os fuel demoTarget (some demoProcess) 4
        (fun b => decide (Uint32 b = 0x2A2A2A2A)) 0 false = some (Except.ok R, t1) ∧
      sizesSum [⟨0x10000, 0x10000, PAGE_NOACCESS⟩, ⟨32, MEM_COMMIT, PAGE_READWRITE⟩] + 1 * 4
        ∈ R) ∧
    (∀ (fuel : Nat) (m : Int) (R : List Nat) (t1 : Target),
      scanNumeric Target.os fuel demoTarget (some demoProcess) 4
        (fun b => decide (Uint32 b = 0x2A2A2A2A)) m true = some (Except.ok R, t1) →
      sizesSum [⟨0x10000, 0x10000, PAGE_NOACCESS⟩, ⟨32, MEM_COMMIT, PAGE_READWRITE⟩] + 1 * 4
        ∉ R) :=
  (region_filter demoTarget 4 (fun b => decide (Uint32 b = 0x2A2A2A2A)) (Or.inl rfl)).2
    demoProcess [⟨0x10000, 0x10000, PAGE_NOACCESS⟩, ⟨32, MEM_COMMIT, PAGE_READWRITE⟩] []
    ⟨16, MEM_COMMIT, PAGE_READONLY⟩ 1 (by decide) rfl rfl rfl (by decide)
    (fun _ _ _ _ => rfl) (by decide) (by decide)

/-! ## Chunk read failures -/

theorem sliceHits_of_no_match (size : Nat) (pred : List Nat → Bool) (offset : Nat) (b : List Nat)
    (hsize : 0 < size)
    (hno : ∀ k, k * size + size ≤ b.length → pred ((b.drop (k * size)).take size) = false) :
    sliceHits size pred offset b 0 (b.length / size) = [] := by
  apply List.eq_nil_iff_forall_not_mem.mpr
  intro a ha
  rw [mem_sliceHits] at ha
  obtain ⟨k, _, h2, h3, _⟩ := ha
  have hk : k + 1 ≤ b.length / size := by omega
  rw [Nat.le_div_iff_mul_le hsize, Nat.succ_mul] at hk
  rw [hno k hk] at h3
  cases h3

/-- A chunk that was read in full and holds no match leaves the collected addresses as
they are: the chunk loop goes on with the next chunk. -/
theorem chunkLoop_read_no_match {σ : Type} (os : OS σ) (h size : Nat) (pred : List Nat → Bool)
    (m : Int) (end_ inner fuel : Nat) (s : σ) (off : Nat) (acc : List Nat)
    (hoff : off < end_) (b : List Nat) (s1 : σ)
    (hread : os.ReadProcessMemory s h off (chunkLen end_ off) = (Except.ok b, s1))
    (hsize : 0 < size) (hinner : b.length < inner) (hcap : ¬ capReached m acc)
    (hno : ∀ k, k * size + size ≤ b.length → pred ((b.drop (k * size)).take size) = false) :
    chunkLoop os h size pred m end_ inner (fuel + 1) s off acc
      = chunkLoop os h size pred m end_ inner fuel s1
          ((off + chunkLen end_ off) % uintptrMod) acc := by
  rw [chunkLoop_read_ok os h size pred m end_ inner fuel s off acc hoff b s1 hread]
  by_cases hb : 0 < b.length
  · rw [if_pos hb]
    obtain ⟨f, hf⟩ : ∃ f, inner = f + 1 := ⟨inner - 1, by omega⟩
    obtain ⟨r, hr⟩ := matchLoop_terminates size pred m off b hsize f 0 acc (by omega)
    rw [← hf] at hr
    have hchar := matchLoop_chunk size pred m off b hsize inner acc r hcap hr
    rw [sliceHits_of_no_match size pred off b hsize hno, List.append_nil,
      capped_of_not_reached m acc hcap] at hchar
    rw [hr, hchar]
  · rw [if_neg hb]

/-- A scan under a handle that is neither nil nor zero returns a nil error. -/
theorem scanNumeric_nil_error {σ : Type} (os : OS σ) (fuel : Nat) (s : σ) (pr : Process)
    (size : Nat) (pred : List Nat → Bool) (m : Int) (wo : Bool)
    (r : Except Err (List Nat) × σ) (hh : pr.Handle ≠ 0)
    (hrun : scanNumeric os fuel s (some pr) size pred m wo = some r) :
    ∃ R, r.1 = Except.ok R := by
  unfold scanNumeric at hrun
  simp only at hrun
  rw [if_neg hh] at hrun
  cases hr : regionLoop os pr.Handle size pred m wo fuel fuel s 0 [] with
  | none =>
    rw [hr] at hrun
    cases hrun
  | some v =>
    rw [hr] at hrun
    cases hrun
    exact ⟨v.1, rfl⟩

/-- C11. Chunk read failures are swallowed: under a handle that is neither nil nor zero a
scan that returns, returns a nil error (and it does return when every region answer
extends past the queried address); a chunk whose read fails, or returns zero bytes, adds
no address and the loop goes on with the next chunk, exactly as after a chunk that was
read and holds no match. -/
theorem chunk_read_failures_swallowed {σ : Type} (os : OS σ) (size : Nat)
    (pred : List Nat → Bool) (m : Int) (wo : Bool) :
    (∀ fuel s (pr : Process) r, pr.Handle ≠ 0 →
      scanNumeric os fuel s (some pr) size pred m wo = some r → ∃ R, r.1 = Except.ok R) ∧
    (0 < size → os.extendsPastQueried → (wo = true → os.skipsInRange) →
      ∀ s (pr : Process), pr.Handle ≠ 0 →
        ∃ fuel R s1, scanNumeric os fuel s (some pr) size pred m wo = some (Except.ok R, s1)) ∧
    (∀ h end_ inner fuel s off acc code s1, off < end_ →
      os.ReadProcessMemory s h off (chunkLen end_ off) = (Except.error code, s1) →
      chunkLoop os h size pred m end_ inner (fuel + 1) s off acc
        = chunkLoop os h size pred m end_ inner fuel s1
            ((off + chunkLen end_ off) % uintptrMod) acc) ∧
    (∀ h end_ inner fuel s off acc s1, off < end_ →
      os.ReadProcessMemory s h off (chunkLen end_ off) = (Except.ok [], s1) →
      chunkLoop os h size pred m end_ inner (fuel + 1) s off acc
        = chunkLoop os h size pred m end_ inner fuel s1
            ((off + chunkLen end_ off) % uintptrMod) acc) ∧
    (∀ h end_ inner fuel s off acc b s1, off < end_ →
      os.ReadProcessMemory s h off (chunkLen end_ off) = (Except.ok b, s1) →
      0 < size → b.length < inner → ¬ capReached m acc →
      (∀ k, k * size + size ≤ b.length → pred ((b.drop (k * size)).take size) = false) →
      chunkLoop os h size pred m end_ inner (fuel + 1) s off acc
        = chunkLoop os h size pred m end_ inner fuel s1
            ((off + chunkLen end_ off) % uintptrMod) acc) := by
  refine ⟨?_, ?_, ?_, ?_, ?_⟩
  · intro fuel s pr r hh hrun
    exact scanNumeric_nil_error os fuel s pr size pred m wo r hh hrun
  · intro hsize hos hskip s pr hh
    obtain ⟨r, hr⟩ := scanNumeric_terminates os s (some pr) size pred m wo hsize hos hskip
    obtain ⟨R, hR⟩ := scanNumeric_nil_error os _ s pr size pred m wo r hh hr
    refine ⟨uintptrMod + 1, R, r.2, ?_⟩
    rw [hr, ← hR]
  · intro h end_ inner fuel s off acc code s1 hoff hread
    exact chunkLoop_read_error os h size pred m end_ inner fuel s off acc hoff code s1 hread
  · intro h end_ inner fuel s off acc s1 hoff hread
    rw [chunkLoop_read_ok os h size pred m end_ inner fuel s off acc hoff [] s1 hread]
    simp
  · intro h end_ inner fuel s off acc b s1 hoff hread hsize hinner hcap hno
    exact chunkLoop_read_no_match os h size pred m end_ inner fuel s off acc hoff b s1 hread
      hsize hinner hcap hno

/-- C11, at a concrete input: in the target whose read at `0x10000` is refused, the failed
chunk is skipped and the `uint32` scan still returns, with a nil error, the four slots of
the region that follows. -/
theorem chunk_read_failures_swallowed_witness :
    (∃ R, (Except.ok [0x10020, 0x10024, 0x10028, 0x1002C], faultyTarget).1
      = (Except.ok R : Except Err (List Nat))) ∧
    chunkLoop Target.os 1 4 (fun b => decide (Uint32 b = 0x2A2A2A2A)) 0 0x10020 16 (15 + 1)
        faultyTarget 0x10000 []
      = chunkLoop Target.os 1 4 (fun b => decide (Uint32 b = 0x2A2A2A2A)) 0 0x10020 16 15
          faultyTarget ((0x10000 + chunkLen 0x10020 0x10000) % uintptrMod) [] :=
  ⟨(chunk_read_failures_swallowed Target.os 4 (fun b => decide (Uint32 b = 0x2A2A2A2A)) 0
      false).1 16 faultyTarget demoProcess
      (Except.ok [0x10020, 0x10024, 0x10028, 0x1002C], faultyTarget) (by decide) rfl,
   (chunk_read_failures_swallowed Target.os 4 (fun b => decide (Uint32 b = 0x2A2A2A2A)) 0
      false).2.2.1 1 0x10020 16 15 faultyTarget 0x10000 [] 299 faultyTarget (by decide) rfl⟩

/-! ## Exact byte counts -/

theorem readExact_ok_iff {σ : Type} (os : OS σ) (s : σ) (p : Process) (addr n : Nat) :
    (∃ d, (readExact os s p addr n).1 = Except.ok d) ↔
      ∃ data, (os.ReadProcessMemory s p.Handle addr n).1 = Except.ok data ∧ data.length = n := by
  unfold readExact
  rcases hr : os.ReadProcessMemory s p.Handle addr n with ⟨code | data, s1⟩
  · simp
  · by_cases hl : data.length = n
    · simp [hl]
    · simp [hl]

theorem writeExact_ok_iff {σ : Type} (os : OS σ) (s : σ) (p : Process) (addr : Nat)
    (buf : List Nat) :
    (writeExact os s p addr buf).1 = Except.ok () ↔
      (os.WriteProcessMemory s p.Handle addr buf).1 = Except.ok buf.length := by
  unfold writeExact
  rcases hr : os.WriteProcessMemory s p.Handle addr buf with ⟨code | written, s1⟩
  · simp
  · by_cases hl : written = buf.length
    · simp [hl]
    · simp [hl]

/-- C12. Exact byte count: for a buffer of `n` bytes, `readExact` returns nil exactly
when the OS read succeeded and reported `n` bytes; when the OS call succeeds with another
count it returns the short-read error carrying that count, and when the OS call fails it
returns the OS error.  `writeExact` does the same with the written count and the
short-write error. -/
theorem exact_byte_count {σ : Type} (os : OS σ) (s : σ) (p : Process) (addr n : Nat)
    (buf : List Nat) :
    ((∃ d, (readExact os s p addr n).1 = Except.ok d) ↔
      ∃ data, (os.ReadProcessMemory s p.Handle addr n).1 = Except.ok data ∧ data.length = n) ∧
    (∀ data s1, os.ReadProcessMemory s p.Handle addr n = (Except.ok data, s1) →
      data.length = n → readExact os s p addr n = (Except.ok data, s1)) ∧
    (∀ data s1, os.ReadProcessMemory s p.Handle addr n = (Except.ok data, s1) →
      data.length ≠ n →
      readExact os s p addr n = (Except.error (Err.shortRead data.length), s1)) ∧
    (∀ code s1, os.ReadProcessMemory s p.Handle addr n = (Except.error code, s1) →
      readExact os s p addr n = (Except.error (Err.os code), s1)) ∧
    ((writeExact os s p addr buf).1 = Except.ok () ↔
      (os.WriteProcessMemory s p.Handle addr buf).1 = Except.ok buf.length) ∧
    (∀ written s1, os.WriteProcessMemory s p.Handle addr buf = (Except.ok written, s1) →
      written = buf.length → writeExact os s p addr buf = (Except.ok (), s1)) ∧
    (∀ written s1, os.WriteProcessMemory s p.Handle addr buf = (Except.ok written, s1) →
      written ≠ buf.length →
      writeExact os s p addr buf = (Except.error (Err.shortWrite written), s1)) ∧
    (∀ code s1, os.WriteProcessMemory s p.Handle addr buf = (Except.error code, s1) →
      writeExact os s p addr buf = (Except.error (Err.os code), s1)) := by
  refine ⟨readExact_ok_iff os s p addr n, ?_, ?_, ?_, writeExact_ok_iff os s p addr buf,
    ?_, ?_, ?_⟩
  · intro data s1 hr hl
    simp only [readExact, hr, hl, ne_eq, not_true_eq_false, if_false]
  · intro data s1 hr hl
    simp only [readExact, hr, ne_eq, hl, not_false_eq_true, if_true]
  · intro code s1 hr
    simp only [readExact, hr]
  · intro written s1 hr hl
    simp only [writeExact, hr, hl, ne_eq, not_true_eq_false, if_false]
  · intro written s1 hr hl
    simp only [writeExact, hr, ne_eq, hl, not_false_eq_true, if_true]
  · intro code s1 hr
    simp only [writeExact, hr]

/-- C12, at a concrete input: against an OS that returns two of four bytes and writes one
of four, `readExact` returns `short read: 2` and `writeExact` returns `short write: 1`. -/
theorem exact_byte_count_witness :
    readExact shortOS () demoProcess 0x10000 4 = (Except.error (Err.shortRead 2), ()) ∧
    writeExact shortOS () demoProcess 0x10000 [1, 2, 3, 4]
      = (Except.error (Err.shortWrite 1), ()) :=
  ⟨(exact_byte_count shortOS () demoProcess 0x10000 4 [1, 2, 3, 4]).2.2.1 [0, 0] () rfl
      (by decide),
   (exact_byte_count shortOS () demoProcess 0x10000 4 [1, 2, 3, 4]).2.2.2.2.2.2.1 1 () rfl
      (by decide)⟩

/-! ## Handles: `Open`, `Close` and operations under a handle that is not open -/

/-- `Close` on the nil receiver does nothing. -/
theorem Close_nil {σ : Type} (osh : OSH σ) (s : σ) : Close osh s none = (Except.ok (), s) := rfl

/-- `Close` on a zero handle does nothing. -/
theorem Close_zero {σ : Type} (osh : OSH σ) (s : σ) (pr : Process) (h0 : pr.Handle = 0) :
    Close osh s (some pr) = (Except.ok (), s) := by
  simp only [Close, if_pos h0]

/-- `Close` on a non-zero handle is one call of `CloseHandle` with that handle. -/
theorem Close_nonzero {σ : Type} (osh : OSH σ) (s : σ) (pr : Process) (h0 : pr.Handle ≠ 0) :
    (Close osh s (some pr)).2 = (osh.CloseHandle s pr.Handle).2 ∧
    (Close osh s (some pr)).1 =
      (match (osh.CloseHandle s pr.Handle).1 with
       | Except.error code => Except.error (Err.os code)
       | Except.ok _ => Except.ok ()) := by
  simp only [Close, if_neg h0]
  rcases hc : osh.CloseHandle s pr.Handle with ⟨r, s1⟩
  cases r <;> simp

/-- The handle the machine hands out is not open and not zero. -/
theorem freshHandle_spec (hs : List Nat) : freshHandle hs ∉ hs ∧ freshHandle hs ≠ 0 := by
  unfold freshHandle
  cases hf : ((List.range (hs.length + 1)).map (fun k => k + 1)).find?
      (fun k => decide (4 * k ∉ hs)) with
  | some k =>
    have h1 := List.find?_some hf
    have h2 := List.mem_of_find?_eq_some hf
    simp only [List.mem_map, List.mem_range] at h2
    obtain ⟨j, _, rfl⟩ := h2
    simp only [Option.getD_some]
    refine ⟨by simpa using h1, by omega⟩
  | none =>
    exfalso
    rw [List.find?_eq_none] at hf
    have hall : ∀ j, j < hs.length + 1 → 4 * (j + 1) ∈ hs := by
      intro j hj
      have := hf (j + 1) (by simp only [List.mem_map, List.mem_range]; exact ⟨j, hj, rfl⟩)
      simpa using this
    have hsub : ((List.range (hs.length + 1)).map (fun j => 4 * (j + 1))) ⊆ hs := by
      intro x hx
      simp only [List.mem_map, List.mem_range] at hx
      obtain ⟨j, hj, rfl⟩ := hx
      exact hall j hj
    have hnd : ((List.range (hs.length + 1)).map (fun j => 4 * (j + 1))).Nodup := by
      refine List.Nodup.map ?_ (List.nodup_range _)
      intro a b hab
      simp only at hab
      omega
    have hle := (List.subperm_of_subset hnd hsub).length_le
    simp at hle

/-- `Open` keeps the handle table well formed. -/
theorem machine_Open_wf (m : Machine) (pid : Nat) (hwf : m.wf) :
    (Open Machine.osh m pid).2.wf := by
  unfold Open Machine.osh
  by_cases hp : pid = 0
  · simp only [if_pos hp]
    exact hwf
  · simp only [if_neg hp]
    obtain ⟨h1, h2⟩ := freshHandle_spec m.handles
    refine ⟨List.nodup_cons.mpr ⟨h1, hwf.1⟩, ?_⟩
    simp only [List.mem_cons, not_or]
    exact ⟨fun h => h2 h.symm, hwf.2⟩

/-- After `Close`, the handle of the `Process` is not open. -/
theorem machine_Close_not_open (m : Machine) (p : Process) (hwf : m.wf) :
    (Close Machine.osh m (some p)).2.wf ∧ p.Handle ∉ (Close Machine.osh m (some p)).2.handles := by
  unfold Close Machine.osh
  by_cases h0 : p.Handle = 0
  · simp only [if_pos h0]
    exact ⟨hwf, by rw [h0]; exact hwf.2⟩
  · simp only [if_neg h0]
    by_cases hin : p.Handle ∈ m.handles
    · simp only [if_pos hin]
      refine ⟨⟨hwf.1.erase _, fun h => hwf.2 (List.mem_of_mem_erase h)⟩, ?_⟩
      exact fun h => (List.Nodup.mem_erase_iff hwf.1).mp h |>.1 rfl
    · simp only [if_neg hin]
      exact ⟨hwf, hin⟩

/-- Under a handle that is not open, `readExact` returns the machine's error 6 and the
machine is left as it was. -/
theorem machine_readExact_closed (m : Machine) (p : Process) (addr n : Nat)
    (hc : p.Handle ∉ m.handles) :
    readExact Machine.osh.toOS m p addr n = (Except.error (Err.os 6), m) := by
  simp only [readExact, Machine.osh, if_neg hc]

/-- Under a handle that is not open, `writeExact` returns the machine's error 6 and the
machine is left as it was. -/
theorem machine_writeExact_closed (m : Machine) (p : Process) (addr : Nat) (buf : List Nat)
    (hc : p.Handle ∉ m.handles) :
    writeExact Machine.osh.toOS m p addr buf = (Except.error (Err.os 6), m) := by
  simp only [writeExact, Machine.osh, if_neg hc]

/-- Under a non-zero handle that is not open the first region query fails, so the scan
returns no address and a nil error. -/
theorem machine_scan_closed (m : Machine) (p : Process) (fuel size : Nat)
    (pred : List Nat → Bool) (mr : Int) (wo : Bool)
    (h0 : p.Handle ≠ 0) (hc : p.Handle ∉ m.handles) :
    scanNumeric Machine.osh.toOS (fuel + 1) m (some p) size pred mr wo
      = some (Except.ok [], m) := by
  have hq : Machine.osh.toOS.VirtualQueryEx m p.Handle 0 = (none, m) := by
    simp only [Machine.osh, if_neg hc]
  simp only [scanNumeric, if_neg h0,
    regionLoop_query_fail Machine.osh.toOS p.Handle size pred mr wo (fuel + 1) fuel m 0 [] m hq]

/-- On a nil `Process` or a zero handle the scan returns the error before any call. -/
theorem scanNumeric_no_handle {σ : Type} (os : OS σ) (fuel : Nat) (s : σ) (p : Option Process)
    (size : Nat) (pred : List Nat → Bool) (mr : Int) (wo : Bool)
    (hp : ∀ pr, p = some pr → pr.Handle = 0) :
    scanNumeric os fuel s p size pred mr wo = some (Except.error Err.handleNil, s) := by
  cases p with
  | none => rfl
  | some pr => simp only [scanNumeric, if_pos (hp pr rfl)]

/-- C18 (as stated, refuted).  `Open(4242)` hands out handle 4 and the first `Close`
releases it without error; the `Process` still holds 4, so the second `Close` calls
`CloseHandle(4)` again and returns the machine's error 6.  When another `Open` came in
between and was handed the value 4 again, the second `Close` of the first `Process`
returns nil and releases the handle of the second one. -/
theorem close_idempotent_counterexample :
    (Open Machine.osh demoMachine 4242).1 = Except.ok openedProcess ∧
    openedMachine.handles = [4] ∧
    (Close Machine.osh openedMachine (some openedProcess)).1 = Except.ok () ∧
    closedMachine.handles = [] ∧
    (Close Machine.osh closedMachine (some openedProcess)).1 = Except.error (Err.os 6) ∧
    (Close Machine.osh.traced (closedMachine, []) (some openedProcess)).2.2
      = [OSCall.closeHandle 4] ∧
    (Open Machine.osh closedMachine 777).1 = Except.ok { Handle := 4, PID := 777 } ∧
    reopenedMachine.handles = [4] ∧
    (Close Machine.osh reopenedMachine (some openedProcess)).1 = Except.ok () ∧
    (Close Machine.osh reopenedMachine (some openedProcess)).2.handles = [] := by
  refine ⟨by decide, by decide, by decide, by decide, by decide, by decide, by decide,
    by decide, by decide, by decide⟩

/-- C18 (amended).  `Close` on a nil `Process` or on a zero handle returns nil and makes
no OS call (the trace of calls is unchanged).  `Close` on a non-zero handle makes exactly
one call, `CloseHandle` with that handle, returns what it returns, and leaves the `Process`
as it was; a second `Close` therefore makes the same call again.  On a machine that refuses
handles that are not open, with the handle open before the first `Close` and nothing opened
in between, the first `Close` returns nil and releases the handle, and the second returns
the machine's error 6 and releases nothing. -/
theorem close_behaviour {σ : Type} (osh : OSH σ) (s : σ) (tr : List OSCall) (pr : Process)
    (m : Machine) (hwf : m.wf) (hopen : pr.Handle ∈ m.handles) :
    Close osh.traced (s, tr) none = (Except.ok (), (s, tr)) ∧
    (pr.Handle = 0 → Close osh.traced (s, tr) (some pr) = (Except.ok (), (s, tr))) ∧
    (pr.Handle ≠ 0 →
      (Close osh.traced (s, tr) (some pr)).2
        = ((osh.CloseHandle s pr.Handle).2, tr ++ [OSCall.closeHandle pr.Handle]) ∧
      (Close osh.traced (s, tr) (some pr)).1 =
        (match (osh.CloseHandle s pr.Handle).1 with
         | Except.error code => Except.error (Err.os code)
         | Except.ok _ => Except.ok ()) ∧
      (Close osh.traced (Close osh.traced (s, tr) (some pr)).2 (some pr)).2.2
        = tr ++ [OSCall.closeHandle pr.Handle, OSCall.closeHandle pr.Handle]) ∧
    (Close Machine.osh m (some pr)).1 = Except.ok () ∧
    (Close Machine.osh m (some pr)).2.handles = m.handles.erase pr.Handle ∧
    pr.Handle ∉ (Close Machine.osh m (some pr)).2.handles ∧
    Close Machine.osh (Close Machine.osh m (some pr)).2 (some pr)
      = (Except.error (Err.os 6), (Close Machine.osh m (some pr)).2) := by
  have h0 : pr.Handle ≠ 0 := fun h => hwf.2 (h ▸ hopen)
  have hnot := (machine_Close_not_open m pr hwf).2
  refine ⟨rfl, fun hz => Close_zero _ _ _ hz, fun hnz => ?_, ?_, ?_, hnot, ?_⟩
  · have h1 := Close_nonzero osh.traced (s, tr) pr hnz
    refine ⟨h1.1, h1.2, ?_⟩
    have h2 := Close_nonzero osh.traced (Close osh.traced (s, tr) (some pr)).2 pr hnz
    rw [h2.1, h1.1]
    simp only [OSH.traced, List.append_assoc, List.singleton_append]
  · simp only [Close, if_neg h0, Machine.osh, if_pos hopen]
  · simp only [Close, if_neg h0, Machine.osh, if_pos hopen]
  · generalize (Close Machine.osh m (some pr)).2 = m1 at hnot ⊢
    simp only [Close, if_neg h0, Machine.osh, if_neg hnot]

/-- C18 witness: the machine after `Open(4242)` and the `Process` it returned. -/
theorem close_behaviour_witness :
    (Close Machine.osh openedMachine (some openedProcess)).1 = Except.ok () ∧
    (Close Machine.osh closedMachine (some openedProcess)).1 = Except.error (Err.os 6) :=
  ⟨(close_behaviour Machine.osh demoMachine [] openedProcess openedMachine
      (by unfold Machine.wf; decide) (by decide)).2.2.2.1,
   congrArg Prod.fst (close_behaviour Machine.osh demoMachine [] openedProcess openedMachine
      (by unfold Machine.wf; decide) (by decide)).2.2.2.2.2.2⟩

/-- C19 (as stated, refuted).  After `Open(4242)` and `Close`, a typed scan under the
closed handle 4 returns no address and a nil error, not an invalid-handle error.  And once
a later `Open(777)` has been handed the value 4 again, a typed read through the closed
`Process` succeeds and returns the bytes of the target. -/
theorem closed_handle_operations_counterexample :
    (Open Machine.osh demoMachine 4242).1 = Except.ok openedProcess ∧
    (Close Machine.osh openedMachine (some openedProcess)).1 = Except.ok () ∧
    (ScanInt32 Machine.osh.toOS 1 closedMachine (some openedProcess) 42 0 false).map Prod.fst
      = some (Except.ok []) ∧
    (ScanFloat64Approx Machine.osh.toOS 1 closedMachine (some openedProcess) 0 eps64 0
      true).map Prod.fst = some (Except.ok []) ∧
    (Open Machine.osh closedMachine 777).1 = Except.ok { Handle := 4, PID := 777 } ∧
    (ReadInt32 Machine.osh.toOS reopenedMachine openedProcess 0x10000).1
      = Except.ok 707406378 := by
  refine ⟨by decide, by decide, by decide, by decide, by decide, by decide⟩

/-- C19 (amended).  On a machine that refuses handles that are not open, `Close` on a
`Process` `p` leaves the handle value of `p` not open (this covers a `Process` with a zero
handle, on which `Close` does nothing).  The value stays not open through every region
query, read and write, through every `Close`, and through every `Open` that is handed
another value.  In every state `m` in which the handle value of `p` is not open, every typed
read, typed write and write-then-read on `p` returns the machine's invalid-handle error 6
and leaves the machine, target memory included, as it was.  A typed scan on `p` returns
`process handle is nil` when the handle is zero; when the handle is not zero the first
region query fails and the scan returns no address and a nil error; in both cases the
machine is left as it was.  On any OS, a typed scan on a nil `Process` returns
`process handle is nil` and leaves the OS state as it was. -/
theorem closed_handle_operations (m0 m : Machine) (p : Process) (hwf : m0.wf)
    (hc : p.Handle ∉ m.handles)
    (addr uv eps fuel : Nat) (iv mr : Int) (wo : Bool) :
    p.Handle ∉ (Close Machine.osh m0 (some p)).2.handles ∧
    (∀ (h a n : Nat) (buf : List Nat),
      (Machine.osh.VirtualQueryEx m h a).2.handles = m.handles ∧
      (Machine.osh.ReadProcessMemory m h a n).2.handles = m.handles ∧
      (Machine.osh.WriteProcessMemory m h a buf).2.handles = m.handles) ∧
    (∀ q : Option Process, p.Handle ∉ (Close Machine.osh m q).2.handles) ∧
    (∀ (pid : Nat) (q : Process) (m1 : Machine),
      Open Machine.osh m pid = (Except.ok q, m1) → q.Handle ≠ p.Handle →
      p.Handle ∉ m1.handles) ∧
    ReadInt32 Machine.osh.toOS m p addr = (Except.error (Err.os 6), m) ∧
    ReadUint32 Machine.osh.toOS m p addr = (Except.error (Err.os 6), m) ∧
    ReadInt64 Machine.osh.toOS m p addr = (Except.error (Err.os 6), m) ∧
    ReadUint64 Machine.osh.toOS m p addr = (Except.error (Err.os 6), m) ∧
    ReadFloat32 Machine.osh.toOS m p addr = (Except.error (Err.os 6), m) ∧
    ReadFloat64 Machine.osh.toOS m p addr = (Except.error (Err.os 6), m) ∧
    WriteInt32 Machine.osh.toOS m p addr iv = (Except.error (Err.os 6), m) ∧
    WriteUint32 Machine.osh.toOS m p addr uv = (Except.error (Err.os 6), m) ∧
    WriteInt64 Machine.osh.toOS m p addr iv = (Except.error (Err.os 6), m) ∧
    WriteUint64 Machine.osh.toOS m p addr uv = (Except.error (Err.os 6), m) ∧
    WriteFloat32 Machine.osh.toOS m p addr uv = (Except.error (Err.os 6), m) ∧
    WriteFloat64 Machine.osh.toOS m p addr uv = (Except.error (Err.os 6), m) ∧
    WriteInt32AndRead Machine.osh.toOS m p addr iv = (Except.error (Err.os 6), m) ∧
    WriteUint32AndRead Machine.osh.toOS m p addr uv = (Except.error (Err.os 6), m) ∧
    WriteInt64AndRead Machine.osh.toOS m p addr iv = (Except.error (Err.os 6), m) ∧
    WriteUint64AndRead Machine.osh.toOS m p addr uv = (Except.error (Err.os 6), m) ∧
    WriteFloat32AndRead Machine.osh.toOS m p addr uv = (Except.error (Err.os 6), m) ∧
    WriteFloat64AndRead Machine.osh.toOS m p addr uv = (Except.error (Err.os 6), m) ∧
    (p.Handle = 0 →
      ScanInt32 Machine.osh.toOS (fuel + 1) m (some p) iv mr wo
        = some (Except.error Err.handleNil, m) ∧
      ScanUint32 Machine.osh.toOS (fuel + 1) m (some p) uv mr wo
        = some (Except.error Err.handleNil, m) ∧
      ScanInt64 Machine.osh.toOS (fuel + 1) m (some p) iv mr wo
        = some (Except.error Err.handleNil, m) ∧
      ScanUint64 Machine.osh.toOS (fuel + 1) m (some p) uv mr wo
        = some (Except.error Err.handleNil, m) ∧
      ScanFloat32 Machine.osh.toOS (fuel + 1) m (some p) uv mr wo
        = some (Except.error Err.handleNil, m) ∧
      ScanFloat64 Machine.osh.toOS (fuel + 1) m (some p) uv mr wo
        = some (Except.error Err.handleNil, m) ∧
      ScanFloat32Approx Machine.osh.toOS (fuel + 1) m (some p) uv eps mr wo
        = some (Except.error Err.handleNil, m) ∧
      ScanFloat64Approx Machine.osh.toOS (fuel + 1) m (some p) uv eps mr wo
        = some (Except.error Err.handleNil, m)) ∧
    (p.Handle ≠ 0 →
      ScanInt32 Machine.osh.toOS (fuel + 1) m (some p) iv mr wo = some (Except.ok [], m) ∧
      ScanUint32 Machine.osh.toOS (fuel + 1) m (some p) uv mr wo = some (Except.ok [], m) ∧
      ScanInt64 Machine.osh.toOS (fuel + 1) m (some p) iv mr wo = some (Except.ok [], m) ∧
      ScanUint64 Machine.osh.toOS (fuel + 1) m (some p) uv mr wo = some (Except.ok [], m) ∧
      ScanFloat32 Machine.osh.toOS (fuel + 1) m (some p) uv mr wo = some (Except.ok [], m) ∧
      ScanFloat64 Machine.osh.toOS (fuel + 1) m (some p) uv mr wo = some (Except.ok [], m) ∧
      ScanFloat32Approx Machine.osh.toOS (fuel + 1) m (some p) uv eps mr wo = some (Except.ok [], m) ∧
      ScanFloat64Approx Machine.osh.toOS (fuel + 1) m (some p) uv eps mr wo = some (Except.ok [], m)) ∧
    (∀ (σ : Type) (os : OS σ) (s : σ),
      ScanInt32 os fuel s none iv mr wo = some (Except.error Err.handleNil, s) ∧
      ScanUint32 os fuel s none uv mr wo = some (Except.error Err.handleNil, s) ∧
      ScanInt64 os fuel s none iv mr wo = some (Except.error Err.handleNil, s) ∧
      ScanUint64 os fuel s none uv mr wo = some (Except.error Err.handleNil, s) ∧
      ScanFloat32 os fuel s none uv mr wo = some (Except.error Err.handleNil, s) ∧
      ScanFloat64 os fuel s none uv mr wo = some (Except.error Err.handleNil, s) ∧
      ScanFloat32Approx os fuel s none uv eps mr wo = some (Except.error Err.handleNil, s) ∧
      ScanFloat64Approx os fuel s none uv eps mr wo = some (Except.error Err.handleNil, s)) := by
  have hr := fun a n => machine_readExact_closed m p a n hc
  have hw := fun a b => machine_writeExact_closed m p a b hc
  refine ⟨(machine_Close_not_open m0 p hwf).2, ?_, ?_, ?_, ?_, ?_, ?_, ?_, ?_, ?_, ?_, ?_, ?_,
    ?_, ?_, ?_, ?_, ?_, ?_, ?_, ?_, ?_, ?_, ?_, ?_⟩
  · intro h a n buf
    refine ⟨?_, ?_, ?_⟩
    · simp only [Machine.osh]
      split <;> rfl
    · simp only [Machine.osh]
      split <;> rfl
    · simp only [Machine.osh]
      split <;> rfl
  · intro q
    cases q with
    | none => exact hc
    | some pr =>
      simp only [Close, Machine.osh]
      by_cases h0 : pr.Handle = 0
      · rw [if_pos h0]
        exact hc
      · rw [if_neg h0]
        by_cases hin : pr.Handle ∈ m.handles
        · simp only [if_pos hin]
          exact fun hmem => hc (List.mem_of_mem_erase hmem)
        · simp only [if_neg hin]
          exact hc
  · intro pid q m1 hopen hne
    simp only [Open, Machine.osh] at hopen
    by_cases hp : pid = 0
    · simp only [if_pos hp] at hopen
      cases hopen
    · simp only [if_neg hp, Prod.mk.injEq, Except.ok.injEq] at hopen
      obtain ⟨hq, hm1⟩ := hopen
      subst hq
      subst hm1
      simp only [List.mem_cons, not_or]
      exact ⟨fun h => hne h.symm, hc⟩
  · simp only [ReadInt32, read32, hr]
  · simp only [ReadUint32, read32, hr]
  · simp only [ReadInt64, read64, hr]
  · simp only [ReadUint64, read64, hr]
  · simp only [ReadFloat32, read32, hr]
  · simp only [ReadFloat64, read64, hr]
  · simp only [WriteInt32, write32, hw]
  · simp only [WriteUint32, write32, hw]
  · simp only [WriteInt64, write64, hw]
  · simp only [WriteUint64, write64, hw]
  · simp only [WriteFloat32, write32, hw]
  · simp only [WriteFloat64, write64, hw]
  · simp only [WriteInt32AndRead, WriteInt32, write32, hw]
  · simp only [WriteUint32AndRead, WriteUint32, write32, hw]
  · simp only [WriteInt64AndRead, WriteInt64, write64, hw]
  · simp only [WriteUint64AndRead, WriteUint64, write64, hw]
  · simp only [WriteFloat32AndRead, WriteFloat32, write32, hw]
  · simp only [WriteFloat64AndRead, WriteFloat64, write64, hw]
  · intro h0
    have hz : ∀ pr, some p = some pr → pr.Handle = 0 := fun pr h => by cases h; exact h0
    exact ⟨scanNumeric_no_handle _ _ _ _ _ _ _ _ hz, scanNumeric_no_handle _ _ _ _ _ _ _ _ hz,
      scanNumeric_no_handle _ _ _ _ _ _ _ _ hz, scanNumeric_no_handle _ _ _ _ _ _ _ _ hz,
      scanNumeric_no_handle _ _ _ _ _ _ _ _ hz, scanNumeric_no_handle _ _ _ _ _ _ _ _ hz,
      scanNumeric_no_handle _ _ _ _ _ _ _ _ hz, scanNumeric_no_handle _ _ _ _ _ _ _ _ hz⟩
  · intro h0
    exact ⟨machine_scan_closed m p fuel _ _ mr wo h0 hc, machine_scan_closed m p fuel _ _ mr wo h0 hc,
      machine_scan_closed m p fuel _ _ mr wo h0 hc, machine_scan_closed m p fuel _ _ mr wo h0 hc,
      machine_scan_closed m p fuel _ _ mr wo h0 hc, machine_scan_closed m p fuel _ _ mr wo h0 hc,
      machine_scan_closed m p fuel _ _ mr wo h0 hc, machine_scan_closed m p fuel _ _ mr wo h0 hc⟩
  · intro σ os s
    exact ⟨rfl, rfl, rfl, rfl, rfl, rfl, rfl, rfl⟩

/-- C19 (amended), at a concrete input: the `Process` returned by `Open(4242)`, after
`Close`: its handle 4 is not open, and a typed read fails with error 6. -/
theorem closed_handle_operations_witness :
    openedProcess.Handle ∉ closedMachine.handles ∧
    ReadInt32 Machine.osh.toOS closedMachine openedProcess 0x10000
      = (Except.error (Err.os 6), closedMachine) :=
  ⟨(closed_handle_operations openedMachine closedMachine openedProcess
      (by unfold Machine.wf; decide) (by decide) 0x10000 0 0 0 0 0 false).1,
   (closed_handle_operations openedMachine closedMachine openedProcess
      (by unfold Machine.wf; decide) (by decide) 0x10000 0 0 0 0 0 false).2.2.2.2.1⟩

/-! ## Parsing -/

theorem digitsVal_ge (cs : List Char) (n : Nat) : n ≤ digitsVal cs n := by
  induction cs generalizing n with
  | nil => exact Nat.le_refl _
  | cons c cs ih =>
    have := ih (n * 10 + (c.toNat - 48))
    simp only [digitsVal]
    omega

theorem isDigit_bound (c : Char) (h : isDigit c = true) : c.toNat - 48 ≤ 9 := by
  simp only [isDigit, Bool.and_eq_true, decide_eq_true_eq] at h
  omega

/-- On a list of digits the loop of `ParseUint` returns the number written, or the range
error when that number exceeds `maxVal`. -/
theorem parseUintLoop_digits (maxVal : Nat) (hmax : maxVal < 2 ^ 64) (cs : List Char) (n : Nat)
    (hd : cs.all isDigit = true) (hn : n ≤ maxVal) :
    parseUintLoop maxVal cs n =
      if digitsVal cs n ≤ maxVal then (digitsVal cs n, none)
      else (maxVal, some NumErr.ErrRange) := by
  induction cs generalizing n with
  | nil => simp only [parseUintLoop, digitsVal, if_pos hn]
  | cons c cs ih =>
    simp only [List.all_cons, Bool.and_eq_true] at hd
    have hc9 := isDigit_bound c hd.1
    have hge := digitsVal_ge cs (n * 10 + (c.toNat - 48))
    simp only [parseUintLoop, hd.1, if_true, digitsVal]
    by_cases h1 : n ≥ (2 ^ 64 - 1) / 10 + 1
    · rw [if_pos h1, if_neg]
      norm_num at h1 hmax ⊢
      omega
    · rw [if_neg h1]
      norm_num at h1 hmax
      have h10 : n * 10 % 2 ^ 64 = n * 10 := Nat.mod_eq_of_lt (by norm_num; omega)
      simp only [h10]
      by_cases h2 : n * 10 + (c.toNat - 48) < 2 ^ 64
      · rw [Nat.mod_eq_of_lt h2]
        by_cases h3 : n * 10 + (c.toNat - 48) > maxVal
        · rw [if_pos (Or.inr h3), if_neg]
          omega
        · rw [if_neg (by omega)]
          exact ih _ hd.2 (by omega)
      · have h4 : (n * 10 + (c.toNat - 48)) % 2 ^ 64 = n * 10 + (c.toNat - 48) - 2 ^ 64 := by
          norm_num at h2 ⊢
          omega
        rw [h4, if_pos, if_neg]
        · norm_num at h2 ⊢
          omega
        · left
          norm_num at h2 ⊢
          omega

/-- On a list that holds something else than a digit the loop of `ParseUint` returns an
error. -/
theorem parseUintLoop_not_digits (maxVal : Nat) (cs : List Char) (n : Nat)
    (hd : cs.all isDigit = false) : (parseUintLoop maxVal cs n).2 ≠ none := by
  induction cs generalizing n with
  | nil => simp at hd
  | cons c cs ih =>
    simp only [parseUintLoop]
    by_cases hc : isDigit c = true
    · simp only [List.all_cons, hc, Bool.true_and] at hd
      simp only [hc, if_true]
      split
      · simp
      · split
        · simp
        · exact ih _ hd
    · simp [hc]

/-- `ParseUint` on a non-empty list of digits. -/
theorem ParseUint_decimal (s : String) (bits : Nat) (hb : bits ≤ 64)
    (hd : isDecimal s.data = true) :
    ParseUint s bits =
      if digitsVal s.data 0 < 2 ^ bits then (digitsVal s.data 0, none)
      else (2 ^ bits - 1, some NumErr.ErrRange) := by
  simp only [isDecimal, Bool.and_eq_true, Bool.not_eq_true', List.isEmpty_eq_false] at hd
  have hpos : 0 < 2 ^ bits := Nat.pow_pos (by norm_num)
  have hle : 2 ^ bits ≤ 2 ^ 64 := Nat.pow_le_pow_right (by norm_num) hb
  unfold ParseUint
  rw [if_neg hd.1, parseUintLoop_digits _ (by omega) _ _ hd.2 (Nat.zero_le _)]
  by_cases h : digitsVal s.data 0 < 2 ^ bits
  · rw [if_pos h, if_pos (by omega)]
  · rw [if_neg h, if_neg (by omega)]

/-- `ParseUint` on a text that is not a non-empty list of digits returns an error. -/
theorem ParseUint_not_decimal (s : String) (bits : Nat) (hd : isDecimal s.data = false) :
    (ParseUint s bits).2 ≠ none := by
  unfold ParseUint
  by_cases he : s.data = []
  · simp [he]
  · rw [if_neg he]
    apply parseUintLoop_not_digits
    simp only [isDecimal, Bool.and_eq_false_imp, Bool.not_eq_true', List.isEmpty_eq_false] at hd
    cases hs : s.data with
    | nil => exact absurd hs he
    | cons c cs => 
      have := hd
      rw [hs] at this
      exact this (by simp)

/-- The part of `ParseInt` after the sign was picked off. -/
theorem ParseInt_unfold (s : String) (bits : Nat) (hne : s.data ≠ []) (neg : Bool)
    (rest : List Char) (hneg : neg = decide (s.data.head? = some '-'))
    (hrest : rest = if s.data.head? = some '+' ∨ s.data.head? = some '-' then s.data.tail
      else s.data) :
    ParseInt s bits =
      (if (ParseUint (String.mk rest) bits).2 ≠ none ∧
          (ParseUint (String.mk rest) bits).2 ≠ some NumErr.ErrRange then
        (0, (ParseUint (String.mk rest) bits).2)
      else if !neg ∧ (ParseUint (String.mk rest) bits).1 ≥ 2 ^ (bits - 1) then
        (((2 ^ (bits - 1) : Nat) : Int) - 1, some NumErr.ErrRange)
      else if neg ∧ (ParseUint (String.mk rest) bits).1 > 2 ^ (bits - 1) then
        (-((2 ^ (bits - 1) : Nat) : Int), some NumErr.ErrRange)
      else (if neg then toInt64 (toUint64 (-(toInt64 (ParseUint (String.mk rest) bits).1)))
        else toInt64 (ParseUint (String.mk rest) bits).1, none)) := by
  subst hneg hrest
  unfold ParseInt
  rw [if_neg hne]

/-- `ParseInt` on the sign-and-digits form of an integer `v`: the value when `v` is in the
range of the bit size, the range error when it is not. -/
theorem ParseInt_decimal (s : String) (bits : Nat) (hb2 : 2 ≤ bits) (hb : bits ≤ 64) (v : Int)
    (hv : decimalValue s.data = some v) :
    ((v < -(2 ^ (bits - 1) : Int) ∨ (2 ^ (bits - 1) : Int) ≤ v) →
      (ParseInt s bits).2 = some NumErr.ErrRange) ∧
    (-(2 ^ (bits - 1) : Int) ≤ v → v < (2 ^ (bits - 1) : Int) → ParseInt s bits = (v, none)) := by
  have hne : s.data ≠ [] := by
    intro h
    rw [h] at hv
    simp [decimalValue, isDecimal] at hv
  have hpow : (2 : Nat) ^ bits = 2 * 2 ^ (bits - 1) := by
    rw [← pow_succ']
    congr 1
    omega
  have hle : (2 : Nat) ^ bits ≤ 2 ^ 64 := Nat.pow_le_pow_right (by norm_num) hb
  have hpos : 2 ≤ (2 : Nat) ^ (bits - 1) := by
    calc 2 = 2 ^ 1 := rfl
      _ ≤ 2 ^ (bits - 1) := Nat.pow_le_pow_right (by norm_num) (by omega)
  have hcast : ((2 : Int) ^ (bits - 1)) = (((2 : Nat) ^ (bits - 1) : Nat) : Int) := by
    push_cast
    rfl
  rw [hcast]
  generalize hC : (2 : Nat) ^ (bits - 1) = C at hpow hpos ⊢
  generalize hP : (2 : Nat) ^ bits = P at hpow hle
  have key : ∀ (neg : Bool) (rest : List Char), isDecimal rest = true →
      v = (if neg then -(digitsVal rest 0 : Int) else (digitsVal rest 0 : Int)) →
      neg = decide (s.data.head? = some '-') →
      rest = (if s.data.head? = some '+' ∨ s.data.head? = some '-' then s.data.tail
        else s.data) →
      ((v < -(C : Int) ∨ (C : Int) ≤ v) → (ParseInt s bits).2 = some NumErr.ErrRange) ∧
      (-(C : Int) ≤ v → v < (C : Int) → ParseInt s bits = (v, none)) := by
    intro neg rest hdec hval hneg hrest
    rw [ParseInt_unfold s bits hne neg rest hneg hrest, hC]
    have hu := ParseUint_decimal (String.mk rest) bits hb hdec
    simp only at hu
    rw [hP] at hu
    generalize digitsVal rest 0 = dv at hu hval
    by_cases hin : dv < P
    · rw [if_pos hin] at hu
      rw [hu]
      simp only [ne_eq, not_true_eq_false, false_and, if_false]
      cases neg with
      | false =>
        simp only [Bool.false_eq_true, if_false] at hval
        subst hval
        simp only [Bool.not_false, true_and, Bool.false_eq_true, false_and, if_false]
        constructor
        · intro hout
          rw [if_pos (by omega)]
        · intro _ hlt
          rw [if_neg (by omega)]
          have : toInt64 dv = (dv : Int) := by
            unfold toInt64
            have h1 : dv % 2 ^ 64 = dv := Nat.mod_eq_of_lt (by omega)
            rw [h1, if_pos]
            have : C ≤ 2 ^ 63 := by omega
            omega
          rw [this]
      | true =>
        simp only [if_true] at hval
        subst hval
        simp only [Bool.not_true, Bool.false_eq_true, false_and, if_false, true_and, if_true]
        constructor
        · intro hout
          rw [if_pos (by omega)]
        · intro hge _
          rw [if_neg (by omega)]
          have hC63 : C ≤ 2 ^ 63 := by omega
          have : toInt64 (toUint64 (-(toInt64 dv))) = -(dv : Int) := by
            unfold toInt64 toUint64
            have h1 : dv % 2 ^ 64 = dv := Nat.mod_eq_of_lt (by omega)
            rw [h1]
            by_cases h63 : dv < 2 ^ 63
            · rw [if_pos h63]
              by_cases h0 : dv = 0
              · subst h0
                simp
              · have h2 : ((-(dv : Int)) % 2 ^ 64).toNat = 2 ^ 64 - dv := by omega
                rw [h2]
                have h3 : (2 ^ 64 - dv) % 2 ^ 64 = 2 ^ 64 - dv := Nat.mod_eq_of_lt (by omega)
                rw [h3, if_neg (by omega)]
                omega
            · have h64 : dv = 2 ^ 63 := by omega
              subst h64
              decide
          rw [this]
    · rw [if_neg hin] at hu
      rw [hu]
      simp only [ne_eq, not_true_eq_false, and_false, if_false]
      cases neg with
      | false =>
        simp only [Bool.false_eq_true, if_false] at hval
        subst hval
        simp only [Bool.not_false, true_and]
        constructor
        · intro _
          rw [if_pos (by omega)]
        · intro _ hlt
          omega
      | true =>
        simp only [if_true] at hval
        subst hval
        simp only [Bool.not_true, Bool.false_eq_true, false_and, if_false, true_and]
        constructor
        · intro _
          rw [if_pos (by omega)]
        · intro hge _
          omega
  unfold decimalValue at hv
  by_cases hplus : s.data.head? = some '+'
  · rw [if_pos hplus] at hv
    by_cases hd : isDecimal s.data.tail = true
    · rw [if_pos hd] at hv
      refine key false s.data.tail hd ?_ ?_ ?_
      · simpa using (Option.some.inj hv).symm
      · rw [hplus]
        decide
      · rw [if_pos (Or.inl hplus)]
    · rw [if_neg hd] at hv
      cases hv
  · rw [if_neg hplus] at hv
    by_cases hminus : s.data.head? = some '-'
    · rw [if_pos hminus] at hv
      by_cases hd : isDecimal s.data.tail = true
      · rw [if_pos hd] at hv
        refine key true s.data.tail hd ?_ ?_ ?_
        · simpa using (Option.some.inj hv).symm
        · rw [hminus]
          decide
        · rw [if_pos (Or.inr hminus)]
      · rw [if_neg hd] at hv
        cases hv
    · rw [if_neg hminus] at hv
      by_cases hd : isDecimal s.data = true
      · rw [if_pos hd] at hv
        refine key false s.data hd ?_ ?_ ?_
        · simpa using (Option.some.inj hv).symm
        · simp [hminus]
        · rw [if_neg (by simp [hplus, hminus])]
      · rw [if_neg hd] at hv
        cases hv

/-- When the loop of `ParseUint` returns the range error, the value it returns is
`maxVal`. -/
theorem parseUintLoop_range_val (maxVal : Nat) (cs : List Char) (n : Nat)
    (hr : (parseUintLoop maxVal cs n).2 = some NumErr.ErrRange) :
    (parseUintLoop maxVal cs n).1 = maxVal := by
  induction cs generalizing n with
  | nil => simp [parseUintLoop] at hr
  | cons c cs ih =>
    simp only [parseUintLoop] at hr ⊢
    split at hr
    · split at hr
      · rename_i h1 h2
        rw [if_pos h1, if_pos h2]
      · split at hr
        · rename_i h1 h2 h3
          rw [if_pos h1, if_neg h2, if_pos h3]
        · rename_i h1 h2 h3
          rw [if_pos h1, if_neg h2, if_neg h3]
          exact ih _ hr
    · simp at hr

/-- `ParseInt` on a text that is not the sign-and-digits form of an integer returns an
error. -/
theorem ParseInt_not_decimal (s : String) (bits : Nat) (hb2 : 2 ≤ bits)
    (hv : decimalValue s.data = none) : (ParseInt s bits).2 ≠ none := by
  by_cases hne : s.data = []
  · unfold ParseInt
    simp [hne]
  · have key : ∀ (neg : Bool) (rest : List Char), isDecimal rest = false →
        neg = decide (s.data.head? = some '-') →
        rest = (if s.data.head? = some '+' ∨ s.data.head? = some '-' then s.data.tail
          else s.data) → (ParseInt s bits).2 ≠ none := by
      intro neg rest hdec hneg hrest
      rw [ParseInt_unfold s bits hne neg rest hneg hrest]
      have hu := ParseUint_not_decimal (String.mk rest) bits hdec
      by_cases hr : (ParseUint (String.mk rest) bits).2 = some NumErr.ErrRange
      · rw [if_neg (by simp [hr])]
        split
        · simp
        · split
          · simp
          · rename_i h1 h2
            exfalso
            have hval : (ParseUint (String.mk rest) bits).1 = 2 ^ bits - 1 := by
              unfold ParseUint at hr ⊢
              by_cases he : (String.mk rest).data = []
              · rw [if_pos he] at hr
                simp at hr
              · rw [if_neg he] at hr ⊢
                exact parseUintLoop_range_val _ _ _ hr
            have hpow : (2 : Nat) ^ bits = 2 * 2 ^ (bits - 1) := by
              rw [← pow_succ']
              congr 1
              omega
            have hpos : 2 ≤ (2 : Nat) ^ (bits - 1) := by
              calc 2 = 2 ^ 1 := rfl
                _ ≤ 2 ^ (bits - 1) := Nat.pow_le_pow_right (by norm_num) (by omega)
            rw [hval] at h1 h2
            generalize (2 : Nat) ^ (bits - 1) = C at hpow hpos h1 h2
            generalize (2 : Nat) ^ bits = P at hpow h1 h2
            cases neg with
            | false =>
              simp only [Bool.not_false, true_and] at h1
              omega
            | true =>
              simp only [true_and] at h2
              omega
      · rw [if_pos ⟨hu, hr⟩]
        exact hu
    unfold decimalValue at hv
    by_cases hplus : s.data.head? = some '+'
    · rw [if_pos hplus] at hv
      by_cases hd : isDecimal s.data.tail = true
      · rw [if_pos hd] at hv
        cases hv
      · exact key false s.data.tail (by simpa using hd) (by rw [hplus]; decide)
          (by rw [if_pos (Or.inl hplus)])
    · rw [if_neg hplus] at hv
      by_cases hminus : s.data.head? = some '-'
      · rw [if_pos hminus] at hv
        by_cases hd : isDecimal s.data.tail = true
        · rw [if_pos hd] at hv
          cases hv
        · exact key true s.data.tail (by simpa using hd) (by rw [hminus]; decide)
            (by rw [if_pos (Or.inr hminus)])
      · rw [if_neg hminus] at hv
        by_cases hd : isDecimal s.data = true
        · rw [if_pos hd] at hv
          cases hv
        · exact key false s.data (by simpa using hd) (by simp [hminus])
            (by rw [if_neg (by simp [hplus, hminus])])

/-- Every message built by `parseNumericError` starts with `invalid` and the type tag. -/
theorem parseNumericError_invalid (lib : Lib) (dtype valStr : String) (e : NumErr) :
    containsText (parseNumericError lib dtype valStr e) ("invalid " ++ dtype) := by
  unfold containsText
  apply List.IsPrefix.isInfix
  cases e <;> simp only [parseNumericError, String.data_append, List.append_assoc] <;>
    exact List.prefix_append _ _

/-- The range message ends with `out of range`. -/
theorem range_message_contains (dtype : String) :
    containsText ("invalid " ++ dtype ++ ": value out of range") "out of range" := by
  unfold containsText
  apply List.IsSuffix.isInfix
  simp only [String.data_append]
  exact ⟨"invalid ".data ++ dtype.data ++ ": value ".data, by simp⟩

theorem parseValue_empty (lib : Lib) (dtype text : String) (h : TrimSpace text = "") :
    parseValue lib dtype text = Except.error "enter a value to search" := by
  simp only [parseValue, h, if_true]

theorem parseValue_int32_err (lib : Lib) (text : String) (e : NumErr)
    (h : TrimSpace text ≠ "") (he : (ParseInt (TrimSpace text) 32).2 = some e) :
    parseValue lib "int32" text
      = Except.error (parseNumericError lib "int32" (TrimSpace text) e) := by
  rcases hp : ParseInt (TrimSpace text) 32 with ⟨v, err⟩
  rw [hp] at he
  simp only at he
  subst he
  simp only [parseValue, if_neg h, if_true, hp]

theorem parseValue_int64_err (lib : Lib) (text : String) (e : NumErr)
    (h : TrimSpace text ≠ "") (he : (ParseInt (TrimSpace text) 64).2 = some e) :
    parseValue lib "int64" text
      = Except.error (parseNumericError lib "int64" (TrimSpace text) e) := by
  rcases hp : ParseInt (TrimSpace text) 64 with ⟨v, err⟩
  rw [hp] at he
  simp only at he
  subst he
  simp [parseValue, if_neg h, hp]

theorem parseValue_uint32_err (lib : Lib) (text : String) (e : NumErr)
    (h : TrimSpace text ≠ "") (he : (ParseUint (TrimSpace text) 32).2 = some e) :
    parseValue lib "uint32" text
      = Except.error (parseNumericError lib "uint32" (TrimSpace text) e) := by
  rcases hp : ParseUint (TrimSpace text) 32 with ⟨v, err⟩
  rw [hp] at he
  simp only at he
  subst he
  simp [parseValue, if_neg h, hp]

theorem parseValue_uint64_err (lib : Lib) (text : String) (e : NumErr)
    (h : TrimSpace text ≠ "") (he : (ParseUint (TrimSpace text) 64).2 = some e) :
    parseValue lib "uint64" text
      = Except.error (parseNumericError lib "uint64" (TrimSpace text) e) := by
  rcases hp : ParseUint (TrimSpace text) 64 with ⟨v, err⟩
  rw [hp] at he
  simp only at he
  subst he
  simp [parseValue, if_neg h, hp]

theorem parseValue_float32_err (lib : Lib) (text : String) (e : NumErr)
    (h : TrimSpace text ≠ "") (he : (lib.ParseFloat (TrimSpace text) 32).2 = some e) :
    parseValue lib "float32" text
      = Except.error (parseNumericError lib "float32" (TrimSpace text) e) := by
  rcases hp : lib.ParseFloat (TrimSpace text) 32 with ⟨v, err⟩
  rw [hp] at he
  simp only at he
  subst he
  simp [parseValue, if_neg h, hp]

theorem parseValue_float64_err (lib : Lib) (text : String) (e : NumErr)
    (h : TrimSpace text ≠ "") (he : (lib.ParseFloat (TrimSpace text) 64).2 = some e) :
    parseValue lib "float64" text
      = Except.error (parseNumericError lib "float64" (TrimSpace text) e) := by
  rcases hp : lib.ParseFloat (TrimSpace text) 64 with ⟨v, err⟩
  rw [hp] at he
  simp only at he
  subst he
  simp [parseValue, if_neg h, hp]

/-- A text on which `decimalValue` or `isDecimal` answers is not empty. -/
theorem string_ne_empty_of_data (t : String) (h : t.data ≠ []) : t ≠ "" := by
  intro he
  rw [he] at h
  exact h rfl

theorem ParseUint_sign (t : String) (bits : Nat) (h : t.data.head? = some '-') :
    ParseUint t bits = (0, some NumErr.ErrSyntax) := by
  unfold ParseUint
  cases hd : t.data with
  | nil => simp
  | cons c cs =>
    rw [hd] at h
    simp only [List.head?_cons, Option.some.injEq] at h
    subst h
    simp [parseUintLoop, isDigit]

/-- C20 (as stated, refuted).  The text `-5` is a decimal integer outside the range of
`uint32`, and `parseValue` answers with the syntax message, which does not contain
`out of range`.  A text of one blank is not empty and is not a number, and `parseValue`
answers `enter a value to search`, which does not contain `invalid uint64`. -/
theorem parse_error_texts_counterexample :
    decimalValue "-5".data = some (-5) ∧
    parseValue demoLib "uint32" "-5"
      = Except.error ("invalid uint32: enter a uint32 value (got " ++ demoLib.Quote "-5" ++ ")") ∧
    ¬ containsText ("invalid uint32: enter a uint32 value (got " ++ demoLib.Quote "-5" ++ ")")
      "out of range" ∧
    " " ≠ "" ∧
    parseValue demoLib "uint64" " " = Except.error "enter a value to search" ∧
    ¬ containsText "enter a value to search" "invalid uint64" := by
  refine ⟨by decide, by decide, by decide, by decide, by decide, by decide⟩

/-- C20 (amended).  With the text trimmed of white space first: for `int32` and `int64`,
every text that is an optional sign and decimal digits whose value lies outside the range
of the type, and for `uint32` and `uint64` every text of decimal digits only whose value
lies outside the range, gives the error `invalid T: value out of range`, which contains
`out of range`.  For every one of the six types, every text that is not empty after
trimming and that the parser of the type refuses (for the integer types: every text that
is not of the form just named) gives an error whose message contains `invalid T`.  A text
that is empty after trimming gives `enter a value to search`; a text with a minus sign
gives, for an unsigned type, the syntax message.  No value is returned in any of these
cases. -/
theorem parse_error_texts (lib : Lib) (dtype text : String) :
    (TrimSpace text = "" →
      parseValue lib dtype text = Except.error "enter a value to search") ∧
    ((dtype = "int32" ∨ dtype = "int64") → ∀ v : Int,
      decimalValue (TrimSpace text).data = some v →
      (v < -(2 ^ (typeBits dtype - 1) : Int) ∨ (2 ^ (typeBits dtype - 1) : Int) ≤ v) →
      parseValue lib dtype text
        = Except.error ("invalid " ++ dtype ++ ": value out of range")) ∧
    ((dtype = "uint32" ∨ dtype = "uint64") →
      isDecimal (TrimSpace text).data = true →
      2 ^ typeBits dtype ≤ digitsVal (TrimSpace text).data 0 →
      parseValue lib dtype text
        = Except.error ("invalid " ++ dtype ++ ": value out of range")) ∧
    containsText ("invalid " ++ dtype ++ ": value out of range") "out of range" ∧
    ((dtype = "int32" ∨ dtype = "int64") → TrimSpace text ≠ "" →
      decimalValue (TrimSpace text).data = none →
      ∃ msg, parseValue lib dtype text = Except.error msg ∧
        containsText msg ("invalid " ++ dtype)) ∧
    ((dtype = "uint32" ∨ dtype = "uint64") → TrimSpace text ≠ "" →
      isDecimal (TrimSpace text).data = false →
      ∃ msg, parseValue lib dtype text = Except.error msg ∧
        containsText msg ("invalid " ++ dtype)) ∧
    ((dtype = "float32" ∨ dtype = "float64") → TrimSpace text ≠ "" →
      (lib.ParseFloat (TrimSpace text) (typeBits dtype)).2 ≠ none →
      ∃ msg, parseValue lib dtype text = Except.error msg ∧
        containsText msg ("invalid " ++ dtype)) ∧
    ((dtype = "uint32" ∨ dtype = "uint64") → (TrimSpace text).data.head? = some '-' →
      parseValue lib dtype text
        = Except.error ("invalid " ++ dtype ++ ": enter a " ++ dtype ++ " value (got "
            ++ lib.Quote (TrimSpace text) ++ ")")) := by
  refine ⟨parseValue_empty lib dtype text, ?_, ?_, range_message_contains dtype, ?_, ?_, ?_, ?_⟩
  · intro hT v hv hout
    have hne : TrimSpace text ≠ "" := string_ne_empty_of_data _ (by
      intro h
      rw [h] at hv
      simp [decimalValue, isDecimal] at hv)
    rcases hT with rfl | rfl
    · exact parseValue_int32_err lib text _ hne
        ((ParseInt_decimal _ 32 (by norm_num) (by norm_num) v hv).1 hout)
    · exact parseValue_int64_err lib text _ hne
        ((ParseInt_decimal _ 64 (by norm_num) (by norm_num) v hv).1 hout)
  · intro hT hd hout
    have hne : TrimSpace text ≠ "" := string_ne_empty_of_data _ (by
      intro h
      rw [h] at hd
      simp [isDecimal] at hd)
    rcases hT with rfl | rfl
    · have hu := ParseUint_decimal (TrimSpace text) 32 (by norm_num) hd
      rw [if_neg (by simpa [typeBits] using hout)] at hu
      exact parseValue_uint32_err lib text _ hne (by rw [hu])
    · have hu := ParseUint_decimal (TrimSpace text) 64 (by norm_num) hd
      rw [if_neg (by simpa [typeBits] using hout)] at hu
      exact parseValue_uint64_err lib text _ hne (by rw [hu])
  · intro hT hne hv
    rcases hT with rfl | rfl
    · obtain ⟨e, he⟩ := Option.ne_none_iff_exists'.mp
        (ParseInt_not_decimal (TrimSpace text) 32 (by norm_num) hv)
      exact ⟨_, parseValue_int32_err lib text e hne he, parseNumericError_invalid _ _ _ _⟩
    · obtain ⟨e, he⟩ := Option.ne_none_iff_exists'.mp
        (ParseInt_not_decimal (TrimSpace text) 64 (by norm_num) hv)
      exact ⟨_, parseValue_int64_err lib text e hne he, parseNumericError_invalid _ _ _ _⟩
  · intro hT hne hd
    rcases hT with rfl | rfl
    · obtain ⟨e, he⟩ := Option.ne_none_iff_exists'.mp
        (ParseUint_not_decimal (TrimSpace text) 32 hd)
      exact ⟨_, parseValue_uint32_err lib text e hne he, parseNumericError_invalid _ _ _ _⟩
    · obtain ⟨e, he⟩ := Option.ne_none_iff_exists'.mp
        (ParseUint_not_decimal (TrimSpace text) 64 hd)
      exact ⟨_, parseValue_uint64_err lib text e hne he, parseNumericError_invalid _ _ _ _⟩
  · intro hT hne hf
    rcases hT with rfl | rfl
    · obtain ⟨e, he⟩ := Option.ne_none_iff_exists'.mp hf
      exact ⟨_, parseValue_float32_err lib text e hne he, parseNumericError_invalid _ _ _ _⟩
    · obtain ⟨e, he⟩ := Option.ne_none_iff_exists'.mp hf
      exact ⟨_, parseValue_float64_err lib text e hne he, parseNumericError_invalid _ _ _ _⟩
  · intro hT hs
    have hne : TrimSpace text ≠ "" := string_ne_empty_of_data _ (by
      intro h
      rw [h] at hs
      simp at hs)
    rcases hT with rfl | rfl
    · exact parseValue_uint32_err lib text _ hne (by rw [ParseUint_sign _ _ hs])
    · exact parseValue_uint64_err lib text _ hne (by rw [ParseUint_sign _ _ hs])

/-- C20 witness: `99999999999` as `int32` and `xyz` as `uint64`. -/
theorem parse_error_texts_witness :
    parseValue demoLib "int32" "99999999999"
      = Except.error "invalid int32: value out of range" ∧
    (∃ msg, parseValue demoLib "uint64" "xyz" = Except.error msg ∧
      containsText msg "invalid uint64") :=
  ⟨(parse_error_texts demoLib "int32" "99999999999").2.1 (Or.inl rfl) 99999999999
      (by decide) (by decide),
   (parse_error_texts demoLib "uint64" "xyz").2.2.2.2.2.1 (Or.inr rfl) (by decide)
      (by decide)⟩

/-! ## Refinement of a candidate set -/

/-- A value read under an integer type has only the arm of that type set. -/
theorem readByType_shape {σ : Type} (os : OS σ) (s s1 : σ) (proc : Process) (dtype : String)
    (addr : Nat) (cur : NumericValue) (hT : dtype ∈ integerTypes)
    (hr : readByType os s proc dtype addr = (Except.ok cur, s1)) :
    cur.f64 = 0 ∧ ((dtype = "int32" ∨ dtype = "int64") → cur.u64 = 0) ∧
      ((dtype = "uint32" ∨ dtype = "uint64") → cur.i64 = 0) := by
  simp only [integerTypes, List.mem_cons, List.mem_singleton, List.not_mem_nil, or_false] at hT
  rcases hT with rfl | rfl | rfl | rfl
  · simp only [readByType, if_true, liftErr] at hr
    split at hr
    · simp at hr
    · simp only [Prod.mk.injEq, Except.ok.injEq] at hr
      rw [← hr.1]
      simp
  · simp only [readByType, liftErr] at hr
    simp only [String.reduceEq, if_false, if_true] at hr
    split at hr
    · simp at hr
    · simp only [Prod.mk.injEq, Except.ok.injEq] at hr
      rw [← hr.1]
      simp
  · simp only [readByType, liftErr] at hr
    simp only [String.reduceEq, if_false, if_true] at hr
    split at hr
    · simp at hr
    · simp only [Prod.mk.injEq, Except.ok.injEq] at hr
      rw [← hr.1]
      simp
  · simp only [readByType, liftErr] at hr
    simp only [String.reduceEq, if_false, if_true] at hr
    split at hr
    · simp at hr
    · simp only [Prod.mk.injEq, Except.ok.injEq] at hr
      rw [← hr.1]
      simp
/-- A value that `parseValue` produces for an integer type has only the arm of that type
set. -/
theorem parseValue_shape (lib : Lib) (dtype text : String) (v : NumericValue)
    (hT : dtype ∈ integerTypes) (hv : parseValue lib dtype text = Except.ok v) :
    v.f64 = 0 ∧ ((dtype = "int32" ∨ dtype = "int64") → v.u64 = 0) ∧
      ((dtype = "uint32" ∨ dtype = "uint64") → v.i64 = 0) := by
  simp only [integerTypes, List.mem_cons, List.mem_singleton, List.not_mem_nil, or_false] at hT
  unfold parseValue at hv
  simp only at hv
  split at hv
  · cases hv
  · rcases hT with rfl | rfl | rfl | rfl
    · simp only [if_true] at hv
      split at hv
      · cases hv
      · simp only [Except.ok.injEq] at hv
        rw [← hv]
        simp
    · simp only [String.reduceEq, if_false, if_true] at hv
      split at hv
      · cases hv
      · simp only [Except.ok.injEq] at hv
        rw [← hv]
        simp
    · simp only [String.reduceEq, if_false, if_true] at hv
      split at hv
      · cases hv
      · simp only [Except.ok.injEq] at hv
        rw [← hv]
        simp
    · simp only [String.reduceEq, if_false, if_true] at hv
      split at hv
      · cases hv
      · simp only [Except.ok.injEq] at hv
        rw [← hv]
        simp

/-- For an integer type the comparator of `makeComparator` is equality of the values, on
values that have only the arm of that type set. -/
theorem makeComparator_integer (dtype : String) (v cur : NumericValue)
    (hT : dtype ∈ integerTypes) (hv : v.f64 = 0) (hc : cur.f64 = 0) :
    makeComparator dtype v cur = decide (cur = v) := by
  have hne : dtype ≠ "float32" ∧ dtype ≠ "float64" := by
    simp only [integerTypes, List.mem_cons, List.mem_singleton, List.not_mem_nil,
      or_false] at hT
    rcases hT with rfl | rfl | rfl | rfl <;> decide
  simp only [makeComparator, if_neg hne.1, if_neg hne.2]
  cases v
  cases cur
  simp only at hv hc
  subst hv hc
  simp

/-- The loop of `doRefineWith` appends the survivors to the slice built so far, for every
comparator that is equality with `v` on the values that are read. -/
theorem refineLoop_survivors {σ : Type} (os : OS σ) (proc : Process) (dtype : String)
    (v : NumericValue) (cmp : NumericValue → Bool)
    (hcmp : ∀ s addr cur s1, readByType os s proc dtype addr = (Except.ok cur, s1) →
      cmp cur = decide (cur = v))
    (s : σ) (rows acc : List ResultRow) :
    (refineLoop os proc dtype cmp s rows acc).1 = acc ++ survivors os proc dtype v s rows := by
  induction rows generalizing s acc with
  | nil => simp [refineLoop, survivors]
  | cons r rs ih =>
    rw [refineLoop, survivors]
    rcases hr : readByType os s proc dtype r.addr with ⟨res, s1⟩
    cases res with
    | error e => exact ih s1 acc
    | ok cur =>
      simp only [hcmp s r.addr cur s1 hr, decide_eq_true_eq]
      by_cases hcv : cur = v
      · rw [if_pos hcv, if_pos hcv, ih]
        simp
      · rw [if_neg hcv, if_neg hcv]
        exact ih s1 acc

/-- The survivors are a sublist of the rows as far as address, type and pin flag go. -/
theorem survivors_sublist {σ : Type} (os : OS σ) (proc : Process) (dtype : String)
    (v : NumericValue) (s : σ) (rows : List ResultRow) :
    ((survivors os proc dtype v s rows).map ResultRow.identity).Sublist
      (rows.map ResultRow.identity) := by
  induction rows generalizing s with
  | nil => simp [survivors]
  | cons r rs ih =>
    rw [survivors]
    rcases hr : readByType os s proc dtype r.addr with ⟨res, s1⟩
    cases res with
    | error e => exact List.Sublist.cons _ (ih s1)
    | ok cur =>
      simp only
      by_cases hcv : cur = v
      · rw [if_pos hcv]
        exact List.Sublist.cons₂ _ (ih s1)
      · rw [if_neg hcv]
        exact List.Sublist.cons _ (ih s1)

/-- Every survivor has the value `v` as its current and as its desired value. -/
theorem survivors_values {σ : Type} (os : OS σ) (proc : Process) (dtype : String)
    (v : NumericValue) (s : σ) (rows : List ResultRow) :
    ∀ r ∈ survivors os proc dtype v s rows, r.current = v ∧ r.desired = v := by
  induction rows generalizing s with
  | nil => simp [survivors]
  | cons r rs ih =>
    rw [survivors]
    rcases hr : readByType os s proc dtype r.addr with ⟨res, s1⟩
    cases res with
    | error e => exact ih s1
    | ok cur =>
      simp only
      by_cases hcv : cur = v
      · rw [if_pos hcv]
        intro x hx
        rcases List.mem_cons.mp hx with rfl | hx
        · exact ⟨hcv, hcv⟩
        · exact ih s1 x hx
      · rw [if_neg hcv]
        exact ih s1

/-- When reading leaves the OS state as it was, the survivors are the rows whose read in
that state succeeds with the value `v`. -/
theorem survivors_quiescent {σ : Type} (os : OS σ) (proc : Process) (dtype : String)
    (v : NumericValue) (s : σ) (rows : List ResultRow)
    (hq : ∀ addr, (readByType os s proc dtype addr).2 = s) :
    survivors os proc dtype v s rows =
      (rows.filter (fun r => decide ((readByType os s proc dtype r.addr).1 = Except.ok v))).map
        (fun r => { r with current := v, desired := v }) := by
  induction rows with
  | nil => simp [survivors]
  | cons r rs ih =>
    rw [survivors]
    have h2 := hq r.addr
    rcases hr : readByType os s proc dtype r.addr with ⟨res, s1⟩
    rw [hr] at h2
    simp only at h2
    subst h2
    cases res with
    | error e =>
      simp only [List.filter_cons, hr]
      rw [if_neg (by simp)]
      exact ih
    | ok cur =>
      simp only [List.filter_cons, hr]
      by_cases hcv : cur = v
      · subst hcv
        simp only [if_true, decide_True, List.map_cons]
        rw [ih]
      · rw [if_neg hcv, if_neg (by simpa using hcv)]
        exact ih

/-- C13.  Refine contraction: for a non-empty candidate set whose active type is an integer
type `T` and a value `v` that `parseValue` produced for `T`, `doRefineWith` replaces the row
list with the survivors: the rows, in their order, whose re-read succeeds with a value equal
to `v`.  A row whose read fails or whose value differs is dropped; a surviving row keeps
its address, type and pin flag and has current = desired = the fresh value `v`; the length
of the new list is the number of survivors; the active type stays `T`.  When reading
leaves the OS state as it was, the survivors are exactly the rows whose read in that state
gives `v`. -/
theorem refine_contraction {σ : Type} (os : OS σ) (lib : Lib) (s : σ) (proc : Process)
    (dtype text : String) (v : NumericValue) (set : SearchSet)
    (hT : dtype ∈ integerTypes) (hact : set.activeType = dtype)
    (hv : parseValue lib dtype text = Except.ok v) (hne : set.rows ≠ []) :
    (doRefineWith os s proc dtype v set).1.1.rows = survivors os proc dtype v s set.rows ∧
    (((doRefineWith os s proc dtype v set).1.1.rows).map ResultRow.identity).Sublist
      (set.rows.map ResultRow.identity) ∧
    (∀ r ∈ (doRefineWith os s proc dtype v set).1.1.rows, r.current = v ∧ r.desired = v) ∧
    (doRefineWith os s proc dtype v set).1.1.rows.length
      = (survivors os proc dtype v s set.rows).length ∧
    (doRefineWith os s proc dtype v set).1.1.activeType = dtype ∧
    ((∀ addr, (readByType os s proc dtype addr).2 = s) →
      (doRefineWith os s proc dtype v set).1.1.rows =
        (set.rows.filter
          (fun r => decide ((readByType os s proc dtype r.addr).1 = Except.ok v))).map
          (fun r => { r with current := v, desired := v })) := by
  have hvs := parseValue_shape lib dtype text v hT hv
  have hcmp : ∀ s addr cur s1, readByType os s proc dtype addr = (Except.ok cur, s1) →
      makeComparator dtype v cur = decide (cur = v) := fun s0 addr cur s1 hr =>
    makeComparator_integer dtype v cur hT hvs.1 (readByType_shape os s0 s1 proc dtype addr cur hT hr).1
  have hloop := refineLoop_survivors os proc dtype v (makeComparator dtype v) hcmp s set.rows []
  rw [List.nil_append] at hloop
  have hrows : (doRefineWith os s proc dtype v set).1.1.rows
      = survivors os proc dtype v s set.rows := by
    unfold doRefineWith
    rw [if_neg (by simpa using hne)]
    rcases hl : refineLoop os proc dtype (makeComparator dtype v) s set.rows [] with ⟨f, s1⟩
    rw [hl] at hloop
    simp only at hloop
    subst hloop
    simp only
    by_cases h0 : (survivors os proc dtype v s set.rows).length = 0
    · rw [if_pos h0]
      exact (List.length_eq_zero.mp h0).symm
    · rw [if_neg h0]
  have hty : (doRefineWith os s proc dtype v set).1.1.activeType = dtype := by
    unfold doRefineWith
    rw [if_neg (by simpa using hne)]
    rcases hl : refineLoop os proc dtype (makeComparator dtype v) s set.rows [] with ⟨f, s1⟩
    simp only
    by_cases h0 : f.length = 0
    · rw [if_pos h0]
      exact hact
    · rw [if_neg h0]
  refine ⟨hrows, ?_, ?_, ?_, hty, ?_⟩
  · rw [hrows]
    exact survivors_sublist os proc dtype v s set.rows
  · rw [hrows]
    exact survivors_values os proc dtype v s set.rows
  · rw [hrows]
  · intro hq
    rw [hrows]
    exact survivors_quiescent os proc dtype v s set.rows hq

/-- C13 witness: a set of two `uint32` rows over the small target, one of which cannot be
read; the refine to the value in memory keeps the readable row, pinned as it was. -/
theorem refine_contraction_witness :
    (doRefineWith Target.os demoTarget demoProcess "uint32" { u64 := 707406378 } demoSet).1.1.rows
      = [{ addr := 0x10004, dtype := "uint32", current := { u64 := 707406378 },
           desired := { u64 := 707406378 }, pinned := true }] :=
  (refine_contraction Target.os demoLib demoTarget demoProcess "uint32" "707406378"
    { u64 := 707406378 } demoSet (by decide) rfl (by decide) (by decide)).1.trans (by decide)

/-- A refine with a type that is not the active type of the set is refused before
anything else is done. -/
theorem searchNumeric_mismatch {σ : Type} (osh : OSH σ) (lib : Lib) (fuel : Nat) (s : σ)
    (pid : Nat) (set : SearchSet) (dtype valStr : String)
    (h : set.activeType = "" ∨ set.activeType ≠ dtype) :
    searchNumeric osh lib fuel s pid set dtype valStr true
      = some ((set, Shown.error "refine requires the same type as the last search"), s) := by
  unfold searchNumeric
  rw [if_pos ⟨rfl, h⟩]

/-- A refine that passed the type test, with a value and a handle, is `doRefineWith`
followed by `Close`. -/
theorem searchNumeric_refine {σ : Type} (osh : OSH σ) (lib : Lib) (fuel : Nat) (s s1 : σ)
    (pid : Nat) (set : SearchSet) (dtype valStr : String) (v : NumericValue) (proc : Process)
    (hact : set.activeType = dtype) (hne : dtype ≠ "")
    (hv : parseValue lib dtype valStr = Except.ok v)
    (ho : Open osh s (pid % 2 ^ 32) = (Except.ok proc, s1)) :
    searchNumeric osh lib fuel s pid set dtype valStr true
      = some ((doRefineWith osh.toOS s1 proc dtype v set).1,
          (Close osh (doRefineWith osh.toOS s1 proc dtype v set).2 (some proc)).2) := by
  unfold searchNumeric
  rw [if_neg (by
    rintro ⟨_, h | h⟩
    · exact hne (hact ▸ h)
    · exact h hact)]
  simp only [hv, ho, if_true]

/-- C14.  Refine preconditions are atomic.  A refine with a type that differs from the
active type of the set (a set that was never scanned has the empty active type) shows the
type-mismatch error, makes no OS call and leaves the set as it was.  A refine on a set
whose row list is empty, with the active type, a value and a handle, shows the empty-set
message and leaves the set as it was.  In both situations, whatever the value text and
the outcome of `Open`, the refine ends with an error or a message shown and the rows and
the active type of the set unchanged. -/
theorem refine_preconditions_atomic {σ : Type} (osh : OSH σ) (lib : Lib) (fuel : Nat) (s : σ)
    (pid : Nat) (set : SearchSet) (dtype valStr : String) :
    ((set.activeType = "" ∨ set.activeType ≠ dtype) →
      searchNumeric osh lib fuel s pid set dtype valStr true
        = some ((set, Shown.error "refine requires the same type as the last search"), s)) ∧
    (set.rows = [] → set.activeType = dtype → dtype ≠ "" →
      ∀ v proc s1, parseValue lib dtype valStr = Except.ok v →
        Open osh s (pid % 2 ^ 32) = (Except.ok proc, s1) →
        searchNumeric osh lib fuel s pid set dtype valStr true
          = some ((set, Shown.message "no previous results to refine"),
              (Close osh s1 (some proc)).2)) ∧
    (((set.activeType = "" ∨ set.activeType ≠ dtype) ∨ set.rows = []) →
      ∃ shown s1, searchNumeric osh lib fuel s pid set dtype valStr true
          = some ((set, shown), s1) ∧ shown.failed) := by
  have hempty : set.rows = [] → set.activeType = dtype → dtype ≠ "" →
      ∀ v proc s1, parseValue lib dtype valStr = Except.ok v →
        Open osh s (pid % 2 ^ 32) = (Except.ok proc, s1) →
        searchNumeric osh lib fuel s pid set dtype valStr true
          = some ((set, Shown.message "no previous results to refine"),
              (Close osh s1 (some proc)).2) := by
    intro hrows hact hne v proc s1 hv ho
    rw [searchNumeric_refine osh lib fuel s s1 pid set dtype valStr v proc hact hne hv ho]
    simp only [doRefineWith, hrows, List.length_nil, if_true]
  refine ⟨searchNumeric_mismatch osh lib fuel s pid set dtype valStr, hempty, ?_⟩
  intro h
  by_cases hm : set.activeType = "" ∨ set.activeType ≠ dtype
  · exact ⟨_, _, searchNumeric_mismatch osh lib fuel s pid set dtype valStr hm, trivial⟩
  · have hrows : set.rows = [] := h.resolve_left hm
    have hact : set.activeType = dtype := by
      by_contra hc
      exact hm (Or.inr hc)
    have hne : dtype ≠ "" := fun hd => hm (Or.inl (hact.trans hd))
    cases hv : parseValue lib dtype valStr with
    | error msg =>
      refine ⟨Shown.error msg, s, ?_, trivial⟩
      unfold searchNumeric
      rw [if_neg (by simpa using hm)]
      simp only [hv]
    | ok v =>
      rcases ho : Open osh s (pid % 2 ^ 32) with ⟨res, s1⟩
      cases res with
      | error e =>
        refine ⟨Shown.error ("open: " ++ e.text lib), s1, ?_, trivial⟩
        unfold searchNumeric
        rw [if_neg (by simpa using hm)]
        simp only [hv, ho]
      | ok proc =>
        exact ⟨_, _, hempty hrows hact hne v proc s1 hv ho, trivial⟩

/-- C14 witness: a set scanned as `int32`, then a refine as `int64`. -/
theorem refine_preconditions_atomic_witness :
    searchNumeric Machine.osh demoLib 16 demoMachine 4242 int32Set "int64" "707406378" true
      = some ((int32Set, Shown.error "refine requires the same type as the last search"),
          demoMachine) :=
  (refine_preconditions_atomic Machine.osh demoLib 16 demoMachine 4242 int32Set "int64"
    "707406378").1 (Or.inr (by decide))

/-! ## The type invariant of the candidate sets -/

/-- The row loop of `searchNumeric` appends the rows of the specification. -/
theorem buildRows_scanRows {σ : Type} (os : OS σ) (proc : Process) (dtype : String) (s : σ)
    (addrs : List Nat) (acc : List ResultRow) :
    (buildRows os proc dtype s addrs acc).1 = acc ++ scanRows os proc dtype s addrs := by
  induction addrs generalizing s acc with
  | nil => simp [buildRows, scanRows]
  | cons a rest ih =>
    rw [buildRows, scanRows]
    rcases hr : readByType os s proc dtype a with ⟨res, s1⟩
    cases res with
    | error e =>
      simp only [ih, List.append_assoc, List.singleton_append, Except.toOption, Option.getD_none]
    | ok cur =>
      simp only [ih, List.append_assoc, List.singleton_append, Except.toOption, Option.getD_some]

/-- The rows of a scan: their addresses are the scanner result, in order, and every row has
the type tag, desired = current, and is not pinned. -/
theorem scanRows_spec {σ : Type} (os : OS σ) (proc : Process) (dtype : String) (s : σ)
    (addrs : List Nat) :
    (scanRows os proc dtype s addrs).map ResultRow.addr = addrs ∧
    (scanRows os proc dtype s addrs).length = addrs.length ∧
    ∀ r ∈ scanRows os proc dtype s addrs,
      r.dtype = dtype ∧ r.desired = r.current ∧ r.pinned = false := by
  induction addrs generalizing s with
  | nil => simp [scanRows]
  | cons a rest ih =>
    obtain ⟨h1, h2, h3⟩ := ih (readByType os s proc dtype a).2
    refine ⟨by simp [scanRows, h1], by simp [scanRows, h2], ?_⟩
    intro r hr
    simp only [scanRows, List.mem_cons] at hr
    rcases hr with rfl | hr
    · exact ⟨rfl, rfl, rfl⟩
    · exact h3 r hr

/-- The rows that the loop of `doRefineWith` keeps have the type tags of the rows it went
through. -/
theorem refineLoop_dtype {σ : Type} (os : OS σ) (proc : Process) (dtype : String)
    (cmp : NumericValue → Bool) (T : String) (s : σ) (rows acc : List ResultRow)
    (hrows : ∀ r ∈ rows, r.dtype = T) (hacc : ∀ r ∈ acc, r.dtype = T) :
    ∀ r ∈ (refineLoop os proc dtype cmp s rows acc).1, r.dtype = T := by
  induction rows generalizing s acc with
  | nil => simpa [refineLoop] using hacc
  | cons r0 rs ih =>
    rw [refineLoop]
    have hrs : ∀ r ∈ rs, r.dtype = T := fun r hr => hrows r (List.mem_cons_of_mem _ hr)
    rcases hr : readByType os s proc dtype r0.addr with ⟨res, s1⟩
    cases res with
    | error e => exact ih s1 acc hrs hacc
    | ok cur =>
      simp only
      split
      · apply ih s1 _ hrs
        intro r hr
        rcases List.mem_append.mp hr with h | h
        · exact hacc r h
        · simp only [List.mem_singleton] at h
          subst h
          exact hrows r0 (List.mem_cons_self _ _)
      · exact ih s1 acc hrs hacc

/-- The method `doRefineWith` keeps the type invariant of a set whose active type is the
type of the refine. -/
theorem doRefineWith_typed {σ : Type} (os : OS σ) (s : σ) (proc : Process) (dtype : String)
    (val : NumericValue) (set : SearchSet) (hact : set.activeType = dtype) (ht : set.typed) :
    (doRefineWith os s proc dtype val set).1.1.typed := by
  unfold doRefineWith
  split
  · exact ht
  · rcases hl : refineLoop os proc dtype (makeComparator dtype val) s set.rows [] with ⟨f, s1⟩
    simp only
    split
    · intro r hr
      simp at hr
    · intro r hr
      have := refineLoop_dtype os proc dtype (makeComparator dtype val) dtype s set.rows []
        (fun r hr => (ht r hr).trans hact) (by simp) r (by rw [hl]; exact hr)
      exact this

/-- The method `searchNumeric` keeps the type invariant of the set. -/
theorem searchNumeric_typed {σ : Type} (osh : OSH σ) (lib : Lib) (fuel : Nat) (s s1 : σ)
    (pid : Nat) (set set1 : SearchSet) (dtype valStr : String) (refine : Bool) (shown : Shown)
    (ht : set.typed)
    (hrun : searchNumeric osh lib fuel s pid set dtype valStr refine
      = some ((set1, shown), s1)) : set1.typed := by
  unfold searchNumeric at hrun
  split at hrun
  · simp only [Option.some.injEq, Prod.mk.injEq] at hrun
    rw [← hrun.1.1]
    exact ht
  · rename_i hguard
    split at hrun
    · simp only [Option.some.injEq, Prod.mk.injEq] at hrun
      rw [← hrun.1.1]
      exact ht
    · split at hrun
      · simp only [Option.some.injEq, Prod.mk.injEq] at hrun
        rw [← hrun.1.1]
        exact ht
      · rename_i _ val _ _ proc s2 _
        split at hrun
        · rename_i href
          have hact : set.activeType = dtype := by
            by_contra hc
            exact hguard ⟨href, Or.inr hc⟩
          simp only [Option.some.injEq, Prod.mk.injEq] at hrun
          have := doRefineWith_typed osh.toOS s2 proc dtype val set hact ht
          rw [hrun.1] at this
          exact this
        · split at hrun
          · cases hrun
          · simp only [Option.some.injEq, Prod.mk.injEq] at hrun
            rw [← hrun.1.1]
            exact ht
          · rename_i addrs s3 _
            simp only [Option.some.injEq, Prod.mk.injEq] at hrun
            rw [← hrun.1.1]
            intro r hr
            simp only at hr
            rw [buildRows_scanRows, List.nil_append] at hr
            exact ((scanRows_spec osh.toOS proc dtype s3 addrs).2.2 r hr).1

/-- The loop over the rows of a set changes no address and no type tag. -/
theorem tickRows_key {σ : Type} (os : OS σ) (proc : Process) (s : σ) (rows : List ResultRow) :
    (tickRows os proc s rows).1.1.map ResultRow.key = rows.map ResultRow.key := by
  induction rows generalizing s with
  | nil => simp [tickRows]
  | cons r rs ih =>
    rw [tickRows]
    rcases hr : readByType os s proc r.dtype r.addr with ⟨res, s1⟩
    cases res with
    | error e => rfl
    | ok cur =>
      simp only [List.map_cons, ih s1]
      rfl

/-- The loop over the watch list changes no address and no type tag. -/
theorem tickWatched_key {σ : Type} (os : OS σ) (proc : Process) (s : σ)
    (rows : List ResultRow) :
    (tickWatched os proc s rows).1.1.map ResultRow.key = rows.map ResultRow.key := by
  induction rows generalizing s with
  | nil => simp [tickWatched]
  | cons r rs ih =>
    rw [tickWatched]
    split
    · rcases hr : writeByType os s proc r.dtype r.addr r.desired with ⟨res, s1⟩
      cases res with
      | error e => rfl
      | ok cur =>
        simp only [List.map_cons, ih s1]
        rfl
    · rcases hr : readByType os s proc r.dtype r.addr with ⟨res, s1⟩
      cases res with
      | error e => rfl
      | ok cur =>
        simp only [List.map_cons, ih s1]
        rfl

/-- Rows with the addresses and type tags of the rows of a typed set make a typed set. -/
theorem typed_of_key (set : SearchSet) (rows : List ResultRow) (ht : set.typed)
    (hk : rows.map ResultRow.key = set.rows.map ResultRow.key) :
    SearchSet.typed { set with rows := rows } := by
  intro r hr
  have hm : r.key ∈ set.rows.map ResultRow.key := hk ▸ List.mem_map_of_mem _ hr
  obtain ⟨r0, hr0, hkey⟩ := List.mem_map.mp hm
  have hd : r0.dtype = r.dtype := congrArg Prod.snd hkey
  exact hd.symm.trans (ht r0 hr0)

/-- The loop over the candidate sets keeps the type invariant of every set. -/
theorem tickSets_typed {σ : Type} (os : OS σ) (proc : Process) (s : σ) (sets : List SearchSet)
    (ht : ∀ set ∈ sets, set.typed) : ∀ set ∈ (tickSets os proc s sets).1.1, set.typed := by
  induction sets generalizing s with
  | nil => simp [tickSets]
  | cons set rest ih =>
    have hrest : ∀ x ∈ rest, x.typed := fun x hx => ht x (List.mem_cons_of_mem _ hx)
    have hset : set.typed := ht set (List.mem_cons_self _ _)
    rw [tickSets]
    split
    · intro x hx
      simp only [List.mem_cons] at hx
      rcases hx with rfl | hx
      · exact hset
      · exact ih s hrest x hx
    · have hk := tickRows_key os proc s set.rows
      rcases hr : tickRows os proc s set.rows with ⟨⟨rows, res⟩, s1⟩
      rw [hr] at hk
      simp only at hk
      have hnew := typed_of_key set rows hset hk
      cases res with
      | some e =>
        intro x hx
        simp only [List.mem_cons] at hx
        rcases hx with rfl | hx
        · exact hnew
        · exact hrest x hx
      | none =>
        intro x hx
        simp only [List.mem_cons] at hx
        rcases hx with rfl | hx
        · exact hnew
        · exact ih s1 hrest x hx

/-- A reconciler tick keeps the type invariant of every candidate set and changes no
address and no type tag of the watch list. -/
theorem applyPinnedWrites_keeps {σ : Type} (osh : OSH σ) (s : σ) (u : UI)
    (ht : ∀ set ∈ u.sets, set.typed) :
    (∀ set ∈ (applyPinnedWrites osh s u).1.1.sets, set.typed) ∧
    (applyPinnedWrites osh s u).1.1.watchedRows.map ResultRow.key
      = u.watchedRows.map ResultRow.key := by
  unfold applyPinnedWrites
  split
  · exact ⟨ht, rfl⟩
  · split
    · exact ⟨ht, rfl⟩
    · rcases ho : Open osh s (u.selectedPID % 2 ^ 32) with ⟨res, s1⟩
      cases res with
      | error e => exact ⟨ht, rfl⟩
      | ok proc =>
        simp only
        have hk := tickWatched_key osh.toOS proc s1 u.watchedRows
        rcases hw : tickWatched osh.toOS proc s1 u.watchedRows with ⟨⟨ws, res⟩, s2⟩
        rw [hw] at hk
        simp only at hk
        cases res with
        | some e => exact ⟨ht, hk⟩
        | none =>
          simp only
          have hs := tickSets_typed osh.toOS proc s2 u.sets ht
          rcases hts : tickSets osh.toOS proc s2 u.sets with ⟨⟨sets, res⟩, s3⟩
          rw [hts] at hs
          simp only at hs
          cases res with
          | some e => exact ⟨hs, hk⟩
          | none => exact ⟨hs, hk⟩

/-- A function that changes no address and no type tag, applied to one row of a list. -/
theorem modify_key (f : ResultRow → ResultRow) (hf : ∀ r, (f r).key = r.key) (n : Nat)
    (rows : List ResultRow) :
    (rows.modify f n).map ResultRow.key = rows.map ResultRow.key := by
  induction rows generalizing n with
  | nil => cases n <;> rfl
  | cons r rs ih =>
    cases n with
    | zero => simp [List.modify, hf]
    | succ n =>
      have := ih n
      simp only [List.modify, List.modifyTailIdx, List.map_cons] at this ⊢
      rw [this]

/-- The commands of the watch list leave the candidate sets as they were. -/
theorem watch_commands_sets {σ : Type} (osh : OSH σ) (lib : Lib) (s : σ) (u : UI)
    (setIdx : Int) (row : Int) (text : String) (pin : Bool) :
    (watchSelected u setIdx row).1.sets = u.sets ∧ (unwatchSelected u row).sets = u.sets ∧
    (togglePin u row).sets = u.sets ∧ (editDesired lib u row text pin).sets = u.sets ∧
    (writeDesired osh s u row).1.sets = u.sets := by
  refine ⟨?_, ?_, ?_, ?_, ?_⟩
  · unfold watchSelected
    repeat' split
    all_goals rfl
  · unfold unwatchSelected
    split <;> rfl
  · unfold togglePin
    split <;> rfl
  · unfold editDesired
    repeat' split
    all_goals rfl
  · unfold writeDesired
    repeat' split
    all_goals rfl

/-- The commands `togglePin`, `editDesired` and `writeDesired` change no address and no type
tag of the watch list. -/
theorem watch_commands_key {σ : Type} (osh : OSH σ) (lib : Lib) (s : σ) (u : UI)
    (row : Int) (text : String) (pin : Bool) :
    (togglePin u row).watchedRows.map ResultRow.key = u.watchedRows.map ResultRow.key ∧
    (editDesired lib u row text pin).watchedRows.map ResultRow.key
      = u.watchedRows.map ResultRow.key ∧
    (writeDesired osh s u row).1.watchedRows.map ResultRow.key
      = u.watchedRows.map ResultRow.key := by
  refine ⟨?_, ?_, ?_⟩
  · unfold togglePin
    split
    · rfl
    · apply modify_key
      intro r
      rfl
  · unfold editDesired
    repeat' split
    all_goals first | rfl | (apply modify_key; intro r; rfl)
  · unfold writeDesired
    repeat' split
    all_goals first | rfl | (apply modify_key; intro r; rfl)

/-- One operation of the `ui` keeps the type invariant of every candidate set. -/
theorem step_typed {σ : Type} (osh : OSH σ) (lib : Lib) (fuel : Nat) (s s1 : σ) (u u1 : UI)
    (op : Op) (ht : ∀ set ∈ u.sets, set.typed)
    (hstep : UI.step osh lib fuel s u op = some (u1, s1)) : ∀ set ∈ u1.sets, set.typed := by
  cases op with
  | selectPID pid =>
    simp only [UI.step, Option.some.injEq, Prod.mk.injEq] at hstep
    rw [← hstep.1]
    exact ht
  | search setIdx dtype valStr refine =>
    simp only [UI.step] at hstep
    split at hstep
    · simp only [Option.some.injEq, Prod.mk.injEq] at hstep
      rw [← hstep.1]
      exact ht
    · rename_i set hget
      have hset : set.typed := ht set (List.get?_mem hget)
      split at hstep
      · cases hstep
      · rename_i set1 shown s2 hrun
        simp only [Option.some.injEq, Prod.mk.injEq] at hstep
        rw [← hstep.1]
        have h1 : set1.typed := by
          unfold doSearch at hrun
          split at hrun
          · simp only [Option.some.injEq, Prod.mk.injEq] at hrun
            rw [← hrun.1.1]
            exact hset
          · exact searchNumeric_typed osh lib fuel s s2 u.selectedPID set set1 dtype valStr
              refine shown hset hrun
        intro x hx
        rcases List.mem_or_eq_of_mem_set hx with h | h
        · exact ht x h
        · rw [h]
          exact h1
  | watch setIdx row =>
    simp only [UI.step, Option.some.injEq, Prod.mk.injEq] at hstep
    rw [← hstep.1, (watch_commands_sets osh lib s u setIdx row "" false).1]
    exact ht
  | unwatch row =>
    simp only [UI.step, Option.some.injEq, Prod.mk.injEq] at hstep
    rw [← hstep.1, (watch_commands_sets osh lib s u 0 row "" false).2.1]
    exact ht
  | togglePin row =>
    simp only [UI.step, Option.some.injEq, Prod.mk.injEq] at hstep
    rw [← hstep.1, (watch_commands_sets osh lib s u 0 row "" false).2.2.1]
    exact ht
  | editDesired row text pin =>
    simp only [UI.step, Option.some.injEq, Prod.mk.injEq] at hstep
    rw [← hstep.1, (watch_commands_sets osh lib s u 0 row text pin).2.2.2.1]
    exact ht
  | writeDesired row =>
    simp only [UI.step, Option.some.injEq] at hstep
    have : u1 = (writeDesired osh s u row).1 := by rw [hstep]
    rw [this, (watch_commands_sets osh lib s u 0 row "" false).2.2.2.2]
    exact ht
  | tick =>
    simp only [UI.step, Option.some.injEq, Prod.mk.injEq] at hstep
    rw [← hstep.1]
    exact (applyPinnedWrites_keeps osh s u ht).1

/-- In every reachable state of the `ui` every candidate set is typed. -/
theorem reachable_typed {σ : Type} (osh : OSH σ) (lib : Lib) (u : UI)
    (hr : Reachable osh lib u) : ∀ set ∈ u.sets, set.typed := by
  induction hr with
  | init =>
    intro set hset r hr
    simp only [newUI, List.mem_cons, List.mem_singleton, List.not_mem_nil, or_false,
      or_self] at hset
    subst hset
    simp at hr
  | step fuel s s1 u u1 op _ hstep ih => exact step_typed osh lib fuel s s1 u u1 op ih hstep

/-- A scan with a value and a handle whose scanner returns `addrs` builds the rows of the
specification, sets the active type and closes the handle. -/
theorem searchNumeric_scan {σ : Type} (osh : OSH σ) (lib : Lib) (fuel : Nat) (s s1 s2 : σ)
    (pid : Nat) (set : SearchSet) (dtype valStr : String) (v : NumericValue) (proc : Process)
    (addrs : List Nat) (hv : parseValue lib dtype valStr = Except.ok v)
    (ho : Open osh s (pid % 2 ^ 32) = (Except.ok proc, s1))
    (hs : scanByType osh.toOS fuel s1 proc dtype v = some (Except.ok addrs, s2)) :
    searchNumeric osh lib fuel s pid set dtype valStr false
      = some (({ rows := scanRows osh.toOS proc dtype s2 addrs, activeType := dtype },
            Shown.results 0),
          (Close osh (buildRows osh.toOS proc dtype s2 addrs []).2 (some proc)).2) := by
  unfold searchNumeric
  rw [if_neg (by simp)]
  simp only [hv, ho, hs, Bool.false_eq_true, if_false]
  rw [← List.nil_append (scanRows osh.toOS proc dtype s2 addrs), ← buildRows_scanRows]

/-- C15.  Candidate-set type invariant: in every state reached from the initial `ui` by
operations (scans, refines and reconciler ticks among them), every row of a candidate set
has a type tag equal to the active type of its set.  A scan of type `T` with a value and a
handle whose scanner returns the addresses `addrs` replaces the contents of the set with
the rows of `scanRows`: as many rows as addresses, in scanner order, the row for an
address having that address, type `T`, the value read back there as current value (the zero
value if that read fails), desired equal to current and pinned false; the active type is set
to `T`. -/
theorem candidate_set_type_invariant {σ : Type} (osh : OSH σ) (lib : Lib) :
    (∀ u, Reachable osh lib u → ∀ set ∈ u.sets, ∀ r ∈ set.rows, r.dtype = set.activeType) ∧
    (∀ (fuel : Nat) (s s1 s2 : σ) (pid : Nat) (set : SearchSet) (dtype valStr : String)
      (v : NumericValue) (proc : Process) (addrs : List Nat),
      parseValue lib dtype valStr = Except.ok v →
      Open osh s (pid % 2 ^ 32) = (Except.ok proc, s1) →
      scanByType osh.toOS fuel s1 proc dtype v = some (Except.ok addrs, s2) →
      ∃ s3, searchNumeric osh lib fuel s pid set dtype valStr false
        = some (({ rows := scanRows osh.toOS proc dtype s2 addrs, activeType := dtype },
            Shown.results 0), s3)) ∧
    (∀ (proc : Process) (dtype : String) (s : σ) (addrs : List Nat),
      (scanRows osh.toOS proc dtype s addrs).map ResultRow.addr = addrs ∧
      (scanRows osh.toOS proc dtype s addrs).length = addrs.length ∧
      (∀ r ∈ scanRows osh.toOS proc dtype s addrs,
        r.dtype = dtype ∧ r.desired = r.current ∧ r.pinned = false) ∧
      (∀ a rest, addrs = a :: rest →
        (scanRows osh.toOS proc dtype s addrs).head? =
          some { addr := a, dtype := dtype,
                 current := ((readByType osh.toOS s proc dtype a).1.toOption).getD {},
                 desired := ((readByType osh.toOS s proc dtype a).1.toOption).getD {},
                 pinned := false } ∧
        (scanRows osh.toOS proc dtype s addrs).tail
          = scanRows osh.toOS proc dtype (readByType osh.toOS s proc dtype a).2 rest)) := by
  refine ⟨fun u hu => reachable_typed osh lib u hu, ?_, ?_⟩
  · intro fuel s s1 s2 pid set dtype valStr v proc addrs hv ho hs
    exact ⟨_, searchNumeric_scan osh lib fuel s s1 s2 pid set dtype valStr v proc addrs hv ho hs⟩
  · intro proc dtype s addrs
    obtain ⟨h1, h2, h3⟩ := scanRows_spec osh.toOS proc dtype s addrs
    refine ⟨h1, h2, h3, ?_⟩
    intro a rest hcons
    subst hcons
    exact ⟨rfl, rfl⟩

/-- C15 witness: the `uint32` scan of the small target on the machine, into a set that
held `int32` rows before. -/
theorem candidate_set_type_invariant_witness :
    ∃ s3, searchNumeric Machine.osh demoLib 16 demoMachine 4242 int32Set "uint32" "707406378"
        false
      = some (({ rows := scanRows Machine.osh.toOS openedProcess "uint32" openedMachine
                  [0x10000, 0x10004, 0x10008, 0x1000C, 0x10010, 0x10014, 0x10018,
                    0x1001C, 0x10020, 0x10024, 0x10028, 0x1002C],
                 activeType := "uint32" }, Shown.results 0), s3) :=
  (candidate_set_type_invariant Machine.osh demoLib).2.1 16 demoMachine openedMachine
    openedMachine 4242 int32Set "uint32" "707406378" { u64 := 707406378 } openedProcess
    [0x10000, 0x10004, 0x10008, 0x1000C, 0x10010, 0x10014, 0x10018,
      0x1001C, 0x10020, 0x10024, 0x10028, 0x1002C] (by decide) rfl rfl

/-! ## The watch list holds no address and type twice -/

/-- The loop of `watchSelected` finds nothing exactly when no watched row has the address
and type of `r`. -/
theorem findWatched_none (r : ResultRow) (ws : List ResultRow) (i : Nat) :
    findWatched r ws i = none ↔ r.key ∉ ws.map ResultRow.key := by
  induction ws generalizing i with
  | nil => simp [findWatched]
  | cons w ws ih =>
    rw [findWatched]
    by_cases h : w.addr = r.addr ∧ w.dtype = r.dtype
    · rw [if_pos h]
      simp only [List.map_cons, List.mem_cons, not_or, false_iff, not_and, not_not, reduceCtorEq]
      intro hne
      exact absurd (Prod.ext h.1.symm h.2.symm) hne
    · rw [if_neg h, ih]
      simp only [List.map_cons, List.mem_cons, not_or, iff_and_self]
      intro _ hk
      apply h
      have h1 : r.addr = w.addr := congrArg Prod.fst hk
      have h2 : r.dtype = w.dtype := congrArg Prod.snd hk
      exact ⟨h1.symm, h2.symm⟩

/-- The index the loop of `watchSelected` finds is that of a watched row with the address
and type of `r`. -/
theorem findWatched_some (r : ResultRow) (ws : List ResultRow) (i j : Nat)
    (h : findWatched r ws i = some j) :
    i ≤ j ∧ ∃ w, ws.get? (j - i) = some w ∧ w.key = r.key := by
  induction ws generalizing i with
  | nil => simp [findWatched] at h
  | cons w ws ih =>
    rw [findWatched] at h
    split at h
    · rename_i hk
      simp only [Option.some.injEq] at h
      subst h
      refine ⟨Nat.le_refl _, w, by simp, Prod.ext hk.1 hk.2⟩
    · obtain ⟨hle, w1, hget, hkey⟩ := ih (i + 1) h
      refine ⟨by omega, w1, ?_, hkey⟩
      have : j - i = (j - (i + 1)) + 1 := by omega
      rw [this]
      simpa using hget

/-- The method `watchSelected` on a selected row `r` of the active set. -/
theorem watchSelected_spec (u : UI) (setIdx : Int) (row : Int) (set : SearchSet)
    (r : ResultRow) (hset : currentSet u.sets setIdx = some set)
    (hsel : ¬ selectedIndex row set.rows.length < 0)
    (hrow : set.rows.get? (selectedIndex row set.rows.length).toNat = some r) :
    (r.key ∈ u.watchedRows.map ResultRow.key →
      (watchSelected u setIdx row).1 = u ∧
      ∃ i w, (watchSelected u setIdx row).2 = some i ∧ u.watchedRows.get? i = some w ∧
        w.key = r.key) ∧
    (r.key ∉ u.watchedRows.map ResultRow.key →
      (watchSelected u setIdx row).1 =
        { u with watchedRows := u.watchedRows ++
            [{ addr := r.addr, dtype := r.dtype, current := r.current, desired := r.desired,
               pinned := false }] } ∧
      (watchSelected u setIdx row).2 = some u.watchedRows.length) := by
  constructor
  · intro hin
    cases hf : findWatched r u.watchedRows 0 with
    | none => exact absurd hin ((findWatched_none r u.watchedRows 0).mp hf)
    | some i =>
      obtain ⟨_, w, hget, hkey⟩ := findWatched_some r u.watchedRows 0 i hf
      have hw : watchSelected u setIdx row = (u, some i) := by
        simp only [watchSelected, hset, if_neg hsel, hrow, hf]
      rw [hw]
      exact ⟨rfl, i, w, rfl, by simpa using hget, hkey⟩
  · intro hnot
    have hf := (findWatched_none r u.watchedRows 0).mpr hnot
    have hw : watchSelected u setIdx row =
        ({ u with watchedRows := u.watchedRows ++
            [{ addr := r.addr, dtype := r.dtype, current := r.current, desired := r.desired,
               pinned := false }] }, some u.watchedRows.length) := by
      simp only [watchSelected, hset, if_neg hsel, hrow, hf]
    rw [hw]
    exact ⟨rfl, rfl⟩

/-- The method `watchSelected` keeps the watch list free of repeated address and type. -/
theorem watchSelected_nodup (u : UI) (setIdx : Int) (row : Int)
    (hn : (u.watchedRows.map ResultRow.key).Nodup) :
    ((watchSelected u setIdx row).1.watchedRows.map ResultRow.key).Nodup := by
  unfold watchSelected
  split
  · exact hn
  · split
    · exact hn
    · split
      · exact hn
      · rename_i r _
        split
        · exact hn
        · rename_i hf
          have hnot := (findWatched_none r u.watchedRows 0).mp hf
          simp only [List.map_append, List.map_cons, List.map_nil]
          rw [List.nodup_append]
          refine ⟨hn, List.nodup_singleton _, ?_⟩
          intro k hk hk2
          simp only [List.mem_singleton] at hk2
          subst hk2
          exact hnot hk

/-- The method `unwatchSelected` keeps the watch list free of repeated address and type. -/
theorem unwatchSelected_nodup (u : UI) (row : Int)
    (hn : (u.watchedRows.map ResultRow.key).Nodup) :
    ((unwatchSelected u row).watchedRows.map ResultRow.key).Nodup := by
  unfold unwatchSelected
  split
  · exact hn
  · simp only
    rw [← List.eraseIdx_eq_take_drop_succ]
    exact hn.sublist ((List.eraseIdx_sublist _ _).map _)

/-- One operation of the `ui` keeps the watch list free of repeated address and type. -/
theorem step_nodup {σ : Type} (osh : OSH σ) (lib : Lib) (fuel : Nat) (s s1 : σ) (u u1 : UI)
    (op : Op) (hn : (u.watchedRows.map ResultRow.key).Nodup)
    (hstep : UI.step osh lib fuel s u op = some (u1, s1)) :
    (u1.watchedRows.map ResultRow.key).Nodup := by
  cases op with
  | selectPID pid =>
    simp only [UI.step, Option.some.injEq, Prod.mk.injEq] at hstep
    rw [← hstep.1]
    exact hn
  | search setIdx dtype valStr refine =>
    simp only [UI.step] at hstep
    split at hstep
    · simp only [Option.some.injEq, Prod.mk.injEq] at hstep
      rw [← hstep.1]
      exact hn
    · split at hstep
      · cases hstep
      · simp only [Option.some.injEq, Prod.mk.injEq] at hstep
        rw [← hstep.1]
        exact hn
  | watch setIdx row =>
    simp only [UI.step, Option.some.injEq, Prod.mk.injEq] at hstep
    rw [← hstep.1]
    exact watchSelected_nodup u setIdx row hn
  | unwatch row =>
    simp only [UI.step, Option.some.injEq, Prod.mk.injEq] at hstep
    rw [← hstep.1]
    exact unwatchSelected_nodup u row hn
  | togglePin row =>
    simp only [UI.step, Option.some.injEq, Prod.mk.injEq] at hstep
    rw [← hstep.1, (watch_commands_key osh lib s u row "" false).1]
    exact hn
  | editDesired row text pin =>
    simp only [UI.step, Option.some.injEq, Prod.mk.injEq] at hstep
    rw [← hstep.1, (watch_commands_key osh lib s u row text pin).2.1]
    exact hn
  | writeDesired row =>
    simp only [UI.step, Option.some.injEq] at hstep
    have : u1 = (writeDesired osh s u row).1 := by rw [hstep]
    rw [this, (watch_commands_key osh lib s u row "" false).2.2]
    exact hn
  | tick =>
    simp only [UI.step, Option.some.injEq, Prod.mk.injEq] at hstep
    rw [← hstep.1]
    unfold applyPinnedWrites
    split
    · exact hn
    · split
      · exact hn
      · rcases ho : Open osh s (u.selectedPID % 2 ^ 32) with ⟨res, s2⟩
        cases res with
        | error e => exact hn
        | ok proc =>
          simp only
          have hk := tickWatched_key osh.toOS proc s2 u.watchedRows
          rcases hw : tickWatched osh.toOS proc s2 u.watchedRows with ⟨⟨ws, res⟩, s3⟩
          rw [hw] at hk
          simp only at hk
          cases res with
          | some e =>
            simp only
            rw [hk]
            exact hn
          | none =>
            simp only
            rcases hts : tickSets osh.toOS proc s3 u.sets with ⟨⟨sets, res⟩, s4⟩
            cases res with
            | some e =>
              simp only
              rw [hk]
              exact hn
            | none =>
              simp only
              rw [hk]
              exact hn

/-- In every reachable state the watch list holds no address and type twice. -/
theorem reachable_nodup {σ : Type} (osh : OSH σ) (lib : Lib) (u : UI)
    (hr : Reachable osh lib u) : (u.watchedRows.map ResultRow.key).Nodup := by
  induction hr with
  | init => simp [newUI]
  | step fuel s s1 u u1 op _ hstep ih => exact step_nodup osh lib fuel s s1 u u1 op ih hstep

/-- C16.  Watch dedup: in every state reached from the initial `ui` by operations (watch,
unwatch, toggle-pin, edit-desired, write and reconciler ticks among them) the watch list
holds no two rows with the same address and type.  Watching a row whose address and type
are already present leaves the `ui`, the watch list with it, as it was and selects a row
with that address and type; watching a new pair appends exactly one row with that address,
type, current and desired value and pinned false, and selects it. -/
theorem watch_dedup {σ : Type} (osh : OSH σ) (lib : Lib) :
    (∀ u, Reachable osh lib u → (u.watchedRows.map ResultRow.key).Nodup) ∧
    (∀ (u : UI) (setIdx : Int) (row : Int) (set : SearchSet) (r : ResultRow),
      currentSet u.sets setIdx = some set → ¬ selectedIndex row set.rows.length < 0 →
      set.rows.get? (selectedIndex row set.rows.length).toNat = some r →
      (r.key ∈ u.watchedRows.map ResultRow.key →
        (watchSelected u setIdx row).1 = u ∧
        ∃ i w, (watchSelected u setIdx row).2 = some i ∧ u.watchedRows.get? i = some w ∧
          w.key = r.key) ∧
      (r.key ∉ u.watchedRows.map ResultRow.key →
        (watchSelected u setIdx row).1 =
          { u with watchedRows := u.watchedRows ++
              [{ addr := r.addr, dtype := r.dtype, current := r.current,
                 desired := r.desired, pinned := false }] } ∧
        (watchSelected u setIdx row).2 = some u.watchedRows.length)) :=
  ⟨fun u hu => reachable_nodup osh lib u hu,
   fun u setIdx row set r hset hsel hrow => watchSelected_spec u setIdx row set r hset hsel hrow⟩

/-- C16 witness: with the second row of the set watched already, watching it again changes
nothing and selects the watched row; watching the first row appends it. -/
theorem watch_dedup_witness :
    ((watchSelected watchingUI 0 2).1 = watchingUI ∧
      ∃ i w, (watchSelected watchingUI 0 2).2 = some i ∧
        watchingUI.watchedRows.get? i = some w ∧ w.key = (0x10004, "int32")) ∧
    (watchSelected watchingUI 0 1).1.watchedRows.length = 2 :=
  ⟨((watch_dedup Machine.osh demoLib).2 watchingUI 0 2 int32Set
      { addr := 0x10004, dtype := "int32", current := { i64 := 707406378 },
        desired := { i64 := 707406378 } } rfl (by decide) rfl).1 (by decide),
   by
    rw [(((watch_dedup Machine.osh demoLib).2 watchingUI 0 1 int32Set
      { addr := 0x10000, dtype := "int32", current := { i64 := 707406378 },
        desired := { i64 := 707406378 } } rfl (by decide) rfl).2 (by decide)).1]
    rfl⟩

/-! ## The reconciler tick on a machine -/

/-- The read primitive of a machine leaves the machine as it was; when it succeeds the data
are the bytes of the target. -/
theorem machine_read (m : Machine) (h addr n : Nat) :
    (Machine.osh.ReadProcessMemory m h addr n).2 = m ∧
    ∀ data, (Machine.osh.ReadProcessMemory m h addr n).1 = Except.ok data →
      data = m.target.bytes addr n := by
  simp only [Machine.osh, Target.os]
  by_cases hh : h ∈ m.handles
  · simp only [if_pos hh, true_and]
    intro data hd
    split at hd
    · cases hd
    · split at hd
      · simp only [Except.ok.injEq] at hd
        exact hd.symm
      · cases hd
  · simp [if_neg hh]

/-- The write primitive of a machine, when it succeeds, stores the buffer in the target and
reports its length; when it fails the machine is left as it was. -/
theorem machine_write (m : Machine) (h addr : Nat) (buf : List Nat) :
    (∀ k, (Machine.osh.WriteProcessMemory m h addr buf).1 = Except.ok k →
      k = buf.length ∧ (Machine.osh.WriteProcessMemory m h addr buf).2
        = { m with target := m.target.store addr buf }) ∧
    (∀ code, (Machine.osh.WriteProcessMemory m h addr buf).1 = Except.error code →
      (Machine.osh.WriteProcessMemory m h addr buf).2 = m) := by
  simp only [Machine.osh, Target.os]
  by_cases hh : h ∈ m.handles
  · simp only [if_pos hh]
    by_cases h0 : h = 0
    · simp [if_pos h0]
    · simp only [if_neg h0]
      split
      · simp
      · simp
  · simp [if_neg hh]

/-- The method `readExact` on a machine. -/
theorem machine_readExact (m : Machine) (p : Process) (addr n : Nat) :
    (readExact Machine.osh.toOS m p addr n).2 = m ∧
    ∀ data, (readExact Machine.osh.toOS m p addr n).1 = Except.ok data →
      data = m.target.bytes addr n := by
  have h := machine_read m p.Handle addr n
  unfold readExact
  rcases hr : Machine.osh.ReadProcessMemory m p.Handle addr n with ⟨res, m1⟩
  rw [hr] at h
  simp only at h
  obtain ⟨h1, h2⟩ := h
  subst h1
  cases res with
  | error code => simp
  | ok data =>
    simp only
    split
    · simp
    · refine ⟨rfl, ?_⟩
      intro d hd
      simp only [Except.ok.injEq] at hd
      subst hd
      exact h2 _ rfl

/-- The method `writeExact` on a machine. -/
theorem machine_writeExact (m : Machine) (p : Process) (addr : Nat) (buf : List Nat) :
    ((writeExact Machine.osh.toOS m p addr buf).1 = Except.ok () →
      (writeExact Machine.osh.toOS m p addr buf).2
        = { m with target := m.target.store addr buf }) ∧
    (∀ e, (writeExact Machine.osh.toOS m p addr buf).1 = Except.error e →
      (writeExact Machine.osh.toOS m p addr buf).2 = m ∨
      (writeExact Machine.osh.toOS m p addr buf).2
        = { m with target := m.target.store addr buf }) := by
  have h := machine_write m p.Handle addr buf
  unfold writeExact
  rcases hr : Machine.osh.WriteProcessMemory m p.Handle addr buf with ⟨res, m1⟩
  rw [hr] at h
  simp only at h
  obtain ⟨h1, h2⟩ := h
  cases res with
  | error code =>
    simp only [reduceCtorEq, false_implies, true_and]
    intro e _
    exact Or.inl (h2 code rfl)
  | ok k =>
    obtain ⟨hk, hm⟩ := h1 k rfl
    subst hk
    simp only [ne_eq, not_true_eq_false, if_false, true_implies]
    exact ⟨hm, fun e he => by cases he⟩

theorem width_values : width "int32" = 4 ∧ width "int64" = 8 ∧ width "uint32" = 4 ∧
    width "uint64" = 8 ∧ width "float32" = 4 ∧ width "float64" = 8 := by
  refine ⟨by decide, by decide, by decide, by decide, by decide, by decide⟩

/-- The method `readByType` on a machine leaves the machine as it was; when it succeeds the
value is the decoding of the bytes of the target at the address. -/
theorem machine_readByType (m : Machine) (proc : Process) (dtype : String) (addr : Nat) :
    (readByType Machine.osh.toOS m proc dtype addr).2 = m ∧
    ∀ cur, (readByType Machine.osh.toOS m proc dtype addr).1 = Except.ok cur →
      cur = decodeValue dtype (m.target.bytes addr (width dtype)) := by
  by_cases h0 : dtype = "int32"
  · subst h0
    have h := machine_readExact m proc addr 4
    simp only [readByType, decodeValue, String.reduceEq, if_false, if_true, liftErr, ReadInt32,
      read32, width_values]
    rcases hr : readExact Machine.osh.toOS m proc addr 4 with ⟨res, m1⟩
    rw [hr] at h
    simp only at h
    obtain ⟨h1, h2⟩ := h
    subst h1
    cases res with
    | error e => simp
    | ok data =>
      simp only [Except.ok.injEq, true_and]
      intro cur hc
      rw [← hc, h2 data rfl]
  · by_cases h1 : dtype = "int64"
    · subst h1
      have h := machine_readExact m proc addr 8
      simp only [readByType, decodeValue, String.reduceEq, if_false, if_true, liftErr, ReadInt64,
        read64, width_values]
      rcases hr : readExact Machine.osh.toOS m proc addr 8 with ⟨res, m1⟩
      rw [hr] at h
      simp only at h
      obtain ⟨h1, h2⟩ := h
      subst h1
      cases res with
      | error e => simp
      | ok data =>
        simp only [Except.ok.injEq, true_and]
        intro cur hc
        rw [← hc, h2 data rfl]
    · by_cases h2 : dtype = "uint32"
      · subst h2
        have h := machine_readExact m proc addr 4
        simp only [readByType, decodeValue, String.reduceEq, if_false, if_true, liftErr, ReadUint32,
          read32, width_values]
        rcases hr : readExact Machine.osh.toOS m proc addr 4 with ⟨res, m1⟩
        rw [hr] at h
        simp only at h
        obtain ⟨h1, h2⟩ := h
        subst h1
        cases res with
        | error e => simp
        | ok data =>
          simp only [Except.ok.injEq, true_and]
          intro cur hc
          rw [← hc, h2 data rfl]
      · by_cases h3 : dtype = "uint64"
        · subst h3
          have h := machine_readExact m proc addr 8
          simp only [readByType, decodeValue, String.reduceEq, if_false, if_true, liftErr, ReadUint64,
            read64, width_values]
          rcases hr : readExact Machine.osh.toOS m proc addr 8 with ⟨res, m1⟩
          rw [hr] at h
          simp only at h
          obtain ⟨h1, h2⟩ := h
          subst h1
          cases res with
          | error e => simp
          | ok data =>
            simp only [Except.ok.injEq, true_and]
            intro cur hc
            rw [← hc, h2 data rfl]
        · by_cases h4 : dtype = "float32"
          · subst h4
            have h := machine_readExact m proc addr 4
            simp only [readByType, decodeValue, String.reduceEq, if_false, if_true, liftErr, ReadFloat32,
              read32, width_values]
            rcases hr : readExact Machine.osh.toOS m proc addr 4 with ⟨res, m1⟩
            rw [hr] at h
            simp only at h
            obtain ⟨h1, h2⟩ := h
            subst h1
            cases res with
            | error e => simp
            | ok data =>
              simp only [Except.ok.injEq, true_and]
              intro cur hc
              rw [← hc, h2 data rfl]
          · by_cases h5 : dtype = "float64"
            · subst h5
              have h := machine_readExact m proc addr 8
              simp only [readByType, decodeValue, String.reduceEq, if_false, if_true, liftErr, ReadFloat64,
                read64, width_values]
              rcases hr : readExact Machine.osh.toOS m proc addr 8 with ⟨res, m1⟩
              rw [hr] at h
              simp only at h
              obtain ⟨h1, h2⟩ := h
              subst h1
              cases res with
              | error e => simp
              | ok data =>
                simp only [Except.ok.injEq, true_and]
                intro cur hc
                rw [← hc, h2 data rfl]
            · simp [readByType, h0, h1, h2, h3, h4, h5]

theorem PutUint32_mod (u : Nat) : PutUint32 (u % 2 ^ 32) = PutUint32 u := by
  simp only [PutUint32, List.cons.injEq, and_true]
  omega

theorem PutUint64_mod (u : Nat) : PutUint64 (u % 2 ^ 64) = PutUint64 u := by
  simp only [PutUint64, List.cons.injEq, and_true]
  omega

theorem toUint32_toInt32 (u : Nat) : toUint32 (toInt32 u) = u % 2 ^ 32 := by
  unfold toUint32 toInt32
  split <;> omega

theorem Uint32_PutUint32_mod (v : Nat) : Uint32 (PutUint32 v) = v % 2 ^ 32 := by
  rw [← PutUint32_mod, Uint32_PutUint32 _ (Nat.mod_lt _ (by norm_num))]

theorem Uint64_PutUint64_mod (v : Nat) : Uint64 (PutUint64 v) = v % 2 ^ 64 := by
  rw [← PutUint64_mod, Uint64_PutUint64 _ (Nat.mod_lt _ (by norm_num))]

theorem PutUint32_length (v : Nat) : (PutUint32 v).length = 4 := rfl

theorem PutUint64_length (v : Nat) : (PutUint64 v).length = 8 := rfl

/-- The bytes that `writeByType` writes are the encoding of the value. -/
theorem written_bytes (d : NumericValue) :
    PutUint32 (toUint32 (toInt32 (toUint32 d.i64))) = encodeValue "int32" d ∧
    PutUint64 (toUint64 d.i64) = encodeValue "int64" d ∧
    PutUint32 (d.u64 % 2 ^ 32) = encodeValue "uint32" d ∧
    PutUint64 d.u64 = encodeValue "uint64" d ∧
    PutUint32 (Float32bits (f64to32 d.f64)) = encodeValue "float32" d ∧
    PutUint64 (Float64bits d.f64) = encodeValue "float64" d := by
  refine ⟨?_, rfl, ?_, rfl, ?_, ?_⟩
  · rw [toUint32_toInt32, PutUint32_mod]
    rfl
  · rw [PutUint32_mod]
    rfl
  · rw [Float32bits, PutUint32_mod]
    rfl
  · rw [Float64bits, PutUint64_mod]
    rfl

theorem encodeValue_spec (dtype : String) (d : NumericValue) (hT : dtype ∈ typeTags) :
    (encodeValue dtype d).length = width dtype ∧ ∀ x ∈ encodeValue dtype d, x < 256 := by
  simp only [typeTags, List.mem_cons, List.mem_singleton, List.not_mem_nil, or_false] at hT
  rcases hT with rfl | rfl | rfl | rfl | rfl | rfl <;>
    simp only [encodeValue, String.reduceEq, if_false, if_true, width_values] <;>
    first
    | exact ⟨rfl, PutUint32_bytes _⟩
    | exact ⟨rfl, PutUint64_bytes _⟩

/-- A write followed by a read of the same bytes, on a machine: when the write succeeds the
target holds the buffer, and when the read succeeds too it returns the buffer.  In every
case the machine afterwards is the one before or the one with the buffer stored. -/
theorem machine_write_then_read (m : Machine) (p : Process) (addr : Nat) (buf : List Nat)
    (hb : ∀ x ∈ buf, x < 256) :
    ((writeExact Machine.osh.toOS m p addr buf).1 = Except.ok () →
      (writeExact Machine.osh.toOS m p addr buf).2
        = { m with target := m.target.store addr buf } ∧
      ∀ data, (readExact Machine.osh.toOS { m with target := m.target.store addr buf } p addr
          buf.length).1 = Except.ok data → data = buf) ∧
    (∀ e, (writeExact Machine.osh.toOS m p addr buf).1 = Except.error e →
      (writeExact Machine.osh.toOS m p addr buf).2 = m ∨
      (writeExact Machine.osh.toOS m p addr buf).2
        = { m with target := m.target.store addr buf }) := by
  refine ⟨fun hok => ⟨(machine_writeExact m p addr buf).1 hok, ?_⟩,
    (machine_writeExact m p addr buf).2⟩
  intro data hd
  rw [(machine_readExact _ p addr buf.length).2 data hd]
  exact store_bytes m.target addr buf hb

/-- The method `writeByType` on a machine.  When it succeeds, the target holds the encoding
of the value at the address and the returned value is the decoding of that encoding.  In
every case the machine afterwards is the one before or the one with the encoding stored. -/
theorem machine_writeByType (m : Machine) (proc : Process) (dtype : String) (addr : Nat)
    (d : NumericValue) :
    (∀ cur, (writeByType Machine.osh.toOS m proc dtype addr d).1 = Except.ok cur →
      dtype ∈ typeTags ∧
      (writeByType Machine.osh.toOS m proc dtype addr d).2
        = { m with target := m.target.store addr (encodeValue dtype d) } ∧
      cur = decodeValue dtype (encodeValue dtype d)) ∧
    ((writeByType Machine.osh.toOS m proc dtype addr d).2 = m ∨
      (writeByType Machine.osh.toOS m proc dtype addr d).2
        = { m with target := m.target.store addr (encodeValue dtype d) }) := by
  by_cases h0 : dtype = "int32"
  · subst h0
    have hT : "int32" ∈ typeTags := by decide
    have hwb := (written_bytes d).1
    have hlen := (encodeValue_spec "int32" d hT).1
    rw [(width_values).1] at hlen
    have h := machine_write_then_read m proc addr (encodeValue "int32" d)
      (encodeValue_spec "int32" d hT).2
    rw [hlen] at h
    simp only [writeByType, String.reduceEq, if_false, if_true, WriteInt32AndRead, WriteInt32, write32, ReadInt32, read32,
      hwb]
    rcases hw : writeExact Machine.osh.toOS m proc addr (encodeValue "int32" d) with ⟨rw, mw⟩
    rw [hw] at h
    simp only at h
    cases rw with
    | error e =>
      simp only [liftErr, reduceCtorEq, false_implies, implies_true, true_and]
      exact h.2 e rfl
    | ok _ =>
      obtain ⟨hst, hrd⟩ := h.1 rfl
      subst hst
      have hrs := (machine_readExact { m with target := m.target.store addr (encodeValue "int32" d) }
        proc addr 4).1
      simp only
      rcases hr : readExact Machine.osh.toOS
        { m with target := m.target.store addr (encodeValue "int32" d) } proc addr 4 with ⟨rr, mr⟩
      rw [hr] at hrs hrd
      simp only at hrs hrd
      subst hrs
      cases rr with
      | error e => simp [liftErr]
      | ok data =>
        have hdata := hrd data rfl
        subst hdata
        simp only [liftErr, Except.ok.injEq, or_true, and_true]
        intro cur hc
        refine ⟨hT, ?_⟩
        rw [← hc]
        simp [decodeValue]
  · by_cases h1 : dtype = "int64"
    · subst h1
      have hT : "int64" ∈ typeTags := by decide
      have hwb := (written_bytes d).2.1
      have hlen := (encodeValue_spec "int64" d hT).1
      rw [(width_values).2.1] at hlen
      have h := machine_write_then_read m proc addr (encodeValue "int64" d)
        (encodeValue_spec "int64" d hT).2
      rw [hlen] at h
      simp only [writeByType, String.reduceEq, if_false, if_true, WriteInt64AndRead, WriteInt64, write64, ReadInt64, read64,
        hwb]
      rcases hw : writeExact Machine.osh.toOS m proc addr (encodeValue "int64" d) with ⟨rw, mw⟩
      rw [hw] at h
      simp only at h
      cases rw with
      | error e =>
        simp only [liftErr, reduceCtorEq, false_implies, implies_true, true_and]
        exact h.2 e rfl
      | ok _ =>
        obtain ⟨hst, hrd⟩ := h.1 rfl
        subst hst
        have hrs := (machine_readExact { m with target := m.target.store addr (encodeValue "int64" d) }
          proc addr 8).1
        simp only
        rcases hr : readExact Machine.osh.toOS
          { m with target := m.target.store addr (encodeValue "int64" d) } proc addr 8 with ⟨rr, mr⟩
        rw [hr] at hrs hrd
        simp only at hrs hrd
        subst hrs
        cases rr with
        | error e => simp [liftErr]
        | ok data =>
          have hdata := hrd data rfl
          subst hdata
          simp only [liftErr, Except.ok.injEq, or_true, and_true]
          intro cur hc
          refine ⟨hT, ?_⟩
          rw [← hc]
          simp [decodeValue]
    · by_cases h2 : dtype = "uint32"
      · subst h2
        have hT : "uint32" ∈ typeTags := by decide
        have hwb := (written_bytes d).2.2.1
        have hlen := (encodeValue_spec "uint32" d hT).1
        rw [(width_values).2.2.1] at hlen
        have h := machine_write_then_read m proc addr (encodeValue "uint32" d)
          (encodeValue_spec "uint32" d hT).2
        rw [hlen] at h
        simp only [writeByType, String.reduceEq, if_false, if_true, WriteUint32AndRead, WriteUint32, write32, ReadUint32, read32,
          hwb]
        rcases hw : writeExact Machine.osh.toOS m proc addr (encodeValue "uint32" d) with ⟨rw, mw⟩
        rw [hw] at h
        simp only at h
        cases rw with
        | error e =>
          simp only [liftErr, reduceCtorEq, false_implies, implies_true, true_and]
          exact h.2 e rfl
        | ok _ =>
          obtain ⟨hst, hrd⟩ := h.1 rfl
          subst hst
          have hrs := (machine_readExact { m with target := m.target.store addr (encodeValue "uint32" d) }
            proc addr 4).1
          simp only
          rcases hr : readExact Machine.osh.toOS
            { m with target := m.target.store addr (encodeValue "uint32" d) } proc addr 4 with ⟨rr, mr⟩
          rw [hr] at hrs hrd
          simp only at hrs hrd
          subst hrs
          cases rr with
          | error e => simp [liftErr]
          | ok data =>
            have hdata := hrd data rfl
            subst hdata
            simp only [liftErr, Except.ok.injEq, or_true, and_true]
            intro cur hc
            refine ⟨hT, ?_⟩
            rw [← hc]
            simp [decodeValue]
      · by_cases h3 : dtype = "uint64"
        · subst h3
          have hT : "uint64" ∈ typeTags := by decide
          have hwb := (written_bytes d).2.2.2.1
          have hlen := (encodeValue_spec "uint64" d hT).1
          rw [(width_values).2.2.2.1] at hlen
          have h := machine_write_then_read m proc addr (encodeValue "uint64" d)
            (encodeValue_spec "uint64" d hT).2
          rw [hlen] at h
          simp only [writeByType, String.reduceEq, if_false, if_true, WriteUint64AndRead, WriteUint64, write64, ReadUint64, read64,
            hwb]
          rcases hw : writeExact Machine.osh.toOS m proc addr (encodeValue "uint64" d) with ⟨rw, mw⟩
          rw [hw] at h
          simp only at h
          cases rw with
          | error e =>
            simp only [liftErr, reduceCtorEq, false_implies, implies_true, true_and]
            exact h.2 e rfl
          | ok _ =>
            obtain ⟨hst, hrd⟩ := h.1 rfl
            subst hst
            have hrs := (machine_readExact { m with target := m.target.store addr (encodeValue "uint64" d) }
              proc addr 8).1
            simp only
            rcases hr : readExact Machine.osh.toOS
              { m with target := m.target.store addr (encodeValue "uint64" d) } proc addr 8 with ⟨rr, mr⟩
            rw [hr] at hrs hrd
            simp only at hrs hrd
            subst hrs
            cases rr with
            | error e => simp [liftErr]
            | ok data =>
              have hdata := hrd data rfl
              subst hdata
              simp only [liftErr, Except.ok.injEq, or_true, and_true]
              intro cur hc
              refine ⟨hT, ?_⟩
              rw [← hc]
              simp [decodeValue]
        · by_cases h4 : dtype = "float32"
          · subst h4
            have hT : "float32" ∈ typeTags := by decide
            have hwb := (written_bytes d).2.2.2.2.1
            have hlen := (encodeValue_spec "float32" d hT).1
            rw [(width_values).2.2.2.2.1] at hlen
            have h := machine_write_then_read m proc addr (encodeValue "float32" d)
              (encodeValue_spec "float32" d hT).2
            rw [hlen] at h
            simp only [writeByType, String.reduceEq, if_false, if_true, WriteFloat32AndRead, WriteFloat32, write32, ReadFloat32, read32,
              hwb]
            rcases hw : writeExact Machine.osh.toOS m proc addr (encodeValue "float32" d) with ⟨rw, mw⟩
            rw [hw] at h
            simp only at h
            cases rw with
            | error e =>
              simp only [liftErr, reduceCtorEq, false_implies, implies_true, true_and]
              exact h.2 e rfl
            | ok _ =>
              obtain ⟨hst, hrd⟩ := h.1 rfl
              subst hst
              have hrs := (machine_readExact { m with target := m.target.store addr (encodeValue "float32" d) }
                proc addr 4).1
              simp only
              rcases hr : readExact Machine.osh.toOS
                { m with target := m.target.store addr (encodeValue "float32" d) } proc addr 4 with ⟨rr, mr⟩
              rw [hr] at hrs hrd
              simp only at hrs hrd
              subst hrs
              cases rr with
              | error e => simp [liftErr]
              | ok data =>
                have hdata := hrd data rfl
                subst hdata
                simp only [liftErr, Except.ok.injEq, or_true, and_true]
                intro cur hc
                refine ⟨hT, ?_⟩
                rw [← hc]
                simp [decodeValue]
          · by_cases h5 : dtype = "float64"
            · subst h5
              have hT : "float64" ∈ typeTags := by decide
              have hwb := (written_bytes d).2.2.2.2.2
              have hlen := (encodeValue_spec "float64" d hT).1
              rw [(width_values).2.2.2.2.2] at hlen
              have h := machine_write_then_read m proc addr (encodeValue "float64" d)
                (encodeValue_spec "float64" d hT).2
              rw [hlen] at h
              simp only [writeByType, String.reduceEq, if_false, if_true, WriteFloat64AndRead, WriteFloat64, write64, ReadFloat64, read64,
                hwb]
              rcases hw : writeExact Machine.osh.toOS m proc addr (encodeValue "float64" d) with ⟨rw, mw⟩
              rw [hw] at h
              simp only at h
              cases rw with
              | error e =>
                simp only [liftErr, reduceCtorEq, false_implies, implies_true, true_and]
                exact h.2 e rfl
              | ok _ =>
                obtain ⟨hst, hrd⟩ := h.1 rfl
                subst hst
                have hrs := (machine_readExact { m with target := m.target.store addr (encodeValue "float64" d) }
                  proc addr 8).1
                simp only
                rcases hr : readExact Machine.osh.toOS
                  { m with target := m.target.store addr (encodeValue "float64" d) } proc addr 8 with ⟨rr, mr⟩
                rw [hr] at hrs hrd
                simp only at hrs hrd
                subst hrs
                cases rr with
                | error e => simp [liftErr]
                | ok data =>
                  have hdata := hrd data rfl
                  subst hdata
                  simp only [liftErr, Except.ok.injEq, or_true, and_true]
                  intro cur hc
                  refine ⟨hT, ?_⟩
                  rw [← hc]
                  simp [decodeValue]
            · simp [writeByType, h0, h1, h2, h3, h4, h5]

theorem encodeValue_length (dtype : String) (d : NumericValue) :
    (encodeValue dtype d).length = width dtype := by
  unfold encodeValue width typeBits
  repeat' split
  all_goals first | rfl | simp_all

/-- The widening of a `float32` depends on the low 32 bits of the pattern only. -/
theorem f32to64_mod (a : Nat) : f32to64 (a % 2 ^ 32) = f32to64 a := by
  have h1 : a % 2 ^ 32 / 2 ^ (8 + 23) % 2 = a / 2 ^ (8 + 23) % 2 := by omega
  have h2 : a % 2 ^ 32 / 2 ^ 23 % 2 ^ 8 = a / 2 ^ 23 % 2 ^ 8 := by omega
  have h3 : a % 2 ^ 32 % 2 ^ 23 = a % 2 ^ 23 := by omega
  have h4 : a % 2 ^ 32 / 2 ^ 31 % 2 = a / 2 ^ 31 % 2 := by omega
  have h5 : a % 2 ^ 32 % 2 ^ 22 = a % 2 ^ 22 := by omega
  have hd : floatDecode 8 23 (a % 2 ^ 32) = floatDecode 8 23 a := by
    unfold floatDecode
    simp only [h1, h2, h3]
  unfold f32to64
  rw [hd, h4, h5]

/-- A value in the domain of its type is the decoding of its encoding. -/
theorem decode_encode (dtype : String) (d : NumericValue) (hd : d.inDomain dtype) :
    decodeValue dtype (encodeValue dtype d) = d := by
  unfold NumericValue.inDomain at hd
  cases d with
  | mk i u f =>
  simp only at hd
  split at hd
  · rename_i h
    subst h
    obtain ⟨h1, h2, rfl, rfl⟩ := hd
    simp only [decodeValue, encodeValue, if_true, Uint32_PutUint32_mod,
      Nat.mod_eq_of_lt (toUint32_lt i), toInt32_toUint32 i h1 h2]
  · split at hd
    · rename_i h
      subst h
      obtain ⟨h1, h2, rfl, rfl⟩ := hd
      simp only [decodeValue, encodeValue, String.reduceEq, if_false, if_true,
        Uint64_PutUint64_mod, Nat.mod_eq_of_lt (toUint64_lt i), toInt64_toUint64 i h1 h2]
    · split at hd
      · rename_i h
        subst h
        obtain ⟨h1, rfl, rfl⟩ := hd
        simp only [decodeValue, encodeValue, String.reduceEq, if_false, if_true,
          Uint32_PutUint32_mod, Nat.mod_eq_of_lt h1]
      · split at hd
        · rename_i h
          subst h
          obtain ⟨h1, rfl, rfl⟩ := hd
          simp only [decodeValue, encodeValue, String.reduceEq, if_false, if_true,
            Uint64_PutUint64_mod, Nat.mod_eq_of_lt h1]
        · split at hd
          · rename_i h
            subst h
            obtain ⟨_, h2, rfl, rfl⟩ := hd
            simp only [decodeValue, encodeValue, String.reduceEq, if_false, if_true,
              Uint32_PutUint32_mod, Float32frombits, Nat.mod_mod, f32to64_mod, h2]
          · split at hd
            · rename_i h
              subst h
              obtain ⟨h1, rfl, rfl⟩ := hd
              simp only [decodeValue, encodeValue, String.reduceEq, if_false, if_true,
                Uint64_PutUint64_mod, Float64frombits, Nat.mod_mod, Nat.mod_eq_of_lt h1]
            · exact absurd hd id

/-- A tick over the watch list that ends without error went through the rows before a
row, then through the row (the typed write-then-read of its desired value if it is pinned,
a read if not), then through the rows after it; the row's current value is the value
returned for it. -/
theorem tickWatched_split {σ : Type} (os : OS σ) (proc : Process) (s s1 : σ)
    (pre post rows1 : List ResultRow) (r : ResultRow)
    (h : tickWatched os proc s (pre ++ r :: post) = ((rows1, none), s1)) :
    ∃ pre1 post1 cur sa sb,
      tickWatched os proc s pre = ((pre1, none), sa) ∧
      (if r.pinned = true then writeByType os sa proc r.dtype r.addr r.desired
        else readByType os sa proc r.dtype r.addr) = (Except.ok cur, sb) ∧
      tickWatched os proc sb post = ((post1, none), s1) ∧
      rows1 = pre1 ++ { r with current := cur } :: post1 ∧ pre1.length = pre.length := by
  induction pre generalizing s rows1 with
  | nil =>
    simp only [List.nil_append] at h
    rw [tickWatched] at h
    by_cases hp : r.pinned = true
    · rw [if_pos hp] at h
      rcases hw : writeByType os s proc r.dtype r.addr r.desired with ⟨res, sb⟩
      rw [hw] at h
      cases res with
      | error e => simp at h
      | ok cur =>
        simp only at h
        rcases ht : tickWatched os proc sb post with ⟨⟨post1, res⟩, s2⟩
        rw [ht] at h
        simp only [Prod.mk.injEq] at h
        obtain ⟨⟨h1, h2⟩, h3⟩ := h
        subst h1 h2 h3
        exact ⟨[], post1, cur, s, sb, by simp [tickWatched], by rw [if_pos hp, hw], ht,
          rfl, rfl⟩
    · rw [if_neg hp] at h
      rcases hw : readByType os s proc r.dtype r.addr with ⟨res, sb⟩
      rw [hw] at h
      cases res with
      | error e => simp at h
      | ok cur =>
        simp only at h
        rcases ht : tickWatched os proc sb post with ⟨⟨post1, res⟩, s2⟩
        rw [ht] at h
        simp only [Prod.mk.injEq] at h
        obtain ⟨⟨h1, h2⟩, h3⟩ := h
        subst h1 h2 h3
        exact ⟨[], post1, cur, s, sb, by simp [tickWatched], by rw [if_neg hp, hw], ht,
          rfl, rfl⟩
  | cons p0 pre ih =>
    simp only [List.cons_append] at h
    rw [tickWatched] at h
    by_cases hp : p0.pinned = true
    · rw [if_pos hp] at h
      rcases hw : writeByType os s proc p0.dtype p0.addr p0.desired with ⟨res, s2⟩
      rw [hw] at h
      cases res with
      | error e => simp at h
      | ok c0 =>
        simp only at h
        rcases ht : tickWatched os proc s2 (pre ++ r :: post) with ⟨⟨rest1, res⟩, s3⟩
        rw [ht] at h
        simp only [Prod.mk.injEq] at h
        obtain ⟨⟨h1, h2⟩, h3⟩ := h
        subst h1 h2 h3
        obtain ⟨pre1, post1, cur, sa, sb, ha, hb, hc, hd, he⟩ := ih s2 rest1 ht
        refine ⟨{ p0 with current := c0 } :: pre1, post1, cur, sa, sb, ?_, hb, hc, ?_, ?_⟩
        · rw [tickWatched, if_pos hp, hw]
          simp only [ha]
        · rw [hd]
          rfl
        · simp [he]
    · rw [if_neg hp] at h
      rcases hw : readByType os s proc p0.dtype p0.addr with ⟨res, s2⟩
      rw [hw] at h
      cases res with
      | error e => simp at h
      | ok c0 =>
        simp only at h
        rcases ht : tickWatched os proc s2 (pre ++ r :: post) with ⟨⟨rest1, res⟩, s3⟩
        rw [ht] at h
        simp only [Prod.mk.injEq] at h
        obtain ⟨⟨h1, h2⟩, h3⟩ := h
        subst h1 h2 h3
        obtain ⟨pre1, post1, cur, sa, sb, ha, hb, hc, hd, he⟩ := ih s2 rest1 ht
        refine ⟨{ p0 with current := c0 } :: pre1, post1, cur, sa, sb, ?_, hb, hc, ?_, ?_⟩
        · rw [tickWatched, if_neg hp, hw]
          simp only [ha]
        · rw [hd]
          rfl
        · simp [he]

/-- A tick over the watch list of a machine changes the memory of the target only at bytes
of pinned rows, and nothing else of the machine. -/
theorem machine_tickWatched_frame (proc : Process) (m : Machine) (rows : List ResultRow) :
    (tickWatched Machine.osh.toOS proc m rows).2.handles = m.handles ∧
    ∀ a, (∀ w ∈ rows, w.pinned = true → ¬ w.covers a) →
      (tickWatched Machine.osh.toOS proc m rows).2.target.mem a = m.target.mem a := by
  induction rows generalizing m with
  | nil => exact ⟨rfl, fun _ _ => rfl⟩
  | cons r rs ih =>
    rw [tickWatched]
    by_cases hp : r.pinned = true
    · rw [if_pos hp]
      have hw := (machine_writeByType m proc r.dtype r.addr r.desired).2
      rcases hres : writeByType Machine.osh.toOS m proc r.dtype r.addr r.desired with ⟨res, m1⟩
      rw [hres] at hw
      simp only at hw
      have hframe : m1.handles = m.handles ∧
          ∀ a, ¬ r.covers a → m1.target.mem a = m.target.mem a := by
        rcases hw with rfl | rfl
        · exact ⟨rfl, fun _ _ => rfl⟩
        · refine ⟨rfl, ?_⟩
          intro a ha
          simp only [Target.store, encodeValue_length]
          exact if_neg ha
      cases res with
      | error e => exact ⟨hframe.1, fun a ha => hframe.2 a (ha r (List.mem_cons_self _ _) hp)⟩
      | ok cur =>
        simp only
        obtain ⟨i1, i2⟩ := ih m1
        rcases ht : tickWatched Machine.osh.toOS proc m1 rs with ⟨⟨rs1, res1⟩, m2⟩
        rw [ht] at i1 i2
        simp only at i1 i2 ⊢
        refine ⟨i1.trans hframe.1, ?_⟩
        intro a ha
        rw [i2 a (fun w hw => ha w (List.mem_cons_of_mem _ hw)),
          hframe.2 a (ha r (List.mem_cons_self _ _) hp)]
    · rw [if_neg hp]
      have hr := (machine_readByType m proc r.dtype r.addr).1
      rcases hres : readByType Machine.osh.toOS m proc r.dtype r.addr with ⟨res, m1⟩
      rw [hres] at hr
      simp only at hr
      subst hr
      cases res with
      | error e => exact ⟨rfl, fun _ _ => rfl⟩
      | ok cur =>
        simp only
        obtain ⟨i1, i2⟩ := ih m1
        rcases ht : tickWatched Machine.osh.toOS proc m1 rs with ⟨⟨rs1, res1⟩, m2⟩
        rw [ht] at i1 i2
        simp only at i1 i2 ⊢
        exact ⟨i1, fun a ha => i2 a (fun w hw => ha w (List.mem_cons_of_mem _ hw))⟩

/-- The loop over the rows of a set leaves a machine as it was. -/
theorem machine_tickRows_state (proc : Process) (m : Machine) (rows : List ResultRow) :
    (tickRows Machine.osh.toOS proc m rows).2 = m := by
  induction rows generalizing m with
  | nil => rfl
  | cons r rs ih =>
    rw [tickRows]
    have hr := (machine_readByType m proc r.dtype r.addr).1
    rcases hres : readByType Machine.osh.toOS m proc r.dtype r.addr with ⟨res, m1⟩
    rw [hres] at hr
    simp only at hr
    subst hr
    cases res with
    | error e => rfl
    | ok cur =>
      simp only
      have := ih m1
      rcases ht : tickRows Machine.osh.toOS proc m1 rs with ⟨⟨rs1, res1⟩, m2⟩
      rw [ht] at this
      exact this

/-- The loop over the candidate sets leaves a machine as it was. -/
theorem machine_tickSets_state (proc : Process) (m : Machine) (sets : List SearchSet) :
    (tickSets Machine.osh.toOS proc m sets).2 = m := by
  induction sets generalizing m with
  | nil => rfl
  | cons set rest ih =>
    rw [tickSets]
    split
    · have := ih m
      rcases ht : tickSets Machine.osh.toOS proc m rest with ⟨⟨r1, res1⟩, m2⟩
      rw [ht] at this
      exact this
    · have hr := machine_tickRows_state proc m set.rows
      rcases hres : tickRows Machine.osh.toOS proc m set.rows with ⟨⟨rows, res⟩, m1⟩
      rw [hres] at hr
      simp only at hr
      subst hr
      cases res with
      | some e => rfl
      | none =>
        simp only
        have := ih m1
        rcases ht : tickSets Machine.osh.toOS proc m1 rest with ⟨⟨r1, res1⟩, m2⟩
        rw [ht] at this
        exact this

/-- `Open` and `Close` on a machine leave the target as it was. -/
theorem machine_Open_Close_target (m : Machine) (pid : Nat) (p : Option Process) :
    (Open Machine.osh m pid).2.target = m.target ∧
    (Close Machine.osh m p).2.target = m.target := by
  constructor
  · unfold Open Machine.osh
    by_cases hp : pid = 0
    · simp only [if_pos hp]
    · simp only [if_neg hp]
  · unfold Close Machine.osh
    cases p with
    | none => rfl
    | some pr =>
      simp only
      by_cases h0 : pr.Handle = 0
      · rw [if_pos h0]
      · rw [if_neg h0]
        by_cases hin : pr.Handle ∈ m.handles
        · simp only [if_pos hin]
        · simp only [if_neg hin]

/-- The loops of a tick end with no result or with a write or read error. -/
theorem tick_loops_result {σ : Type} (os : OS σ) (proc : Process) (s : σ)
    (rows : List ResultRow) (sets : List SearchSet) :
    (tickWatched os proc s rows).1.2 ≠ some TickResult.done ∧
    (tickRows os proc s rows).1.2 ≠ some TickResult.done ∧
    (tickSets os proc s sets).1.2 ≠ some TickResult.done := by
  have hrows : ∀ (s : σ) (rows : List ResultRow),
      (tickRows os proc s rows).1.2 ≠ some TickResult.done := by
    intro s rows
    induction rows generalizing s with
    | nil => simp [tickRows]
    | cons r rs ih =>
      rw [tickRows]
      rcases hr : readByType os s proc r.dtype r.addr with ⟨res, s1⟩
      cases res with
      | error e => simp
      | ok cur => exact ih s1
  refine ⟨?_, hrows s rows, ?_⟩
  · induction rows generalizing s with
    | nil => simp [tickWatched]
    | cons r rs ih =>
      rw [tickWatched]
      split
      · rcases hr : writeByType os s proc r.dtype r.addr r.desired with ⟨res, s1⟩
        cases res with
        | error e => simp
        | ok cur => exact ih s1
      · rcases hr : readByType os s proc r.dtype r.addr with ⟨res, s1⟩
        cases res with
        | error e => simp
        | ok cur => exact ih s1
  · induction sets generalizing s with
    | nil => simp [tickSets]
    | cons set rest ih =>
      rw [tickSets]
      split
      · exact ih s
      · have := hrows s set.rows
        rcases hr : tickRows os proc s set.rows with ⟨⟨rows1, res⟩, s1⟩
        rw [hr] at this
        cases res with
        | some e => simpa using this
        | none => exact ih s1

/-- A reconciler tick on a machine that ends with `done`: the handle was opened, the loop
over the watch list ended without error, and the target afterwards is the target after
that loop. -/
theorem machine_tick_done (m m1 : Machine) (u u1 : UI)
    (h : applyPinnedWrites Machine.osh m u = ((u1, TickResult.done), m1)) :
    ∃ proc mo mw, Open Machine.osh m (u.selectedPID % 2 ^ 32) = (Except.ok proc, mo) ∧
      mo.target = m.target ∧
      tickWatched Machine.osh.toOS proc mo u.watchedRows = ((u1.watchedRows, none), mw) ∧
      m1.target = mw.target := by
  unfold applyPinnedWrites at h
  split at h
  · cases h
  · split at h
    · cases h
    · have hot := (machine_Open_Close_target m (u.selectedPID % 2 ^ 32) none).1
      rcases ho : Open Machine.osh m (u.selectedPID % 2 ^ 32) with ⟨res, mo⟩
      rw [ho] at h hot
      simp only at hot
      cases res with
      | error e => cases h
      | ok proc =>
        simp only at h
        rcases hw : tickWatched Machine.osh.toOS proc mo u.watchedRows with ⟨⟨ws, res⟩, mw⟩
        rw [hw] at h
        cases res with
        | some e =>
          simp only [Prod.mk.injEq] at h
          have := h.1.2
          subst this
          have hne := (tick_loops_result Machine.osh.toOS proc mo u.watchedRows []).1
          rw [hw] at hne
          exact absurd rfl hne
        | none =>
          simp only at h
          have hs := machine_tickSets_state proc mw u.sets
          rcases hts : tickSets Machine.osh.toOS proc mw u.sets with ⟨⟨sets, res⟩, ms⟩
          rw [hts] at h hs
          simp only at hs
          subst hs
          cases res with
          | some e =>
            simp only [Prod.mk.injEq] at h
            have := h.1.2
            subst this
            have hne := (tick_loops_result Machine.osh.toOS proc ms [] u.sets).2.2
            rw [hts] at hne
            exact absurd rfl hne
          | none =>
            simp only [Prod.mk.injEq] at h
            obtain ⟨⟨h1, _⟩, h2⟩ := h
            refine ⟨proc, mo, ms, rfl, hot, ?_, ?_⟩
            · rw [← h1]
              exact hw
            · rw [← h2]
              exact (machine_Open_Close_target ms 0 (some proc)).2

theorem bytes_congr (t1 t2 : Target) (addr n : Nat)
    (h : ∀ a, addr ≤ a → a < addr + n → t1.mem a = t2.mem a) :
    t1.bytes addr n = t2.bytes addr n := by
  unfold Target.bytes
  apply List.map_congr_left
  intro i hi
  rw [h (addr + i) (by omega) (by have := List.mem_range.mp hi; omega)]

/-- C17 (as stated, refuted).  The watch list holds a pinned `int32` row at `0x10000` with
the desired value 1 and after it a pinned `int64` row at the same address with the desired
value 2.  The tick ends with `done` and the first row's current value is 1, but the target
memory at `0x10000` holds the bytes `02 00 00 00`, not the encoding `01 00 00 00` of 1: the
second row wrote over it. -/
theorem pinned_reconciliation_counterexample :
    (overlapUI.watchedRows.map ResultRow.key).Nodup ∧
    (applyPinnedWrites Machine.osh demoMachine overlapUI).1.2 = TickResult.done ∧
    (applyPinnedWrites Machine.osh demoMachine overlapUI).1.1.watchedRows.map
      (fun w => w.current.i64) = [1, 2] ∧
    (applyPinnedWrites Machine.osh demoMachine overlapUI).2.target.bytes 0x10000 4
      = [2, 0, 0, 0] ∧
    encodeValue "int32" { i64 := 1 } = [1, 0, 0, 0] := by
  refine ⟨by decide, by decide, by decide, by decide, by decide⟩

/-- C17 (amended).  On a machine, let a reconciler tick end with `done` (the open, the
writes and the reads succeeded), and let `r` be a row of the watch list, with the rows
`pre` before it and `post` after it.  After the tick the watch list has the same rows with
new current values.  If `r` is pinned and its desired value `d` is in the domain of its
type, the current value of `r` equals `d`, and the target memory at its address holds the
little-endian encoding of `d` provided no pinned row after `r` in the list has a byte in
common with `r`.  If `r` is not pinned, processing it writes nothing (a tick over `r` alone
leaves the machine as it was) and its current value is the decoding of the bytes the target
holds at its address at that moment (a memory that differs from the one before the tick
only at bytes of pinned rows before `r`); provided no pinned row of the list has a byte in
common with `r`, the target memory at its address is as before the tick and the current
value of `r` is the value read from it. -/
theorem pinned_reconciliation (m m1 : Machine) (u u1 : UI) (pre post : List ResultRow)
    (r : ResultRow) (hrows : u.watchedRows = pre ++ r :: post)
    (htick : applyPinnedWrites Machine.osh m u = ((u1, TickResult.done), m1)) :
    ∃ pre1 post1 cur,
      u1.watchedRows = pre1 ++ { r with current := cur } :: post1 ∧
      pre1.map ResultRow.key = pre.map ResultRow.key ∧
      post1.map ResultRow.key = post.map ResultRow.key ∧
      (r.pinned = true → r.desired.inDomain r.dtype →
        cur = r.desired ∧
        (noPinnedOverlap post r →
          m1.target.bytes r.addr (width r.dtype) = encodeValue r.dtype r.desired)) ∧
      (r.pinned = false →
        (∀ (proc : Process) (m0 : Machine),
          (tickWatched Machine.osh.toOS proc m0 [r]).2 = m0) ∧
        (∃ t : Target, cur = decodeValue r.dtype (t.bytes r.addr (width r.dtype)) ∧
          ∀ a, (∀ w ∈ pre, w.pinned = true → ¬ w.covers a) → t.mem a = m.target.mem a) ∧
        (noPinnedOverlap (pre ++ post) r →
          m1.target.bytes r.addr (width r.dtype) = m.target.bytes r.addr (width r.dtype) ∧
          cur = decodeValue r.dtype (m.target.bytes r.addr (width r.dtype)))) := by
  obtain ⟨proc, mo, mw, _, hmo, hw, hm1⟩ := machine_tick_done m m1 u u1 htick
  rw [hrows] at hw
  obtain ⟨pre1, post1, cur, sa, sb, hpre, hrow, hpost, hlist, _⟩ :=
    tickWatched_split Machine.osh.toOS proc mo mw pre post u1.watchedRows r hw
  have hkpre : pre1.map ResultRow.key = pre.map ResultRow.key := by
    have := tickWatched_key Machine.osh.toOS proc mo pre
    rw [hpre] at this
    exact this
  have hkpost : post1.map ResultRow.key = post.map ResultRow.key := by
    have := tickWatched_key Machine.osh.toOS proc sb post
    rw [hpost] at this
    exact this
  have hfpre := (machine_tickWatched_frame proc mo pre).2
  rw [hpre] at hfpre
  simp only at hfpre
  have hfpost := (machine_tickWatched_frame proc sb post).2
  rw [hpost] at hfpost
  simp only at hfpost
  refine ⟨pre1, post1, cur, hlist, hkpre, hkpost, ?_, ?_⟩
  · intro hp hdom
    rw [if_pos hp] at hrow
    have hwb := (machine_writeByType sa proc r.dtype r.addr r.desired).1 cur (by rw [hrow])
    rw [hrow] at hwb
    obtain ⟨_, hsb, hcur⟩ := hwb
    simp only at hsb
    refine ⟨by rw [hcur, decode_encode r.dtype r.desired hdom], ?_⟩
    intro hno
    have hstore := store_bytes sa.target r.addr (encodeValue r.dtype r.desired) (by
      intro x hx
      unfold encodeValue at hx
      repeat' split at hx
      all_goals first | exact PutUint32_bytes _ x hx | exact PutUint64_bytes _ x hx)
    rw [encodeValue_length] at hstore
    rw [hm1, ← hstore]
    apply bytes_congr
    intro a h1 h2
    rw [hfpost a (fun w hw hwp => hno w hw hwp a ⟨h1, h2⟩), hsb]
  · intro hp
    have hnp : ¬ r.pinned = true := by simp [hp]
    rw [if_neg hnp] at hrow
    have hr := machine_readByType sa proc r.dtype r.addr
    rw [hrow] at hr
    simp only at hr
    obtain ⟨hsb, hcur⟩ := hr
    subst hsb
    refine ⟨?_, ⟨sb.target, hcur cur rfl, fun a ha => by rw [hfpre a ha, hmo]⟩, ?_⟩
    · intro proc0 m0
      rw [tickWatched, if_neg hnp]
      have hr := (machine_readByType m0 proc0 r.dtype r.addr).1
      rcases hres : readByType Machine.osh.toOS m0 proc0 r.dtype r.addr with ⟨res, mr⟩
      rw [hres] at hr
      simp only at hr
      subst hr
      cases res <;> rfl
    · intro hno
      have hmem : ∀ a, r.covers a → mw.target.mem a = m.target.mem a := by
        intro a ha
        rw [hfpost a (fun w hw hwp => hno w (List.mem_append_right _ hw) hwp a ha),
          hfpre a (fun w hw hwp => hno w (List.mem_append_left _ hw) hwp a ha), hmo]
      have hsa : ∀ a, r.covers a → sb.target.mem a = m.target.mem a := by
        intro a ha
        rw [hfpre a (fun w hw hwp => hno w (List.mem_append_left _ hw) hwp a ha), hmo]
      refine ⟨?_, ?_⟩
      · rw [hm1]
        exact bytes_congr _ _ _ _ (fun a h1 h2 => hmem a ⟨h1, h2⟩)
      · rw [hcur cur rfl]
        congr 1
        exact bytes_congr _ _ _ _ (fun a h1 h2 => hsa a ⟨h1, h2⟩)

/-- C17 witness: a pinned `int32` row with the desired value `-2` and an unpinned `uint32`
row, at different addresses of the small target. -/
theorem pinned_reconciliation_witness :
    ∃ pre1 post1 cur,
      (applyPinnedWrites Machine.osh demoMachine pinnedUI).1.1.watchedRows
        = pre1 ++ { addr := 0x10000, dtype := "int32", current := cur,
                    desired := { i64 := -2 }, pinned := true } :: post1 ∧
      cur = { i64 := -2 } ∧
      (applyPinnedWrites Machine.osh demoMachine pinnedUI).2.target.bytes 0x10000 4
        = encodeValue "int32" { i64 := -2 } := by
  obtain ⟨pre1, post1, cur, h1, _, _, h2, _⟩ :=
    pinned_reconciliation demoMachine (applyPinnedWrites Machine.osh demoMachine pinnedUI).2
      pinnedUI (applyPinnedWrites Machine.osh demoMachine pinnedUI).1.1 []
      [{ addr := 0x10008, dtype := "uint32", current := { u64 := 0 }, desired := { u64 := 7 } }]
      { addr := 0x10000, dtype := "int32", current := { i64 := 707406378 },
        desired := { i64 := -2 }, pinned := true } rfl rfl
  have h3 := h2 rfl (by decide)
  exact ⟨pre1, post1, cur, h1, h3.1, h3.2 (by
    intro w hw hp
    simp only [List.mem_singleton] at hw
    subst hw
    cases hp)⟩

/-! ## The content of the parse errors -/

/-- The digit loop of `ParseUint` ends with no error, the range error or the syntax
error. -/
theorem parseUintLoop_cause (maxVal : Nat) (cs : List Char) (n : Nat) :
    (parseUintLoop maxVal cs n).2 = none ∨
    (parseUintLoop maxVal cs n).2 = some NumErr.ErrRange ∨
    (parseUintLoop maxVal cs n).2 = some NumErr.ErrSyntax := by
  induction cs generalizing n with
  | nil => exact Or.inl rfl
  | cons c cs ih =>
    simp only [parseUintLoop]
    split
    · split
      · exact Or.inr (Or.inl rfl)
      · split
        · exact Or.inr (Or.inl rfl)
        · exact ih _
    · exact Or.inr (Or.inr rfl)

/-- The integer parsers end with no error, the range error or the syntax error. -/
theorem integer_parser_cause (t : String) (bits : Nat) :
    ((ParseUint t bits).2 = none ∨ (ParseUint t bits).2 = some NumErr.ErrRange ∨
      (ParseUint t bits).2 = some NumErr.ErrSyntax) ∧
    ((ParseInt t bits).2 = none ∨ (ParseInt t bits).2 = some NumErr.ErrRange ∨
      (ParseInt t bits).2 = some NumErr.ErrSyntax) := by
  have hu : ∀ t : String, (ParseUint t bits).2 = none ∨
      (ParseUint t bits).2 = some NumErr.ErrRange ∨
      (ParseUint t bits).2 = some NumErr.ErrSyntax := by
    intro t
    unfold ParseUint
    split
    · exact Or.inr (Or.inr rfl)
    · exact parseUintLoop_cause _ _ _
  refine ⟨hu t, ?_⟩
  unfold ParseInt
  split
  · exact Or.inr (Or.inr rfl)
  · simp only
    generalize hrest : (if t.data.head? = some '+' ∨ t.data.head? = some '-' then t.data.tail
      else t.data) = rest
    have h := hu (String.mk rest)
    rcases hp : ParseUint (String.mk rest) bits with ⟨un, err⟩
    rw [hp] at h
    simp only at h ⊢
    split
    · rename_i hc
      rcases h with h | h | h
      · exact absurd h hc.1
      · exact absurd h hc.2
      · exact Or.inr (Or.inr h)
    · split
      · exact Or.inr (Or.inl rfl)
      · split
        · exact Or.inr (Or.inl rfl)
        · exact Or.inl rfl

/-- What `parseValue` returns for one of the six type tags on a text that is not empty
after trimming, by the error of the parser of the type. -/
theorem parseValue_by_cause (lib : Lib) (dtype text : String) (hT : dtype ∈ typeTags)
    (hne : TrimSpace text ≠ "") :
    (∀ e, parserCause lib dtype (TrimSpace text) = some e →
      parseValue lib dtype text
        = Except.error (parseNumericError lib dtype (TrimSpace text) e)) ∧
    (parserCause lib dtype (TrimSpace text) = none →
      ∃ v, parseValue lib dtype text = Except.ok v) := by
  simp only [typeTags, List.mem_cons, List.mem_singleton, List.not_mem_nil, or_false] at hT
  rcases hT with rfl | rfl | rfl | rfl | rfl | rfl
  · simp only [parserCause, if_true]
    refine ⟨fun e he => parseValue_int32_err lib text e hne he, fun h => ?_⟩
    rcases hp : ParseInt (TrimSpace text) 32 with ⟨v, err⟩
    rw [hp] at h
    simp only at h
    subst h
    exact ⟨_, by simp only [parseValue, if_neg hne, if_true, hp]; rfl⟩
  · simp only [parserCause, String.reduceEq, if_false, if_true]
    refine ⟨fun e he => parseValue_int64_err lib text e hne he, fun h => ?_⟩
    rcases hp : ParseInt (TrimSpace text) 64 with ⟨v, err⟩
    rw [hp] at h
    simp only at h
    subst h
    exact ⟨_, by simp only [parseValue, if_neg hne, String.reduceEq, if_false, if_true, hp]; rfl⟩
  · simp only [parserCause, String.reduceEq, if_false, if_true]
    refine ⟨fun e he => parseValue_uint32_err lib text e hne he, fun h => ?_⟩
    rcases hp : ParseUint (TrimSpace text) 32 with ⟨v, err⟩
    rw [hp] at h
    simp only at h
    subst h
    exact ⟨_, by simp only [parseValue, if_neg hne, String.reduceEq, if_false, if_true, hp]; rfl⟩
  · simp only [parserCause, String.reduceEq, if_false, if_true]
    refine ⟨fun e he => parseValue_uint64_err lib text e hne he, fun h => ?_⟩
    rcases hp : ParseUint (TrimSpace text) 64 with ⟨v, err⟩
    rw [hp] at h
    simp only at h
    subst h
    exact ⟨_, by simp only [parseValue, if_neg hne, String.reduceEq, if_false, if_true, hp]; rfl⟩
  · simp only [parserCause, String.reduceEq, if_false, if_true]
    refine ⟨fun e he => parseValue_float32_err lib text e hne he, fun h => ?_⟩
    rcases hp : lib.ParseFloat (TrimSpace text) 32 with ⟨v, err⟩
    rw [hp] at h
    simp only at h
    subst h
    exact ⟨_, by simp only [parseValue, if_neg hne, String.reduceEq, if_false, if_true, hp]; rfl⟩
  · simp only [parserCause, String.reduceEq, if_false]
    refine ⟨fun e he => parseValue_float64_err lib text e hne he, fun h => ?_⟩
    rcases hp : lib.ParseFloat (TrimSpace text) 64 with ⟨v, err⟩
    rw [hp] at h
    simp only at h
    subst h
    exact ⟨_, by simp only [parseValue, if_neg hne, String.reduceEq, if_false, if_true, hp]; rfl⟩

/-- The syntax message contains the type tag and the quoted text. -/
theorem syntax_message_contains (lib : Lib) (dtype t : String) :
    containsText (parseNumericError lib dtype t NumErr.ErrSyntax) dtype ∧
    containsText (parseNumericError lib dtype t NumErr.ErrSyntax) (lib.Quote t) := by
  unfold containsText parseNumericError
  simp only [String.data_append, List.append_assoc]
  constructor
  · exact ⟨"invalid ".data, _, rfl⟩
  · exact ⟨"invalid ".data ++ dtype.data ++ ": enter a ".data ++ dtype.data ++ " value (got ".data,
      ")".data, by simp⟩

/-- C21 (as stated, refuted).  The text `99999999999` is rejected as `int32` for being out
of range, and the message `invalid int32: value out of range` names the type but not the
text.  A text of one blank is rejected with `enter a value to search`, which names neither
the type nor the text. -/
theorem parse_error_content_counterexample :
    parseValue demoLib "int32" "99999999999"
      = Except.error "invalid int32: value out of range" ∧
    ¬ containsText "invalid int32: value out of range" "99999999999" ∧
    parseValue demoLib "uint64" " " = Except.error "enter a value to search" ∧
    ¬ containsText "enter a value to search" "uint64" := by
  refine ⟨by decide, by decide, by decide, by decide⟩

/-- C21 (amended).  For every one of the six type tags `T` and every text that is not empty
after trimming and that `parseValue` rejects, the message names `T`: it starts with
`invalid T`.  When the parser of the type refused the text for its syntax, the message also
names the offending input: it contains the trimmed text as `%q` quotes it.  When the
parser refused it for being out of range, the message is `invalid T: value out of range`,
whatever the text.  The integer parsers know no other cause.  A text that is empty after
trimming gives `enter a value to search`. -/
theorem parse_error_content (lib : Lib) (dtype text : String) (hT : dtype ∈ typeTags) :
    (TrimSpace text = "" →
      parseValue lib dtype text = Except.error "enter a value to search") ∧
    (TrimSpace text ≠ "" → ∀ msg, parseValue lib dtype text = Except.error msg →
      containsText msg ("invalid " ++ dtype) ∧ containsText msg dtype ∧
      ∃ e, parserCause lib dtype (TrimSpace text) = some e ∧
        msg = parseNumericError lib dtype (TrimSpace text) e) ∧
    (TrimSpace text ≠ "" → parserCause lib dtype (TrimSpace text) = some NumErr.ErrSyntax →
      parseValue lib dtype text
        = Except.error ("invalid " ++ dtype ++ ": enter a " ++ dtype ++ " value (got "
            ++ lib.Quote (TrimSpace text) ++ ")") ∧
      containsText ("invalid " ++ dtype ++ ": enter a " ++ dtype ++ " value (got "
            ++ lib.Quote (TrimSpace text) ++ ")") (lib.Quote (TrimSpace text))) ∧
    (TrimSpace text ≠ "" → parserCause lib dtype (TrimSpace text) = some NumErr.ErrRange →
      parseValue lib dtype text
        = Except.error ("invalid " ++ dtype ++ ": value out of range")) ∧
    (dtype ∈ integerTypes → ∀ e, parserCause lib dtype (TrimSpace text) = some e →
      e = NumErr.ErrRange ∨ e = NumErr.ErrSyntax) := by
  refine ⟨parseValue_empty lib dtype text, ?_, ?_, ?_, ?_⟩
  · intro hne msg hmsg
    obtain ⟨h1, h2⟩ := parseValue_by_cause lib dtype text hT hne
    cases hc : parserCause lib dtype (TrimSpace text) with
    | none =>
      obtain ⟨v, hv⟩ := h2 hc
      rw [hv] at hmsg
      cases hmsg
    | some e =>
      rw [h1 e hc] at hmsg
      simp only [Except.error.injEq] at hmsg
      subst hmsg
      have hinv := parseNumericError_invalid lib dtype (TrimSpace text) e
      refine ⟨hinv, ?_, e, rfl, rfl⟩
      unfold containsText at hinv ⊢
      refine List.IsInfix.trans ?_ hinv
      rw [String.data_append]
      exact ⟨"invalid ".data, [], by simp⟩
  · intro hne hc
    exact ⟨(parseValue_by_cause lib dtype text hT hne).1 _ hc,
      (syntax_message_contains lib dtype (TrimSpace text)).2⟩
  · intro hne hc
    exact (parseValue_by_cause lib dtype text hT hne).1 _ hc
  · intro hI e he
    simp only [integerTypes, List.mem_cons, List.mem_singleton, List.not_mem_nil,
      or_false] at hI
    have hp := integer_parser_cause (TrimSpace text)
    rcases hI with rfl | rfl | rfl | rfl <;>
      simp only [parserCause, String.reduceEq, if_false, if_true] at he
    · rcases (hp 32).2 with h | h | h <;> rw [h] at he <;> simp_all
    · rcases (hp 64).2 with h | h | h <;> rw [h] at he <;> simp_all
    · rcases (hp 32).1 with h | h | h <;> rw [h] at he <;> simp_all
    · rcases (hp 64).1 with h | h | h <;> rw [h] at he <;> simp_all

/-- C21 witness: `xyz` as `uint64` is refused for its syntax and the message names the type
and the text. -/
theorem parse_error_content_witness :
    parseValue demoLib "uint64" "xyz"
      = Except.error ("invalid uint64: enter a uint64 value (got " ++ demoLib.Quote "xyz"
          ++ ")") ∧
    containsText ("invalid uint64: enter a uint64 value (got " ++ demoLib.Quote "xyz" ++ ")")
      (demoLib.Quote "xyz") :=
  (parse_error_content demoLib "uint64" "xyz" (by decide)).2.2.1 (by decide) (by decide)

/-! ## The walk after a region skipped for being non-writable -/

theorem topTarget_query_low (h addr : Nat) (hh : h ≠ 0) (ha : addr < 2 ^ 64 - 4096) :
    Target.os.VirtualQueryEx topTarget h addr
      = (some { BaseAddress := addr, RegionSize := 2 ^ 64 - 4096 - addr, State := 0x10000,
                Protect := PAGE_NOACCESS }, topTarget) := by
  simp only [Target.os, if_neg hh, topTarget, regionAt, Nat.zero_add, if_pos ha]

theorem topTarget_query_top (h : Nat) (hh : h ≠ 0) :
    Target.os.VirtualQueryEx topTarget h (2 ^ 64 - 4096)
      = (some { BaseAddress := 2 ^ 64 - 4096, RegionSize := 4096, State := MEM_COMMIT,
                Protect := PAGE_READONLY }, topTarget) := by
  simp only [Target.os, if_neg hh, topTarget, regionAt, Nat.zero_add]
  norm_num

/-- C23 (the code at the failing input).  Over a target whose last region, read-only, ends
at the top of the address space, the walk with `writableOnly = false` reaches that region,
finds `base + size` wrapped to 0 and stops: the scan returns.  With
`writableOnly = true` the region is left through `continue`, the stop test is not made,
and the walk goes on at address 0: one iteration at the region is the rest of the walk
from 0, and the scan does not return with any fuel. -/
theorem walk_filter_divergence (size : Nat) (pred : List Nat → Bool) (fuel inner : Nat)
    (acc : List Nat) :
    regionLoop Target.os demoProcess.Handle size pred 0 false (inner + 1) (fuel + 1) topTarget
      (2 ^ 64 - 4096) acc = some (acc, topTarget) ∧
    regionLoop Target.os demoProcess.Handle size pred 0 true inner (fuel + 1) topTarget
      (2 ^ 64 - 4096) acc
      = regionLoop Target.os demoProcess.Handle size pred 0 true inner fuel topTarget 0 acc ∧
    scanNumeric Target.os (fuel + 2) topTarget (some demoProcess) size pred 0 false
      = some (Except.ok [], topTarget) ∧
    scanNumeric Target.os fuel topTarget (some demoProcess) size pred 0 true = none := by
  have hh : demoProcess.Handle ≠ 0 := by decide
  have hstop : ∀ (inner fuel : Nat) (acc : List Nat),
      regionLoop Target.os demoProcess.Handle size pred 0 false (inner + 1) (fuel + 1)
        topTarget (2 ^ 64 - 4096) acc = some (acc, topTarget) := by
    intro inner fuel acc
    rw [regionLoop_scan Target.os _ size pred 0 false (inner + 1) fuel topTarget _ acc _ _
      (topTarget_query_top _ hh) (by decide) (by decide) (by decide)]
    rw [chunkLoop_done _ _ _ _ _ _ _ _ _ _ _ (by decide)]
    simp only
    rw [if_pos (by decide)]
  have hskip : ∀ (inner fuel : Nat) (acc : List Nat),
      regionLoop Target.os demoProcess.Handle size pred 0 true inner (fuel + 1) topTarget
        (2 ^ 64 - 4096) acc
        = regionLoop Target.os demoProcess.Handle size pred 0 true inner fuel topTarget 0
            acc := by
    intro inner fuel acc
    rw [regionLoop_skip Target.os _ size pred 0 true inner fuel topTarget _ acc _ _
      (topTarget_query_top _ hh) (by decide) (by decide) (by decide)]
    rfl
  have hfree : ∀ (wo : Bool) (inner fuel : Nat) (acc : List Nat),
      regionLoop Target.os demoProcess.Handle size pred 0 wo inner (fuel + 1) topTarget 0 acc
        = regionLoop Target.os demoProcess.Handle size pred 0 wo inner fuel topTarget
            (2 ^ 64 - 4096) acc := by
    intro wo inner fuel acc
    rw [regionLoop_pass Target.os _ size pred 0 wo inner fuel topTarget 0 acc _ _
      (topTarget_query_low _ 0 hh (by norm_num)) (by decide) (by decide)]
    rw [if_neg (by decide)]
    rfl
  have hloop : ∀ (inner fuel : Nat) (acc : List Nat),
      regionLoop Target.os demoProcess.Handle size pred 0 true inner fuel topTarget 0 acc = none ∧
      regionLoop Target.os demoProcess.Handle size pred 0 true inner fuel topTarget
        (2 ^ 64 - 4096) acc = none := by
    intro inner fuel acc
    induction fuel with
    | zero => exact ⟨rfl, rfl⟩
    | succ n ih => exact ⟨by rw [hfree, ih.2], by rw [hskip, ih.1]⟩
  refine ⟨hstop inner fuel acc, hskip inner fuel acc, ?_, ?_⟩
  · simp only [scanNumeric, if_neg hh]
    rw [hfree false (fuel + 2) (fuel + 1) [], hstop (fuel + 1) fuel []]
  · simp only [scanNumeric, if_neg hh]
    rw [(hloop fuel fuel []).1]

/-! ## Order and abort of a reconciler tick -/

/-- A refresh changes only current values. -/
theorem Refreshed_fixed {σ : Type} (op : σ → ResultRow → Except UIErr NumericValue × σ)
    (s s1 : σ) (rows rows1 : List ResultRow) (h : Refreshed op s rows rows1 s1) :
    rows1.map ResultRow.fixed = rows.map ResultRow.fixed := by
  induction h with
  | nil s => rfl
  | cons s s1 s2 r cur rs rs1 _ _ ih =>
    simp only [List.map_cons, ih]
    rfl

/-- The loop over the watch list ends without error exactly when the rows were refreshed in
list order. -/
theorem tickWatched_ok_iff {σ : Type} (os : OS σ) (proc : Process) (s s1 : σ)
    (rows rows1 : List ResultRow) :
    tickWatched os proc s rows = ((rows1, none), s1)
      ↔ Refreshed (rowOp os proc) s rows rows1 s1 := by
  constructor
  · intro h
    induction rows generalizing s rows1 with
    | nil =>
      simp only [tickWatched, Prod.mk.injEq, and_true] at h
      obtain ⟨h1, h2⟩ := h
      subst h1 h2
      exact Refreshed.nil s
    | cons r rs ih =>
      have hop : rowOp os proc s r = (if r.pinned = true
          then writeByType os s proc r.dtype r.addr r.desired
          else readByType os s proc r.dtype r.addr) := rfl
      rw [tickWatched] at h
      by_cases hp : r.pinned = true
      · rw [if_pos hp] at h hop
        rcases hw : writeByType os s proc r.dtype r.addr r.desired with ⟨res, sb⟩
        rw [hw] at h hop
        cases res with
        | error e => simp at h
        | ok cur =>
          simp only at h
          rcases ht : tickWatched os proc sb rs with ⟨⟨rs1, res⟩, s2⟩
          rw [ht] at h
          simp only [Prod.mk.injEq] at h
          obtain ⟨⟨h1, h2⟩, h3⟩ := h
          subst h1 h2 h3
          exact Refreshed.cons s sb s2 r cur rs rs1 hop (ih sb rs1 ht)
      · rw [if_neg hp] at h hop
        rcases hw : readByType os s proc r.dtype r.addr with ⟨res, sb⟩
        rw [hw] at h hop
        cases res with
        | error e => simp at h
        | ok cur =>
          simp only at h
          rcases ht : tickWatched os proc sb rs with ⟨⟨rs1, res⟩, s2⟩
          rw [ht] at h
          simp only [Prod.mk.injEq] at h
          obtain ⟨⟨h1, h2⟩, h3⟩ := h
          subst h1 h2 h3
          exact Refreshed.cons s sb s2 r cur rs rs1 hop (ih sb rs1 ht)
  · intro h
    induction h with
    | nil s => rfl
    | cons s sa sb r cur rs rs1 hop _ ih =>
      unfold rowOp at hop
      rw [tickWatched]
      by_cases hp : r.pinned = true
      · rw [if_pos hp] at hop ⊢
        rw [hop]
        simp only [ih]
      · rw [if_neg hp] at hop ⊢
        rw [hop]
        simp only [ih]

/-- The loop over the rows of a set ends without error exactly when the rows were refreshed
in list order. -/
theorem tickRows_ok_iff {σ : Type} (os : OS σ) (proc : Process) (s s1 : σ)
    (rows rows1 : List ResultRow) :
    tickRows os proc s rows = ((rows1, none), s1)
      ↔ Refreshed (readOp os proc) s rows rows1 s1 := by
  constructor
  · intro h
    induction rows generalizing s rows1 with
    | nil =>
      simp only [tickRows, Prod.mk.injEq, and_true] at h
      obtain ⟨h1, h2⟩ := h
      subst h1 h2
      exact Refreshed.nil s
    | cons r rs ih =>
      rw [tickRows] at h
      rcases hw : readByType os s proc r.dtype r.addr with ⟨res, sb⟩
      rw [hw] at h
      cases res with
      | error e => simp at h
      | ok cur =>
        simp only at h
        rcases ht : tickRows os proc sb rs with ⟨⟨rs1, res⟩, s2⟩
        rw [ht] at h
        simp only [Prod.mk.injEq] at h
        obtain ⟨⟨h1, h2⟩, h3⟩ := h
        subst h1 h2 h3
        exact Refreshed.cons s sb s2 r cur rs rs1 hw (ih sb rs1 ht)
  · intro h
    induction h with
    | nil s => rfl
    | cons s sa sb r cur rs rs1 hop _ ih =>
      unfold readOp at hop
      rw [tickRows, hop]
      simp only [ih]

/-- The loop over the watch list, when the operation on the row `r` is the first to fail. -/
theorem tickWatched_fail {σ : Type} (os : OS σ) (proc : Process) (s sa sb : σ)
    (pre post pre1 : List ResultRow) (r : ResultRow) (e : UIErr)
    (hpre : Refreshed (rowOp os proc) s pre pre1 sa)
    (hop : rowOp os proc sa r = (Except.error e, sb)) :
    tickWatched os proc s (pre ++ r :: post)
      = ((pre1 ++ r :: post, some (rowFailure r e)), sb) := by
  induction hpre with
  | nil s =>
    unfold rowOp at hop
    simp only [List.nil_append]
    rw [tickWatched]
    unfold rowFailure
    by_cases hp : r.pinned = true
    · rw [if_pos hp] at hop ⊢
      rw [hop, if_pos hp]
    · rw [if_neg hp] at hop ⊢
      rw [hop, if_neg hp]
  | cons s s1 s2 r0 cur rs rs1 hop0 _ ih =>
    unfold rowOp at hop0
    simp only [List.cons_append]
    rw [tickWatched]
    by_cases hp : r0.pinned = true
    · rw [if_pos hp] at hop0 ⊢
      rw [hop0]
      simp only [ih hop]
    · rw [if_neg hp] at hop0 ⊢
      rw [hop0]
      simp only [ih hop]

/-- The loop over the rows of a set, when the read of the row `r` is the first to fail. -/
theorem tickRows_fail {σ : Type} (os : OS σ) (proc : Process) (s sa sb : σ)
    (pre post pre1 : List ResultRow) (r : ResultRow) (e : UIErr)
    (hpre : Refreshed (readOp os proc) s pre pre1 sa)
    (hop : readOp os proc sa r = (Except.error e, sb)) :
    tickRows os proc s (pre ++ r :: post)
      = ((pre1 ++ r :: post, some (TickResult.readError e)), sb) := by
  induction hpre with
  | nil s =>
    unfold readOp at hop
    simp only [List.nil_append]
    rw [tickRows, hop]
  | cons s s1 s2 r0 cur rs rs1 hop0 _ ih =>
    unfold readOp at hop0
    simp only [List.cons_append]
    rw [tickRows, hop0]
    simp only [ih hop]

/-- The loop over the candidate sets ends without error exactly when the sets were
refreshed in list order. -/
theorem tickSets_ok_iff {σ : Type} (os : OS σ) (proc : Process) (s s1 : σ)
    (sets sets1 : List SearchSet) :
    tickSets os proc s sets = ((sets1, none), s1) ↔ SetsRefreshed os proc s sets sets1 s1 := by
  constructor
  · intro h
    induction sets generalizing s sets1 with
    | nil =>
      simp only [tickSets, Prod.mk.injEq, and_true] at h
      obtain ⟨h1, h2⟩ := h
      subst h1 h2
      exact SetsRefreshed.nil s
    | cons set rest ih =>
      rw [tickSets] at h
      split at h
      · rename_i hlen
        rcases ht : tickSets os proc s rest with ⟨⟨rest1, res⟩, s2⟩
        rw [ht] at h
        simp only [Prod.mk.injEq] at h
        obtain ⟨⟨h1, h2⟩, h3⟩ := h
        subst h1 h2 h3
        have hrows : set.rows = [] := List.length_eq_zero.mp hlen
        have hset : set = { set with rows := [] } := by
          cases set
          simp only at hrows
          subst hrows
          rfl
        have := SetsRefreshed.cons s s s2 set [] rest rest1
          (by rw [hrows]; exact Refreshed.nil s) (ih s rest1 ht)
        rw [← hset] at this
        exact this
      · rcases hr : tickRows os proc s set.rows with ⟨⟨rows1, res⟩, sa⟩
        rw [hr] at h
        cases res with
        | some e => simp at h
        | none =>
          simp only at h
          rcases ht : tickSets os proc sa rest with ⟨⟨rest1, res⟩, s2⟩
          rw [ht] at h
          simp only [Prod.mk.injEq] at h
          obtain ⟨⟨h1, h2⟩, h3⟩ := h
          subst h1 h2 h3
          exact SetsRefreshed.cons s sa s2 set rows1 rest rest1
            ((tickRows_ok_iff os proc s sa set.rows rows1).mp hr) (ih sa rest1 ht)
  · intro h
    induction h with
    | nil s => rfl
    | cons s sa sb set rows1 rest rest1 hrows _ ih =>
      rw [tickSets]
      split
      · rename_i hlen
        have hnil : set.rows = [] := List.length_eq_zero.mp hlen
        rw [hnil] at hrows
        cases hrows
        simp only [ih]
        cases set
        simp only at hnil
        subst hnil
        rfl
      · rw [(tickRows_ok_iff os proc s sa set.rows rows1).mpr hrows]
        simp only [ih]

/-- The loop over the candidate sets, when the read of the row `r` of the set `set` is the
first to fail. -/
theorem tickSets_fail {σ : Type} (os : OS σ) (proc : Process) (s sa sb sc : σ)
    (spre spost spre1 : List SearchSet) (set : SearchSet) (rpre rpost rpre1 : List ResultRow)
    (r : ResultRow) (e : UIErr)
    (hsets : SetsRefreshed os proc s spre spre1 sa)
    (hset : set.rows = rpre ++ r :: rpost)
    (hrows : Refreshed (readOp os proc) sa rpre rpre1 sb)
    (hop : readOp os proc sb r = (Except.error e, sc)) :
    tickSets os proc s (spre ++ set :: spost)
      = ((spre1 ++ { set with rows := rpre1 ++ r :: rpost } :: spost,
          some (TickResult.readError e)), sc) := by
  have hne : ¬ set.rows.length = 0 := by
    rw [hset]
    simp
  induction hsets with
  | nil s =>
    simp only [List.nil_append]
    rw [tickSets, if_neg hne, hset, tickRows_fail os proc s sb sc rpre rpost rpre1 r e hrows hop]
  | cons s s1 s2 set0 rows1 rest rest1 hr0 _ ih =>
    simp only [List.cons_append]
    rw [tickSets]
    split
    · rename_i hlen
      have hnil : set0.rows = [] := List.length_eq_zero.mp hlen
      rw [hnil] at hr0
      cases hr0
      simp only [ih hrows]
      cases set0
      simp only at hnil
      subst hnil
      rfl
    · rw [(tickRows_ok_iff os proc s s1 set0.rows rows1).mpr hr0]
      simp only [ih hrows]

/-- A loop over the watch list that ends with an error stopped at the first row whose
operation failed. -/
theorem tickWatched_fail_inv {σ : Type} (os : OS σ) (proc : Process) (s s1 : σ)
    (rows rows1 : List ResultRow) (res : TickResult)
    (h : tickWatched os proc s rows = ((rows1, some res), s1)) :
    ∃ pre r post pre1 sa e, rows = pre ++ r :: post ∧
      Refreshed (rowOp os proc) s pre pre1 sa ∧ rowOp os proc sa r = (Except.error e, s1) ∧
      rows1 = pre1 ++ r :: post ∧ res = rowFailure r e := by
  induction rows generalizing s rows1 with
  | nil => simp [tickWatched] at h
  | cons r rs ih =>
    have hop : rowOp os proc s r = (if r.pinned = true
        then writeByType os s proc r.dtype r.addr r.desired
        else readByType os s proc r.dtype r.addr) := rfl
    have hfail : ∀ e, rowFailure r e = (if r.pinned = true then TickResult.writeError e
        else TickResult.readError e) := fun _ => rfl
    rw [tickWatched] at h
    by_cases hp : r.pinned = true
    · rw [if_pos hp] at h hop
      rcases hw : writeByType os s proc r.dtype r.addr r.desired with ⟨res0, sb⟩
      rw [hw] at h hop
      cases res0 with
      | error e =>
        simp only [Prod.mk.injEq, Option.some.injEq] at h
        obtain ⟨⟨h1, h2⟩, h3⟩ := h
        subst h1 h2 h3
        exact ⟨[], r, rs, [], s, e, rfl, Refreshed.nil s, hop, rfl, by rw [hfail, if_pos hp]⟩
      | ok cur =>
        simp only at h
        rcases ht : tickWatched os proc sb rs with ⟨⟨rs1, res1⟩, s2⟩
        rw [ht] at h
        simp only [Prod.mk.injEq] at h
        obtain ⟨⟨h1, h2⟩, h3⟩ := h
        subst h1 h2 h3
        obtain ⟨pre, r1, post, pre1, sa, e, hrows, hpre, hfailop, hrows1, hres⟩ := ih sb rs1 ht
        exact ⟨r :: pre, r1, post, { r with current := cur } :: pre1, sa, e, by rw [hrows]; rfl,
          Refreshed.cons s sb sa r cur pre pre1 hop hpre, hfailop, by rw [hrows1]; rfl, hres⟩
    · rw [if_neg hp] at h hop
      rcases hw : readByType os s proc r.dtype r.addr with ⟨res0, sb⟩
      rw [hw] at h hop
      cases res0 with
      | error e =>
        simp only [Prod.mk.injEq, Option.some.injEq] at h
        obtain ⟨⟨h1, h2⟩, h3⟩ := h
        subst h1 h2 h3
        exact ⟨[], r, rs, [], s, e, rfl, Refreshed.nil s, hop, rfl, by rw [hfail, if_neg hp]⟩
      | ok cur =>
        simp only at h
        rcases ht : tickWatched os proc sb rs with ⟨⟨rs1, res1⟩, s2⟩
        rw [ht] at h
        simp only [Prod.mk.injEq] at h
        obtain ⟨⟨h1, h2⟩, h3⟩ := h
        subst h1 h2 h3
        obtain ⟨pre, r1, post, pre1, sa, e, hrows, hpre, hfailop, hrows1, hres⟩ := ih sb rs1 ht
        exact ⟨r :: pre, r1, post, { r with current := cur } :: pre1, sa, e, by rw [hrows]; rfl,
          Refreshed.cons s sb sa r cur pre pre1 hop hpre, hfailop, by rw [hrows1]; rfl, hres⟩

/-- A loop over the rows of a set that ends with an error stopped at the first row whose
read failed. -/
theorem tickRows_fail_inv {σ : Type} (os : OS σ) (proc : Process) (s s1 : σ)
    (rows rows1 : List ResultRow) (res : TickResult)
    (h : tickRows os proc s rows = ((rows1, some res), s1)) :
    ∃ pre r post pre1 sa e, rows = pre ++ r :: post ∧
      Refreshed (readOp os proc) s pre pre1 sa ∧ readOp os proc sa r = (Except.error e, s1) ∧
      rows1 = pre1 ++ r :: post ∧ res = TickResult.readError e := by
  induction rows generalizing s rows1 with
  | nil => simp [tickRows] at h
  | cons r rs ih =>
    rw [tickRows] at h
    rcases hw : readByType os s proc r.dtype r.addr with ⟨res0, sb⟩
    rw [hw] at h
    cases res0 with
    | error e =>
      simp only [Prod.mk.injEq, Option.some.injEq] at h
      obtain ⟨⟨h1, h2⟩, h3⟩ := h
      subst h1 h2 h3
      exact ⟨[], r, rs, [], s, e, rfl, Refreshed.nil s, hw, rfl, rfl⟩
    | ok cur =>
      simp only at h
      rcases ht : tickRows os proc sb rs with ⟨⟨rs1, res1⟩, s2⟩
      rw [ht] at h
      simp only [Prod.mk.injEq] at h
      obtain ⟨⟨h1, h2⟩, h3⟩ := h
      subst h1 h2 h3
      obtain ⟨pre, r1, post, pre1, sa, e, hrows, hpre, hfailop, hrows1, hres⟩ := ih sb rs1 ht
      exact ⟨r :: pre, r1, post, { r with current := cur } :: pre1, sa, e, by rw [hrows]; rfl,
        Refreshed.cons s sb sa r cur pre pre1 hw hpre, hfailop, by rw [hrows1]; rfl, hres⟩

/-- A loop over the candidate sets that ends with an error stopped at the first row, of the
first set, whose read failed. -/
theorem tickSets_fail_inv {σ : Type} (os : OS σ) (proc : Process) (s s1 : σ)
    (sets sets1 : List SearchSet) (res : TickResult)
    (h : tickSets os proc s sets = ((sets1, some res), s1)) :
    ∃ spre set spost spre1 rpre r rpost rpre1 sa sb e, sets = spre ++ set :: spost ∧
      SetsRefreshed os proc s spre spre1 sa ∧ set.rows = rpre ++ r :: rpost ∧
      Refreshed (readOp os proc) sa rpre rpre1 sb ∧
      readOp os proc sb r = (Except.error e, s1) ∧
      sets1 = spre1 ++ { set with rows := rpre1 ++ r :: rpost } :: spost ∧
      res = TickResult.readError e := by
  induction sets generalizing s sets1 with
  | nil => simp [tickSets] at h
  | cons set rest ih =>
    rw [tickSets] at h
    split at h
    · rename_i hlen
      rcases ht : tickSets os proc s rest with ⟨⟨rest1, res1⟩, s2⟩
      rw [ht] at h
      simp only [Prod.mk.injEq] at h
      obtain ⟨⟨h1, h2⟩, h3⟩ := h
      subst h1 h2 h3
      obtain ⟨spre, set1, spost, spre1, rpre, r, rpost, rpre1, sa, sb, e, hs, hsr, hrows, hrr,
        hop, hs1, hres⟩ := ih s rest1 ht
      have hnil : set.rows = [] := List.length_eq_zero.mp hlen
      have hset : set = { set with rows := [] } := by
        cases set
        simp only at hnil
        subst hnil
        rfl
      refine ⟨set :: spre, set1, spost, set :: spre1, rpre, r, rpost, rpre1, sa, sb, e,
        by rw [hs]; rfl, ?_, hrows, hrr, hop, by rw [hs1]; rfl, hres⟩
      have := SetsRefreshed.cons s s sa set [] spre spre1
        (by rw [hnil]; exact Refreshed.nil s) hsr
      rw [← hset] at this
      exact this
    · rcases hr : tickRows os proc s set.rows with ⟨⟨rows1, res0⟩, sa⟩
      rw [hr] at h
      cases res0 with
      | some e0 =>
        simp only [Prod.mk.injEq, Option.some.injEq] at h
        obtain ⟨⟨h1, h2⟩, h3⟩ := h
        subst h1 h2 h3
        obtain ⟨rpre, r, rpost, rpre1, sb, e, hrows, hrr, hop, hrows1, hres⟩ :=
          tickRows_fail_inv os proc s sa set.rows rows1 e0 hr
        exact ⟨[], set, rest, [], rpre, r, rpost, rpre1, s, sb, e, rfl, SetsRefreshed.nil s,
          hrows, hrr, hop, by rw [hrows1]; rfl, hres⟩
      | none =>
        simp only at h
        rcases ht : tickSets os proc sa rest with ⟨⟨rest1, res1⟩, s2⟩
        rw [ht] at h
        simp only [Prod.mk.injEq] at h
        obtain ⟨⟨h1, h2⟩, h3⟩ := h
        subst h1 h2 h3
        obtain ⟨spre, set1, spost, spre1, rpre, r, rpost, rpre1, sb, sc, e, hs, hsr, hrows, hrr,
          hop, hs1, hres⟩ := ih sa rest1 ht
        exact ⟨set :: spre, set1, spost, { set with rows := rows1 } :: spre1, rpre, r, rpost,
          rpre1, sb, sc, e, by rw [hs]; rfl,
          SetsRefreshed.cons s sa sb set rows1 spre spre1
            ((tickRows_ok_iff os proc s sa set.rows rows1).mp hr) hsr,
          hrows, hrr, hop, by rw [hs1]; rfl, hres⟩

/-- The part of `applyPinnedWrites` after a successful `Open`. -/
theorem applyPinnedWrites_opened {σ : Type} (osh : OSH σ) (s s1 : σ) (u : UI) (proc : Process)
    (hpid : u.selectedPID ≠ 0)
    (hrows : u.watchedRows.length > 0 ∨ u.sets.any (fun set => decide (set.rows.length > 0)))
    (hopen : Open osh s (u.selectedPID % 2 ^ 32) = (Except.ok proc, s1)) :
    applyPinnedWrites osh s u =
      (match tickWatched osh.toOS proc s1 u.watchedRows with
       | ((ws, some e), s2) => (({ u with watchedRows := ws }, e), (Close osh s2 (some proc)).2)
       | ((ws, none), s2) =>
         match tickSets osh.toOS proc s2 u.sets with
         | ((sets, some e), s3) =>
           (({ u with watchedRows := ws, sets := sets }, e), (Close osh s3 (some proc)).2)
         | ((sets, none), s3) =>
           (({ u with watchedRows := ws, sets := sets }, TickResult.done),
             (Close osh s3 (some proc)).2)) := by
  unfold applyPinnedWrites
  rw [if_neg hpid, if_neg (not_not_intro hrows), hopen]

/-- C24.  Tick abort and order.  After a successful `Open`, a tick processes the watch rows
in list order, then the candidate sets in list order with their rows in list order
(`Refreshed`, `SetsRefreshed`: each operation starts in the OS state the one before left).
If the operation on the watch row `r` is the first to fail, the tick ends there: the rows
before `r` hold their fresh current values, and `r`, the watch rows after it and all
candidate sets are as they were; the OS is left in the state after the failing operation,
with the handle closed.  If all watch rows succeed and the read of the row `r` of the set
`set` is the first to fail, the watch rows, the rows of the sets before `set` and the rows
of `set` before `r` hold their fresh current values, and `r`, the rows after it and all
later sets are as they were.  Every tick that goes through `Open` ends in one of these
ways or, without failure, with every row refreshed.  A refresh changes no address, type,
desired value or pin flag. -/
theorem tick_abort_and_order {σ : Type} (osh : OSH σ) (s s1 : σ) (u : UI) (proc : Process)
    (hpid : u.selectedPID ≠ 0)
    (hopen : Open osh s (u.selectedPID % 2 ^ 32) = (Except.ok proc, s1)) :
    (∀ pre r post pre1 sa sb e, u.watchedRows = pre ++ r :: post →
      Refreshed (rowOp osh.toOS proc) s1 pre pre1 sa →
      rowOp osh.toOS proc sa r = (Except.error e, sb) →
      applyPinnedWrites osh s u
        = (({ u with watchedRows := pre1 ++ r :: post }, rowFailure r e),
            (Close osh sb (some proc)).2)) ∧
    (∀ ws s2 spre set spost spre1 rpre r rpost rpre1 sa sb sc e,
      Refreshed (rowOp osh.toOS proc) s1 u.watchedRows ws s2 →
      u.sets = spre ++ set :: spost → SetsRefreshed osh.toOS proc s2 spre spre1 sa →
      set.rows = rpre ++ r :: rpost → Refreshed (readOp osh.toOS proc) sa rpre rpre1 sb →
      readOp osh.toOS proc sb r = (Except.error e, sc) →
      applyPinnedWrites osh s u
        = (({ u with watchedRows := ws,
                     sets := spre1 ++ { set with rows := rpre1 ++ r :: rpost } :: spost },
            TickResult.readError e), (Close osh sc (some proc)).2)) ∧
    ((u.watchedRows.length > 0 ∨ u.sets.any (fun set => decide (set.rows.length > 0))) →
      (∃ ws sets1 s2 s3, Refreshed (rowOp osh.toOS proc) s1 u.watchedRows ws s2 ∧
        SetsRefreshed osh.toOS proc s2 u.sets sets1 s3 ∧
        applyPinnedWrites osh s u
          = (({ u with watchedRows := ws, sets := sets1 }, TickResult.done),
              (Close osh s3 (some proc)).2)) ∨
      (∃ pre r post pre1 sa sb e, u.watchedRows = pre ++ r :: post ∧
        Refreshed (rowOp osh.toOS proc) s1 pre pre1 sa ∧
        rowOp osh.toOS proc sa r = (Except.error e, sb)) ∨
      (∃ ws s2 spre set spost spre1 rpre r rpost rpre1 sa sb sc e,
        Refreshed (rowOp osh.toOS proc) s1 u.watchedRows ws s2 ∧
        u.sets = spre ++ set :: spost ∧ SetsRefreshed osh.toOS proc s2 spre spre1 sa ∧
        set.rows = rpre ++ r :: rpost ∧ Refreshed (readOp osh.toOS proc) sa rpre rpre1 sb ∧
        readOp osh.toOS proc sb r = (Except.error e, sc))) ∧
    (∀ (op : σ → ResultRow → Except UIErr NumericValue × σ) sa sb rows rows1,
      Refreshed op sa rows rows1 sb →
      rows1.map ResultRow.fixed = rows.map ResultRow.fixed) := by
  refine ⟨?_, ?_, ?_, fun op sa sb rows rows1 h => Refreshed_fixed op sa sb rows rows1 h⟩
  · intro pre r post pre1 sa sb e hrows hpre hop
    rw [applyPinnedWrites_opened osh s s1 u proc hpid (Or.inl (by rw [hrows]; simp)) hopen,
      hrows, tickWatched_fail osh.toOS proc s1 sa sb pre post pre1 r e hpre hop]
  · intro ws s2 spre set spost spre1 rpre r rpost rpre1 sa sb sc e hw hsets hspre hset hrpre hop
    have hany : u.sets.any (fun set => decide (set.rows.length > 0)) = true := by
      rw [List.any_eq_true]
      refine ⟨set, by rw [hsets]; simp, ?_⟩
      rw [hset]
      simp
    rw [applyPinnedWrites_opened osh s s1 u proc hpid (Or.inr hany) hopen,
      (tickWatched_ok_iff osh.toOS proc s1 s2 u.watchedRows ws).mpr hw]
    simp only
    rw [hsets, tickSets_fail osh.toOS proc s2 sa sb sc spre spost spre1 set rpre rpost rpre1 r e
      hspre hset hrpre hop]
  · intro hrows
    rcases hw : tickWatched osh.toOS proc s1 u.watchedRows with ⟨⟨ws, res⟩, s2⟩
    cases res with
    | some e0 =>
      obtain ⟨pre, r, post, pre1, sa, e, h1, h2, h3, _, _⟩ :=
        tickWatched_fail_inv osh.toOS proc s1 s2 u.watchedRows ws e0 hw
      exact Or.inr (Or.inl ⟨pre, r, post, pre1, sa, s2, e, h1, h2, h3⟩)
    | none =>
      have hwr := (tickWatched_ok_iff osh.toOS proc s1 s2 u.watchedRows ws).mp hw
      rcases hts : tickSets osh.toOS proc s2 u.sets with ⟨⟨sets1, res⟩, s3⟩
      cases res with
      | some e0 =>
        obtain ⟨spre, set, spost, spre1, rpre, r, rpost, rpre1, sa, sb, e, h1, h2, h3, h4, h5,
          _, _⟩ := tickSets_fail_inv osh.toOS proc s2 s3 u.sets sets1 e0 hts
        exact Or.inr (Or.inr ⟨ws, s2, spre, set, spost, spre1, rpre, r, rpost, rpre1, sa, sb,
          s3, e, hwr, h1, h2, h3, h4, h5⟩)
      | none =>
        refine Or.inl ⟨ws, sets1, s2, s3, hwr,
          (tickSets_ok_iff osh.toOS proc s2 s3 u.sets sets1).mp hts, ?_⟩
        rw [applyPinnedWrites_opened osh s s1 u proc hpid hrows hopen, hw]
        simp only [hts]

/-- C24 witness: the second of three watch rows cannot be read; the first row holds the
value read, the second and the third (pinned) are as they were, and so are the sets. -/
theorem tick_abort_and_order_witness :
    (applyPinnedWrites Machine.osh demoMachine failingUI).1
      = ({ failingUI with watchedRows :=
            [{ addr := 0x10000, dtype := "uint32", current := { u64 := 707406378 },
               desired := { u64 := 1 } },
             { addr := 0x20000, dtype := "uint32", current := { u64 := 5 } },
             { addr := 0x10008, dtype := "uint32", current := { u64 := 6 },
               desired := { u64 := 9 }, pinned := true }] },
          TickResult.readError (UIErr.proc (Err.os 299))) :=
  congrArg Prod.fst
    ((tick_abort_and_order Machine.osh demoMachine openedMachine failingUI openedProcess
      (by decide) rfl).1
      [{ addr := 0x10000, dtype := "uint32", desired := { u64 := 1 } }]
      { addr := 0x20000, dtype := "uint32", current := { u64 := 5 } }
      [{ addr := 0x10008, dtype := "uint32", current := { u64 := 6 },
         desired := { u64 := 9 }, pinned := true }]
      [{ addr := 0x10000, dtype := "uint32", current := { u64 := 707406378 },
         desired := { u64 := 1 } }]
      openedMachine openedMachine (UIErr.proc (Err.os 299)) rfl
      (Refreshed.cons openedMachine openedMachine openedMachine
        { addr := 0x10000, dtype := "uint32", desired := { u64 := 1 } }
        { u64 := 707406378 } [] [] rfl (Refreshed.nil openedMachine))
      rfl)

/-! ## Encoding and decoding of canonical data -/

/-- Decoding a pattern made of a sign bit and a body below it. -/
theorem floatDecode_signed (ebits mbits : Nat) (neg : Bool) (body : Nat)
    (hb : body < 2 ^ ebits * 2 ^ mbits) :
    floatDecode ebits mbits ((if neg = true then 2 ^ (ebits + mbits) else 0) + body) =
      (if body / 2 ^ mbits = 2 ^ ebits - 1 then
        (if body % 2 ^ mbits = 0 then FloatVal.inf neg else FloatVal.nan)
       else if body / 2 ^ mbits = 0 then FloatVal.fin neg (body % 2 ^ mbits)
       else FloatVal.fin neg ((2 ^ mbits + body % 2 ^ mbits) * 2 ^ (body / 2 ^ mbits - 1))) := by
  have hP : 0 < 2 ^ mbits := Nat.pow_pos (by norm_num)
  have hQ : 0 < 2 ^ ebits := Nat.pow_pos (by norm_num)
  have hpow : 2 ^ (ebits + mbits) = 2 ^ ebits * 2 ^ mbits := pow_add 2 ebits mbits
  have hdiv : body / 2 ^ mbits < 2 ^ ebits := Nat.div_lt_of_lt_mul (by rwa [Nat.mul_comm])
  have h1 : decide (((if neg = true then 2 ^ (ebits + mbits) else 0) + body)
      / 2 ^ (ebits + mbits) % 2 = 1) = neg := by
    cases neg with
    | false =>
      simp only [Bool.false_eq_true, if_false, Nat.zero_add]
      rw [Nat.div_eq_of_lt (by rwa [hpow])]
      rfl
    | true =>
      simp only [if_true]
      rw [Nat.add_div_left _ (by rw [hpow]; exact Nat.mul_pos hQ hP),
        Nat.div_eq_of_lt (by rwa [hpow])]
      rfl
  have h2 : ((if neg = true then 2 ^ (ebits + mbits) else 0) + body) / 2 ^ mbits % 2 ^ ebits
      = body / 2 ^ mbits := by
    cases neg with
    | false =>
      simp only [Bool.false_eq_true, if_false, Nat.zero_add]
      exact Nat.mod_eq_of_lt hdiv
    | true =>
      simp only [if_true]
      rw [hpow, Nat.mul_comm (2 ^ ebits), Nat.mul_add_div hP, Nat.add_mod_left]
      exact Nat.mod_eq_of_lt hdiv
  have h3 : ((if neg = true then 2 ^ (ebits + mbits) else 0) + body) % 2 ^ mbits
      = body % 2 ^ mbits := by
    cases neg with
    | false => simp only [Bool.false_eq_true, if_false, Nat.zero_add]
    | true =>
      simp only [if_true]
      rw [hpow, Nat.mul_comm (2 ^ ebits), Nat.mul_add_mod]
  unfold floatDecode
  simp only [h1, h2, h3]

/-- The logarithm of a full significand scaled by a power of two. -/
theorem log2_scaled (mbits q k : Nat) (h1 : 2 ^ mbits ≤ q) (h2 : q < 2 ^ (mbits + 1)) :
    Nat.log2 (q * 2 ^ k) = mbits + k := by
  have hk : 0 < 2 ^ k := Nat.pow_pos (by norm_num)
  have hq : 0 < q := Nat.lt_of_lt_of_le (Nat.pow_pos (by norm_num)) h1
  have hne : q * 2 ^ k ≠ 0 := Nat.mul_ne_zero (by omega) (by omega)
  apply Nat.le_antisymm
  · have : Nat.log2 (q * 2 ^ k) < mbits + k + 1 := by
      rw [Nat.log2_lt hne]
      calc q * 2 ^ k < 2 ^ (mbits + 1) * 2 ^ k := Nat.mul_lt_mul_of_pos_right h2 hk
        _ = 2 ^ (mbits + k + 1) := by rw [← pow_add]; congr 1; omega
    omega
  · rw [Nat.le_log2 hne, pow_add]
    exact Nat.mul_le_mul_right _ h1

/-- Encoding, then decoding, gives a representable finite datum back. -/
theorem decode_encode_fin (ebits mbits : Nat) (he : 2 ≤ ebits) (neg : Bool) (n : Nat)
    (hr : representable ebits mbits n) :
    floatDecode ebits mbits (floatEncode ebits mbits (FloatVal.fin neg n))
      = FloatVal.fin neg n := by
  have hP : 0 < 2 ^ mbits := Nat.pow_pos (by norm_num)
  have hQ4 : 4 ≤ 2 ^ ebits := by
    calc 4 = 2 ^ 2 := rfl
      _ ≤ 2 ^ ebits := Nat.pow_le_pow_right (by norm_num) he
  simp only [floatEncode]
  rcases hr with hsub | ⟨q, k, hn, hq1, hq2, hk⟩
  · rw [if_pos hsub, floatDecode_signed ebits mbits neg n
      (Nat.lt_of_lt_of_le hsub (Nat.le_mul_of_pos_left _ (by omega)))]
    rw [Nat.div_eq_of_lt hsub, Nat.mod_eq_of_lt hsub, if_neg (by omega), if_pos rfl]
  · have hk0 : 0 < 2 ^ k := Nat.pow_pos (by norm_num)
    have hge : ¬ n < 2 ^ mbits := by
      rw [hn]
      have : 2 ^ mbits * 1 ≤ q * 2 ^ k := Nat.mul_le_mul hq1 hk0
      omega
    have hlog : Nat.log2 n = mbits + k := by rw [hn, log2_scaled mbits q k hq1 hq2]
    have hsh : Nat.log2 n - mbits = k := by omega
    have hdivq : n / 2 ^ k = q := by rw [hn, Nat.mul_div_cancel _ hk0]
    rw [if_neg hge, hsh, hdivq]
    have hq2' : q < 2 * 2 ^ mbits := by rw [pow_succ] at hq2; omega
    have hbody : (k + 1) * 2 ^ mbits + (q - 2 ^ mbits) < 2 ^ ebits * 2 ^ mbits := by
      calc (k + 1) * 2 ^ mbits + (q - 2 ^ mbits) < (k + 1) * 2 ^ mbits + 2 ^ mbits := by omega
        _ = (k + 2) * 2 ^ mbits := by ring
        _ ≤ 2 ^ ebits * 2 ^ mbits := Nat.mul_le_mul_right _ (by omega)
    rw [floatDecode_signed ebits mbits neg _ hbody]
    have hd : ((k + 1) * 2 ^ mbits + (q - 2 ^ mbits)) / 2 ^ mbits = k + 1 := by
      rw [Nat.mul_comm, Nat.mul_add_div hP, Nat.div_eq_of_lt (by omega)]
    have hm : ((k + 1) * 2 ^ mbits + (q - 2 ^ mbits)) % 2 ^ mbits = q - 2 ^ mbits := by
      rw [Nat.mul_comm, Nat.mul_add_mod, Nat.mod_eq_of_lt (by omega)]
    rw [hd, hm, if_neg (by omega), if_neg (by omega)]
    congr 1
    rw [hn]
    congr 1
    omega

/-- Encoding, then decoding, gives an infinity or the quiet NaN back. -/
theorem decode_encode_special (ebits mbits : Nat) (he : 2 ≤ ebits) (hm : 1 ≤ mbits)
    (neg : Bool) :
    floatDecode ebits mbits (floatEncode ebits mbits (FloatVal.inf neg)) = FloatVal.inf neg ∧
    floatDecode ebits mbits (floatEncode ebits mbits FloatVal.nan) = FloatVal.nan := by
  have hP : 0 < 2 ^ mbits := Nat.pow_pos (by norm_num)
  have hQ4 : 4 ≤ 2 ^ ebits := by
    calc 4 = 2 ^ 2 := rfl
      _ ≤ 2 ^ ebits := Nat.pow_le_pow_right (by norm_num) he
  have hhalf : 2 ^ (mbits - 1) < 2 ^ mbits := Nat.pow_lt_pow_right (by norm_num) (by omega)
  have hhalf0 : 0 < 2 ^ (mbits - 1) := Nat.pow_pos (by norm_num)
  constructor
  · simp only [floatEncode]
    have hbody : (2 ^ ebits - 1) * 2 ^ mbits < 2 ^ ebits * 2 ^ mbits :=
      Nat.mul_lt_mul_of_pos_right (by omega) hP
    rw [floatDecode_signed ebits mbits neg _ hbody]
    rw [Nat.mul_div_cancel _ hP, Nat.mul_mod_left, if_pos rfl, if_pos rfl]
  · simp only [floatEncode]
    have hbody : (2 ^ ebits - 1) * 2 ^ mbits + 2 ^ (mbits - 1) < 2 ^ ebits * 2 ^ mbits := by
      calc (2 ^ ebits - 1) * 2 ^ mbits + 2 ^ (mbits - 1)
          < (2 ^ ebits - 1) * 2 ^ mbits + 2 ^ mbits := by omega
        _ = (2 ^ ebits - 1 + 1) * 2 ^ mbits := by ring
        _ = 2 ^ ebits * 2 ^ mbits := by congr 1; omega
    have := floatDecode_signed ebits mbits false _ hbody
    simp only [Bool.false_eq_true, if_false, Nat.zero_add] at this
    rw [this]
    have hd : ((2 ^ ebits - 1) * 2 ^ mbits + 2 ^ (mbits - 1)) / 2 ^ mbits = 2 ^ ebits - 1 := by
      rw [Nat.mul_comm, Nat.mul_add_div hP, Nat.div_eq_of_lt hhalf]
      rfl
    have hmod : ((2 ^ ebits - 1) * 2 ^ mbits + 2 ^ (mbits - 1)) % 2 ^ mbits
        = 2 ^ (mbits - 1) := by
      rw [Nat.mul_comm, Nat.mul_add_mod, Nat.mod_eq_of_lt hhalf]
    rw [hd, hmod, if_pos rfl, if_neg (by omega)]

/-- Encoding, then decoding, gives a canonical datum back but for the payload of a NaN. -/
theorem floatDecode_floatEncode (ebits mbits : Nat) (he : 2 ≤ ebits) (hm : 1 ≤ mbits) (x : FloatVal)
    (hx : x.canonical ebits mbits) :
    floatDecode ebits mbits (floatEncode ebits mbits x) = x := by
  cases x with
  | nan => exact (decode_encode_special ebits mbits he hm false).2
  | inf neg => exact (decode_encode_special ebits mbits he hm neg).1
  | fin neg n => exact decode_encode_fin ebits mbits he neg n hx

/-- What `floatRound` yields is a datum of the format. -/
theorem floatRound_canonical (ebits mbits : Nat) (he : 2 ≤ ebits) (neg : Bool) (n : Nat) :
    (floatRound ebits mbits neg n).canonical ebits mbits := by
  have hQ4 : 4 ≤ 2 ^ ebits := by
    calc 4 = 2 ^ 2 := rfl
      _ ≤ 2 ^ ebits := Nat.pow_le_pow_right (by norm_num) he
  have hPP : 2 ^ mbits < 2 ^ (mbits + 1) := Nat.pow_lt_pow_right (by norm_num) (by omega)
  unfold floatRound
  split
  · rename_i hlt
    by_cases hsub : n < 2 ^ mbits
    · exact Or.inl hsub
    · exact Or.inr ⟨n, 0, by simp, by omega, hlt, by omega⟩
  · rename_i hge
    simp only []
    have hn0 : n ≠ 0 := by
      intro h
      rw [h] at hge
      exact hge (Nat.pow_pos (by norm_num))
    have hL : mbits + 1 ≤ Nat.log2 n := by
      rw [Nat.le_log2 hn0]
      omega
    obtain ⟨sh, hsh⟩ : ∃ sh, Nat.log2 n = mbits + sh := ⟨Nat.log2 n - mbits, by omega⟩
    have hshv : Nat.log2 n - mbits = sh := by omega
    rw [hshv]
    have hlow : 2 ^ mbits * 2 ^ sh ≤ n := by
      rw [← pow_add, ← hsh]
      exact Nat.log2_self_le hn0
    have hhigh : n < 2 ^ (mbits + 1) * 2 ^ sh := by
      have := @Nat.lt_log2_self n
      rw [hsh] at this
      rw [← pow_add]
      have e : mbits + 1 + sh = mbits + sh + 1 := by omega
      rw [e]
      exact this
    have hs0 : 0 < 2 ^ sh := Nat.pow_pos (by norm_num)
    have hq1 : 2 ^ mbits ≤ n / 2 ^ sh := (Nat.le_div_iff_mul_le hs0).mpr hlow
    have hq2 : n / 2 ^ sh < 2 ^ (mbits + 1) := (Nat.div_lt_iff_lt_mul hs0).mpr hhigh
    generalize hq : n / 2 ^ sh = q at hq1 hq2
    have hq1v : ∀ q1 : Nat, (q1 = q ∨ q1 = q + 1) →
        (if 2 ^ (mbits + 1) * 2 ^ (2 ^ ebits - 3) ≤ q1 * 2 ^ sh then FloatVal.inf neg
          else FloatVal.fin neg (q1 * 2 ^ sh)).canonical ebits mbits := by
      intro q1 hq1c
      split
      · trivial
      · rename_i hov
        have hov' : q1 * 2 ^ sh < 2 ^ (mbits + 1) * 2 ^ (2 ^ ebits - 3) := by omega
        by_cases hfull : q1 < 2 ^ (mbits + 1)
        · refine Or.inr ⟨q1, sh, rfl, by omega, hfull, ?_⟩
          have h1 : 2 ^ (mbits + sh) < 2 ^ (mbits + 1 + (2 ^ ebits - 3)) := by
            rw [pow_add, pow_add (2) (mbits + 1)]
            exact Nat.lt_of_le_of_lt (Nat.mul_le_mul_right _ (by omega)) hov'
          have := (Nat.pow_lt_pow_iff_right (by norm_num : 1 < 2)).mp h1
          omega
        · have hq1e : q1 = 2 ^ (mbits + 1) := by omega
          refine Or.inr ⟨2 ^ mbits, sh + 1, ?_, le_refl _, hPP, ?_⟩
          · rw [hq1e, pow_succ, pow_succ]
            ring
          · have h1 : 2 ^ (mbits + 1 + sh) < 2 ^ (mbits + 1 + (2 ^ ebits - 3)) := by
              rw [pow_add, pow_add (2) (mbits + 1)]
              rw [hq1e] at hov'
              exact hov'
            have := (Nat.pow_lt_pow_iff_right (by norm_num : 1 < 2)).mp h1
            omega
    by_cases hcc : 2 ^ (sh - 1) < n % 2 ^ sh ∨ n % 2 ^ sh = 2 ^ (sh - 1) ∧ q % 2 = 1
    · simp only [if_pos hcc]
      exact hq1v _ (Or.inr rfl)
    · simp only [if_neg hcc]
      exact hq1v _ (Or.inl rfl)

/-- The difference of two data is a datum of the format. -/
theorem sub_canonical (ebits mbits : Nat) (he : 2 ≤ ebits) (x y : FloatVal) :
    (FloatVal.sub ebits mbits x y).canonical ebits mbits := by
  cases x with
  | nan => cases y <;> exact True.intro
  | inf s =>
    cases y with
    | nan => exact True.intro
    | inf t =>
      simp only [FloatVal.sub]
      split <;> exact True.intro
    | fin t m => exact True.intro
  | fin s n =>
    cases y with
    | nan => exact True.intro
    | inf t => exact True.intro
    | fin t m =>
      simp only [FloatVal.sub]
      split
      · exact Or.inl (Nat.pow_pos (by norm_num))
      · exact floatRound_canonical ebits mbits he _ _

/-- The sign given to `floatRound` only tags its result. -/
theorem floatRound_abs (ebits mbits : Nat) (neg : Bool) (n : Nat) :
    (floatRound ebits mbits neg n).abs = floatRound ebits mbits false n := by
  unfold floatRound
  by_cases h1 : n < 2 ^ (mbits + 1)
  · simp only [if_pos h1, FloatVal.abs]
  · simp only [if_neg h1]
    split <;> split <;> rfl

/-- A comparison does not tell the two zeros apart, nor does it see more of a finite datum
than its signed number of units. -/
theorem le_congr_units (a b : Bool) (n m : Nat) (h : signedUnits a n = signedUnits b m)
    (e : FloatVal) :
    FloatVal.le (FloatVal.fin a n) e = FloatVal.le (FloatVal.fin b m) e := by
  cases e with
  | nan => rfl
  | inf t => rfl
  | fin t k => simp only [FloatVal.le, h]

/-! ## The absolute value of the two float types -/

/-- Go `-a` on `float32` flips the sign of the decoded datum. -/
theorem floatDecode_f32Neg (a : Nat) :
    floatDecode 8 23 (f32Neg a) = (floatDecode 8 23 a).neg := by
  have h1 : decide (f32Neg a / 2 ^ (8 + 23) % 2 = 1) = !decide (a / 2 ^ (8 + 23) % 2 = 1) := by
    have : (f32Neg a / 2 ^ (8 + 23) % 2 = 1) ↔ ¬ (a / 2 ^ (8 + 23) % 2 = 1) := by
      unfold f32Neg
      split <;> omega
    by_cases h : a / 2 ^ (8 + 23) % 2 = 1
    · rw [decide_eq_true h, decide_eq_false (fun h2 => (this.mp h2) h)]
      rfl
    · rw [decide_eq_false h, decide_eq_true (this.mpr h)]
      rfl
  have h2 : f32Neg a / 2 ^ 23 % 2 ^ 8 = a / 2 ^ 23 % 2 ^ 8 := by
    unfold f32Neg
    split <;> omega
  have h3 : f32Neg a % 2 ^ 23 = a % 2 ^ 23 := by
    unfold f32Neg
    split <;> omega
  unfold floatDecode
  simp only [h1, h2, h3]
  split
  · split <;> rfl
  · split <;> rfl

/-- The pattern `0` of `float32` is the positive zero. -/
theorem floatDecode_zero32 : floatDecode 8 23 0 = FloatVal.fin false 0 := by
  simp [floatDecode]

/-- Under a comparison, `float32Abs` is the absolute value: it leaves a negative zero as it
is, which compares as the positive one does. -/
theorem le_float32Abs (a : Nat) (e : FloatVal) :
    FloatVal.le (floatDecode 8 23 (float32Abs a)) e = FloatVal.le (floatDecode 8 23 a).abs e := by
  unfold float32Abs f32Lt
  rw [floatDecode_zero32]
  cases hx : floatDecode 8 23 a with
  | nan => simp only [FloatVal.lt, Bool.false_eq_true, if_false, hx, FloatVal.abs]
  | inf s =>
    cases s with
    | false => simp only [FloatVal.lt, Bool.false_eq_true, if_false, hx, FloatVal.abs]
    | true =>
      simp only [FloatVal.lt, if_true, floatDecode_f32Neg, hx, FloatVal.neg, FloatVal.abs,
        Bool.not_true]
  | fin s n =>
    by_cases hneg : signedUnits s n < signedUnits false 0
    · have hs : s = true := by
        cases s with
        | false =>
          exfalso
          simp only [signedUnits, Bool.false_eq_true, if_false] at hneg
          omega
        | true => rfl
      subst hs
      simp only [FloatVal.lt, decide_eq_true hneg, if_true, floatDecode_f32Neg, hx,
        FloatVal.neg, FloatVal.abs, Bool.not_true]
    · simp only [FloatVal.lt, decide_eq_false hneg, Bool.false_eq_true, if_false, hx,
        FloatVal.abs]
      apply le_congr_units
      cases s with
      | false => rfl
      | true =>
        simp only [signedUnits, if_true, Bool.false_eq_true, if_false] at hneg ⊢
        omega

/-- Library `math.Abs` clears the sign of the decoded datum. -/
theorem floatDecode_mathAbs (a : Nat) :
    floatDecode 11 52 (mathAbs a) = (floatDecode 11 52 a).abs := by
  have h1 : decide (mathAbs a / 2 ^ (11 + 52) % 2 = 1) = false := by
    apply decide_eq_false
    unfold mathAbs
    omega
  have h2 : mathAbs a / 2 ^ 52 % 2 ^ 11 = a / 2 ^ 52 % 2 ^ 11 := by
    unfold mathAbs
    omega
  have h3 : mathAbs a % 2 ^ 52 = a % 2 ^ 52 := by
    unfold mathAbs
    omega
  unfold floatDecode
  simp only [h1, h2, h3]
  split
  · split <;> rfl
  · split <;> rfl

/-- The rounded predicate compares the absolute value of the float difference. -/
theorem approxRounded_eq (ebits mbits v t eps : Nat) :
    approxRounded ebits mbits v t eps =
      FloatVal.le (FloatVal.sub ebits mbits (floatDecode ebits mbits v)
        (floatDecode ebits mbits t)).abs (floatDecode ebits mbits eps) := by
  unfold approxRounded
  generalize floatDecode ebits mbits eps = e
  cases floatDecode ebits mbits v with
  | nan => cases floatDecode ebits mbits t <;> cases e <;> rfl
  | inf a =>
    cases floatDecode ebits mbits t with
    | nan => cases e <;> rfl
    | inf b =>
      simp only [FloatVal.sub]
      split
      · cases e <;> rfl
      · rfl
    | fin b m => rfl
  | fin a n =>
    cases floatDecode ebits mbits t with
    | nan => cases e <;> rfl
    | inf b => rfl
    | fin b m =>
      simp only [FloatVal.sub]
      split
      · rename_i h
        rw [h]
        simp only [Int.natAbs_zero, FloatVal.abs]
        rw [show floatRound ebits mbits false 0 = FloatVal.fin false 0 from by
          unfold floatRound
          rw [if_pos (Nat.pow_pos (by norm_num))]]
      · rw [floatRound_abs]

/-- The predicate of `ScanFloat32Approx` is the rounded predicate of `float32`. -/
theorem scanPred32_rounded (v t eps : Nat) :
    f32Le (float32Abs (f32Sub v t)) eps = approxRounded 8 23 v t eps := by
  rw [approxRounded_eq]
  unfold f32Le f32Sub
  rw [le_float32Abs, floatDecode_floatEncode 8 23 (by norm_num) (by norm_num) _
    (sub_canonical 8 23 (by norm_num) _ _)]

/-- The predicate of `ScanFloat64Approx` is the rounded predicate of `float64`. -/
theorem scanPred64_rounded (v t eps : Nat) :
    f64Le (mathAbs (f64Sub v t)) eps = approxRounded 11 52 v t eps := by
  rw [approxRounded_eq]
  unfold f64Le f64Sub
  rw [floatDecode_mathAbs, floatDecode_floatEncode 11 52 (by norm_num) (by norm_num) _
    (sub_canonical 11 52 (by norm_num) _ _)]

/-! ## Values of concrete patterns -/

/-- Decoding a positive normal pattern with exponent field `e` and fraction `m`. -/
theorem floatDecode_normal (ebits mbits e m : Nat) (he1 : 0 < e) (he2 : e + 1 < 2 ^ ebits)
    (hm : m < 2 ^ mbits) :
    floatDecode ebits mbits (e * 2 ^ mbits + m)
      = FloatVal.fin false ((2 ^ mbits + m) * 2 ^ (e - 1)) := by
  have hP : 0 < 2 ^ mbits := Nat.pow_pos (by norm_num)
  have hbody : e * 2 ^ mbits + m < 2 ^ ebits * 2 ^ mbits := by
    calc e * 2 ^ mbits + m < e * 2 ^ mbits + 2 ^ mbits := by omega
      _ = (e + 1) * 2 ^ mbits := by ring
      _ ≤ 2 ^ ebits * 2 ^ mbits := Nat.mul_le_mul_right _ (by omega)
  have h := floatDecode_signed ebits mbits false _ hbody
  simp only [Bool.false_eq_true, if_false, Nat.zero_add] at h
  rw [h]
  have hd : (e * 2 ^ mbits + m) / 2 ^ mbits = e := by
    rw [Nat.mul_comm, Nat.mul_add_div hP, Nat.div_eq_of_lt hm]
    rfl
  have hmod : (e * 2 ^ mbits + m) % 2 ^ mbits = m := by
    rw [Nat.mul_comm, Nat.mul_add_mod, Nat.mod_eq_of_lt hm]
  rw [hd, hmod, if_neg (by omega), if_neg (by omega)]

/-- Rounding a number that lies less than half a step above a number of the format gives
that number. -/
theorem floatRound_down (ebits mbits : Nat) (neg : Bool) (q k r : Nat)
    (hq1 : 2 ^ mbits ≤ q) (hq2 : q < 2 ^ (mbits + 1)) (hk : 1 ≤ k) (hr : r < 2 ^ (k - 1))
    (hov : k + 3 ≤ 2 ^ ebits) :
    floatRound ebits mbits neg (q * 2 ^ k + r) = FloatVal.fin neg (q * 2 ^ k) := by
  have hk0 : 0 < 2 ^ k := Nat.pow_pos (by norm_num)
  have hhalf : 2 ^ (k - 1) < 2 ^ k := Nat.pow_lt_pow_right (by norm_num) (by omega)
  have hrk : r < 2 ^ k := by omega
  have h2k : 2 ≤ 2 ^ k := by
    calc 2 = 2 ^ 1 := rfl
      _ ≤ 2 ^ k := Nat.pow_le_pow_right (by norm_num) hk
  have hlow : 2 ^ mbits * 2 ^ k ≤ q * 2 ^ k + r :=
    Nat.le_trans (Nat.mul_le_mul_right _ hq1) (Nat.le_add_right _ _)
  have hhigh : q * 2 ^ k + r < 2 ^ (mbits + 1) * 2 ^ k := by
    calc q * 2 ^ k + r < q * 2 ^ k + 2 ^ k := by omega
      _ = (q + 1) * 2 ^ k := by ring
      _ ≤ 2 ^ (mbits + 1) * 2 ^ k := Nat.mul_le_mul_right _ (by omega)
  have hbig : ¬ q * 2 ^ k + r < 2 ^ (mbits + 1) := by
    have : 2 ^ mbits * 2 ≤ 2 ^ mbits * 2 ^ k := Nat.mul_le_mul_left _ h2k
    rw [pow_succ]
    omega
  have hne : q * 2 ^ k + r ≠ 0 := by
    have : 0 < 2 ^ mbits * 2 ^ k := Nat.mul_pos (Nat.pow_pos (by norm_num)) hk0
    omega
  have hlog : Nat.log2 (q * 2 ^ k + r) = mbits + k := by
    apply Nat.le_antisymm
    · have : Nat.log2 (q * 2 ^ k + r) < mbits + k + 1 := by
        rw [Nat.log2_lt hne]
        have e : mbits + k + 1 = mbits + 1 + k := by omega
        rw [e, pow_add]
        exact hhigh
      omega
    · rw [Nat.le_log2 hne, pow_add]
      exact hlow
  have hsh : Nat.log2 (q * 2 ^ k + r) - mbits = k := by omega
  have hdiv : (q * 2 ^ k + r) / 2 ^ k = q := by
    rw [Nat.mul_comm, Nat.mul_add_div hk0, Nat.div_eq_of_lt hrk]
    rfl
  have hmod : (q * 2 ^ k + r) % 2 ^ k = r := by
    rw [Nat.mul_comm, Nat.mul_add_mod, Nat.mod_eq_of_lt hrk]
  have hnov : ¬ 2 ^ (mbits + 1) * 2 ^ (2 ^ ebits - 3) ≤ q * 2 ^ k := by
    have h1 : q * 2 ^ k < 2 ^ (mbits + 1) * 2 ^ k := Nat.mul_lt_mul_of_pos_right hq2 hk0
    have h2 : 2 ^ (mbits + 1) * 2 ^ k ≤ 2 ^ (mbits + 1) * 2 ^ (2 ^ ebits - 3) :=
      Nat.mul_le_mul_left _ (Nat.pow_le_pow_right (by norm_num) (by omega))
    omega
  unfold floatRound
  rw [if_neg hbig]
  have hc : ¬ (2 ^ (k - 1) < r ∨ r = 2 ^ (k - 1) ∧ q % 2 = 1) := by omega
  simp only [hsh, hdiv, hmod, if_neg hc]
  rw [if_neg hnov]

/-- Rounding a number of the format gives that number. -/
theorem floatRound_representable (ebits mbits : Nat) (neg : Bool) (n : Nat)
    (hr : representable ebits mbits n) :
    floatRound ebits mbits neg n = FloatVal.fin neg n := by
  have hPP : 2 ^ mbits < 2 ^ (mbits + 1) := Nat.pow_lt_pow_right (by norm_num) (by omega)
  rcases hr with hsub | ⟨q, k, hn, hq1, hq2, hk⟩
  · unfold floatRound
    rw [if_pos (by omega)]
  · rcases Nat.eq_zero_or_pos k with hk0 | hkpos
    · subst hk0
      unfold floatRound
      rw [if_pos (by rw [hn]; simpa using hq2)]
    · have h := floatRound_down ebits mbits neg q k 0 hq1 hq2 hkpos
        (Nat.pow_pos (by norm_num)) (by omega)
      rw [Nat.add_zero] at h
      rw [hn]
      exact h

/-- What a pattern decodes to is a datum of the format. -/
theorem floatDecode_canonical (ebits mbits a : Nat) :
    (floatDecode ebits mbits a).canonical ebits mbits := by
  have hP : 0 < 2 ^ mbits := Nat.pow_pos (by norm_num)
  have hQ : 0 < 2 ^ ebits := Nat.pow_pos (by norm_num)
  have hm : a % 2 ^ mbits < 2 ^ mbits := Nat.mod_lt _ hP
  have he : a / 2 ^ mbits % 2 ^ ebits < 2 ^ ebits := Nat.mod_lt _ hQ
  unfold floatDecode
  simp only []
  split
  · split <;> exact True.intro
  · split
    · exact Or.inl hm
    · refine Or.inr ⟨2 ^ mbits + a % 2 ^ mbits, a / 2 ^ mbits % 2 ^ ebits - 1, rfl, by omega,
        ?_, by omega⟩
      rw [pow_succ]
      omega

/-! ## The float match predicate -/

/-- The epsilon of the float32 scan, in units of the smallest subnormal. -/
theorem floatDecode_eps32 : floatDecode 8 23 eps32 = FloatVal.fin false (0xD1B717 * 2 ^ 112) := by
  have h := floatDecode_normal 8 23 113 0x51B717 (by norm_num) (by norm_num) (by norm_num)
  have e : eps32 = 113 * 2 ^ 23 + 0x51B717 := by norm_num [eps32]
  rw [e, h]
  rfl

/-- The epsilon of the float64 scan, in units of the smallest subnormal. -/
theorem floatDecode_eps64 :
    floatDecode 11 52 eps64 = FloatVal.fin false (0x10C6F7A0B5ED8D * 2 ^ 1002) := by
  have h := floatDecode_normal 11 52 (1002 + 1) 0xC6F7A0B5ED8D (by norm_num) (by norm_num)
    (by norm_num)
  have e : eps64 = (1002 + 1) * 2 ^ 52 + 0xC6F7A0B5ED8D := by norm_num [eps64]
  rw [Nat.add_sub_cancel, show 2 ^ 52 + 0xC6F7A0B5ED8D = 0x10C6F7A0B5ED8D from by norm_num] at h
  rw [e, h]

/-- The rounded predicate on two finite values. -/
theorem approxRounded_fin (ebits mbits v t eps : Nat) (a b : Bool) (n m : Nat)
    (hv : floatDecode ebits mbits v = FloatVal.fin a n)
    (ht : floatDecode ebits mbits t = FloatVal.fin b m) :
    approxRounded ebits mbits v t eps =
      FloatVal.le (floatRound ebits mbits false (signedUnits a n - signedUnits b m).natAbs)
        (floatDecode ebits mbits eps) := by
  unfold approxRounded
  rw [hv, ht]

/-- The rounded predicate on two finite values whose exact difference is a
number of the format, against a positive finite epsilon of `k` units. -/
theorem approxRounded_exact (ebits mbits v t eps : Nat) (a b : Bool) (n m k : Nat)
    (hv : floatDecode ebits mbits v = FloatVal.fin a n)
    (ht : floatDecode ebits mbits t = FloatVal.fin b m)
    (he : floatDecode ebits mbits eps = FloatVal.fin false k)
    (hr : representable ebits mbits (signedUnits a n - signedUnits b m).natAbs) :
    approxRounded ebits mbits v t eps
      = decide ((signedUnits a n - signedUnits b m).natAbs ≤ k) := by
  rw [approxRounded_fin ebits mbits v t eps a b n m hv ht, floatRound_representable _ _ _ _ hr, he]
  simp only [FloatVal.le, signedUnits, Bool.false_eq_true, if_false, Nat.cast_le]

/-- The two zeros of `float32`. -/
theorem floatDecode_zeros32 (v : Nat) (hv : v = 0 ∨ v = 2 ^ 31) :
    ∃ a, floatDecode 8 23 v = FloatVal.fin a 0 := by
  rcases hv with h | h
  · exact ⟨false, by rw [h]; simp [floatDecode]⟩
  · exact ⟨true, by rw [h]; simp [floatDecode]⟩

/-- The two zeros of `float64`. -/
theorem floatDecode_zeros64 (v : Nat) (hv : v = 0 ∨ v = 2 ^ 63) :
    ∃ a, floatDecode 11 52 v = FloatVal.fin a 0 := by
  rcases hv with h | h
  · exact ⟨false, by rw [h]; simp [floatDecode]⟩
  · exact ⟨true, by rw [h]; simp [floatDecode]⟩

/-- Two zeros are within every positive finite epsilon of each other. -/
theorem approxRounded_zeros (ebits mbits v t eps : Nat) (a b : Bool) (k : Nat)
    (hv : floatDecode ebits mbits v = FloatVal.fin a 0)
    (ht : floatDecode ebits mbits t = FloatVal.fin b 0)
    (he : floatDecode ebits mbits eps = FloatVal.fin false k) :
    approxRounded ebits mbits v t eps = true := by
  have hr : representable ebits mbits (signedUnits a 0 - signedUnits b 0).natAbs := by
    left
    cases a <;> cases b <;> simp [signedUnits]
  rw [approxRounded_exact ebits mbits v t eps a b 0 0 k hv ht he hr]
  cases a <;> cases b <;> simp [signedUnits]

/-- A NaN on either side fails the rounded predicate. -/
theorem approxRounded_nan (ebits mbits v t eps : Nat)
    (h : floatDecode ebits mbits v = FloatVal.nan ∨ floatDecode ebits mbits t = FloatVal.nan) :
    approxRounded ebits mbits v t eps = false := by
  unfold approxRounded
  rcases h with h | h
  · rw [h]
    cases floatDecode ebits mbits t <;> rfl
  · rw [h]
    cases floatDecode ebits mbits v <;> rfl

/-! ## Refine against scan on `float32` -/

/-- Encoding a positive normal number with significand `q` and exponent `k`. -/
theorem floatEncode_normal (ebits mbits q k : Nat) (hq1 : 2 ^ mbits ≤ q)
    (hq2 : q < 2 ^ (mbits + 1)) :
    floatEncode ebits mbits (FloatVal.fin false (q * 2 ^ k))
      = (k + 1) * 2 ^ mbits + (q - 2 ^ mbits) := by
  have hk0 : 0 < 2 ^ k := Nat.pow_pos (by norm_num)
  have hge : ¬ q * 2 ^ k < 2 ^ mbits := by
    have : 2 ^ mbits * 1 ≤ q * 2 ^ k := Nat.mul_le_mul hq1 hk0
    omega
  have hsh : Nat.log2 (q * 2 ^ k) - mbits = k := by
    rw [log2_scaled mbits q k hq1 hq2]
    omega
  simp only [floatEncode, Bool.false_eq_true, if_false, Nat.zero_add, if_neg hge, hsh,
    Nat.mul_div_cancel _ hk0]

/-- Narrowing a number that the narrow format holds: `q * 2 ^ j` narrow units, given as
`q * 2 ^ (j + k)` units of the wide format, where one narrow unit is `2 ^ k` wide ones. -/
theorem floatRoundScaled_exact (ebits mbits : Nat) (neg : Bool) (q j k : Nat)
    (hq1 : 2 ^ mbits ≤ q) (hq2 : q < 2 ^ (mbits + 1)) (hj : j + 3 ≤ 2 ^ ebits) :
    floatRoundScaled ebits mbits neg (q * 2 ^ (j + k)) k = FloatVal.fin neg (q * 2 ^ j) := by
  have hs0 : 0 < 2 ^ (j + k) := Nat.pow_pos (by norm_num)
  have hj0 : 0 < 2 ^ j := Nat.pow_pos (by norm_num)
  have hsh : max k (Nat.log2 (q * 2 ^ (j + k)) - mbits) = j + k := by
    rw [log2_scaled mbits q (j + k) hq1 hq2]
    omega
  have hhalf : 0 < 2 ^ (j + k - 1) := Nat.pow_pos (by norm_num)
  have hc : ¬ (2 ^ (j + k - 1) < 0 ∨ 0 = 2 ^ (j + k - 1) ∧ q % 2 = 1) := by omega
  have hnov : ¬ 2 ^ (mbits + 1) * 2 ^ (2 ^ ebits - 3) ≤ q * 2 ^ j := by
    have h1 : q * 2 ^ j < 2 ^ (mbits + 1) * 2 ^ j := Nat.mul_lt_mul_of_pos_right hq2 hj0
    have h2 : 2 ^ (mbits + 1) * 2 ^ j ≤ 2 ^ (mbits + 1) * 2 ^ (2 ^ ebits - 3) :=
      Nat.mul_le_mul_left _ (Nat.pow_le_pow_right (by norm_num) (by omega))
    omega
  unfold floatRoundScaled
  simp only [hsh, Nat.mul_div_cancel _ hs0, Nat.mul_mod_left, if_neg hc, Nat.add_sub_cancel]
  rw [if_neg hnov]

/-- Regrouping the powers of two of a scaled number. -/
theorem scale_eq (c a b j k : Nat) (h : a + b = j + k) :
    c * 2 ^ a * 2 ^ b = (c * 2 ^ j) * 2 ^ k := by
  rw [Nat.mul_assoc, ← pow_add, h, pow_add, Nat.mul_assoc]

/-- The value `1.0000000475e-4` of `float32`, the successor of the epsilon. -/
theorem floatDecode_value32 :
    floatDecode 8 23 0x38D1B718 = FloatVal.fin false (0xD1B718 * 2 ^ 112) := by
  have h := floatDecode_normal 8 23 (112 + 1) 0x51B718 (by norm_num) (by norm_num)
    (by norm_num)
  rw [Nat.add_sub_cancel, show 2 ^ 23 + 0x51B718 = 0xD1B718 from by norm_num] at h
  rw [show (0x38D1B718 : Nat) = (112 + 1) * 2 ^ 23 + 0x51B718 from by norm_num, h]

/-- The target `17 * 2 ^ -42` of `float32`. -/
theorem floatDecode_target32 :
    floatDecode 8 23 0x2C880000 = FloatVal.fin false (0x880000 * 2 ^ 88) := by
  have h := floatDecode_normal 8 23 (88 + 1) 0x080000 (by norm_num) (by norm_num)
    (by norm_num)
  rw [Nat.add_sub_cancel, show 2 ^ 23 + 0x080000 = 0x880000 from by norm_num] at h
  rw [show (0x2C880000 : Nat) = (88 + 1) * 2 ^ 23 + 0x080000 from by norm_num, h]

/-- The constant `1e-4` of `float64`, in units of the smallest subnormal. -/
theorem floatDecode_eps32as64 :
    floatDecode 11 52 eps32as64 = FloatVal.fin false (0x1A36E2EB1C432D * 2 ^ 1008) := by
  have h := floatDecode_normal 11 52 (1008 + 1) 0xA36E2EB1C432D (by norm_num) (by norm_num)
    (by norm_num)
  rw [Nat.add_sub_cancel,
    show 2 ^ 52 + 0xA36E2EB1C432D = 0x1A36E2EB1C432D from by norm_num] at h
  have e : eps32as64 = (1008 + 1) * 2 ^ 52 + 0xA36E2EB1C432D := by norm_num [eps32as64]
  rw [e, h]

/-- Widening a finite `float32` whose widened value is given as a number of `float64`. -/
theorem floatDecode_f32to64 (a : Nat) (neg : Bool) (n : Nat)
    (ha : floatDecode 8 23 a = FloatVal.fin neg n) (hr : representable 11 52 (n * 2 ^ 925)) :
    floatDecode 11 52 (f32to64 a) = FloatVal.fin neg (n * 2 ^ 925) := by
  unfold f32to64
  rw [ha]
  exact floatDecode_floatEncode 11 52 (by norm_num) (by norm_num) _ hr

/-- The widened value. -/
theorem floatDecode_value64 :
    floatDecode 11 52 (f32to64 0x38D1B718)
      = FloatVal.fin false (0xD1B718 * 2 ^ 112 * 2 ^ 925) :=
  floatDecode_f32to64 _ _ _ floatDecode_value32
    (Or.inr ⟨0xD1B718 * 2 ^ 29, 1008, scale_eq _ _ _ _ _ (by norm_num), by norm_num,
      by norm_num, by norm_num⟩)

/-- The widened target. -/
theorem floatDecode_target64 :
    floatDecode 11 52 (f32to64 0x2C880000)
      = FloatVal.fin false (0x880000 * 2 ^ 88 * 2 ^ 925) :=
  floatDecode_f32to64 _ _ _ floatDecode_target32
    (Or.inr ⟨0x880000 * 2 ^ 29, 984, scale_eq _ _ _ _ _ (by norm_num), by norm_num,
      by norm_num, by norm_num⟩)

/-- Narrowing a finite `float64`. -/
theorem f64to32_fin (a : Nat) (neg : Bool) (n : Nat)
    (ha : floatDecode 11 52 a = FloatVal.fin neg n) :
    f64to32 a = floatEncode 8 23 (floatRoundScaled 8 23 neg n 925) := by
  unfold f64to32
  rw [ha]

/-- Narrowing the widened target gives the target back. -/
theorem f64to32_target : f64to32 (f32to64 0x2C880000) = 0x2C880000 := by
  have h1 : 0x880000 * 2 ^ 88 * 2 ^ 925 = 0x880000 * 2 ^ (88 + 925) := by
    rw [Nat.mul_assoc, ← pow_add]
  have h2 := floatRoundScaled_exact 8 23 false 0x880000 88 925 (by norm_num) (by norm_num)
    (by norm_num)
  have h3 := floatEncode_normal 8 23 0x880000 88 (by norm_num) (by norm_num)
  have h4 : (88 + 1) * 2 ^ 23 + (0x880000 - 2 ^ 23) = 0x2C880000 := by norm_num
  rw [f64to32_fin _ _ _ floatDecode_target64, h1, h2, h3, h4]

/-- The comparator of refine for `float32`, on the bytes read. -/
theorem makeComparator_float32 (t : Nat) (b : List Nat) :
    makeComparator "float32" { f64 := t } (decodeValue "float32" b)
      = f64Le (mathAbs (f64Sub (f32to64 (Float32frombits (Uint32 b))) t)) eps32as64 := rfl

/-- C25 (the code at the failing input).  For `float64` the comparator of refine is the
predicate of `ScanFloat64Approx(t, 1e-6)` on the bytes read.  For `float32` the scan compares
in `float32` with the `float32` nearest to `1e-4`, refine compares the widened values in
`float64` with the `float64` nearest to `1e-4`: for the target `17 * 2 ^ -42` (pattern
`0x2C880000`, which narrowing the widened target gives back) and the bytes `18 B7 D1 38` of
the value `0x38D1B718`, the predicate that `scanByType` hands to the scanner matches, and
the comparator that `doRefineWith` uses drops the row. -/
theorem refine_scan_float_divergence :
    (∀ (target : NumericValue) (b : List Nat),
      makeComparator "float64" target (decodeValue "float64" b)
        = f64Le (mathAbs (f64Sub (Float64frombits (Uint64 b)) target.f64)) eps64) ∧
    (∀ (σ : Type) (os : OS σ) (fuel : Nat) (s : σ) (proc : Process) (val : NumericValue),
      scanByType os fuel s proc "float32" val
        = (scanNumeric os fuel s (some proc) 4
            (fun b => f32Le (float32Abs (f32Sub (Float32frombits (Uint32 b)) (f64to32 val.f64)))
              eps32) 0 false).map (liftErr id)) ∧
    f64to32 (f32to64 0x2C880000) = 0x2C880000 ∧
    f32Le (float32Abs (f32Sub (Float32frombits (Uint32 [0x18, 0xB7, 0xD1, 0x38]))
      (f64to32 (f32to64 0x2C880000)))) eps32 = true ∧
    makeComparator "float32" { f64 := f32to64 0x2C880000 }
      (decodeValue "float32" [0x18, 0xB7, 0xD1, 0x38]) = false := by
  have hbytes : Float32frombits (Uint32 [0x18, 0xB7, 0xD1, 0x38]) = 0x38D1B718 := by decide
  refine ⟨?_, ?_, f64to32_target, ?_, ?_⟩
  · intro target b
    rfl
  · intro σ os fuel s proc val
    rfl
  · rw [hbytes, f64to32_target, scanPred32_rounded,
      approxRounded_fin 8 23 _ _ _ false false _ _ floatDecode_value32 floatDecode_target32,
      floatDecode_eps32]
    have hd : (signedUnits false (0xD1B718 * 2 ^ 112)
        - signedUnits false (0x880000 * 2 ^ 88)).natAbs
        = 0xD1B717 * 2 ^ 112 + 0x780000 * 2 ^ 88 := by
      simp only [signedUnits, Bool.false_eq_true, if_false]
      norm_num
    rw [hd, floatRound_down 8 23 false 0xD1B717 112 (0x780000 * 2 ^ 88) (by norm_num)
      (by norm_num) (by norm_num) (by norm_num) (by norm_num)]
    simp only [FloatVal.le, le_refl, decide_True]
  · rw [makeComparator_float32, hbytes, scanPred64_rounded,
      approxRounded_fin 11 52 _ _ _ false false _ _ floatDecode_value64 floatDecode_target64,
      floatDecode_eps32as64]
    have hd : ∀ K : Nat, (signedUnits false (0xD1B718 * 2 ^ 112 * K)
        - signedUnits false (0x880000 * 2 ^ 88 * K)).natAbs
        = 0x1A36E2EF000000 * 2 ^ 83 * K := by
      intro K
      simp only [signedUnits, Bool.false_eq_true, if_false]
      have : ((0xD1B718 * 2 ^ 112 * K : Nat) : Int) - ((0x880000 * 2 ^ 88 * K : Nat) : Int)
          = ((0x1A36E2EF000000 * 2 ^ 83 * K : Nat) : Int) := by
        push_cast
        ring
      rw [this, Int.natAbs_ofNat]
    rw [hd, scale_eq 0x1A36E2EF000000 83 925 0 1008 (by norm_num), pow_zero, Nat.mul_one,
      floatRound_representable 11 52 false _
        (Or.inr ⟨0x1A36E2EF000000, 1008, rfl, by norm_num, by norm_num, by norm_num⟩)]
    have key : ∀ K : Nat, 0 < K →
        FloatVal.le (FloatVal.fin false (0x1A36E2EF000000 * K))
          (FloatVal.fin false (0x1A36E2EB1C432D * K)) = false := by
      intro K hK
      simp only [FloatVal.le, signedUnits, Bool.false_eq_true, if_false, Nat.cast_le]
      apply decide_eq_false
      intro hle
      have := Nat.le_of_mul_le_mul_right hle hK
      norm_num at this
    exact key _ (pow_pos (by norm_num) _)

/-! ## A region that ends at the top of the address space -/

/-- Over `topTarget` the unfiltered walk passes the free region, enters the last region with
`end = base + size` wrapped to 0, so that `for offset < end` is not entered, and stops at
the wrapped address: the scan returns no address, whatever the predicate. -/
theorem topTarget_scan_unfiltered (size : Nat) (pred : List Nat → Bool) (fuel : Nat)
    (p : Process) (hp : p.Handle ≠ 0) :
    scanNumeric Target.os (fuel + 2) topTarget (some p) size pred 0 false
      = some (Except.ok [], topTarget) := by
  have hfree : regionLoop Target.os p.Handle size pred 0 false (fuel + 2) (fuel + 2) topTarget 0 []
      = regionLoop Target.os p.Handle size pred 0 false (fuel + 2) (fuel + 1) topTarget
          (2 ^ 64 - 4096) [] := by
    rw [regionLoop_pass Target.os _ size pred 0 false (fuel + 2) (fuel + 1) topTarget 0 [] _ _
      (topTarget_query_low _ 0 hp (by norm_num)) (by decide) (by decide)]
    rw [if_neg (by decide)]
    rfl
  simp only [scanNumeric, if_neg hp]
  rw [hfree, regionLoop_scan Target.os _ size pred 0 false (fuel + 2) fuel topTarget _ [] _ _
    (topTarget_query_top _ hp) (by decide) (by decide) (by decide)]
  rw [chunkLoop_done _ _ _ _ _ _ _ _ _ _ _ (by decide)]
  simp only
  rw [if_pos (by decide)]

/-- Whatever the fuel, a scan of `topTarget` without the filter that returns, returns no
address. -/
theorem topTarget_scan_empty (size : Nat) (pred : List Nat → Bool) (p : Process)
    (hp : p.Handle ≠ 0) (fuel : Nat) (R : List Nat) (t1 : Target)
    (h : scanNumeric Target.os fuel topTarget (some p) size pred 0 false
      = some (Except.ok R, t1)) : R = [] := by
  match fuel, h with
  | 0, h =>
    simp only [scanNumeric, if_neg hp, regionLoop_zero] at h
    cases h
  | 1, h =>
    simp only [scanNumeric, if_neg hp] at h
    rw [regionLoop_pass Target.os _ size pred 0 false 1 0 topTarget 0 [] _ _
      (topTarget_query_low _ 0 hp (by norm_num)) (by decide) (by decide)] at h
    rw [if_neg (by decide), regionLoop_zero] at h
    cases h
  | fuel + 2, h =>
    rw [topTarget_scan_unfiltered size pred fuel p hp] at h
    cases h
    rfl

/-- The hits of a region that ends at or below the top of the address space, as the
innermost loop collects them from the bytes of the whole region. -/
theorem sliceHits_region_top (size : Nat) (pred : List Nat → Bool) (mem : Nat → Nat)
    (base regionSize : Nat) (hsize : 0 < size) (hin : base + regionSize ≤ uintptrMod) :
    sliceHits size pred base (memBytes mem base regionSize) 0 (regionSize / size)
      = regionHits size pred mem base regionSize := by
  unfold sliceHits regionHits
  rw [← List.range_eq_range']
  have hk : ∀ k, k ∈ List.range (regionSize / size) → k * size + size ≤ regionSize := by
    intro k hk
    have h1 : k + 1 ≤ regionSize / size := by
      have := List.mem_range.mp hk
      omega
    rw [Nat.le_div_iff_mul_le hsize, Nat.succ_mul] at h1
    exact h1
  have hf : (List.range (regionSize / size)).filter
      (fun k => pred (((memBytes mem base regionSize).drop (k * size)).take size))
      = (List.range (regionSize / size)).filter
        (fun k => pred (memBytes mem (base + k * size) size)) := by
    apply List.filter_congr
    intro k hk1
    rw [memBytes_slot mem base regionSize (k * size) size (hk k hk1)]
  rw [hf]
  apply List.map_congr_left
  intro k hk1
  have := hk k (List.mem_of_mem_filter hk1)
  exact Nat.mod_eq_of_lt (by omega)

/-- C2 (as stated, refuted).  The last region of `topTarget` is committed, read-only and
not a guard region, no read is refused, and the four bytes at its base `2 ^ 64 - 4096` are
the encoding of the `uint32` value 0.  The region ends at `2 ^ 64`, so the end the code
computes is 0 and no chunk of it is read: the scan for 0 returns, with an empty list, and
with no fuel returns a list that contains the base. -/
theorem scan_finds_written_values_counterexample :
    topTarget.regions = [⟨2 ^ 64 - 4096, 0x10000, PAGE_NOACCESS⟩]
      ++ ⟨4096, MEM_COMMIT, PAGE_READONLY⟩ :: [] ∧
    isReadable PAGE_READONLY = true ∧ PAGE_READONLY &&& PAGE_GUARD = 0 ∧
    sizesSum [⟨2 ^ 64 - 4096, 0x10000, PAGE_NOACCESS⟩] + 0 * 4 = 2 ^ 64 - 4096 ∧
    sizesSum [⟨2 ^ 64 - 4096, 0x10000, PAGE_NOACCESS⟩] + 4096 = uintptrMod ∧
    topTarget.noFault (2 ^ 64 - 4096) (2 ^ 64) ∧
    topTarget.bytes (2 ^ 64 - 4096) 4 = PutUint32 0 ∧
    ScanUint32 Target.os 2 topTarget (some demoProcess) 0 0 false
      = some (Except.ok [], topTarget) ∧
    ¬ ∃ fuel R t1, ScanUint32 Target.os fuel topTarget (some demoProcess) 0 0 false
        = some (Except.ok R, t1) ∧ 2 ^ 64 - 4096 ∈ R := by
  refine ⟨rfl, by decide, by decide, by decide, by decide, fun _ _ _ _ => rfl, by decide,
    topTarget_scan_unfiltered 4 _ 0 demoProcess (by decide), ?_⟩
  rintro ⟨fuel, R, t1, h, hmem⟩
  rw [topTarget_scan_empty 4 _ demoProcess (by decide) fuel R t1 h] at hmem
  cases hmem

/-- C5 (as stated, refuted).  The value 0 sits in the first slot of the last region of
`topTarget`, whose protection is PAGE_READONLY; the region ends at `2 ^ 64`, and the scan
with `writableOnly = false` returns without the address of the slot. -/
theorem region_filter_counterexample :
    topTarget.regions = [⟨2 ^ 64 - 4096, 0x10000, PAGE_NOACCESS⟩]
      ++ ⟨4096, MEM_COMMIT, PAGE_READONLY⟩ :: [] ∧
    sizesSum [⟨2 ^ 64 - 4096, 0x10000, PAGE_NOACCESS⟩] + 4096 = uintptrMod ∧
    topTarget.noFault (2 ^ 64 - 4096) (2 ^ 64) ∧
    decide (Uint32 (topTarget.bytes (2 ^ 64 - 4096 + 0 * 4) 4) = 0) = true ∧
    scanNumeric Target.os 2 topTarget (some demoProcess) 4 (fun b => decide (Uint32 b = 0)) 0
      false = some (Except.ok [], topTarget) ∧
    ¬ ∃ fuel R t1, scanNumeric Target.os fuel topTarget (some demoProcess) 4
        (fun b => decide (Uint32 b = 0)) 0 false = some (Except.ok R, t1) ∧
        2 ^ 64 - 4096 + 0 * 4 ∈ R := by
  refine ⟨rfl, by decide, fun _ _ _ _ => rfl, by decide,
    topTarget_scan_unfiltered 4 _ 0 demoProcess (by decide), ?_⟩
  rintro ⟨fuel, R, t1, h, hmem⟩
  rw [topTarget_scan_empty 4 _ demoProcess (by decide) fuel R t1 h] at hmem
  cases hmem

/-- C8 (as stated, refuted).  The last region of `topTarget`, `[2 ^ 64 - 4096, 2 ^ 64)`, is
scannable and its reads succeed in full.  A single pass over its 4096 bytes evaluates the
predicate at the 512 offsets `base + k * 8`.  The walk hands the chunk loop the end
`base + size` wrapped to 0: the chunk loop is left at once, the predicate is evaluated at no
offset, and the scan with the predicate that is always true returns no address. -/
theorem chunk_boundaries_lose_nothing_counterexample :
    Target.os.VirtualQueryEx topTarget 1 (2 ^ 64 - 4096)
      = (some { BaseAddress := 2 ^ 64 - 4096, RegionSize := 4096, State := MEM_COMMIT,
                Protect := PAGE_READONLY }, topTarget) ∧
    Target.os.readsInFull 1 topTarget.byteMem (2 ^ 64 - 4096) (2 ^ 64 - 4096 + 4096)
      (fun s => s = topTarget) ∧
    matchLoop 8 (fun _ => true) 0 (2 ^ 64 - 4096)
        (memBytes topTarget.byteMem (2 ^ 64 - 4096) 4096) 4097 0 []
      = some (LoopExit.running
          ((List.range 512).map (fun k => 2 ^ 64 - 4096 + k * 8))) ∧
    (2 ^ 64 - 4096 + 4096) % uintptrMod = 0 ∧
    (∀ inner fuel : Nat, chunkLoop Target.os 1 8 (fun _ => true) 0
        ((2 ^ 64 - 4096 + 4096) % uintptrMod) inner (fuel + 1) topTarget (2 ^ 64 - 4096) []
      = some (LoopExit.running [], topTarget)) ∧
    (∀ fuel : Nat, scanNumeric Target.os (fuel + 2) topTarget (some demoProcess) 8
        (fun _ => true) 0 false = some (Except.ok [], topTarget)) := by
  refine ⟨topTarget_query_top 1 (by decide), ?_, ?_, by decide, ?_, ?_⟩
  · exact target_readsInFull topTarget 1 [⟨2 ^ 64 - 4096, 0x10000, PAGE_NOACCESS⟩] []
      ⟨4096, MEM_COMMIT, PAGE_READONLY⟩ (by decide) rfl rfl (by decide) (by decide)
      (fun _ _ _ _ => rfl)
  · obtain ⟨r, hrun⟩ := matchLoop_terminates 8 (fun _ => true) 0 (2 ^ 64 - 4096)
      (memBytes topTarget.byteMem (2 ^ 64 - 4096) 4096) (by decide) 4096 0 []
      (by rw [memBytes_length])
    have hr := matchLoop_chunk 8 (fun _ => true) 0 (2 ^ 64 - 4096) _ (by decide) 4097 [] r
      (by unfold capReached; omega) hrun
    rw [capped_of_not_reached 0 _ (by unfold capReached; omega), memBytes_length,
      sliceHits_region_top 8 _ topTarget.byteMem (2 ^ 64 - 4096) 4096 (by decide)
        (by decide)] at hr
    rw [hrun, hr]
    unfold regionHits
    simp
  · intro inner fuel
    exact chunkLoop_done _ _ _ _ _ _ _ _ _ _ _ (by decide)
  · intro fuel
    exact topTarget_scan_unfiltered 8 _ fuel demoProcess (by decide)

/-- C8 (amended), at a concrete input: the region `[0x10000, 0x110010)` of `wideTarget` is
read in a chunk of 1 MiB and a chunk of 16 bytes.  The chunked loop and the single pass
collect the same list, and the `uint64` pattern `0x2A2A2A2A2A2A2A2A` is found in the last
slot of the first chunk and in the first slot of the second. -/
theorem chunk_boundaries_lose_nothing_witness :
    ((∃ s1, chunkLoop Target.os 1 8 (fun b => decide (Uint64 b = 0x2A2A2A2A2A2A2A2A)) 0
        (0x10000 + (2 ^ 20 + 16)) (2 ^ 22) (2 ^ 22) wideTarget 0x10000 []
      = some (LoopExit.running ([] ++ regionHits 8
          (fun b => decide (Uint64 b = 0x2A2A2A2A2A2A2A2A)) wideTarget.byteMem 0x10000
          (2 ^ 20 + 16)), s1)) ∧
    matchLoop 8 (fun b => decide (Uint64 b = 0x2A2A2A2A2A2A2A2A)) 0 0x10000
        (memBytes wideTarget.byteMem 0x10000 (2 ^ 20 + 16)) (2 ^ 22) 0 []
      = some (LoopExit.running ([] ++ regionHits 8
          (fun b => decide (Uint64 b = 0x2A2A2A2A2A2A2A2A)) wideTarget.byteMem 0x10000
          (2 ^ 20 + 16))) ∧
    (regionHits 8 (fun b => decide (Uint64 b = 0x2A2A2A2A2A2A2A2A)) wideTarget.byteMem
      0x10000 (2 ^ 20 + 16)).Nodup ∧
    regionHits 8 (fun _ => true) wideTarget.byteMem 0x10000 (2 ^ 20 + 16)
      = (List.range ((2 ^ 20 + 16) / 8)).map (fun k => 0x10000 + k * 8)) ∧
    chunkLen (0x10000 + (2 ^ 20 + 16)) 0x10000 = 2 ^ 20 ∧
    chunkLen (0x10000 + (2 ^ 20 + 16)) (0x10000 + 2 ^ 20) = 16 ∧
    0x10000 + 131071 * 8 ∈ regionHits 8 (fun b => decide (Uint64 b = 0x2A2A2A2A2A2A2A2A))
      wideTarget.byteMem 0x10000 (2 ^ 20 + 16) ∧
    0x10000 + 131072 * 8 ∈ regionHits 8 (fun b => decide (Uint64 b = 0x2A2A2A2A2A2A2A2A))
      wideTarget.byteMem 0x10000 (2 ^ 20 + 16) :=
  ⟨chunk_boundaries_lose_nothing Target.os 1 8
      (fun b => decide (Uint64 b = 0x2A2A2A2A2A2A2A2A)) wideTarget.byteMem 0x10000
      (2 ^ 20 + 16) (2 ^ 22) wideTarget [] (fun s => s = wideTarget) (Or.inr rfl) (by decide)
      (target_readsInFull wideTarget 1 [⟨0x10000, 0x10000, PAGE_NOACCESS⟩] []
        ⟨2 ^ 20 + 16, MEM_COMMIT, PAGE_READWRITE⟩ (by decide) rfl rfl (by decide) (by decide)
        (fun _ _ _ _ => rfl))
      rfl (by decide),
    by decide, by decide,
    mem_regionHits 8 _ wideTarget.byteMem 0x10000 (2 ^ 20 + 16) 131071 (by decide) (by decide)
      (by decide),
    mem_regionHits 8 _ wideTarget.byteMem 0x10000 (2 ^ 20 + 16) 131072 (by decide) (by decide)
      (by decide)⟩

/-! ## Exact and rounded differences -/

/-- Rounding does not pass a number of the format: the rounded value of a number that is at
most `k` is at most `k`, when `k` is a number of the format. -/
theorem floatRound_le (ebits mbits n k : Nat) (hnk : n ≤ k)
    (hk : representable ebits mbits k) :
    ∃ n1, floatRound ebits mbits false n = FloatVal.fin false n1 ∧ n1 ≤ k := by
  have hPP : 2 ^ mbits < 2 ^ (mbits + 1) := Nat.pow_lt_pow_right (by norm_num) (by omega)
  by_cases hlt : n < 2 ^ (mbits + 1)
  · exact ⟨n, by unfold floatRound; rw [if_pos hlt], hnk⟩
  · have hn0 : n ≠ 0 := by
      intro h
      rw [h] at hlt
      exact hlt (Nat.pow_pos (by norm_num))
    have hL : mbits + 1 ≤ Nat.log2 n := by
      rw [Nat.le_log2 hn0]
      omega
    obtain ⟨sh, hsh⟩ : ∃ sh, Nat.log2 n = mbits + sh := ⟨Nat.log2 n - mbits, by omega⟩
    have hshv : Nat.log2 n - mbits = sh := by omega
    have hsh1 : 1 ≤ sh := by omega
    have hlow : 2 ^ mbits * 2 ^ sh ≤ n := by
      rw [← pow_add, ← hsh]
      exact Nat.log2_self_le hn0
    have hs0 : 0 < 2 ^ sh := Nat.pow_pos (by norm_num)
    have hq1 : 2 ^ mbits ≤ n / 2 ^ sh := (Nat.le_div_iff_mul_le hs0).mpr hlow
    have hdm : 2 ^ sh * (n / 2 ^ sh) + n % 2 ^ sh = n := Nat.div_add_mod n (2 ^ sh)
    have hhalf : 0 < 2 ^ (sh - 1) := Nat.pow_pos (by norm_num)
    rcases hk with hsub | ⟨q2, j, hkq, hq2a, hq2b, hj⟩
    · omega
    have hj0 : 0 < 2 ^ j := Nat.pow_pos (by norm_num)
    have hthr : k < 2 ^ (mbits + 1) * 2 ^ (2 ^ ebits - 3) := by
      rw [hkq]
      calc q2 * 2 ^ j < 2 ^ (mbits + 1) * 2 ^ j := Nat.mul_lt_mul_of_pos_right hq2b hj0
        _ ≤ 2 ^ (mbits + 1) * 2 ^ (2 ^ ebits - 3) :=
          Nat.mul_le_mul_left _ (Nat.pow_le_pow_right (by norm_num) (by omega))
    have hdown : n / 2 ^ sh * 2 ^ sh ≤ k := by
      rw [Nat.mul_comm]
      omega
    have hup : 0 < n % 2 ^ sh → (n / 2 ^ sh + 1) * 2 ^ sh ≤ k := by
      intro hr
      have hgt : n / 2 ^ sh * 2 ^ sh < k := by
        rw [Nat.mul_comm]
        omega
      have hsj : sh ≤ j := by
        by_contra hcon
        have h1 : q2 * 2 ^ j < 2 ^ (mbits + 1) * 2 ^ j :=
          Nat.mul_lt_mul_of_pos_right hq2b hj0
        have h2 : 2 ^ (mbits + 1) * 2 ^ j ≤ 2 ^ mbits * 2 ^ sh := by
          rw [← pow_add, ← pow_add]
          exact Nat.pow_le_pow_right (by norm_num) (by omega)
        have h3 : 2 ^ mbits * 2 ^ sh ≤ n / 2 ^ sh * 2 ^ sh := Nat.mul_le_mul_right _ hq1
        rw [hkq] at hgt
        omega
      obtain ⟨d, hd⟩ : ∃ d, j = sh + d := ⟨j - sh, by omega⟩
      have hkc : k = (q2 * 2 ^ d) * 2 ^ sh := by
        rw [hkq, hd, pow_add, Nat.mul_assoc, Nat.mul_comm (2 ^ d)]
      rw [hkc] at hgt ⊢
      have hlt2 : n / 2 ^ sh < q2 * 2 ^ d := Nat.lt_of_mul_lt_mul_right hgt
      exact Nat.mul_le_mul_right _ hlt2
    unfold floatRound
    rw [if_neg hlt]
    simp only [hshv]
    by_cases hcc : 2 ^ (sh - 1) < n % 2 ^ sh ∨
        n % 2 ^ sh = 2 ^ (sh - 1) ∧ n / 2 ^ sh % 2 = 1
    · have hr : 0 < n % 2 ^ sh := by
        rcases hcc with h | ⟨h, _⟩ <;> omega
      have := hup hr
      simp only [if_pos hcc]
      rw [if_neg (by omega)]
      exact ⟨_, rfl, this⟩
    · simp only [if_neg hcc]
      rw [if_neg (by omega)]
      exact ⟨_, rfl, hdown⟩

/-- The exact predicate on two finite values. -/
theorem approxExact_fin (ebits mbits v t eps : Nat) (a b : Bool) (n m : Nat)
    (hv : floatDecode ebits mbits v = FloatVal.fin a n)
    (ht : floatDecode ebits mbits t = FloatVal.fin b m) :
    approxExact ebits mbits v t eps =
      FloatVal.le (FloatVal.fin false (signedUnits a n - signedUnits b m).natAbs)
        (floatDecode ebits mbits eps) := by
  unfold approxExact
  rw [hv, ht]

/-- A comparison that holds for a number holds for the number rounded, against a datum of
the format. -/
theorem le_floatRound (ebits mbits n : Nat) (e : FloatVal) (he : e.canonical ebits mbits)
    (h : FloatVal.le (FloatVal.fin false n) e = true) :
    FloatVal.le (floatRound ebits mbits false n) e = true := by
  cases e with
  | nan => cases h
  | inf c =>
    have hc : c = false := by
      cases c with
      | false => rfl
      | true => cases h
    subst hc
    unfold floatRound
    split
    · rfl
    · simp only []
      split <;> split <;> rfl
  | fin c k =>
    simp only [FloatVal.le, decide_eq_true_eq] at h
    cases c with
    | true =>
      simp only [signedUnits, Bool.false_eq_true, if_false, if_true] at h
      have hn : n = 0 := by omega
      have hk0 : k = 0 := by omega
      subst hn
      subst hk0
      have h0 : floatRound ebits mbits false 0 = FloatVal.fin false 0 := by
        unfold floatRound
        rw [if_pos (Nat.pow_pos (by norm_num))]
      rw [h0]
      rfl
    | false =>
      simp only [signedUnits, Bool.false_eq_true, if_false, Nat.cast_le] at h
      obtain ⟨n1, h1, h2⟩ := floatRound_le ebits mbits n k h he
      rw [h1]
      simp only [FloatVal.le, signedUnits, Bool.false_eq_true, if_false, Nat.cast_le,
        decide_eq_true_eq]
      exact h2

/-- Values that are within `eps` of each other in exact arithmetic pass the rounded
predicate. -/
theorem approxRounded_of_exact (ebits mbits v t eps : Nat)
    (h : approxExact ebits mbits v t eps = true) :
    approxRounded ebits mbits v t eps = true := by
  unfold approxExact at h
  unfold approxRounded
  cases hv : floatDecode ebits mbits v with
  | nan =>
    rw [hv] at h
    cases ht : floatDecode ebits mbits t <;> rw [ht] at h <;> exact h
  | inf a =>
    rw [hv] at h
    cases ht : floatDecode ebits mbits t <;> rw [ht] at h <;> exact h
  | fin a n =>
    rw [hv] at h
    cases ht : floatDecode ebits mbits t with
    | nan =>
      rw [ht] at h
      exact h
    | inf b =>
      rw [ht] at h
      exact h
    | fin b m =>
      rw [ht] at h
      exact le_floatRound ebits mbits _ _ (floatDecode_canonical ebits mbits eps) h

/-- When no rounding takes place, the rounded predicate is the exact one. -/
theorem approxRounded_eq_exact (ebits mbits v t eps : Nat)
    (hr : ∀ a n b m, floatDecode ebits mbits v = FloatVal.fin a n →
      floatDecode ebits mbits t = FloatVal.fin b m →
      representable ebits mbits (signedUnits a n - signedUnits b m).natAbs) :
    approxRounded ebits mbits v t eps = approxExact ebits mbits v t eps := by
  unfold approxExact approxRounded
  cases hv : floatDecode ebits mbits v with
  | nan => cases floatDecode ebits mbits t <;> rfl
  | inf a => cases floatDecode ebits mbits t <;> rfl
  | fin a n =>
    cases ht : floatDecode ebits mbits t with
    | nan => rfl
    | inf b => rfl
    | fin b m =>
      simp only []
      rw [floatRound_representable ebits mbits false _ (hr a n b m hv ht)]

/-! ## The float match predicate, exact and rounded -/

/-- The `float32` difference of the value `0x38D1B718` and the target `0x2C880000`: the
exact difference lies less than half a step above the epsilon and is rounded down to it. -/
theorem sub_boundary32 :
    FloatVal.sub 8 23 (FloatVal.fin false (0xD1B718 * 2 ^ 112))
      (FloatVal.fin false (0x880000 * 2 ^ 88)) = FloatVal.fin false (0xD1B717 * 2 ^ 112) := by
  have hd : signedUnits false (0xD1B718 * 2 ^ 112) - signedUnits false (0x880000 * 2 ^ 88)
      = ((0xD1B717 * 2 ^ 112 + 0x780000 * 2 ^ 88 : Nat) : Int) := by
    simp only [signedUnits, Bool.false_eq_true, if_false]
    norm_num
  simp only [FloatVal.sub, hd]
  rw [if_neg (by norm_num), Int.natAbs_ofNat]
  have hneg : decide (((0xD1B717 * 2 ^ 112 + 0x780000 * 2 ^ 88 : Nat) : Int) < 0) = false :=
    decide_eq_false (by norm_num)
  rw [hneg]
  exact floatRound_down 8 23 false 0xD1B717 112 (0x780000 * 2 ^ 88) (by norm_num)
    (by norm_num) (by norm_num) (by norm_num) (by norm_num)

/-- C22 (as stated, refuted).  The bytes `18 B7 D1 38` decode to the `float32` value
`0xD1B718 * 2 ^ 112` units of `2 ^ -149`, the target `0x2C880000` is `0x880000 * 2 ^ 88`
units, the epsilon `float32(1e-4)` is `0xD1B717 * 2 ^ 112` units.  The exact difference of
value and target exceeds the epsilon, and exceeds `1e-4` itself, so `|v - t| <= eps` does
not hold; the `float32` difference that the code computes is rounded to the epsilon
exactly, and the predicate of `ScanFloat32Approx` matches. -/
theorem float_match_predicate_counterexample :
    floatDecode 8 23 (Float32frombits (Uint32 [0x18, 0xB7, 0xD1, 0x38]))
      = FloatVal.fin false (0xD1B718 * 2 ^ 112) ∧
    floatDecode 8 23 0x2C880000 = FloatVal.fin false (0x880000 * 2 ^ 88) ∧
    floatDecode 8 23 eps32 = FloatVal.fin false (0xD1B717 * 2 ^ 112) ∧
    0xD1B717 * 2 ^ 112 < 0xD1B718 * 2 ^ 112 - 0x880000 * 2 ^ 88 ∧
    2 ^ 149 < 10 ^ 4 * (0xD1B718 * 2 ^ 112 - 0x880000 * 2 ^ 88) ∧
    approxExact 8 23 (Float32frombits (Uint32 [0x18, 0xB7, 0xD1, 0x38])) 0x2C880000 eps32
      = false ∧
    f32Sub (Float32frombits (Uint32 [0x18, 0xB7, 0xD1, 0x38])) 0x2C880000 = eps32 ∧
    f32Le (float32Abs (f32Sub (Float32frombits (Uint32 [0x18, 0xB7, 0xD1, 0x38])) 0x2C880000))
      eps32 = true := by
  have hbytes : Float32frombits (Uint32 [0x18, 0xB7, 0xD1, 0x38]) = 0x38D1B718 := by decide
  have hd : (signedUnits false (0xD1B718 * 2 ^ 112)
      - signedUnits false (0x880000 * 2 ^ 88)).natAbs
      = 0xD1B717 * 2 ^ 112 + 0x780000 * 2 ^ 88 := by
    simp only [signedUnits, Bool.false_eq_true, if_false]
    norm_num
  have hsub : f32Sub 0x38D1B718 0x2C880000 = eps32 := by
    unfold f32Sub
    rw [floatDecode_value32, floatDecode_target32, sub_boundary32,
      floatEncode_normal 8 23 0xD1B717 112 (by norm_num) (by norm_num)]
    norm_num [eps32]
  rw [hbytes]
  refine ⟨floatDecode_value32, floatDecode_target32, floatDecode_eps32, by norm_num,
    by norm_num, ?_, hsub, ?_⟩
  · rw [approxExact_fin 8 23 _ _ _ false false _ _ floatDecode_value32 floatDecode_target32,
      floatDecode_eps32, hd]
    simp only [FloatVal.le, signedUnits, Bool.false_eq_true, if_false, Nat.cast_le]
    exact decide_eq_false (by norm_num)
  · rw [scanPred32_rounded,
      approxRounded_fin 8 23 _ _ _ false false _ _ floatDecode_value32 floatDecode_target32,
      floatDecode_eps32, hd,
      floatRound_down 8 23 false 0xD1B717 112 (0x780000 * 2 ^ 88) (by norm_num)
        (by norm_num) (by norm_num) (by norm_num) (by norm_num)]
    simp only [FloatVal.le, le_refl, decide_True]

/-- C22 (amended).  With the default epsilons `ScanFloat32Approx` and `ScanFloat64Approx`
are the scan with the rounded predicate: the difference of the decoded value from the
target is taken in the arithmetic of the type, that is rounded to the type, and its
absolute value is compared with the epsilon, the float nearest to `1e-4`, resp. `1e-6`.
For every value and every epsilon: if `|v - t| <= eps` holds in exact arithmetic the scan
matches; if the exact difference of the two values is a number of the type, or one of them
is not finite, the scan matches if and only if `|v - t| <= eps` holds in exact arithmetic;
for the default epsilons this is the comparison of the exact difference with
`0xD1B717 * 2 ^ 112` units of `2 ^ -149`, resp. `0x10C6F7A0B5ED8D * 2 ^ 1002` units of
`2 ^ -1074`.  A NaN value matches no target and a NaN target matches no value, whatever the
epsilon; the two zeros match themselves and each other. -/
theorem float_match_predicate {σ : Type} (os : OS σ) (fuel : Nat) (s : σ) (p : Option Process)
    (t : Nat) (maxResults : Int) (writableOnly : Bool) :
    (ScanFloat32Approx os fuel s p t eps32 maxResults writableOnly
      = scanNumeric os fuel s p 4
          (fun b => approxRounded 8 23 (Float32frombits (Uint32 b)) t eps32)
          maxResults writableOnly) ∧
    (ScanFloat64Approx os fuel s p t eps64 maxResults writableOnly
      = scanNumeric os fuel s p 8
          (fun b => approxRounded 11 52 (Float64frombits (Uint64 b)) t eps64)
          maxResults writableOnly) ∧
    (∀ v eps : Nat, approxExact 8 23 v t eps = true →
      f32Le (float32Abs (f32Sub v t)) eps = true) ∧
    (∀ v eps : Nat, approxExact 11 52 v t eps = true →
      f64Le (mathAbs (f64Sub v t)) eps = true) ∧
    (∀ v eps : Nat,
      (∀ a n b m, floatDecode 8 23 v = FloatVal.fin a n → floatDecode 8 23 t = FloatVal.fin b m →
        representable 8 23 (signedUnits a n - signedUnits b m).natAbs) →
      f32Le (float32Abs (f32Sub v t)) eps = approxExact 8 23 v t eps) ∧
    (∀ v eps : Nat,
      (∀ a n b m, floatDecode 11 52 v = FloatVal.fin a n →
        floatDecode 11 52 t = FloatVal.fin b m →
        representable 11 52 (signedUnits a n - signedUnits b m).natAbs) →
      f64Le (mathAbs (f64Sub v t)) eps = approxExact 11 52 v t eps) ∧
    (∀ (v : Nat) (a b : Bool) (n m : Nat),
      floatDecode 8 23 v = FloatVal.fin a n → floatDecode 8 23 t = FloatVal.fin b m →
      representable 8 23 (signedUnits a n - signedUnits b m).natAbs →
      f32Le (float32Abs (f32Sub v t)) eps32
        = decide ((signedUnits a n - signedUnits b m).natAbs ≤ 0xD1B717 * 2 ^ 112)) ∧
    (∀ (v : Nat) (a b : Bool) (n m : Nat),
      floatDecode 11 52 v = FloatVal.fin a n → floatDecode 11 52 t = FloatVal.fin b m →
      representable 11 52 (signedUnits a n - signedUnits b m).natAbs →
      f64Le (mathAbs (f64Sub v t)) eps64
        = decide ((signedUnits a n - signedUnits b m).natAbs ≤ 0x10C6F7A0B5ED8D * 2 ^ 1002)) ∧
    (∀ v eps : Nat, floatDecode 8 23 v = FloatVal.nan ∨ floatDecode 8 23 t = FloatVal.nan →
      f32Le (float32Abs (f32Sub v t)) eps = false) ∧
    (∀ v eps : Nat, floatDecode 11 52 v = FloatVal.nan ∨ floatDecode 11 52 t = FloatVal.nan →
      f64Le (mathAbs (f64Sub v t)) eps = false) ∧
    (∀ v : Nat, (v = 0 ∨ v = 2 ^ 31) → (t = 0 ∨ t = 2 ^ 31) →
      f32Le (float32Abs (f32Sub v t)) eps32 = true) ∧
    (∀ v : Nat, (v = 0 ∨ v = 2 ^ 63) → (t = 0 ∨ t = 2 ^ 63) →
      f64Le (mathAbs (f64Sub v t)) eps64 = true) := by
  refine ⟨?_, ?_, ?_, ?_, ?_, ?_, ?_, ?_, ?_, ?_, ?_, ?_⟩
  · simp only [ScanFloat32Approx, scanPred32_rounded]
  · simp only [ScanFloat64Approx, scanPred64_rounded]
  · intro v eps h
    rw [scanPred32_rounded]
    exact approxRounded_of_exact 8 23 v t eps h
  · intro v eps h
    rw [scanPred64_rounded]
    exact approxRounded_of_exact 11 52 v t eps h
  · intro v eps hr
    rw [scanPred32_rounded]
    exact approxRounded_eq_exact 8 23 v t eps hr
  · intro v eps hr
    rw [scanPred64_rounded]
    exact approxRounded_eq_exact 11 52 v t eps hr
  · intro v a b n m hv ht hr
    rw [scanPred32_rounded]
    exact approxRounded_exact 8 23 v t eps32 a b n m _ hv ht floatDecode_eps32 hr
  · intro v a b n m hv ht hr
    rw [scanPred64_rounded]
    exact approxRounded_exact 11 52 v t eps64 a b n m _ hv ht floatDecode_eps64 hr
  · intro v eps h
    rw [scanPred32_rounded]
    exact approxRounded_nan 8 23 v t eps h
  · intro v eps h
    rw [scanPred64_rounded]
    exact approxRounded_nan 11 52 v t eps h
  · intro v hv ht
    obtain ⟨a, ha⟩ := floatDecode_zeros32 v hv
    obtain ⟨b, hb⟩ := floatDecode_zeros32 t ht
    rw [scanPred32_rounded]
    exact approxRounded_zeros 8 23 v t eps32 a b _ ha hb floatDecode_eps32
  · intro v hv ht
    obtain ⟨a, ha⟩ := floatDecode_zeros64 v hv
    obtain ⟨b, hb⟩ := floatDecode_zeros64 t ht
    rw [scanPred64_rounded]
    exact approxRounded_zeros 11 52 v t eps64 a b _ ha hb floatDecode_eps64

/-- C22 (amended), at concrete values: 1.0 of `float32` is within the epsilon of the target
1.0000001 in exact arithmetic, and matches it; 1.0 of `float64` matches itself, and it does
not match a target that is `2 ^ -19` away, in agreement with the exact predicate; the quiet
NaN matches neither 1.0 nor is matched by it; the negative zero matches the positive
one. -/
theorem float_match_predicate_witness :
    approxExact 8 23 0x3F800000 0x3F800001 eps32 = true ∧
    f32Le (float32Abs (f32Sub 0x3F800000 0x3F800001)) eps32 = true ∧
    f32Le (float32Abs (f32Sub 0x3F800000 0x3F800001)) eps32
      = approxExact 8 23 0x3F800000 0x3F800001 eps32 ∧
    approxExact 11 52 0x3FF0000000000000 0x3FF0000000000000 eps64 = true ∧
    f64Le (mathAbs (f64Sub 0x3FF0000000000000 0x3FF0000000000000)) eps64 = true ∧
    f64Le (mathAbs (f64Sub 0x3FF0000000000000 0x3FF0000200000000)) eps64
      = approxExact 11 52 0x3FF0000000000000 0x3FF0000200000000 eps64 ∧
    f64Le (mathAbs (f64Sub 0x3FF0000000000000 0x3FF0000200000000)) eps64 = false ∧
    f32Le (float32Abs (f32Sub 0x7FC00000 0x3F800000)) eps32 = false ∧
    f32Le (float32Abs (f32Sub 0x3F800000 0x7FC00000)) eps32 = false ∧
    f64Le (mathAbs (f64Sub 0x7FF8000000000000 0x3FF0000000000000)) eps64 = false ∧
    f64Le (mathAbs (f64Sub 0x3FF0000000000000 0x7FF8000000000000)) eps64 = false ∧
    f32Le (float32Abs (f32Sub (2 ^ 31) 0)) eps32 = true ∧
    f64Le (mathAbs (f64Sub (2 ^ 63) 0)) eps64 = true := by
  have v32 : floatDecode 8 23 0x3F800000 = FloatVal.fin false (0x800000 * 2 ^ 126) := by
    have h := floatDecode_normal 8 23 (126 + 1) 0 (by norm_num) (by norm_num) (by norm_num)
    rw [Nat.add_sub_cancel] at h
    exact h
  have t32 : floatDecode 8 23 0x3F800001 = FloatVal.fin false (0x800001 * 2 ^ 126) := by
    have h := floatDecode_normal 8 23 (126 + 1) 1 (by norm_num) (by norm_num) (by norm_num)
    rw [Nat.add_sub_cancel] at h
    exact h
  have v64 : floatDecode 11 52 0x3FF0000000000000
      = FloatVal.fin false (0x10000000000000 * 2 ^ 1022) := by
    have h := floatDecode_normal 11 52 (1022 + 1) 0 (by norm_num) (by norm_num) (by norm_num)
    rw [Nat.add_sub_cancel, show 2 ^ 52 + 0 = 0x10000000000000 from by norm_num] at h
    rw [show (0x3FF0000000000000 : Nat) = (1022 + 1) * 2 ^ 52 + 0 from by norm_num, h]
  have t64 : floatDecode 11 52 0x3FF0000200000000
      = FloatVal.fin false (0x10000200000000 * 2 ^ 1022) := by
    have h := floatDecode_normal 11 52 (1022 + 1) 0x200000000 (by norm_num) (by norm_num)
      (by norm_num)
    rw [Nat.add_sub_cancel,
      show 2 ^ 52 + 0x200000000 = 0x10000200000000 from by norm_num] at h
    rw [show (0x3FF0000200000000 : Nat) = (1022 + 1) * 2 ^ 52 + 0x200000000 from by norm_num, h]
  have n32 : floatDecode 8 23 0x7FC00000 = FloatVal.nan := by simp [floatDecode]
  have n64 : floatDecode 11 52 0x7FF8000000000000 = FloatVal.nan := by simp [floatDecode]
  have d32 : (signedUnits false (0x800000 * 2 ^ 126) - signedUnits false (0x800001 * 2 ^ 126)).natAbs
      = 2 ^ 23 * 2 ^ 103 := by
    simp only [signedUnits, Bool.false_eq_true, if_false]
    norm_num
  have d64 : ∀ K : Nat, (signedUnits false (0x10000000000000 * K)
      - signedUnits false (0x10000200000000 * K)).natAbs = 2 ^ 33 * K := by
    intro K
    simp only [signedUnits, Bool.false_eq_true, if_false]
    have : ((0x10000000000000 * K : Nat) : Int) - ((0x10000200000000 * K : Nat) : Int)
        = -((2 ^ 33 * K : Nat) : Int) := by
      push_cast
      ring
    rw [this, Int.natAbs_neg, Int.natAbs_ofNat]
  have d0 : ∀ N : Nat, (signedUnits false N - signedUnits false N).natAbs = 0 := by
    intro N
    simp
  have r32 : representable 8 23 (signedUnits false (0x800000 * 2 ^ 126)
      - signedUnits false (0x800001 * 2 ^ 126)).natAbs := by
    rw [d32]
    exact Or.inr ⟨2 ^ 23, 103, rfl, le_refl _, by norm_num, by norm_num⟩
  have r64 : representable 11 52 (signedUnits false (0x10000000000000 * 2 ^ 1022)
      - signedUnits false (0x10000200000000 * 2 ^ 1022)).natAbs := by
    rw [d64]
    exact Or.inr ⟨2 ^ 52, 1003, by rw [← pow_add, ← pow_add], le_refl _, by norm_num,
      by norm_num⟩
  have x32 : approxExact 8 23 0x3F800000 0x3F800001 eps32 = true := by
    rw [approxExact_fin 8 23 _ _ _ false false _ _ v32 t32, floatDecode_eps32, d32]
    simp only [FloatVal.le, signedUnits, Bool.false_eq_true, if_false, Nat.cast_le]
    exact decide_eq_true (by norm_num)
  have x64 : approxExact 11 52 0x3FF0000000000000 0x3FF0000000000000 eps64 = true := by
    rw [approxExact_fin 11 52 _ _ _ false false _ _ v64 v64, floatDecode_eps64, d0]
    simp only [FloatVal.le, signedUnits, Bool.false_eq_true, if_false, Nat.cast_le]
    exact decide_eq_true (Nat.zero_le _)
  have e1 := (float_match_predicate Target.os 0 demoTarget none 0x3F800001 0 false).2.2.2.2.1
    0x3F800000 eps32 (by
      intro a n b m ha hb
      rw [v32] at ha
      rw [t32] at hb
      cases ha
      cases hb
      exact r32)
  have e2 := (float_match_predicate Target.os 0 demoTarget none 0x3FF0000200000000 0
    false).2.2.2.2.2.1 0x3FF0000000000000 eps64 (by
      intro a n b m ha hb
      rw [v64] at ha
      rw [t64] at hb
      cases ha
      cases hb
      exact r64)
  have e3 := (float_match_predicate Target.os 0 demoTarget none 0x3FF0000200000000 0
    false).2.2.2.2.2.2.2.1 0x3FF0000000000000 false false _ _ v64 t64 r64
  have e4 := (float_match_predicate Target.os 0 demoTarget none 0x3F800001 0
    false).2.2.2.2.2.2.1 0x3F800000 false false _ _ v32 t32 r32
  refine ⟨x32, ?_, e1, x64, ?_, e2, ?_, ?_, ?_, ?_, ?_, ?_, ?_⟩
  · exact (float_match_predicate Target.os 0 demoTarget none 0x3F800001 0 false).2.2.1
      0x3F800000 eps32 x32
  · exact (float_match_predicate Target.os 0 demoTarget none 0x3FF0000000000000 0
      false).2.2.2.1 0x3FF0000000000000 eps64 x64
  · rw [e3, d64]
    apply decide_eq_false
    intro h
    have h2 : 2 ^ 33 * 2 ^ 1022 = 2 ^ 53 * 2 ^ 1002 := by
      rw [← pow_add, ← pow_add]
    rw [h2] at h
    have key : ∀ K : Nat, 0 < K → ¬ (2 ^ 53 * K ≤ 0x10C6F7A0B5ED8D * K) := by
      intro K hK hle
      have := Nat.le_of_mul_le_mul_right hle hK
      norm_num at this
    exact absurd h (key _ (pow_pos (by norm_num) _))
  · exact (float_match_predicate Target.os 0 demoTarget none 0x3F800000 0
      false).2.2.2.2.2.2.2.2.1 0x7FC00000 eps32 (Or.inl n32)
  · exact (float_match_predicate Target.os 0 demoTarget none 0x7FC00000 0
      false).2.2.2.2.2.2.2.2.1 0x3F800000 eps32 (Or.inr n32)
  · exact (float_match_predicate Target.os 0 demoTarget none 0x3FF0000000000000 0
      false).2.2.2.2.2.2.2.2.2.1 0x7FF8000000000000 eps64 (Or.inl n64)
  · exact (float_match_predicate Target.os 0 demoTarget none 0x7FF8000000000000 0
      false).2.2.2.2.2.2.2.2.2.1 0x3FF0000000000000 eps64 (Or.inr n64)
  · exact (float_match_predicate Target.os 0 demoTarget none 0 0
      false).2.2.2.2.2.2.2.2.2.2.1 (2 ^ 31) (Or.inr rfl) (Or.inl rfl)
  · exact (float_match_predicate Target.os 0 demoTarget none 0 0
      false).2.2.2.2.2.2.2.2.2.2.2 (2 ^ 63) (Or.inr rfl) (Or.inl rfl)

end Hextiller
